import Mathlib

/-!
# A verification development for the `compil` toolchain (`src/main.cpp`)

The C++ program is a three stage pipeline:

* `Lexer` : a table driven scanner (`initialize_lexer_tables`, `Lexer::getNextToken`);
* `RPNGenerator` : a recursive descent parser that emits a postfix stream and a symbol table;
* `RPNInterpreter` : a stack machine that runs the postfix stream.

Every definition below is a shallow embedding of the C++ function of the same name.

Modelling conventions.

* `std::string` is `String`.  A byte `b` stored in a `std::string` is the character
  `Char.ofNat b`.
* `int` is `Int`.  Results of `+`, `-`, `*` are reduced to the 32 bit two's complement
  range by `wrap32` (signed overflow is undefined behaviour in C++; the model takes the
  wrap-around result every mainstream target produces).  The one quotient that is not an
  `int`, `INT_MIN / -1`, is the fault `divisionOverflow` : the division instruction traps and
  the process is killed.
* `std::vector` is `List`; `std::map<std::string, T>` is an association list
  `List (String × T)` with at most one entry per key.
* Thrown `std::runtime_error`s are the `Except.error` results.
* Loops and recursive descent that C++ runs unboundedly take a `fuel : Nat`; running out of
  fuel is a separate result, never confused with an error of the program.
-/

namespace Compil

/-! ## Tokens -/

/-- The enumeration `TokenCode` : one constructor for each value of the enumeration.

The source gives `SIN_TOK = 274`, `COS_TOK = 275`, `TG_TOK = 276`, `CTG_TOK = 277`, then
`EOF_TOK = 271`, `BEG_TOK = 272`, `END_TOK = 273`, and then declares `PLUS_TOK`, `MINUS_TOK`,
`STAR_TOK`, `SLASH_TOK`, `EQ_TOK`, ... without a value.  An enumerator without a value is one
more than the enumerator in front of it, so `PLUS_TOK` is 274, `MINUS_TOK` 275, `STAR_TOK` 276
and `SLASH_TOK` 277: the four operator enumerators are the values of the four function
enumerators, and every test `code == PLUS_TOK` of the program is also true of a `sin` token
(and every test `code == SIN_TOK` of a `+` token).  So the four values have one constructor
each, named after the enumerator declared first, and `PLUS_TOK`, `MINUS_TOK`, `STAR_TOK`,
`SLASH_TOK` below are other names of these constructors.  `EQ_TOK` is 278 and the
enumerators behind it follow; no other two enumerators have the same value
(`TokenCode.value`). -/
inductive TokenCode
  | NONE_TOK | EOS_TOK | NUM_TOK | ID_TOK
  | IF_TOK | ELSE_TOK | WHILE_TOK | INPUT_TOK | OUTPUT_TOK | INT_TOK | IMAS_TOK
  | SIN_TOK | COS_TOK | TG_TOK | CTG_TOK
  | EOF_TOK | BEG_TOK | END_TOK
  | EQ_TOK | EQ_COMPARE_TOK
  | GT_TOK | LT_TOK | NOT_TOK | LPAREN_TOK | RPAREN_TOK | LBRACKET_TOK | RBRACKET_TOK
  | SEMICOLON_TOK | DOLLAR_TOK
  | ERROR_TOK | SPACE_TOK | NEWLINE_TOK
  deriving DecidableEq, Repr

/-- The enumerator `PLUS_TOK` : declared behind `END_TOK = 273`, so 274, the value of
`SIN_TOK`. -/
@[reducible, match_pattern] def TokenCode.PLUS_TOK : TokenCode := TokenCode.SIN_TOK

/-- The enumerator `MINUS_TOK` : 275, the value of `COS_TOK`. -/
@[reducible, match_pattern] def TokenCode.MINUS_TOK : TokenCode := TokenCode.COS_TOK

/-- The enumerator `STAR_TOK` : 276, the value of `TG_TOK`. -/
@[reducible, match_pattern] def TokenCode.STAR_TOK : TokenCode := TokenCode.TG_TOK

/-- The enumerator `SLASH_TOK` : 277, the value of `CTG_TOK`. -/
@[reducible, match_pattern] def TokenCode.SLASH_TOK : TokenCode := TokenCode.CTG_TOK

/-- The integer value of each enumerator, as the declaration of the enumeration gives it. -/
def TokenCode.value : TokenCode → Int
  | .NONE_TOK => -1
  | .EOS_TOK => 0
  | .NUM_TOK => 256
  | .ID_TOK => 257
  | .IF_TOK => 259
  | .ELSE_TOK => 261
  | .WHILE_TOK => 262
  | .INPUT_TOK => 264
  | .OUTPUT_TOK => 265
  | .INT_TOK => 266
  | .IMAS_TOK => 267
  | .SIN_TOK => 274
  | .COS_TOK => 275
  | .TG_TOK => 276
  | .CTG_TOK => 277
  | .EOF_TOK => 271
  | .BEG_TOK => 272
  | .END_TOK => 273
  | .EQ_TOK => 278
  | .EQ_COMPARE_TOK => 279
  | .GT_TOK => 280
  | .LT_TOK => 281
  | .NOT_TOK => 282
  | .LPAREN_TOK => 283
  | .RPAREN_TOK => 284
  | .LBRACKET_TOK => 285
  | .RBRACKET_TOK => 286
  | .SEMICOLON_TOK => 287
  | .DOLLAR_TOK => 288
  | .ERROR_TOK => 289
  | .SPACE_TOK => 290
  | .NEWLINE_TOK => 291

open TokenCode

/-- The record `Token` : `code`, `lexeme`, `line`. -/
structure Token where
  code : TokenCode
  lexeme : String
  line : Int
  deriving DecidableEq, Repr

/-! ## Lexer tables -/

def LEXER_BUFFER_SIZE : Nat := 1024

def S_STATE : Nat := 0
def A_STATE : Nat := 1
def B_STATE : Nat := 2

def CAT_LETTER : Nat := 0
def CAT_DIGIT : Nat := 1
def CAT_PLUS : Nat := 2
def CAT_MINUS : Nat := 3
def CAT_EQ : Nat := 4
def CAT_STAR : Nat := 5
def CAT_SLASH : Nat := 6
def CAT_SPACE : Nat := 7
def CAT_LPAREN : Nat := 8
def CAT_RPAREN : Nat := 9
def CAT_LBRACKET : Nat := 10
def CAT_RBRACKET : Nat := 11
def CAT_GT : Nat := 12
def CAT_LT : Nat := 13
def CAT_NOT : Nat := 14
def CAT_SEMICOLON : Nat := 15
def CAT_NEWLINE : Nat := 16
def CAT_DOLLAR : Nat := 17
def CAT_TILDE : Nat := 18
def CAT_OTHER : Nat := 19
def NUM_CHAR_CATEGORIES : Nat := 20

/-- The array `AsciiTable[128]` as `initialize_lexer_tables` fills it: every slot is
`CAT_OTHER`, then letters, digits and the seventeen single characters are overwritten. -/
def AsciiTable (i : Nat) : Nat :=
  if 97 ≤ i ∧ i ≤ 122 then CAT_LETTER          -- 'a' .. 'z'
  else if 65 ≤ i ∧ i ≤ 90 then CAT_LETTER      -- 'A' .. 'Z'
  else if 48 ≤ i ∧ i ≤ 57 then CAT_DIGIT       -- '0' .. '9'
  else if i = 43 then CAT_PLUS                 -- '+'
  else if i = 45 then CAT_MINUS                -- '-'
  else if i = 61 then CAT_EQ                   -- '='
  else if i = 42 then CAT_STAR                 -- '*'
  else if i = 47 then CAT_SLASH                -- '/'
  else if i = 32 then CAT_SPACE                -- ' '
  else if i = 40 then CAT_LPAREN               -- '('
  else if i = 41 then CAT_RPAREN               -- ')'
  else if i = 91 then CAT_LBRACKET             -- '['
  else if i = 93 then CAT_RBRACKET             -- ']'
  else if i = 62 then CAT_GT                   -- '>'
  else if i = 60 then CAT_LT                   -- '<'
  else if i = 33 then CAT_NOT                  -- '!'
  else if i = 59 then CAT_SEMICOLON            -- ';'
  else if i = 10 then CAT_NEWLINE              -- '\n'
  else if i = 36 then CAT_DOLLAR               -- '$'
  else if i = 126 then CAT_TILDE               -- '~'
  else CAT_OTHER

/-- The row `lexTable[S_STATE]`. -/
def lexTable_S (cat : Nat) : Nat :=
  match cat with
  | 0 => 1 | 1 => 2 | 2 => 3 | 3 => 4 | 4 => 5 | 5 => 6 | 6 => 7 | 7 => 8
  | 8 => 9 | 9 => 10 | 10 => 11 | 11 => 12 | 12 => 13 | 13 => 14 | 14 => 15
  | 15 => 16 | 16 => 18 | 17 => 20 | 18 => 30 | 19 => 19
  | _ => 0

/-- The row `lexTable[A_STATE]` : 22 by default, 21 on a letter or digit, 24 on `CAT_OTHER`. -/
def lexTable_A (cat : Nat) : Nat :=
  if cat = CAT_LETTER then 21
  else if cat = CAT_DIGIT then 21
  else if cat = CAT_OTHER then 24
  else 22

/-- The row `lexTable[B_STATE]` : 28 by default, 27 on a digit, 24 on `CAT_OTHER` and on a
letter. -/
def lexTable_B (cat : Nat) : Nat :=
  if cat = CAT_DIGIT then 27
  else if cat = CAT_OTHER then 24
  else if cat = CAT_LETTER then 24
  else 28

/-- The table `lexTable[3][NUM_CHAR_CATEGORIES]` of semantic actions. -/
def lexTable (state cat : Nat) : Nat :=
  if state = S_STATE then lexTable_S cat
  else if state = A_STATE then lexTable_A cat
  else if state = B_STATE then lexTable_B cat
  else 0

/-! ## Association lists for `std::map<std::string, T>` -/

/-- The lookup `m.find(key)` of a `std::map` : the value stored under `key`, if any. -/
def mapFind {α : Type} : List (String × α) → String → Option α
  | [], _ => none
  | (k, v) :: rest, key => if key = k then some v else mapFind rest key

/-- The assignment `m[key] = val` of a `std::map` : replaces the value of an existing key,
adds the key otherwise. -/
def mapSet {α : Type} : List (String × α) → String → α → List (String × α)
  | [], key, val => [(key, val)]
  | (k, v) :: rest, key, val =>
    if key = k then (k, val) :: rest else (k, v) :: mapSet rest key val

/-- The entries of the map `keywords`. -/
def keywordTable : List (String × TokenCode) :=
  [("if", IF_TOK), ("else", ELSE_TOK), ("while", WHILE_TOK), ("input", INPUT_TOK),
   ("output", OUTPUT_TOK), ("int", INT_TOK), ("arr", IMAS_TOK), ("begin", BEG_TOK),
   ("end", END_TOK), ("sin", SIN_TOK), ("cos", COS_TOK), ("tg", TG_TOK), ("ctg", CTG_TOK)]

/-- The lookup `keywords.find(lexeme)`. -/
def keywords (lexeme : String) : Option TokenCode := mapFind keywordTable lexeme

/-! ## Lexer -/

/-- The value `EOF` that `std::istream::get` returns at the end of the stream. -/
def EOF : Int := -1

/-- A byte of the input stream. -/
abbrev Byte := Fin 256

/-- The class `Lexer`.  `input_stream` holds the bytes not yet read.  `char_buffer` is the
one byte pushback buffer.  `char_is_signed` records whether plain `char` is a signed type on
the target (it decides what `get_char` returns for a pushed back byte above 127). -/
structure Lexer where
  input_stream : List Byte
  current_line : Int
  char_buffer : Byte
  char_buffer_valid : Bool
  char_is_signed : Bool
  deriving DecidableEq, Repr

/-- The constructor `Lexer::Lexer` : line 1, empty pushback buffer. -/
def Lexer.init (char_is_signed : Bool) (input : List Byte) : Lexer :=
  { input_stream := input, current_line := 1, char_buffer := 0,
    char_buffer_valid := false, char_is_signed := char_is_signed }

/-- The implicit conversion `char → int` of `return char_buffer;`. -/
def char_to_int (char_is_signed : Bool) (b : Byte) : Int :=
  if char_is_signed && decide (128 ≤ b.val) then (b.val : Int) - 256 else (b.val : Int)

/-- The conversion `static_cast<char>(ch_int)`, as the byte it stores. -/
def int_to_char (ch_int : Int) : Byte := Fin.ofNat (ch_int % 256).toNat

/-- The method `Lexer::get_char`. -/
def get_char (lx : Lexer) : Int × Lexer :=
  if lx.char_buffer_valid then
    (char_to_int lx.char_is_signed lx.char_buffer, { lx with char_buffer_valid := false })
  else
    match lx.input_stream with
    | [] => (EOF, lx)
    | b :: rest => ((b.val : Int), { lx with input_stream := rest })

/-- The method `Lexer::unget_char`. -/
def unget_char (lx : Lexer) (c : Byte) : Lexer :=
  { lx with char_buffer := c, char_buffer_valid := true }

/-- The method `Lexer::finalize_identifier`. -/
def finalize_identifier (lexeme : String) (line_num : Int) : Token :=
  match keywords lexeme with
  | some code => ⟨code, lexeme, line_num⟩
  | none => ⟨ID_TOK, lexeme, line_num⟩

/-- The method `Lexer::finalize_number`. -/
def finalize_number (lexeme : String) (line_num : Int) : Token :=
  ⟨NUM_TOK, lexeme, line_num⟩

/-- The character a byte is in a `std::string`. -/
def byteChar (c : Byte) : Char := Char.ofNat c.val

/-- The expression `std::string(1, c)`. -/
def string1 (c : Byte) : String := String.singleton (byteChar c)

/-- The local variables of `getNextToken` that live across iterations of its loop. -/
structure ScanVars where
  current_lexeme : String
  currentState : Nat
  token_start_line : Int
  deriving DecidableEq, Repr

/-- What one iteration of the `while (true)` loop of `getNextToken` does: it goes round
again (`break` out of the `switch`) or it returns a token. -/
inductive ScanStep
  | again (lx : Lexer) (v : ScanVars)
  | ret (t : Token) (lx : Lexer)
  deriving DecidableEq, Repr

/-- One iteration of the loop of `Lexer::getNextToken` : read a character, then the end of
input test, then the `switch` on the semantic action. -/
def getNextToken_body (lx0 : Lexer) (v : ScanVars) : ScanStep :=
  let (ch_int, lx) := get_char lx0
  let c : Byte := int_to_char ch_int
  if ch_int = EOF then
    if v.current_lexeme ≠ "" ∧ v.currentState = A_STATE then
      .ret (finalize_identifier v.current_lexeme v.token_start_line) lx
    else if v.current_lexeme ≠ "" ∧ v.currentState = B_STATE then
      .ret (finalize_number v.current_lexeme v.token_start_line) lx
    else
      .ret ⟨EOF_TOK, "EOF", lx.current_line⟩ lx
  else
    let char_category := if ch_int < 0 ∨ ch_int > 127 then CAT_OTHER else AsciiTable ch_int.toNat
    let semantic_action := lexTable v.currentState char_category
    match semantic_action with
    | 1 => .again lx ⟨v.current_lexeme.push (byteChar c), A_STATE, lx.current_line⟩
    | 2 => .again lx ⟨v.current_lexeme.push (byteChar c), B_STATE, lx.current_line⟩
    | 3 => .ret ⟨PLUS_TOK, string1 c, lx.current_line⟩ lx
    | 4 => .ret ⟨MINUS_TOK, string1 c, lx.current_line⟩ lx
    | 5 => .ret ⟨EQ_TOK, string1 c, lx.current_line⟩ lx
    | 6 => .ret ⟨STAR_TOK, string1 c, lx.current_line⟩ lx
    | 7 => .ret ⟨SLASH_TOK, string1 c, lx.current_line⟩ lx
    | 8 => .again lx ⟨"", S_STATE, v.token_start_line⟩
    | 9 => .ret ⟨LPAREN_TOK, string1 c, lx.current_line⟩ lx
    | 10 => .ret ⟨RPAREN_TOK, string1 c, lx.current_line⟩ lx
    | 11 => .ret ⟨LBRACKET_TOK, string1 c, lx.current_line⟩ lx
    | 12 => .ret ⟨RBRACKET_TOK, string1 c, lx.current_line⟩ lx
    | 13 => .ret ⟨GT_TOK, string1 c, lx.current_line⟩ lx
    | 14 => .ret ⟨LT_TOK, string1 c, lx.current_line⟩ lx
    | 15 => .ret ⟨NOT_TOK, string1 c, lx.current_line⟩ lx
    | 16 => .ret ⟨SEMICOLON_TOK, string1 c, lx.current_line⟩ lx
    | 18 => .again { lx with current_line := lx.current_line + 1 } ⟨"", S_STATE, v.token_start_line⟩
    | 19 => .again lx ⟨"", S_STATE, v.token_start_line⟩
    | 20 => .ret ⟨DOLLAR_TOK, string1 c, lx.current_line⟩ lx
    | 21 =>
      if v.current_lexeme.length < LEXER_BUFFER_SIZE - 1 then
        .again lx { v with current_lexeme := v.current_lexeme.push (byteChar c) }
      else
        .ret (finalize_identifier v.current_lexeme v.token_start_line) (unget_char lx c)
    | 22 => .ret (finalize_identifier v.current_lexeme v.token_start_line) (unget_char lx c)
    | 24 =>
      if v.current_lexeme ≠ "" ∧ v.currentState = A_STATE then
        .ret (finalize_identifier v.current_lexeme v.token_start_line) (unget_char lx c)
      else if v.current_lexeme ≠ "" ∧ v.currentState = B_STATE then
        .ret (finalize_number v.current_lexeme v.token_start_line) (unget_char lx c)
      else
        .ret ⟨ERROR_TOK, v.current_lexeme.push (byteChar c), v.token_start_line⟩ (unget_char lx c)
    | 27 =>
      if v.current_lexeme.length < LEXER_BUFFER_SIZE - 1 then
        .again lx { v with current_lexeme := v.current_lexeme.push (byteChar c) }
      else
        .ret (finalize_number v.current_lexeme v.token_start_line) (unget_char lx c)
    | 28 => .ret (finalize_number v.current_lexeme v.token_start_line) (unget_char lx c)
    | 30 => .ret ⟨EQ_COMPARE_TOK, string1 c, lx.current_line⟩ lx
    | _ => .ret ⟨ERROR_TOK, string1 c, lx.current_line⟩ lx

/-- The loop `while (true)` of `Lexer::getNextToken`, run for at most `fuel` iterations;
`none` when the fuel is used up before a token is returned. -/
def getNextToken_loop : Nat → Lexer → ScanVars → Option (Token × Lexer)
  | 0, _, _ => none
  | fuel + 1, lx, v =>
    match getNextToken_body lx v with
    | .ret t lx1 => some (t, lx1)
    | .again lx1 v1 => getNextToken_loop fuel lx1 v1

/-- The number of characters `get_char` can still deliver: the unread bytes of the stream
and the pushed back character, when there is one. -/
def Lexer.pending (lx : Lexer) : Nat :=
  lx.input_stream.length + (if lx.char_buffer_valid then 1 else 0)

/-- The method `Lexer::getNextToken`.  The loop reads one character per iteration, so
`pending + 1` iterations are allowed (`getNextToken_total` shows they always suffice). -/
def getNextToken (lx : Lexer) : Option (Token × Lexer) :=
  getNextToken_loop (lx.pending + 1) lx ⟨"", S_STATE, lx.current_line⟩

/-- Repeated calls of `getNextToken` : the tokens returned before the first `EOF_TOK`, and
the lexer state in which the call that returns `EOF_TOK` is made.  At most `n` tokens are
collected; `none` when a call does not return or when `n` tokens do not reach `EOF_TOK`. -/
def tokensBeforeEOF : Nat → Lexer → Option (List Token × Lexer)
  | n, lx =>
    match getNextToken lx with
    | none => none
    | some (t, lx1) =>
      if t.code = EOF_TOK then some ([], lx)
      else
        match n with
        | 0 => none
        | m + 1 =>
          match tokensBeforeEOF m lx1 with
          | none => none
          | some (ts, lx2) => some (t :: ts, lx2)

/-- The bytes of an ASCII string literal. -/
def bytesOf (s : String) : List Byte := s.toList.map (fun ch => Fin.ofNat ch.toNat)

/-! ## Decimal text -/

def INT_MAX : Int := 2147483647
def INT_MIN : Int := -2147483648

/-- The digits of `n`, most significant first (`fuel` bounds the number of digits). -/
def decimalDigits : Nat → Nat → List Char
  | 0, _ => []
  | fuel + 1, n =>
    if n < 10 then [Char.ofNat (48 + n)]
    else decimalDigits fuel (n / 10) ++ [Char.ofNat (48 + n % 10)]

/-- The text `operator<<` writes for a non-negative `int` : its decimal digits. -/
def decimal (n : Nat) : String := String.mk (decimalDigits (n + 1) n)

/-- The value of a run of decimal digits, most significant first. -/
def digitsValue (ds : List Char) : Nat :=
  ds.foldl (fun acc d => 10 * acc + (d.toNat - 48)) 0

/-- The two exceptions `std::stoi` throws. -/
inductive StoiError
  | invalid_argument
  | out_of_range
  deriving DecidableEq, Repr

/-- The test `isspace` in the "C" locale. -/
def isspace (ch : Char) : Bool :=
  ch.toNat = 32 || (9 ≤ ch.toNat && ch.toNat ≤ 13)

/-- The test `isdigit`. -/
def isdigit (ch : Char) : Bool := 48 ≤ ch.toNat && ch.toNat ≤ 57

/-- The function `std::stoi(str)` (base 10): leading white space is skipped, an optional
sign is read, then the longest run of digits; no digit at all is `invalid_argument`, a value
outside the range of `int` is `out_of_range`; what follows the digits is ignored. -/
def stoi (str : String) : Except StoiError Int :=
  let cs := str.toList.dropWhile isspace
  let signed : Bool × List Char :=
    match cs with
    | '-' :: rest => (true, rest)
    | '+' :: rest => (false, rest)
    | _ => (false, cs)
  let ds := signed.2.takeWhile isdigit
  if ds = [] then .error .invalid_argument
  else
    let v : Int := if signed.1 then -(digitsValue ds : Int) else (digitsValue ds : Int)
    if v < INT_MIN ∨ v > INT_MAX then .error .out_of_range else .ok v

/-! ## Postfix entries and symbols -/

/-- The enumeration `RPNItemType`. -/
inductive RPNItemType
  | VAR | ARRAY_BASE | CONST | OPERATION | LABEL_DEF | JUMP | JUMP_FALSE
  | ARRAY_ACCESS | ARRAY_ASSIGN | INPUT | OUTPUT
  | FUNC_SIN | FUNC_COS | FUNC_TG | FUNC_CTG
  deriving DecidableEq, Repr

open RPNItemType

/-- The record `RPNEntry`. -/
structure RPNEntry where
  type : RPNItemType
  value : String
  line_num : Int
  deriving DecidableEq, Repr

/-- The enumeration `SymbolClass`. -/
inductive SymbolClass
  | UNKNOWN | INT_VAR | INT_ARRAY
  deriving DecidableEq, Repr

/-- The record `SymbolInfo`. -/
structure SymbolInfo where
  s_class : SymbolClass
  type_token : TokenCode
  size : Int
  declaration_line : Int
  is_declared : Bool
  deriving DecidableEq, Repr

/-! ## The postfix generator -/

/-- The data members of the class `RPNGenerator`. -/
structure RPNGenerator where
  m_tokens : List Token
  m_currentIndex : Nat
  m_rpn : List RPNEntry
  m_symbolTable : List (String × SymbolInfo)
  m_labelCounter : Nat
  deriving DecidableEq, Repr

/-- What a call into the generator ends with when it does not return normally.
`syntaxError line message` is the exception of `throwError` ("Syntax Error (Line n): ...");
`parserError message` is a `std::runtime_error` thrown directly ("Parser Error: ...").
`message` keeps the fixed head of the C++ text.  `outOfFuel` is not a C++ result: the
model ran out of recursion depth. -/
inductive GenError
  | syntaxError (line : Int) (message : String)
  | parserError (message : String)
  | outOfFuel
  deriving DecidableEq, Repr

/-- The method `RPNGenerator::currentToken`. -/
def currentToken (g : RPNGenerator) : Except GenError Token :=
  match g.m_tokens[g.m_currentIndex]? with
  | some t => .ok t
  | none =>
    match g.m_tokens.getLast? with
    | some t =>
      if t.code = EOF_TOK then .ok t
      else .error (.parserError "Unexpected end of token stream (currentToken).")
    | none => .error (.parserError "Unexpected end of token stream (currentToken).")

/-- The method `RPNGenerator::consumeToken`. -/
def consumeToken (g : RPNGenerator) : Except GenError (Token × RPNGenerator) :=
  match g.m_tokens[g.m_currentIndex]? with
  | some t =>
    if t.code = EOF_TOK ∧ g.m_currentIndex + 1 < g.m_tokens.length then
      .error (.parserError "Attempt to consume EOF_TOK when more tokens exist.")
    else .ok (t, { g with m_currentIndex := g.m_currentIndex + 1 })
  | none => .error (.parserError "Unexpected end of token stream (consumeToken).")

/-- The line `RPNGenerator::throwError` reports: the line of `m_tokens[m_currentIndex]`,
or of the last token when the index is one past the end, or 0. -/
def errorLine (g : RPNGenerator) : Int :=
  match g.m_tokens[g.m_currentIndex]? with
  | some t => t.line
  | none =>
    if 0 < g.m_currentIndex ∧ g.m_currentIndex ≤ g.m_tokens.length then
      match g.m_tokens[g.m_currentIndex - 1]? with
      | some t => t.line
      | none => 0
    else 0

/-- The method `RPNGenerator::throwError` (`throwError` is a reserved word of Lean). -/
def throwSyntaxError {α : Type} (g : RPNGenerator) (message : String) : Except GenError α :=
  .error (.syntaxError (errorLine g) message)

/-- The method `RPNGenerator::expect`. -/
def expect (g : RPNGenerator) (expectedCode : TokenCode) (errorMessagePrefix : String) :
    Except GenError (Token × RPNGenerator) :=
  match consumeToken g with
  | .error e => .error e
  | .ok (t, g1) =>
    if t.code ≠ expectedCode then throwSyntaxError g1 errorMessagePrefix
    else .ok (t, g1)

/-- The method `RPNGenerator::newLabel`. -/
def newLabel (g : RPNGenerator) : String × RPNGenerator :=
  ("L" ++ decimal g.m_labelCounter, { g with m_labelCounter := g.m_labelCounter + 1 })

/-- The test `m_symbolTable.count(name) && m_symbolTable[name].is_declared`. -/
def isDeclared (table : List (String × SymbolInfo)) (name : String) : Bool :=
  match mapFind table name with
  | some info => info.is_declared
  | none => false

/-- The method `RPNGenerator::addSymbol`. -/
def addSymbol (g : RPNGenerator) (name : String) (s_class : SymbolClass) (type : TokenCode)
    (line : Int) (arr_size : Int) : Except GenError RPNGenerator :=
  if isDeclared g.m_symbolTable name then throwSyntaxError g "Identifier already declared"
  else
    let info : SymbolInfo := ⟨s_class, type, arr_size, line, true⟩
    .ok { g with m_symbolTable := mapSet g.m_symbolTable name info }

/-- The method `RPNGenerator::getSymbol`. -/
def getSymbol (g : RPNGenerator) (name : String) : Except GenError SymbolInfo :=
  match mapFind g.m_symbolTable name with
  | some info => if info.is_declared then .ok info else throwSyntaxError g "Undeclared identifier"
  | none => throwSyntaxError g "Undeclared identifier"

/-- The call `m_rpn.emplace_back(type, value, line)`. -/
def emit (g : RPNGenerator) (type : RPNItemType) (value : String) (line : Int) :
    RPNGenerator :=
  { g with m_rpn := g.m_rpn ++ [⟨type, value, line⟩] }

/-- The test `t.code == SIN_TOK || t.code == COS_TOK || t.code == TG_TOK || t.code == CTG_TOK`.
As the enumerators `PLUS_TOK`, `MINUS_TOK`, `STAR_TOK`, `SLASH_TOK` have the values of
`SIN_TOK`, `COS_TOK`, `TG_TOK`, `CTG_TOK`, the test is true of the tokens `+`, `-`, `*` and
`/` as well. -/
def isTrig (code : TokenCode) : Bool :=
  code = SIN_TOK || code = COS_TOK || code = TG_TOK || code = CTG_TOK

/-- The choice of `func_type` from the code of the function token (`FUNC_SIN` for a `+`
token too, `FUNC_COS` for `-`, `FUNC_TG` for `*`, `FUNC_CTG` for `/`). -/
def funcType (code : TokenCode) : RPNItemType :=
  if code = SIN_TOK then FUNC_SIN
  else if code = COS_TOK then FUNC_COS
  else if code = TG_TOK then FUNC_TG
  else if code = CTG_TOK then FUNC_CTG
  else FUNC_SIN

mutual

/-- The method `RPNGenerator::parse_G` : `G → T U'`. -/
def parse_G : Nat → RPNGenerator → Except GenError RPNGenerator
  | 0, _ => .error .outOfFuel
  | fuel + 1, g => do
    let g ← parse_T fuel g
    parse_U_prime fuel g

/-- The method `RPNGenerator::parse_U_prime` : `U' → + T U' | - T U' | λ`.  The test of the
code is true of a `sin` and of a `cos` token as well (`TokenCode`) : such a token is
consumed as an operator and its lexeme is what the `OPERATION` entry holds. -/
def parse_U_prime : Nat → RPNGenerator → Except GenError RPNGenerator
  | 0, _ => .error .outOfFuel
  | fuel + 1, g => do
    let t ← currentToken g
    if t.code = PLUS_TOK ∨ t.code = MINUS_TOK then
      let (_, g) ← consumeToken g
      let g ← parse_T fuel g
      let g := emit g OPERATION t.lexeme t.line
      parse_U_prime fuel g
    else pure g

/-- The method `RPNGenerator::parse_T` : `T → F V'`. -/
def parse_T : Nat → RPNGenerator → Except GenError RPNGenerator
  | 0, _ => .error .outOfFuel
  | fuel + 1, g => do
    let g ← parse_F fuel g
    parse_V_prime fuel g

/-- The method `RPNGenerator::parse_V_prime` : `V' → * F V' | / F V' | λ`.  The test of the
code is true of a `tg` and of a `ctg` token as well (`TokenCode`). -/
def parse_V_prime : Nat → RPNGenerator → Except GenError RPNGenerator
  | 0, _ => .error .outOfFuel
  | fuel + 1, g => do
    let t ← currentToken g
    if t.code = STAR_TOK ∨ t.code = SLASH_TOK then
      let (_, g) ← consumeToken g
      let g ← parse_F fuel g
      let g := emit g OPERATION t.lexeme t.line
      parse_V_prime fuel g
    else pure g

/-- The method `RPNGenerator::parse_F` :
`F → (G) | aH | k | sin(G) | cos(G) | tg(G) | ctg(G)`.  The function branch is taken on the
tokens `+`, `-`, `*` and `/` as well (`isTrig`) : `-(0)` is read as a call and emits
`CONST 0; FUNC_COS`. -/
def parse_F : Nat → RPNGenerator → Except GenError RPNGenerator
  | 0, _ => .error .outOfFuel
  | fuel + 1, g => do
    let t ← currentToken g
    if t.code = LPAREN_TOK then
      let (_, g) ← consumeToken g
      let g ← parse_G fuel g
      let (_, g) ← expect g RPAREN_TOK "closing ')' in expression"
      pure g
    else if isTrig t.code then
      let (func_token, g) ← consumeToken g
      let (_, g) ← expect g LPAREN_TOK "after trig function"
      let g ← parse_G fuel g
      let (_, g) ← expect g RPAREN_TOK "after trig function argument"
      pure (emit g (funcType func_token.code) func_token.lexeme func_token.line)
    else if t.code = ID_TOK then
      let (id_token, g) ← consumeToken g
      let sym_info ← getSymbol g id_token.lexeme
      let t1 ← currentToken g
      if t1.code = LBRACKET_TOK then
        if sym_info.s_class ≠ SymbolClass.INT_ARRAY then
          throwSyntaxError g "is not an array for indexing."
        else
          let g := emit g ARRAY_BASE id_token.lexeme id_token.line
          let (_, g) ← consumeToken g
          let g ← parse_G fuel g
          let (_, g) ← expect g RBRACKET_TOK "array index in expression"
          pure (emit g ARRAY_ACCESS "[]" t.line)
      else
        if sym_info.s_class = SymbolClass.INT_ARRAY then
          throwSyntaxError g "Cannot use array as simple value."
        else pure (emit g VAR id_token.lexeme id_token.line)
    else if t.code = NUM_TOK then
      let (_, g) ← consumeToken g
      pure (emit g CONST t.lexeme t.line)
    else throwSyntaxError g "Invalid start of factor: expected '(', identifier, or number"

end

/-- The method `RPNGenerator::parse_C` : `C → G D G` with `D → ~ | > | < | !`. -/
def parse_C (fuel : Nat) (g : RPNGenerator) : Except GenError RPNGenerator := do
  let g ← parse_G fuel g
  let op_tok ← currentToken g
  let (op_str, g) ←
    if op_tok.code = EQ_COMPARE_TOK then
      (consumeToken g).map (fun r => ("~", r.2))
    else if op_tok.code = GT_TOK then
      (consumeToken g).map (fun r => (">", r.2))
    else if op_tok.code = LT_TOK then
      (consumeToken g).map (fun r => ("<", r.2))
    else if op_tok.code = NOT_TOK then
      (consumeToken g).map (fun r => ("!", r.2))
    else throwSyntaxError g "Expected relational operator (~, >, <, !) in condition"
  let g ← parse_G fuel g
  pure (emit g OPERATION op_str op_tok.line)

/-- The method `RPNGenerator::parse_A` :
`A → aH = G ; A | if ( C ) begin A X ; A | while ( C ) begin A end ; A | input ( aH ) ; A |
output ( G ) ; A | sin ( G ) ; A | ... | λ`.  The branches are tried in the order of the
source; the last one, the statement-form function call, is taken on the tokens `+`, `-`,
`*` and `/` as well (`isTrig`). -/
def parse_A : Nat → RPNGenerator → Except GenError RPNGenerator
  | 0, _ => .error .outOfFuel
  | fuel + 1, g => do
    let t ← currentToken g
    if t.code = ID_TOK then
      let (id_token, g) ← consumeToken g
      let sym_info ← getSymbol g id_token.lexeme
      let t1 ← currentToken g
      let (is_array_target, g) ←
        if t1.code = LBRACKET_TOK then
          if sym_info.s_class ≠ SymbolClass.INT_ARRAY then
            throwSyntaxError g "is not an array."
          else do
            let g := emit g ARRAY_BASE id_token.lexeme id_token.line
            let (_, g) ← consumeToken g
            let g ← parse_G fuel g
            let (_, g) ← expect g RBRACKET_TOK "array index in assignment LHS"
            pure (true, g)
        else
          if sym_info.s_class = SymbolClass.INT_ARRAY then
            throwSyntaxError g "Cannot assign to array as a whole."
          else pure (false, emit g VAR id_token.lexeme id_token.line)
      let (_, g) ← expect g EQ_TOK "assignment"
      let g ← parse_G fuel g
      let g := emit g OPERATION (if is_array_target then "[]=" else "=") t.line
      let (_, g) ← expect g SEMICOLON_TOK "after assignment"
      parse_A fuel g
    else if t.code = IF_TOK then
      let (_, g) ← consumeToken g
      let (_, g) ← expect g LPAREN_TOK "after 'if'"
      let g ← parse_C fuel g
      let (_, g) ← expect g RPAREN_TOK "after 'if' condition"
      let (else_label, g) := newLabel g
      let (end_if_label, g) := newLabel g
      let g := emit g JUMP_FALSE else_label t.line
      let (_, g) ← expect g BEG_TOK "'if' block"
      let g ← parse_A fuel g
      let t2 ← currentToken g
      let g ←
        if t2.code = ELSE_TOK then do
          let (_, g) ← expect g END_TOK "before 'else'"
          let t3 ← currentToken g
          let g := emit g JUMP end_if_label t3.line
          let t4 ← currentToken g
          let g := emit g LABEL_DEF else_label t4.line
          let (_, g) ← consumeToken g
          let (_, g) ← expect g BEG_TOK "'else' block"
          let g ← parse_A fuel g
          let (_, g) ← expect g END_TOK "'else' block"
          let t5 ← currentToken g
          pure (emit g LABEL_DEF end_if_label t5.line)
        else do
          let (_, g) ← expect g END_TOK "'if' block (no else)"
          pure (emit g LABEL_DEF else_label t.line)
      let (_, g) ← expect g SEMICOLON_TOK "after 'if' statement"
      parse_A fuel g
    else if t.code = WHILE_TOK then
      let (_, g) ← consumeToken g
      let (loop_start, g) := newLabel g
      let (loop_end, g) := newLabel g
      let g := emit g LABEL_DEF loop_start t.line
      let (_, g) ← expect g LPAREN_TOK "after 'while'"
      let g ← parse_C fuel g
      let (_, g) ← expect g RPAREN_TOK "after 'while' condition"
      let g := emit g JUMP_FALSE loop_end t.line
      let (_, g) ← expect g BEG_TOK "'while' block"
      let g ← parse_A fuel g
      let (_, g) ← expect g END_TOK "'while' block"
      let g := emit g JUMP loop_start t.line
      let g := emit g LABEL_DEF loop_end t.line
      let (_, g) ← expect g SEMICOLON_TOK "after 'while' statement"
      parse_A fuel g
    else if t.code = INPUT_TOK then
      let (_, g) ← consumeToken g
      let (_, g) ← expect g LPAREN_TOK "after 'cin'"
      let (id_token, g) ← expect g ID_TOK "identifier for 'cin'"
      let sym_info ← getSymbol g id_token.lexeme
      let t1 ← currentToken g
      let g ←
        if t1.code = LBRACKET_TOK then
          if sym_info.s_class ≠ SymbolClass.INT_ARRAY then
            throwSyntaxError g "is not an array for cin[]."
          else do
            let g := emit g ARRAY_BASE id_token.lexeme id_token.line
            let (_, g) ← consumeToken g
            let g ← parse_G fuel g
            let (_, g) ← expect g RBRACKET_TOK "array index in 'cin'"
            pure (emit g INPUT "IN[]" t.line)
        else
          if sym_info.s_class = SymbolClass.INT_ARRAY then
            throwSyntaxError g "Cannot 'cin' into array as a whole."
          else
            let g := emit g VAR id_token.lexeme id_token.line
            pure (emit g INPUT "IN" t.line)
      let (_, g) ← expect g RPAREN_TOK "after 'cin' target"
      let (_, g) ← expect g SEMICOLON_TOK "after 'cin' statement"
      parse_A fuel g
    else if t.code = OUTPUT_TOK then
      let (_, g) ← consumeToken g
      let (_, g) ← expect g LPAREN_TOK "after 'cout'"
      let g ← parse_G fuel g
      let (_, g) ← expect g RPAREN_TOK "after 'cout' expression"
      let g := emit g OUTPUT "OUT" t.line
      let (_, g) ← expect g SEMICOLON_TOK "after 'cout' statement"
      parse_A fuel g
    else if isTrig t.code then
      let (func_token, g) ← consumeToken g
      let (_, g) ← expect g LPAREN_TOK "after trig function"
      let g ← parse_G fuel g
      let (_, g) ← expect g RPAREN_TOK "after trig function argument"
      let g := emit g (funcType func_token.code) func_token.lexeme func_token.line
      let (_, g) ← expect g SEMICOLON_TOK "after trig function statement"
      parse_A fuel g
    else pure g

/-- The `begin A end` branch shared by `parse_P` and `parse_E`. -/
def parse_block (fuel : Nat) (g : RPNGenerator) (errorMessagePrefix : String) :
    Except GenError RPNGenerator := do
  let (_, g) ← consumeToken g
  let g ← parse_A fuel g
  let (_, g) ← expect g END_TOK errorMessagePrefix
  pure g

mutual

/-- The method `RPNGenerator::parse_E` : `E → int LE | arr ME | begin A end | λ`. -/
def parse_E : Nat → RPNGenerator → Except GenError RPNGenerator
  | 0, _ => .error .outOfFuel
  | fuel + 1, g => do
    let t ← currentToken g
    if t.code = INT_TOK then parse_int_LE fuel g
    else if t.code = IMAS_TOK then parse_arr_ME fuel g
    else if t.code = BEG_TOK then parse_block fuel g "block in E"
    else pure g

/-- The method `RPNGenerator::parse_int_LE` : `int a ; E`. -/
def parse_int_LE : Nat → RPNGenerator → Except GenError RPNGenerator
  | 0, _ => .error .outOfFuel
  | fuel + 1, g => do
    let (_, g) ← expect g INT_TOK "int declaration"
    let (id, g) ← expect g ID_TOK "identifier after 'int'"
    let g ← addSymbol g id.lexeme SymbolClass.INT_VAR INT_TOK id.line 0
    let (_, g) ← expect g SEMICOLON_TOK "after int declaration"
    parse_E fuel g

/-- The method `RPNGenerator::parse_arr_ME` : `arr a [ k ] ; E`. -/
def parse_arr_ME : Nat → RPNGenerator → Except GenError RPNGenerator
  | 0, _ => .error .outOfFuel
  | fuel + 1, g => do
    let (_, g) ← expect g IMAS_TOK "array declaration ('arr')"
    let (id, g) ← expect g ID_TOK "identifier after 'arr'"
    let (_, g) ← expect g LBRACKET_TOK "for array size"
    let (size_tok, g) ← expect g NUM_TOK "number for array size"
    let array_size ←
      match stoi size_tok.lexeme with
      | .ok n => pure n
      | .error .out_of_range => throwSyntaxError g "Array size number too large"
      | .error .invalid_argument => throwSyntaxError g "Invalid number for array size"
    if array_size ≤ 0 then throwSyntaxError g "Array size must be positive"
    else
      let (_, g) ← expect g RBRACKET_TOK "after array size"
      let g ← addSymbol g id.lexeme SymbolClass.INT_ARRAY IMAS_TOK id.line array_size
      let (_, g) ← expect g SEMICOLON_TOK "after array declaration"
      parse_E fuel g

end

/-- The method `RPNGenerator::parse_P` : `P → int LE | arr ME | begin A end`. -/
def parse_P (fuel : Nat) (g : RPNGenerator) : Except GenError RPNGenerator := do
  let t ← currentToken g
  if t.code = INT_TOK then parse_int_LE fuel g
  else if t.code = IMAS_TOK then parse_arr_ME fuel g
  else if t.code = BEG_TOK then parse_block fuel g "program block"
  else throwSyntaxError g "Program must start with 'int', 'arr', or 'begin'."

/-- The recursion depth `generate` allows the descent: every chain of five nested calls
consumes a token. -/
def generateFuel (tokens : List Token) : Nat := 5 * tokens.length + 10

/-- The method `RPNGenerator::generate`, on a generator constructed from `tokens`.  The
result is the generator after the parse: `m_rpn` is the returned postfix stream and
`m_symbolTable` what `getSymbolTable` gives. -/
def generate (tokens : List Token) : Except GenError RPNGenerator :=
  let g : RPNGenerator :=
    { m_tokens := tokens, m_currentIndex := 0, m_rpn := [], m_symbolTable := [],
      m_labelCounter := 0 }
  match tokens.getLast? with
  | none => .error (.parserError "Token stream is empty or does not end with EOF_TOK.")
  | some last =>
    if last.code ≠ EOF_TOK then
      .error (.parserError "Token stream is empty or does not end with EOF_TOK.")
    else
      match parse_P (generateFuel tokens) g with
      | .error e => .error e
      | .ok g1 =>
        match currentToken g1 with
        | .error e => .error e
        | .ok t =>
          if t.code ≠ EOF_TOK then throwSyntaxError g1 "Expected end of program (EOF_TOK)"
          else .ok g1

/-! ## The postfix interpreter -/

/-- The type `StackItem = std::variant<int, std::string>`. -/
inductive StackItem
  | int (v : Int)
  | str (s : String)
  deriving DecidableEq, Repr

/-- The `std::runtime_error`s the interpreter throws, one constructor per message. -/
inductive Fault
  /-- "Operand stack underflow." -/
  | stackUnderflow
  /-- "Cannot use array ... as a simple integer value" -/
  | arrayAsValue
  /-- "Undeclared identifier or uninitialized variable ... used as integer" -/
  | undeclaredAsValue
  /-- "Invalid type on operand stack ... Expected string (identifier name), but found integer" -/
  | intAsName
  /-- "Invalid constant (too large/small)" -/
  | constantOutOfRange
  /-- "Invalid constant (not a number)" -/
  | constantInvalid
  /-- "Cannot assign to array ... as a whole." -/
  | assignToArray
  /-- "Assignment to undeclared variable" -/
  | assignUndeclared
  /-- "Assignment to undeclared array", "Access to undeclared array", "Input to undeclared
  array" -/
  | undeclaredArray
  /-- "Array index ... out of bounds" -/
  | indexOutOfBounds
  /-- "Division by zero." -/
  | divisionByZero
  /-- "Unknown arithmetic/logical operator" -/
  | unknownOperator
  /-- "Invalid input, integer expected." -/
  | invalidInput
  /-- "Cannot 'cin' into array ... as a whole." -/
  | inputToArray
  /-- "Input to undeclared variable" -/
  | inputUndeclared
  /-- "Unknown input type" -/
  | unknownInputType
  /-- "Undefined label ... targeted by jump" -/
  | undefinedLabel
  /-- "ctg undefined (tan(x)==0)" -/
  | ctgUndefined
  /-- "Unknown RPN item type" -/
  | unknownItemType
  /-- Not a `std::runtime_error` : the quotient `INT_MIN / -1` of `handle_operation` is not
  an `int`; the division instruction of the target traps and the process is killed by the
  signal `SIGFPE`, without a message of the program. -/
  | divisionOverflow
  deriving DecidableEq, Repr

/-- The exception `run` rethrows:
"Interpreter Error (Source Line `line`, RPN PC `pc`): `fault`". -/
structure RunError where
  line : Int
  pc : Nat
  fault : Fault
  deriving DecidableEq, Repr

/-- The functions of `<cmath>` the interpreter calls on an `int` argument, each followed by
the conversion of its `double` result: `static_cast<int>(std::sin(val))` and so on;
`tan_is_zero val` is the test `std::tan(val) == 0` and `ctg_int val` is
`static_cast<int>(1.0 / std::tan(val))`.  Floating point is not modelled: the functions are
parameters of the interpreter. -/
structure MathFns where
  sin_int : Int → Int
  cos_int : Int → Int
  tan_int : Int → Int
  tan_is_zero : Int → Bool
  ctg_int : Int → Int

/-- The data members of the class `RPNInterpreter` that `run` never writes: the two
`const` references `m_rpn` and `m_symbolTable`, and `m_labelMap`, which only the constructor
fills. -/
structure Program where
  m_rpn : List RPNEntry
  m_symbolTable : List (String × SymbolInfo)
  m_labelMap : List (String × Nat)
  deriving DecidableEq, Repr

/-- The data members of the class `RPNInterpreter` that change during a run, together with
the two console streams.  The head of `m_operandStack` is the top of the stack (`back()` of
the C++ vector).  `cin` holds the integers still to be typed, one per line; `cout` the
values printed by `handle_output` so far, oldest first (the prompts and the text around the
values are not modelled). -/
structure RPNInterpreter where
  m_pc : Nat
  m_operandStack : List StackItem
  m_variables : List (String × Int)
  m_arrays : List (String × List Int)
  cin : List Int
  cout : List Int
  deriving DecidableEq, Repr

/-- The reduction of an integer to the range of a 32 bit `int` (two's complement). -/
def wrap32 (v : Int) : Int := (v + 2147483648) % 4294967296 - 2147483648

/-- The first loop of the constructor: a declared `INT_VAR` gets the value 0. -/
def initVariables : List (String × SymbolInfo) → List (String × Int)
  | [] => []
  | (name, info) :: rest =>
    if info.is_declared ∧ info.s_class = SymbolClass.INT_VAR then
      mapSet (initVariables rest) name 0
    else initVariables rest

/-- The first loop of the constructor: a declared `INT_ARRAY` gets `std::vector<int>(size, 0)`. -/
def initArrays : List (String × SymbolInfo) → List (String × List Int)
  | [] => []
  | (name, info) :: rest =>
    if info.is_declared ∧ info.s_class = SymbolClass.INT_ARRAY then
      mapSet (initArrays rest) name (List.replicate info.size.toNat 0)
    else initArrays rest

/-- The second loop of the constructor, from index `i` on: every `LABEL_DEF` is entered in
the label map; a label already in the map is the setup error "Duplicate label definition". -/
def buildLabelMap : List RPNEntry → Nat → List (String × Nat) → Option (List (String × Nat))
  | [], _, m => some m
  | e :: rest, i, m =>
    if e.type = LABEL_DEF then
      match mapFind m e.value with
      | some _ => none
      | none => buildLabelMap rest (i + 1) (mapSet m e.value i)
    else buildLabelMap rest (i + 1) m

/-- The constructor `RPNInterpreter::RPNInterpreter`, given also the integers that will be
typed on the console; `none` is the setup error for a duplicate label. -/
def RPNInterpreter.init (rpn : List RPNEntry) (symbolTable : List (String × SymbolInfo))
    (input : List Int) : Option (Program × RPNInterpreter) :=
  match buildLabelMap rpn 0 [] with
  | none => none
  | some labels =>
    some ({ m_rpn := rpn, m_symbolTable := symbolTable, m_labelMap := labels },
          { m_pc := 0, m_operandStack := [], m_variables := initVariables symbolTable,
            m_arrays := initArrays symbolTable, cin := input, cout := [] })

/-- What a call of a method of the interpreter ends with: a normal return with a value, or
a thrown fault; in both cases with the state of the interpreter at that moment. -/
inductive Result (α : Type)
  | ok (val : α) (s : RPNInterpreter)
  | throw (f : Fault) (s : RPNInterpreter)

/-- A method of the interpreter: it runs on the current state of the object. -/
def Exec (α : Type) : Type := RPNInterpreter → Result α

/-- Sequencing of two methods: a thrown fault ends the sequence. -/
def Exec.bind {α β : Type} (x : Exec α) (f : α → Exec β) : Exec β :=
  fun s =>
    match x s with
    | .ok a s1 => f a s1
    | .throw e s1 => .throw e s1

/-- A normal return. -/
def Exec.pure {α : Type} (a : α) : Exec α := fun s => .ok a s

instance : Monad Exec where
  pure := Exec.pure
  bind := Exec.bind

/-- The statement `throw std::runtime_error(...)`. -/
def raise {α : Type} (f : Fault) : Exec α := fun s => .throw f s

/-- A read of the data members. -/
def getState : Exec RPNInterpreter := fun s => .ok s s

/-- An update of the data members. -/
def modifyState (f : RPNInterpreter → RPNInterpreter) : Exec Unit := fun s => .ok () (f s)

/-- The method `push_operand`. -/
def push_operand (val : StackItem) : Exec Unit :=
  modifyState (fun s => { s with m_operandStack := val :: s.m_operandStack })

/-- The method `pop_operand`. -/
def pop_operand : Exec StackItem := fun s =>
  match s.m_operandStack with
  | [] => .throw .stackUnderflow s
  | val :: rest => .ok val { s with m_operandStack := rest }

/-- The method `get_int`. -/
def get_int (item : StackItem) : Exec Int := do
  match item with
  | .int v => pure v
  | .str var_name =>
    let s ← getState
    match mapFind s.m_variables var_name with
    | some v => pure v
    | none =>
      match mapFind s.m_arrays var_name with
      | some _ => raise .arrayAsValue
      | none => raise .undeclaredAsValue

/-- The method `get_string`. -/
def get_string (item : StackItem) : Exec String :=
  match item with
  | .str name => pure name
  | .int _ => raise .intAsName

/-- The assignment `m_variables[var_name] = value`. -/
def setVariable (var_name : String) (value : Int) : Exec Unit :=
  modifyState (fun s => { s with m_variables := mapSet s.m_variables var_name value })

/-- The assignment `it->second[index] = value`, `it` pointing at the array `arr` stored
under `array_name`. -/
def setElement (array_name : String) (arr : List Int) (index : Int) (value : Int) :
    Exec Unit :=
  modifyState (fun s =>
    { s with m_arrays := mapSet s.m_arrays array_name (arr.set index.toNat value) })

/-- The chain `if (op == "+") result = a + b; else if ...` of `handle_operation` : the
value of `result`, or the fault thrown. -/
def binaryResult (op : String) (a b : Int) : Exec Int :=
  if op = "+" then pure (wrap32 (a + b))
  else if op = "-" then pure (wrap32 (a - b))
  else if op = "*" then pure (wrap32 (a * b))
  else if op = "/" then
    if b = 0 then raise .divisionByZero
    else if a = INT_MIN ∧ b = -1 then raise .divisionOverflow
    else pure (wrap32 (Int.tdiv a b))
  else if op = "~" then pure (if a = b then 1 else 0)
  else if op = ">" then pure (if a > b then 1 else 0)
  else if op = "<" then pure (if a < b then 1 else 0)
  else if op = "!" then pure (if a ≠ b then 1 else 0)
  else raise .unknownOperator

/-- The method `handle_operation`. -/
def handle_operation (entry : RPNEntry) : Exec Unit := do
  let op := entry.value
  if op = "=" then
    let rhs_item ← pop_operand
    let lhs_item ← pop_operand
    let val_to_assign ← get_int rhs_item
    let var_name ← get_string lhs_item
    let s ← getState
    match mapFind s.m_variables var_name with
    | none =>
      match mapFind s.m_arrays var_name with
      | some _ => raise .assignToArray
      | none => raise .assignUndeclared
    | some _ => setVariable var_name val_to_assign
  else if op = "[]=" then
    let val_item ← pop_operand
    let idx_item ← pop_operand
    let arr_name_item ← pop_operand
    let value_to_assign ← get_int val_item
    let index ← get_int idx_item
    let array_name ← get_string arr_name_item
    let s ← getState
    match mapFind s.m_arrays array_name with
    | none => raise .undeclaredArray
    | some arr =>
      if index < 0 ∨ index.toNat ≥ arr.length then raise .indexOutOfBounds
      else setElement array_name arr index value_to_assign
  else
    let rhs_item ← pop_operand
    let lhs_item ← pop_operand
    let b ← get_int rhs_item
    let a ← get_int lhs_item
    let result ← binaryResult op a b
    push_operand (.int result)

/-- The method `handle_array_access`. -/
def handle_array_access : Exec Unit := do
  let idx_item ← pop_operand
  let arr_name_item ← pop_operand
  let index ← get_int idx_item
  let array_name ← get_string arr_name_item
  let s ← getState
  match mapFind s.m_arrays array_name with
  | none => raise .undeclaredArray
  | some arr =>
    if index < 0 ∨ index.toNat ≥ arr.length then raise .indexOutOfBounds
    else push_operand (.int (arr.getD index.toNat 0))

/-- The extraction `std::cin >> val` followed by `std::cin.ignore(...)` : the next line of
the console holds one integer; the extraction fails at the end of the input and on a value
outside the range of `int`. -/
def readInt : Exec Int := fun s =>
  match s.cin with
  | [] => .throw .invalidInput s
  | val :: rest =>
    if val < INT_MIN ∨ val > INT_MAX then .throw .invalidInput { s with cin := rest }
    else .ok val { s with cin := rest }

/-- The method `handle_input`. -/
def handle_input (entry : RPNEntry) : Exec Unit := do
  let input_type := entry.value
  let val ← readInt
  if input_type = "IN" then
    let var_name_item ← pop_operand
    let var_name ← get_string var_name_item
    let s ← getState
    match mapFind s.m_variables var_name with
    | none =>
      match mapFind s.m_arrays var_name with
      | some _ => raise .inputToArray
      | none => raise .inputUndeclared
    | some _ => setVariable var_name val
  else if input_type = "IN[]" then
    let idx_item ← pop_operand
    let arr_name_item ← pop_operand
    let index ← get_int idx_item
    let array_name ← get_string arr_name_item
    let s ← getState
    match mapFind s.m_arrays array_name with
    | none => raise .undeclaredArray
    | some arr =>
      if index < 0 ∨ index.toNat ≥ arr.length then raise .indexOutOfBounds
      else setElement array_name arr index val
  else raise .unknownInputType

/-- The method `handle_output` : the value is appended to the output stream. -/
def handle_output : Exec Unit := do
  let val_item ← pop_operand
  let val_to_print ← get_int val_item
  modifyState (fun s => { s with cout := s.cout ++ [val_to_print] })

/-- The method `find_label`. -/
def find_label (p : Program) (label_name : String) : Exec Nat :=
  match mapFind p.m_labelMap label_name with
  | some i => pure i
  | none => raise .undefinedLabel

/-- The assignment `m_pc = target`. -/
def setPc (target : Nat) : Exec Unit := modifyState (fun s => { s with m_pc := target })

/-- The `switch (entry.type)` of `run`; the value returned is `increment_pc`. -/
def execEntry (fns : MathFns) (p : Program) (entry : RPNEntry) : Exec Bool := do
  match entry.type with
  | VAR => push_operand (.str entry.value); pure true
  | ARRAY_BASE => push_operand (.str entry.value); pure true
  | CONST =>
    match stoi entry.value with
    | .ok v => push_operand (.int v); pure true
    | .error .out_of_range => raise .constantOutOfRange
    | .error .invalid_argument => raise .constantInvalid
  | OPERATION => handle_operation entry; pure true
  | LABEL_DEF => pure true
  | JUMP =>
    let target ← find_label p entry.value
    setPc target
    pure false
  | JUMP_FALSE =>
    let condition_item ← pop_operand
    let condition ← get_int condition_item
    if condition = 0 then
      let target ← find_label p entry.value
      setPc target
      pure false
    else pure true
  | ARRAY_ACCESS => handle_array_access; pure true
  | INPUT => handle_input entry; pure true
  | OUTPUT => handle_output; pure true
  | FUNC_SIN =>
    let arg ← pop_operand
    let val ← get_int arg
    push_operand (.int (fns.sin_int val))
    pure true
  | FUNC_COS =>
    let arg ← pop_operand
    let val ← get_int arg
    push_operand (.int (fns.cos_int val))
    pure true
  | FUNC_TG =>
    let arg ← pop_operand
    let val ← get_int arg
    push_operand (.int (fns.tan_int val))
    pure true
  | FUNC_CTG =>
    let arg ← pop_operand
    let val ← get_int arg
    if fns.tan_is_zero val then raise .ctgUndefined
    else
      push_operand (.int (fns.ctg_int val))
      pure true
  | ARRAY_ASSIGN => raise .unknownItemType

/-- What one pass through the body of the loop of `run` gives. -/
inductive StepResult
  /-- The loop condition `m_pc < m_rpn.size()` is false: `run` returns. -/
  | halted
  /-- The entry was executed; the loop goes on from the new state. -/
  | next (s : RPNInterpreter)
  /-- The entry threw; `s` is the state at the moment of the throw. -/
  | failed (e : RunError) (s : RPNInterpreter)
  deriving DecidableEq, Repr

/-- One iteration of the loop `while (m_pc < m_rpn.size())` of `run`.  A fault is rethrown
with the line of the entry and the value `m_pc` has at that moment. -/
def step (fns : MathFns) (p : Program) (s : RPNInterpreter) : StepResult :=
  match p.m_rpn[s.m_pc]? with
  | none => .halted
  | some entry =>
    match execEntry fns p entry s with
    | .throw f s1 => .failed ⟨entry.line_num, s1.m_pc, f⟩ s1
    | .ok increment_pc s1 =>
      .next (if increment_pc then { s1 with m_pc := s1.m_pc + 1 } else s1)

/-- How a run ends: `run` returned, `run` threw, or the model stopped after `fuel`
iterations with the program still running. -/
inductive RunResult
  | finished (s : RPNInterpreter)
  | failed (e : RunError) (s : RPNInterpreter)
  | outOfFuel (s : RPNInterpreter)
  deriving DecidableEq, Repr

/-- The loop of `RPNInterpreter::run`, for at most `fuel` iterations. -/
def run_loop (fns : MathFns) (p : Program) : Nat → RPNInterpreter → RunResult
  | 0, s => .outOfFuel s
  | fuel + 1, s =>
    match step fns p s with
    | .halted => .finished s
    | .failed e s1 => .failed e s1
    | .next s1 => run_loop fns p fuel s1

/-- The method `RPNInterpreter::run`. -/
def run (fns : MathFns) (p : Program) (fuel : Nat) (s : RPNInterpreter) : RunResult :=
  run_loop fns p fuel { s with m_pc := 0, m_operandStack := [] }

/-! ## The driver -/

/-- How the token loop of `main` ends: with the vector `tokens`, by `return 1`, or (model
only) without an end within the fuel. -/
inductive TokenLoopResult
  | tokens (ts : List Token)
  | exit1
  | outOfFuel
  deriving DecidableEq, Repr

/-- The loop `do { t = lexer.getNextToken(); ... } while (t.code != EOF_TOK);` of `main`. -/
def tokenLoop : Nat → Lexer → List Token → TokenLoopResult
  | 0, _, _ => .outOfFuel
  | fuel + 1, lx, tokens =>
    match getNextToken lx with
    | none => .outOfFuel
    | some (t, lx1) =>
      let tokens1 := if t.code ≠ NONE_TOK then tokens ++ [t] else tokens
      if t.code = ERROR_TOK then .exit1
      else if tokens1.length > 10000 then .exit1
      else if t.code ≠ EOF_TOK then tokenLoop fuel lx1 tokens1
      else .tokens tokens1

/-- The stage at which `main` stops. -/
inductive Stage
  /-- `return 0` at the end of `main`, or for a source with no token but `EOF_TOK`. -/
  | success
  /-- `return 1` from the token loop. -/
  | lexical
  /-- `generate` threw. -/
  | generator (e : GenError)
  /-- The constructor of the interpreter threw (duplicate label). -/
  | setup
  /-- `run` threw. -/
  | runtime (e : RunError)
  /-- The process was killed by the signal of the division `INT_MIN / -1` : `main` does not
  return; `e` tells the entry at which it happened. -/
  | killed (e : RunError)
  deriving DecidableEq, Repr

/-- What a run of the program leaves: where it stopped, its exit code (for a process killed
by the signal `SIGFPE`, number 8, the status 128 + 8 a shell reports), the values the
`output` statements printed, the integers of the input left unread, and the variables, the
arrays and the operand stack of the interpreter when it stopped (empty when no interpreter
was constructed). -/
structure MainResult where
  stage : Stage
  exit_code : Nat
  output : List Int
  unread : List Int
  final_variables : List (String × Int)
  final_arrays : List (String × List Int)
  final_stack : List StackItem
  deriving DecidableEq, Repr

/-- The function `main`, from the construction of the lexer on: `source` is the program
text, `input` the integers typed on the console afterwards.  `fuel` bounds the iterations of
the interpreter loop; `none` when the program is still running after `fuel` iterations. -/
def main (char_is_signed : Bool) (fns : MathFns) (source : List Byte) (input : List Int)
    (fuel : Nat) : Option MainResult :=
  match tokenLoop (source.length + 1) (Lexer.init char_is_signed source) [] with
  | .outOfFuel => none
  | .exit1 => some ⟨.lexical, 1, [], input, [], [], []⟩
  | .tokens tokens =>
    if tokens.length = 1 then some ⟨.success, 0, [], input, [], [], []⟩
    else
      match generate tokens with
      | .error e => some ⟨.generator e, 1, [], input, [], [], []⟩
      | .ok g =>
        match RPNInterpreter.init g.m_rpn g.m_symbolTable input with
        | none => some ⟨.setup, 1, [], input, [], [], []⟩
        | some (p, s) =>
          match run fns p fuel s with
          | .outOfFuel _ => none
          | .failed e s1 =>
            if e.fault = .divisionOverflow then
              some ⟨.killed e, 136, s1.cout, s1.cin, s1.m_variables, s1.m_arrays, s1.m_operandStack⟩
            else
              some ⟨.runtime e, 1, s1.cout, s1.cin, s1.m_variables, s1.m_arrays, s1.m_operandStack⟩
          | .finished s1 => some ⟨.success, 0, s1.cout, s1.cin, s1.m_variables, s1.m_arrays, s1.m_operandStack⟩

/-! ## Definitions used in the statements and proofs -/

/-- What `getNextToken_body_spec` says of the result of one iteration: it consumed exactly
one character and goes round again, or it returned; a return never leaves more characters
pending than before, and a return from `S_STATE` of a token other than `EOF_TOK` leaves
fewer. -/
def BodyProgress (lx0 : Lexer) (v : ScanVars) : ScanStep → Prop
  | .again lx1 _ => lx1.pending + 1 = lx0.pending
  | .ret t lx1 => lx1.pending ≤ lx0.pending ∧
      (v.currentState = S_STATE → t.code ≠ EOF_TOK → lx1.pending < lx0.pending)

/-- Whether an entry is one of the four function calls `FUNC_SIN`, ..., `FUNC_CTG`. -/
def isFunc (type : RPNItemType) : Bool :=
  type = FUNC_SIN || type = FUNC_COS || type = FUNC_TG || type = FUNC_CTG

/-- Whether the postfix stream `main` generates for `source` holds a function call. -/
def callsMath (char_is_signed : Bool) (source : List Byte) : Bool :=
  match tokenLoop (source.length + 1) (Lexer.init char_is_signed source) [] with
  | .tokens tokens =>
    match generate tokens with
    | .ok g => g.m_rpn.any (fun e => isFunc e.type)
    | .error _ => false
  | _ => false

/-- A stand-in for `<cmath>`, used to evaluate programs that make no function call. -/
def noMath : MathFns :=
  { sin_int := fun _ => 0, cos_int := fun _ => 0, tan_int := fun _ => 0,
    tan_is_zero := fun _ => false, ctg_int := fun _ => 0 }

/-! ### The grammar the generator accepts, as a relation

`DerivesE`, `DerivesC` and `DerivesA` say which stretches of the token vector the methods
`parse_G`, ..., `parse_A` accept and which entries they emit for them.  They are not part of
the model: `parse_G_derives`, ..., `parse_A_derives` prove that every successful call of a
method is a derivation, and the invariants of the emitted stream are then proved by induction
on derivations. -/

/-- The token `currentToken` returns at index `i` of `tokens`, when it returns. -/
def tokenAt (tokens : List Token) (i : Nat) : Option Token :=
  match tokens[i]? with
  | some t => some t
  | none =>
    match tokens.getLast? with
    | some t => if t.code = EOF_TOK then some t else none
    | none => none

/-- The label `newLabel` returns when the counter is `n`. -/
def labelName (n : Nat) : String := "L" ++ decimal n

/-- The non-terminals of the expression grammar, one per method. -/
inductive NT
  | G | U_prime | T | V_prime | F
  deriving DecidableEq, Repr

/-- The payload `parse_C` emits for a relational token. -/
def relOp (code : TokenCode) : Option String :=
  if code = EQ_COMPARE_TOK then some "~"
  else if code = GT_TOK then some ">"
  else if code = LT_TOK then some "<"
  else if code = NOT_TOK then some "!"
  else none

/-- The symbol `getSymbol` returns for `name`, when it returns. -/
def declaredSymbol (table : List (String × SymbolInfo)) (name : String) : Option SymbolInfo :=
  match mapFind table name with
  | some info => if info.is_declared then some info else none
  | none => none

/-- `DerivesE tokens table X i j code` : method `X` of the expression grammar, started at
token index `i` with symbol table `table`, succeeds, stops at index `j` and has appended
`code` to the postfix stream. -/
inductive DerivesE (tokens : List Token) (table : List (String × SymbolInfo)) :
    NT → Nat → Nat → List RPNEntry → Prop
  | G {i j k c1 c2} :
      DerivesE tokens table .T i j c1 → DerivesE tokens table .U_prime j k c2 →
      DerivesE tokens table .G i k (c1 ++ c2)
  | U_nil {i t} :
      tokenAt tokens i = some t → ¬ (t.code = PLUS_TOK ∨ t.code = MINUS_TOK) →
      DerivesE tokens table .U_prime i i []
  | U_op {i j k t c1 c2} :
      tokens[i]? = some t → (t.code = PLUS_TOK ∨ t.code = MINUS_TOK) →
      DerivesE tokens table .T (i + 1) j c1 → DerivesE tokens table .U_prime j k c2 →
      DerivesE tokens table .U_prime i k (c1 ++ [⟨OPERATION, t.lexeme, t.line⟩] ++ c2)
  | T {i j k c1 c2} :
      DerivesE tokens table .F i j c1 → DerivesE tokens table .V_prime j k c2 →
      DerivesE tokens table .T i k (c1 ++ c2)
  | V_nil {i t} :
      tokenAt tokens i = some t → ¬ (t.code = STAR_TOK ∨ t.code = SLASH_TOK) →
      DerivesE tokens table .V_prime i i []
  | V_op {i j k t c1 c2} :
      tokens[i]? = some t → (t.code = STAR_TOK ∨ t.code = SLASH_TOK) →
      DerivesE tokens table .F (i + 1) j c1 → DerivesE tokens table .V_prime j k c2 →
      DerivesE tokens table .V_prime i k (c1 ++ [⟨OPERATION, t.lexeme, t.line⟩] ++ c2)
  | F_paren {i j t r c} :
      tokens[i]? = some t → t.code = LPAREN_TOK →
      DerivesE tokens table .G (i + 1) j c →
      tokens[j]? = some r → r.code = RPAREN_TOK →
      DerivesE tokens table .F i (j + 1) c
  | F_trig {i j t l r c} :
      tokens[i]? = some t → isTrig t.code = true →
      tokens[i + 1]? = some l → l.code = LPAREN_TOK →
      DerivesE tokens table .G (i + 2) j c →
      tokens[j]? = some r → r.code = RPAREN_TOK →
      DerivesE tokens table .F i (j + 1) (c ++ [⟨funcType t.code, t.lexeme, t.line⟩])
  | F_var {i t t1 info} :
      tokens[i]? = some t → t.code = ID_TOK →
      declaredSymbol table t.lexeme = some info →
      tokenAt tokens (i + 1) = some t1 → t1.code ≠ LBRACKET_TOK →
      info.s_class ≠ SymbolClass.INT_ARRAY →
      DerivesE tokens table .F i (i + 1) [⟨VAR, t.lexeme, t.line⟩]
  | F_index {i j t b r info c} :
      tokens[i]? = some t → t.code = ID_TOK →
      declaredSymbol table t.lexeme = some info →
      tokens[i + 1]? = some b → b.code = LBRACKET_TOK →
      info.s_class = SymbolClass.INT_ARRAY →
      DerivesE tokens table .G (i + 2) j c →
      tokens[j]? = some r → r.code = RBRACKET_TOK →
      DerivesE tokens table .F i (j + 1)
        ([⟨ARRAY_BASE, t.lexeme, t.line⟩] ++ c ++ [⟨ARRAY_ACCESS, "[]", t.line⟩])
  | F_num {i t} :
      tokens[i]? = some t → t.code = NUM_TOK →
      DerivesE tokens table .F i (i + 1) [⟨CONST, t.lexeme, t.line⟩]

/-- `DerivesC tokens table i j code` : the same for `parse_C`. -/
inductive DerivesC (tokens : List Token) (table : List (String × SymbolInfo)) :
    Nat → Nat → List RPNEntry → Prop
  | C {i j k t op c1 c2} :
      DerivesE tokens table .G i j c1 →
      tokens[j]? = some t → relOp t.code = some op →
      DerivesE tokens table .G (j + 1) k c2 →
      DerivesC tokens table i k (c1 ++ c2 ++ [⟨OPERATION, op, t.line⟩])

/-- The codes on which `parse_A` starts a statement; on every other code it returns at
once (the empty production). -/
def startsStatement (code : TokenCode) : Bool :=
  code = ID_TOK || code = IF_TOK || code = WHILE_TOK || code = INPUT_TOK ||
    code = OUTPUT_TOK || isTrig code

/-- `DerivesA tokens table i j n m code` : `parse_A`, started at token index `i` with
label counter `n`, succeeds, stops at index `j` with label counter `m` and has appended
`code` to the postfix stream.  There is no rule for `else` : no successful call goes
through that branch of `parse_A` (its first `expect(END_TOK)` consumes the `else`). -/
inductive DerivesA (tokens : List Token) (table : List (String × SymbolInfo)) :
    Nat → Nat → Nat → Nat → List RPNEntry → Prop
  | nil {i n t} :
      tokenAt tokens i = some t → startsStatement t.code = false →
      DerivesA tokens table i i n n []
  | assign {i j k n m t t1 e sc info c rest} :
      tokens[i]? = some t → t.code = ID_TOK →
      declaredSymbol table t.lexeme = some info →
      tokenAt tokens (i + 1) = some t1 → t1.code ≠ LBRACKET_TOK →
      info.s_class ≠ SymbolClass.INT_ARRAY →
      tokens[i + 1]? = some e → e.code = EQ_TOK →
      DerivesE tokens table .G (i + 2) j c →
      tokens[j]? = some sc → sc.code = SEMICOLON_TOK →
      DerivesA tokens table (j + 1) k n m rest →
      DerivesA tokens table i k n m
        ([⟨VAR, t.lexeme, t.line⟩] ++ c ++ [⟨OPERATION, "=", t.line⟩] ++ rest)
  | assignIndexed {i j k l n m t b r e sc info c1 c2 rest} :
      tokens[i]? = some t → t.code = ID_TOK →
      declaredSymbol table t.lexeme = some info →
      tokens[i + 1]? = some b → b.code = LBRACKET_TOK →
      info.s_class = SymbolClass.INT_ARRAY →
      DerivesE tokens table .G (i + 2) j c1 →
      tokens[j]? = some r → r.code = RBRACKET_TOK →
      tokens[j + 1]? = some e → e.code = EQ_TOK →
      DerivesE tokens table .G (j + 2) k c2 →
      tokens[k]? = some sc → sc.code = SEMICOLON_TOK →
      DerivesA tokens table (k + 1) l n m rest →
      DerivesA tokens table i l n m
        ([⟨ARRAY_BASE, t.lexeme, t.line⟩] ++ c1 ++ c2 ++ [⟨OPERATION, "[]=", t.line⟩] ++ rest)
  | ifThen {i j k l n n1 m t lp rp bg en sc c body rest} :
      tokens[i]? = some t → t.code = IF_TOK →
      tokens[i + 1]? = some lp → lp.code = LPAREN_TOK →
      DerivesC tokens table (i + 2) j c →
      tokens[j]? = some rp → rp.code = RPAREN_TOK →
      tokens[j + 1]? = some bg → bg.code = BEG_TOK →
      DerivesA tokens table (j + 2) k (n + 2) n1 body →
      tokens[k]? = some en → en.code = END_TOK →
      tokens[k + 1]? = some sc → sc.code = SEMICOLON_TOK →
      DerivesA tokens table (k + 2) l n1 m rest →
      DerivesA tokens table i l n m
        (c ++ [⟨JUMP_FALSE, labelName n, t.line⟩] ++ body ++
          [⟨LABEL_DEF, labelName n, t.line⟩] ++ rest)
  | while {i j k l n n1 m t lp rp bg en sc c body rest} :
      tokens[i]? = some t → t.code = WHILE_TOK →
      tokens[i + 1]? = some lp → lp.code = LPAREN_TOK →
      DerivesC tokens table (i + 2) j c →
      tokens[j]? = some rp → rp.code = RPAREN_TOK →
      tokens[j + 1]? = some bg → bg.code = BEG_TOK →
      DerivesA tokens table (j + 2) k (n + 2) n1 body →
      tokens[k]? = some en → en.code = END_TOK →
      tokens[k + 1]? = some sc → sc.code = SEMICOLON_TOK →
      DerivesA tokens table (k + 2) l n1 m rest →
      DerivesA tokens table i l n m
        ([⟨LABEL_DEF, labelName n, t.line⟩] ++ c ++
          [⟨JUMP_FALSE, labelName (n + 1), t.line⟩] ++ body ++
          [⟨JUMP, labelName n, t.line⟩, ⟨LABEL_DEF, labelName (n + 1), t.line⟩] ++ rest)
  | input {i k n m t lp id t1 rp sc info rest} :
      tokens[i]? = some t → t.code = INPUT_TOK →
      tokens[i + 1]? = some lp → lp.code = LPAREN_TOK →
      tokens[i + 2]? = some id → id.code = ID_TOK →
      declaredSymbol table id.lexeme = some info →
      tokenAt tokens (i + 3) = some t1 → t1.code ≠ LBRACKET_TOK →
      info.s_class ≠ SymbolClass.INT_ARRAY →
      tokens[i + 3]? = some rp → rp.code = RPAREN_TOK →
      tokens[i + 4]? = some sc → sc.code = SEMICOLON_TOK →
      DerivesA tokens table (i + 5) k n m rest →
      DerivesA tokens table i k n m
        ([⟨VAR, id.lexeme, id.line⟩, ⟨INPUT, "IN", t.line⟩] ++ rest)
  | inputIndexed {i j k n m t lp id b r rp sc info c rest} :
      tokens[i]? = some t → t.code = INPUT_TOK →
      tokens[i + 1]? = some lp → lp.code = LPAREN_TOK →
      tokens[i + 2]? = some id → id.code = ID_TOK →
      declaredSymbol table id.lexeme = some info →
      tokens[i + 3]? = some b → b.code = LBRACKET_TOK →
      info.s_class = SymbolClass.INT_ARRAY →
      DerivesE tokens table .G (i + 4) j c →
      tokens[j]? = some r → r.code = RBRACKET_TOK →
      tokens[j + 1]? = some rp → rp.code = RPAREN_TOK →
      tokens[j + 2]? = some sc → sc.code = SEMICOLON_TOK →
      DerivesA tokens table (j + 3) k n m rest →
      DerivesA tokens table i k n m
        ([⟨ARRAY_BASE, id.lexeme, id.line⟩] ++ c ++ [⟨INPUT, "IN[]", t.line⟩] ++ rest)
  | output {i j k n m t lp rp sc c rest} :
      tokens[i]? = some t → t.code = OUTPUT_TOK →
      tokens[i + 1]? = some lp → lp.code = LPAREN_TOK →
      DerivesE tokens table .G (i + 2) j c →
      tokens[j]? = some rp → rp.code = RPAREN_TOK →
      tokens[j + 1]? = some sc → sc.code = SEMICOLON_TOK →
      DerivesA tokens table (j + 2) k n m rest →
      DerivesA tokens table i k n m (c ++ [⟨OUTPUT, "OUT", t.line⟩] ++ rest)
  | trig {i j k n m t lp rp sc c rest} :
      tokens[i]? = some t → isTrig t.code = true →
      tokens[i + 1]? = some lp → lp.code = LPAREN_TOK →
      DerivesE tokens table .G (i + 2) j c →
      tokens[j]? = some rp → rp.code = RPAREN_TOK →
      tokens[j + 1]? = some sc → sc.code = SEMICOLON_TOK →
      DerivesA tokens table (j + 2) k n m rest →
      DerivesA tokens table i k n m
        (c ++ [⟨funcType t.code, t.lexeme, t.line⟩] ++ rest)

/-- What a successful call of a method of the expression grammar has done to the generator:
the index moved to `j` and `code` was appended; nothing else changed. -/
def ExprStep (X : NT) (g g1 : RPNGenerator) : Prop :=
  ∃ j code, g1 = { g with m_currentIndex := j, m_rpn := g.m_rpn ++ code } ∧
    DerivesE g.m_tokens g.m_symbolTable X g.m_currentIndex j code

/-- What a successful call of `parse_C` has done to the generator. -/
def CondStep (g g1 : RPNGenerator) : Prop :=
  ∃ j code, g1 = { g with m_currentIndex := j, m_rpn := g.m_rpn ++ code } ∧
    DerivesC g.m_tokens g.m_symbolTable g.m_currentIndex j code

/-- What a successful call of `parse_A` has done to the generator. -/
def StmtStep (g g1 : RPNGenerator) : Prop :=
  ∃ j m code,
    g1 = { g with m_currentIndex := j, m_rpn := g.m_rpn ++ code, m_labelCounter := m } ∧
    DerivesA g.m_tokens g.m_symbolTable g.m_currentIndex j g.m_labelCounter m code

/-- `DerivesP tokens i table j table1 n m code` : `parse_E`, started at token index `i`
with symbol table `table` and label counter `n`, succeeds, stops at index `j` with symbol
table `table1` and label counter `m`, and has appended `code` to the postfix stream. -/
inductive DerivesP (tokens : List Token) :
    Nat → List (String × SymbolInfo) → Nat → List (String × SymbolInfo) → Nat → Nat →
      List RPNEntry → Prop
  | empty {i table n t} :
      tokenAt tokens i = some t →
      t.code ≠ INT_TOK → t.code ≠ IMAS_TOK → t.code ≠ BEG_TOK →
      DerivesP tokens i table i table n n []
  | block {i j table n m bg en code} :
      tokens[i]? = some bg → bg.code = BEG_TOK →
      DerivesA tokens table (i + 1) j n m code →
      tokens[j]? = some en → en.code = END_TOK →
      DerivesP tokens i table (j + 1) table n m code
  | int {i j table table1 n m kw id sc code} :
      tokens[i]? = some kw → kw.code = INT_TOK →
      tokens[i + 1]? = some id → id.code = ID_TOK →
      isDeclared table id.lexeme = false →
      tokens[i + 2]? = some sc → sc.code = SEMICOLON_TOK →
      DerivesP tokens (i + 3)
        (mapSet table id.lexeme ⟨SymbolClass.INT_VAR, INT_TOK, 0, id.line, true⟩)
        j table1 n m code →
      DerivesP tokens i table j table1 n m code
  | arr {i j table table1 n m kw id lb num rb sc size code} :
      tokens[i]? = some kw → kw.code = IMAS_TOK →
      tokens[i + 1]? = some id → id.code = ID_TOK →
      tokens[i + 2]? = some lb → lb.code = LBRACKET_TOK →
      tokens[i + 3]? = some num → num.code = NUM_TOK →
      stoi num.lexeme = .ok size → 0 < size →
      tokens[i + 4]? = some rb → rb.code = RBRACKET_TOK →
      isDeclared table id.lexeme = false →
      tokens[i + 5]? = some sc → sc.code = SEMICOLON_TOK →
      DerivesP tokens (i + 6)
        (mapSet table id.lexeme ⟨SymbolClass.INT_ARRAY, IMAS_TOK, size, id.line, true⟩)
        j table1 n m code →
      DerivesP tokens i table j table1 n m code

/-- What a successful call of `parse_E` (or `parse_P`) has done to the generator. -/
def PreludeStep (g g1 : RPNGenerator) : Prop :=
  ∃ j table m code,
    g1 = { g with m_currentIndex := j, m_rpn := g.m_rpn ++ code, m_symbolTable := table,
                  m_labelCounter := m } ∧
    DerivesP g.m_tokens g.m_currentIndex g.m_symbolTable j table g.m_labelCounter m code

/-- The payloads of the `LABEL_DEF` entries of a postfix stream, in order. -/
def labelsOf (code : List RPNEntry) : List String :=
  (code.filter (fun e => e.type = LABEL_DEF)).map (fun e => e.value)

/-- The payloads of the `JUMP` and `JUMP_FALSE` entries of a postfix stream, in order. -/
def jumpsOf (code : List RPNEntry) : List String :=
  (code.filter (fun e => e.type = JUMP || e.type = JUMP_FALSE)).map (fun e => e.value)

/-- The invariant of the labels of a stretch of code emitted while the label counter went
from `n` to `m` : the labels defined are `labelName k` for pairwise different `k` in
`[n, m)`, and every jump targets one of them. -/
def LabelsOK (n m : Nat) (code : List RPNEntry) : Prop :=
  n ≤ m ∧ ∃ ks : List Nat, labelsOf code = ks.map labelName ∧ ks.Nodup ∧
    (∀ k ∈ ks, n ≤ k ∧ k < m) ∧ ∀ v ∈ jumpsOf code, v ∈ labelsOf code

/-- The integer an operand stands for, as `get_int` resolves it when it does not throw: an
integer item is its value, a name is the value of the scalar variable of that name. -/
def intValue (s : RPNInterpreter) : StackItem → Option Int
  | .int v => some v
  | .str name => mapFind s.m_variables name

/-! ### Stack balance -/

/-- The tokens whose code is the value of an arithmetic operator, which is also the value of
a function, are spelled as the operator or as the function (as every token of the lexer
is: `+` or `sin`, `-` or `cos`, `*` or `tg`, `/` or `ctg`). -/
def CanonicalOps (tokens : List Token) : Prop :=
  ∀ t ∈ tokens, (t.code = PLUS_TOK → t.lexeme = "+" ∨ t.lexeme = "sin") ∧
    (t.code = MINUS_TOK → t.lexeme = "-" ∨ t.lexeme = "cos") ∧
    (t.code = STAR_TOK → t.lexeme = "*" ∨ t.lexeme = "tg") ∧
    (t.code = SLASH_TOK → t.lexeme = "/" ∨ t.lexeme = "ctg")

/-- The state of the interpreter after `k` iterations of the loop of `run`, when none of
them ended the run. -/
def stateAfter (fns : MathFns) (p : Program) : Nat → RPNInterpreter → Option RPNInterpreter
  | 0, s => some s
  | k + 1, s =>
    match step fns p s with
    | .next s1 => stateAfter fns p k s1
    | _ => none

/-- The token vector `main` builds for a source text (empty when the token loop gives
none). -/
def tokensOf (char_is_signed : Bool) (source : List Byte) : List Token :=
  match tokenLoop (source.length + 1) (Lexer.init char_is_signed source) [] with
  | .tokens tokens => tokens
  | _ => []

/-- Every index of the label map is the index of a `LABEL_DEF` entry. -/
def LabelMapSound (rpn : List RPNEntry) (labels : List (String × Nat)) : Prop :=
  ∀ name t, mapFind labels name = some t → ∃ e, rpn[t]? = some e ∧ e.type = LABEL_DEF

/-- A token whose code is the value of an arithmetic operator and of a function is spelled
as the operator or as the function. -/
def canonicalOp (t : Token) : Prop :=
  (t.code = PLUS_TOK → t.lexeme = "+" ∨ t.lexeme = "sin") ∧
    (t.code = MINUS_TOK → t.lexeme = "-" ∨ t.lexeme = "cos") ∧
    (t.code = STAR_TOK → t.lexeme = "*" ∨ t.lexeme = "tg") ∧
    (t.code = SLASH_TOK → t.lexeme = "/" ∨ t.lexeme = "ctg")


/-- The generator `generate` returns for `tokens` (the initial one when it throws). -/
def generated (tokens : List Token) : RPNGenerator :=
  match generate tokens with
  | .ok g => g
  | .error _ => ⟨tokens, 0, [], [], 0⟩

/-- The program and the initial state the constructor of the interpreter builds for the
code of `tokens` (empty when it throws). -/
def loaded (tokens : List Token) (input : List Int) : Program × RPNInterpreter :=
  match RPNInterpreter.init (generated tokens).m_rpn (generated tokens).m_symbolTable input with
  | some r => r
  | none => (⟨[], [], []⟩, ⟨0, [], [], [], input, []⟩)

/-- The text of scenario S3 (a `while` loop). -/
def sourceS3 : List Byte :=
  bytesOf "int i; int s; begin i = 0; s = 0; while (i < 5) begin s = s + i; i = i + 1; end ; output(s); end"

/-- A program in which `-` stands where a factor starts, which `parse_F` reads as a function
call. -/
def sourceOperatorFactor : List Byte := bytesOf "begin output(-(0)); end"

/-! ### Bounds safety -/

/-- Whether an entry is one of the three indexed operations: `ARRAY_ACCESS`, the operation
`[]=`, the input `IN[]`. -/
def isIndexed (e : RPNEntry) : Bool :=
  e.type = ARRAY_ACCESS || (e.type = OPERATION && e.value = "[]=") ||
    (e.type = INPUT && e.value = "IN[]")

/-- The index and the array an indexed operation finds when the top of the operand stack
(behind the value operand of `[]=`) is `stack` : the top item resolves to the index by
`get_int`, the item below it is a name, and `m_arrays` holds an array under that name. -/
def indexAt (s : RPNInterpreter) : List StackItem → Option (Int × List Int)
  | idx :: .str name :: _ =>
    match intValue s idx, mapFind s.m_arrays name with
    | some i, some arr => some (i, arr)
    | _, _ => none
  | _ => none

/-- The resolved index and the named array with which an indexed operation executed in
state `s` arrives at its bounds check; `none` when it throws before the check (`[]=`
resolves its value operand first, `IN[]` reads the integer first). -/
def resolvedIndex (e : RPNEntry) (s : RPNInterpreter) : Option (Int × List Int) :=
  if e.type = OPERATION then
    match s.m_operandStack with
    | val :: rest => if (intValue s val).isSome then indexAt s rest else none
    | [] => none
  else if e.type = INPUT then
    match s.cin with
    | v :: _ => if v < INT_MIN ∨ v > INT_MAX then none else indexAt s s.m_operandStack
    | [] => none
  else indexAt s s.m_operandStack

/-- A state with the array `q` of two elements, the operands `q`, 2 on the stack and
one integer on the console. -/
def stateQ2 : RPNInterpreter := ⟨2, [.int 2, .str "q"], [], [("q", [0, 0])], [5], []⟩

/-! ### Termination of the descent -/

/-- The number of tokens from the current index to the end of the token vector. -/
def remaining (g : RPNGenerator) : Nat := g.m_tokens.length - g.m_currentIndex

/-! ### The declaration prelude -/

/-- The entry `addSymbol` stores for a declaration `int id ;`. -/
def intInfo (id : Token) : SymbolInfo := ⟨SymbolClass.INT_VAR, INT_TOK, 0, id.line, true⟩

/-- The entry `addSymbol` stores for a declaration `arr id [ size ] ;`. -/
def arrInfo (id : Token) (size : Int) : SymbolInfo :=
  ⟨SymbolClass.INT_ARRAY, IMAS_TOK, size, id.line, true⟩

/-- The value `std::stoi` gives for the text of the token `num`; 0 when it throws. -/
def sizeValue (num : Token) : Int :=
  match stoi num.lexeme with
  | .ok n => n
  | .error _ => 0

/-- `Prelude tokens i j ds` : the tokens from index `i` up to index `j` are a chain of
declarations `int ID ;` and `arr ID [ NUM ] ;`, and `ds` lists, in order, the declared names
with the entries the generator stores for them.  The relation reads the token vector only:
it checks neither that a name is new nor that a size is valid. -/
inductive Prelude (tokens : List Token) : Nat → Nat → List (String × SymbolInfo) → Prop
  | nil {i} : Prelude tokens i i []
  | int {i j kw id sc ds} :
      tokens[i]? = some kw → kw.code = INT_TOK →
      tokens[i + 1]? = some id → id.code = ID_TOK →
      tokens[i + 2]? = some sc → sc.code = SEMICOLON_TOK →
      Prelude tokens (i + 3) j ds →
      Prelude tokens i j ((id.lexeme, intInfo id) :: ds)
  | arr {i j kw id lb num rb sc ds} :
      tokens[i]? = some kw → kw.code = IMAS_TOK →
      tokens[i + 1]? = some id → id.code = ID_TOK →
      tokens[i + 2]? = some lb → lb.code = LBRACKET_TOK →
      tokens[i + 3]? = some num → num.code = NUM_TOK →
      tokens[i + 4]? = some rb → rb.code = RBRACKET_TOK →
      tokens[i + 5]? = some sc → sc.code = SEMICOLON_TOK →
      Prelude tokens (i + 6) j ds →
      Prelude tokens i j ((id.lexeme, arrInfo id (sizeValue num)) :: ds)

/-- The token at index `j` starts no further declaration. -/
def PreludeEnds (tokens : List Token) (j : Nat) : Prop :=
  ∀ t, tokens[j]? = some t → t.code ≠ INT_TOK ∧ t.code ≠ IMAS_TOK

/-- The token at index `k` is the identifier of a declaration: it stands right behind an
`int` or an `arr`. -/
def isDeclarator (tokens : List Token) (k : Nat) : Prop :=
  ∃ i kw, k = i + 1 ∧ tokens[i]? = some kw ∧ (kw.code = INT_TOK ∨ kw.code = IMAS_TOK)

/-- The token at index `k` is in front of the first `EOF_TOK` of the vector. -/
def beforeEOF (tokens : List Token) (k : Nat) : Prop :=
  ∀ i t, i ≤ k → tokens[i]? = some t → t.code ≠ EOF_TOK

/-- The token at index `k` is followed by a `[`. -/
def indexed (tokens : List Token) (k : Nat) : Prop :=
  ∃ b, tokens[k + 1]? = some b ∧ b.code = LBRACKET_TOK

/-- What the generator has checked of a token it has read in a statement or an expression:
it is none of `int`, `arr`, `EOF_TOK`, and when it is an identifier, the identifier is
declared, and it is an array exactly when a `[` follows. -/
def TokenChecked (tokens : List Token) (table : List (String × SymbolInfo)) (k : Nat) :
    Prop :=
  ∀ t, tokens[k]? = some t →
    t.code ≠ INT_TOK ∧ t.code ≠ IMAS_TOK ∧ t.code ≠ EOF_TOK ∧
    (t.code = ID_TOK → ∃ info, declaredSymbol table t.lexeme = some info ∧
      (info.s_class = SymbolClass.INT_ARRAY ↔ indexed tokens k))

/-- What a checked declaration has established of its entry. -/
def validEntry (d : String × SymbolInfo) : Prop :=
  d.2.is_declared = true ∧
    (d.2.s_class = SymbolClass.INT_ARRAY → 0 < d.2.size ∧ d.2.size ≤ INT_MAX)

/-! ### The lexer and invalid characters -/

/-- The invariant of the local variables of `getNextToken` : in the states `A_STATE` and
`B_STATE` the lexeme read so far is not empty. -/
def ScanInv (v : ScanVars) : Prop :=
  v.currentState = S_STATE ∨
    (v.current_lexeme ≠ "" ∧ (v.currentState = A_STATE ∨ v.currentState = B_STATE))

/-- What `getNextToken_body_sound` says of the result of one iteration: the invariant holds
again, or the token returned is not `ERROR_TOK`. -/
def BodySound : ScanStep → Prop
  | .again _ v1 => ScanInv v1
  | .ret t _ => t.code ≠ ERROR_TOK

/-- A byte outside the recognised categories: above 127, or `CAT_OTHER` in `AsciiTable`. -/
def unrecognised (b : Byte) : Prop := b.val > 127 ∨ AsciiTable b.val = CAT_OTHER

/-! ### What a method writes -/

/-- The method `x` never changes the output stream, whether it returns or throws. -/
def KeepsOut {α : Type} (x : Exec α) : Prop :=
  ∀ s, match x s with
    | .ok _ s1 => s1.cout = s.cout
    | .throw _ s1 => s1.cout = s.cout

/-- The method `x` only appends to the output stream, and appends nothing when it throws. -/
def WritesLast {α : Type} (x : Exec α) : Prop :=
  ∀ s, match x s with
    | .ok _ s1 => ∃ written, s1.cout = s.cout ++ written
    | .throw _ s1 => s1.cout = s.cout

/-! ### Concrete token vectors -/

/-- The token vector of the declaration-only program `int a; arr b[3];`. -/
def tokensDecl : List Token :=
  [⟨INT_TOK, "int", 1⟩, ⟨ID_TOK, "a", 1⟩, ⟨SEMICOLON_TOK, ";", 1⟩, ⟨IMAS_TOK, "arr", 1⟩,
   ⟨ID_TOK, "b", 1⟩, ⟨LBRACKET_TOK, "[", 1⟩, ⟨NUM_TOK, "3", 1⟩, ⟨RBRACKET_TOK, "]", 1⟩,
   ⟨SEMICOLON_TOK, ";", 1⟩, ⟨EOF_TOK, "EOF", 1⟩]

/-- The token vector of `int a; arr a[2];`, which declares `a` twice. -/
def tokensTwice : List Token :=
  [⟨INT_TOK, "int", 1⟩, ⟨ID_TOK, "a", 1⟩, ⟨SEMICOLON_TOK, ";", 1⟩, ⟨IMAS_TOK, "arr", 1⟩,
   ⟨ID_TOK, "a", 1⟩, ⟨LBRACKET_TOK, "[", 1⟩, ⟨NUM_TOK, "2", 1⟩, ⟨RBRACKET_TOK, "]", 1⟩,
   ⟨SEMICOLON_TOK, ";", 1⟩, ⟨EOF_TOK, "EOF", 1⟩]

/-- The token vector of `int a; begin b = 1; end`, which uses the undeclared name `b`. -/
def tokensUndeclared : List Token :=
  [⟨INT_TOK, "int", 1⟩, ⟨ID_TOK, "a", 1⟩, ⟨SEMICOLON_TOK, ";", 1⟩, ⟨BEG_TOK, "begin", 1⟩,
   ⟨ID_TOK, "b", 1⟩, ⟨EQ_TOK, "=", 1⟩, ⟨NUM_TOK, "1", 1⟩, ⟨SEMICOLON_TOK, ";", 1⟩,
   ⟨END_TOK, "end", 1⟩, ⟨EOF_TOK, "EOF", 1⟩]

/-- The token vector of `arr a[2]; begin a = 1; end`, which assigns to an array as a
whole. -/
def tokensWhole : List Token :=
  [⟨IMAS_TOK, "arr", 1⟩, ⟨ID_TOK, "a", 1⟩, ⟨LBRACKET_TOK, "[", 1⟩, ⟨NUM_TOK, "2", 1⟩,
   ⟨RBRACKET_TOK, "]", 1⟩, ⟨SEMICOLON_TOK, ";", 1⟩, ⟨BEG_TOK, "begin", 1⟩, ⟨ID_TOK, "a", 1⟩,
   ⟨EQ_TOK, "=", 1⟩, ⟨NUM_TOK, "1", 1⟩, ⟨SEMICOLON_TOK, ";", 1⟩, ⟨END_TOK, "end", 1⟩,
   ⟨EOF_TOK, "EOF", 1⟩]

/-- The token vector of `arr a[0];`, an array declaration of size 0. -/
def tokensZero : List Token :=
  [⟨IMAS_TOK, "arr", 1⟩, ⟨ID_TOK, "a", 1⟩, ⟨LBRACKET_TOK, "[", 1⟩, ⟨NUM_TOK, "0", 1⟩,
   ⟨RBRACKET_TOK, "]", 1⟩, ⟨SEMICOLON_TOK, ";", 1⟩, ⟨EOF_TOK, "EOF", 1⟩]

/-! ### Operands and declarations -/

/-- What the generator has checked of the name of an operand entry: the name of a `VAR`
entry is declared and is not an array; the name of an `ARRAY_BASE` entry is declared and is
an array. -/
def OperandChecked (table : List (String × SymbolInfo)) (e : RPNEntry) : Prop :=
  (e.type = VAR → ∃ info, declaredSymbol table e.value = some info ∧
    info.s_class ≠ SymbolClass.INT_ARRAY) ∧
  (e.type = ARRAY_BASE → ∃ info, declaredSymbol table e.value = some info ∧
    info.s_class = SymbolClass.INT_ARRAY)

/-- The name of a `VAR` entry has a declared symbol of class scalar; the name of an
`ARRAY_BASE` entry has a declared symbol of class array. -/
def OperandDeclared (table : List (String × SymbolInfo)) (e : RPNEntry) : Prop :=
  (e.type = VAR → ∃ info, mapFind table e.value = some info ∧ info.is_declared = true ∧
    info.s_class = SymbolClass.INT_VAR) ∧
  (e.type = ARRAY_BASE → ∃ info, mapFind table e.value = some info ∧
    info.is_declared = true ∧ info.s_class = SymbolClass.INT_ARRAY)

/-- The entry `d` of the symbol table is the entry of a declaration `int ID ;` of the token
vector. -/
def DeclaredInt (tokens : List Token) (d : String × SymbolInfo) : Prop :=
  ∃ k kw id, tokens[k]? = some kw ∧ kw.code = INT_TOK ∧ tokens[k + 1]? = some id ∧
    id.code = ID_TOK ∧ d = (id.lexeme, intInfo id)

/-- The entry `d` of the symbol table is the entry of a declaration `arr ID [ NUM ] ;` of
the token vector, `num` being its NUM token. -/
def DeclaredArr (tokens : List Token) (d : String × SymbolInfo) (num : Token) : Prop :=
  ∃ k kw id, tokens[k]? = some kw ∧ kw.code = IMAS_TOK ∧ tokens[k + 1]? = some id ∧
    id.code = ID_TOK ∧ tokens[k + 3]? = some num ∧ num.code = NUM_TOK ∧
    d = (id.lexeme, arrInfo id (sizeValue num))

/-- A program with an indexed assignment and an indexed read. -/
def sourceIndexed : List Byte :=
  bytesOf "int i; arr a[2]; begin a[i] = i + 7; output(a[i]); end"

/-- The value a call returns, or `d` when it throws. -/
def resultOr {ε α : Type} (d : α) (x : Except ε α) : α :=
  match x with
  | .ok a => a
  | .error _ => d

/-- The generator in front of the `while` statement of scenario S3 (token index 15), with
an empty postfix stream. -/
def stateWhile : RPNGenerator :=
  ⟨tokensOf true sourceS3, 15, [], (generated (tokensOf true sourceS3)).m_symbolTable, 0⟩

/-- A program with an `if` statement without `else`. -/
def sourceIf : List Byte :=
  bytesOf "int a; begin if (a < 1) begin a = 1; end ; output(a); end"

/-- The generator in front of the `if` statement of `sourceIf` (token index 4). -/
def stateIf : RPNGenerator :=
  ⟨tokensOf true sourceIf, 4, [], (generated (tokensOf true sourceIf)).m_symbolTable, 0⟩

/-- A program with an `if` statement with `else`. -/
def sourceElse : List Byte :=
  bytesOf "int a; begin if (a < 1) begin a = 1; end else begin a = 2; end ; output(a); end"

/-- The generator in front of the `if` statement of `sourceElse` (token index 4), the
declaration of `a` read. -/
def stateElse : RPNGenerator :=
  ⟨tokensOf true sourceElse, 4, [], [("a", ⟨SymbolClass.INT_VAR, INT_TOK, 0, 1, true⟩)], 0⟩

/-- The program of the scalar input round trip. -/
def sourceInput : List Byte := bytesOf "int a; begin input(a); output(a); end"

/-- The postfix stream, the symbol table and the label map of `sourceInput`. -/
def programInput : Program :=
  ⟨[⟨VAR, "a", 1⟩, ⟨INPUT, "IN", 1⟩, ⟨VAR, "a", 1⟩, ⟨OUTPUT, "OUT", 1⟩],
   [("a", ⟨SymbolClass.INT_VAR, INT_TOK, 0, 1, true⟩)], []⟩

/-! ### What an entry does to the state -/

/-- The number of items an entry pops from the operand stack when it is executed without a
fault. -/
def pops (e : RPNEntry) : Nat :=
  match e.type with
  | OPERATION => if e.value = "[]=" then 3 else 2
  | JUMP_FALSE => 1
  | ARRAY_ACCESS => 2
  | INPUT => if e.value = "IN" then 1 else 2
  | OUTPUT => 1
  | FUNC_SIN => 1
  | FUNC_COS => 1
  | FUNC_TG => 1
  | FUNC_CTG => 1
  | _ => 0

/-- The number of items an entry pushes on the operand stack when it is executed without a
fault. -/
def pushes (e : RPNEntry) : Nat :=
  match e.type with
  | VAR => 1
  | ARRAY_BASE => 1
  | CONST => 1
  | OPERATION => if e.value = "=" then 0 else if e.value = "[]=" then 0 else 1
  | ARRAY_ACCESS => 1
  | FUNC_SIN => 1
  | FUNC_COS => 1
  | FUNC_TG => 1
  | FUNC_CTG => 1
  | _ => 0

/-- The name of the variable or of the array an entry writes to when it is executed on the
operand stack `stack` : the name beneath the value for `=`, beneath the value and the index
for `[]=`, on top for `IN`, beneath the index for `IN[]`; no other entry writes. -/
def writeTarget (e : RPNEntry) (stack : List StackItem) : Option String :=
  match e.type with
  | OPERATION =>
    if e.value = "=" then
      match stack with
      | _ :: .str name :: _ => some name
      | _ => none
    else if e.value = "[]=" then
      match stack with
      | _ :: _ :: .str name :: _ => some name
      | _ => none
    else none
  | INPUT =>
    if e.value = "IN" then
      match stack with
      | .str name :: _ => some name
      | _ => none
    else
      match stack with
      | _ :: .str name :: _ => some name
      | _ => none
  | _ => none

/-- Whether an entry assigns or inputs a scalar variable: `=` and `IN`. -/
def writesScalar (e : RPNEntry) : Bool :=
  (e.type = OPERATION && e.value = "=") || (e.type = INPUT && e.value = "IN")

/-- Whether an entry assigns or inputs an element of an array: `[]=` and `IN[]`. -/
def writesElement (e : RPNEntry) : Bool :=
  (e.type = OPERATION && e.value = "[]=") || (e.type = INPUT && e.value = "IN[]")

/-- The index an entry that writes an element of an array writes at, in state `s` : the
integer the item beneath the value stands for at `[]=`, the item on top at `IN[]`. -/
def writeIndex (e : RPNEntry) (s : RPNInterpreter) : Option Int :=
  match e.type with
  | OPERATION =>
    match s.m_operandStack with
    | _ :: idx :: _ => intValue s idx
    | _ => none
  | INPUT =>
    match s.m_operandStack with
    | idx :: _ => intValue s idx
    | _ => none
  | _ => none

/-- Executing `e` in state `s` assigns or inputs the scalar variable `name`. -/
def AssignsVar (e : RPNEntry) (s : RPNInterpreter) (name : String) : Prop :=
  writesScalar e = true ∧ writeTarget e s.m_operandStack = some name

/-- Executing `e` in state `s` assigns or inputs the element `i` of the array `name`. -/
def AssignsElem (e : RPNEntry) (s : RPNInterpreter) (name : String) (i : Int) : Prop :=
  writesElement e = true ∧ writeTarget e s.m_operandStack = some name ∧
    writeIndex e s = some i

/-- What an entry executed without a fault has done to the operand stack, the variables and
the arrays: `pops e` items are popped and `pushes e` items pushed, each an integer or, for
`VAR` and `ARRAY_BASE`, the name of the entry; the variables are as they were, or the entry
assigns a variable that existed and that variable has a new value; the arrays are as they
were, or the entry assigns an element within the bounds of an array that existed and that
element has a new value. -/
def Effect (e : RPNEntry) (s s1 : RPNInterpreter) : Prop :=
  (∃ pushed, pops e ≤ s.m_operandStack.length ∧
    s1.m_operandStack = pushed ++ s.m_operandStack.drop (pops e) ∧
    pushed.length = pushes e ∧
    ∀ x ∈ pushed, (∃ v, x = .int v) ∨
      ((e.type = VAR ∨ e.type = ARRAY_BASE) ∧ x = .str e.value)) ∧
  (s1.m_variables = s.m_variables ∨
    ∃ name v old, AssignsVar e s name ∧
      mapFind s.m_variables name = some old ∧
      s1.m_variables = mapSet s.m_variables name v) ∧
  (s1.m_arrays = s.m_arrays ∨
    ∃ name arr i v, AssignsElem e s name i ∧ 0 ≤ i ∧ i.toNat < arr.length ∧
      mapFind s.m_arrays name = some arr ∧
      s1.m_arrays = mapSet s.m_arrays name (arr.set i.toNat v))

/-- The text of a program that prints a variable it never assigns. -/
def sourceZero : List Byte := bytesOf "int a; begin output(a); end"

/-- The text of a program that prints an element of an array it never assigns. -/
def sourceZeroArr : List Byte := bytesOf "arr a[2]; begin a[0] = 5; output(a[1]); end"

/-- The program `generate` builds for `sourceZeroArr`. -/
def programZeroArr : Program :=
  ⟨[⟨ARRAY_BASE, "a", 1⟩, ⟨CONST, "0", 1⟩, ⟨CONST, "5", 1⟩, ⟨OPERATION, "[]=", 1⟩,
    ⟨ARRAY_BASE, "a", 1⟩, ⟨CONST, "1", 1⟩, ⟨ARRAY_ACCESS, "[]", 1⟩, ⟨OUTPUT, "OUT", 1⟩],
   [("a", ⟨SymbolClass.INT_ARRAY, IMAS_TOK, 2, 1, true⟩)], []⟩

instance (e : RPNEntry) (s : RPNInterpreter) (name : String) :
    Decidable (AssignsVar e s name) := by
  unfold AssignsVar
  infer_instance

instance (e : RPNEntry) (s : RPNInterpreter) (name : String) (i : Int) :
    Decidable (AssignsElem e s name i) := by
  unfold AssignsElem
  infer_instance

/-! ### Where the tokens lie in the source text -/

/-- The byte of the newline character. -/
def newline : Byte := 10

/-- The byte of the space character. -/
def space : Byte := 32

/-- A letter `a..z` or `A..Z`. -/
def isLetterByte (b : Byte) : Bool :=
  (65 ≤ b.val && b.val ≤ 90) || (97 ≤ b.val && b.val ≤ 122)

/-- A digit `0..9`. -/
def isDigitByte (b : Byte) : Bool := 48 ≤ b.val && b.val ≤ 57

/-- A letter or a digit: a character an identifier goes on with. -/
def isIdByte (b : Byte) : Bool := isLetterByte b || isDigitByte b

/-- The token code of each of the fifteen punctuation characters
`+ - * / = ~ < > ! ( ) [ ] ; $`. -/
def punctCode (b : Byte) : Option TokenCode :=
  if b.val = 43 then some PLUS_TOK
  else if b.val = 45 then some MINUS_TOK
  else if b.val = 61 then some EQ_TOK
  else if b.val = 42 then some STAR_TOK
  else if b.val = 47 then some SLASH_TOK
  else if b.val = 40 then some LPAREN_TOK
  else if b.val = 41 then some RPAREN_TOK
  else if b.val = 91 then some LBRACKET_TOK
  else if b.val = 93 then some RBRACKET_TOK
  else if b.val = 62 then some GT_TOK
  else if b.val = 60 then some LT_TOK
  else if b.val = 33 then some NOT_TOK
  else if b.val = 59 then some SEMICOLON_TOK
  else if b.val = 36 then some DOLLAR_TOK
  else if b.val = 126 then some EQ_COMPARE_TOK
  else none

/-- A space or a newline. -/
def isBlankByte (b : Byte) : Bool := b.val = 32 || b.val = 10

/-- A recognised character: a letter, a digit, a space, a newline or one of the fifteen
punctuation characters. -/
def isRecognised (b : Byte) : Bool :=
  isLetterByte b || isDigitByte b || isBlankByte b || (punctCode b).isSome

/-- A byte that starts no token and goes on no token: a space, a newline, or a byte that is
not recognised. -/
def isSkipped (b : Byte) : Bool := isBlankByte b || !isRecognised b

/-- The category `getNextToken` computes for a byte read from the stream. -/
def byteCat (b : Byte) : Nat := if b.val > 127 then CAT_OTHER else AsciiTable b.val

/-- The line of the byte at offset `q` of `source`, counted from 1 : one plus the number of
newline characters among the `q` bytes in front of it. -/
def lineAt (source : List Byte) (q : Nat) : Int :=
  1 + (((source.take q).count newline : Nat) : Int)

/-- The bytes of `source` from offset `q` up to offset `e`. -/
def slice (source : List Byte) (q e : Nat) : List Byte := (source.drop q).take (e - q)

/-- The text `lexeme` is the text of `source` from offset `q` up to offset `e`. -/
def LexemeAt (source : List Byte) (lexeme : String) (q e : Nat) : Prop :=
  q ≤ e ∧ e ≤ source.length ∧ lexeme.toList = (slice source q e).map byteChar

/-- Every byte of `source` from offset `a` up to offset `b` is skipped by the lexer. -/
def Skipped (source : List Byte) (a b : Nat) : Prop :=
  ∀ k c, a ≤ k → k < b → source[k]? = some c → isSkipped c = true

/-- The bytes of `source` from offset `q` up to offset `e` are a letter followed by letters
and digits. -/
def IdRun (source : List Byte) (q e : Nat) : Prop :=
  (∃ c, source[q]? = some c ∧ isLetterByte c = true) ∧
    ∀ k c, q ≤ k → k < e → source[k]? = some c → isIdByte c = true

/-- The bytes of `source` from offset `q` up to offset `e` are digits. -/
def DigitRun (source : List Byte) (q e : Nat) : Prop :=
  ∀ k c, q ≤ k → k < e → source[k]? = some c → isDigitByte c = true

/-- `TokAt source t q e` : the token `t` is the token of the text of `source` from offset
`q` up to offset `e`.  Its lexeme is that text, of at most 1023 characters; its line is the
line of the byte at offset `q`.  It is the token of one punctuation character; or the
keyword or identifier token of a letter followed by letters and digits, which ends in front
of a byte that is neither, at the end of `source`, or after 1023 characters; or the number
token of a run of digits, which ends in front of a byte that is no digit, at the end of
`source`, or after 1023 characters. -/
def TokAt (source : List Byte) (t : Token) (q e : Nat) : Prop :=
  q < e ∧ LexemeAt source t.lexeme q e ∧ t.line = lineAt source q ∧ e - q ≤ 1023 ∧
  ((e = q + 1 ∧ ∃ c, source[q]? = some c ∧ punctCode c = some t.code) ∨
   (t = finalize_identifier t.lexeme t.line ∧ IdRun source q e ∧
     (e - q = 1023 ∨ ∀ c, source[e]? = some c → isIdByte c = false)) ∨
   (t.code = NUM_TOK ∧ DigitRun source q e ∧
     (e - q = 1023 ∨ ∀ c, source[e]? = some c → isDigitByte c = false)))

/-- `LexedFrom source p ts pe` : from offset `p` on, `source` is made of the texts of the
tokens `ts`, in order, each after a stretch of skipped bytes, and then of skipped bytes up
to offset `pe`. -/
def LexedFrom (source : List Byte) : Nat → List Token → Nat → Prop
  | p, [], pe => p ≤ pe ∧ Skipped source p pe
  | p, t :: rest, pe =>
    ∃ q e, p ≤ q ∧ Skipped source p q ∧ TokAt source t q e ∧ LexedFrom source e rest pe

/-- Where the lexer reports the end of the input: at the end of `source`, or at a byte
above 127 (on a target whose `char` is signed the pushed back byte 255 reads as `EOF`). -/
def EndAt (source : List Byte) (pe : Nat) : Prop :=
  pe = source.length ∨ ∃ c, source[pe]? = some c ∧ 127 < c.val

/-- The characters `get_char` has still to deliver: the pushed back one, when there is one,
then the bytes of the stream. -/
def Lexer.remaining (lx : Lexer) : List Byte :=
  (if lx.char_buffer_valid then [lx.char_buffer] else []) ++ lx.input_stream

/-- The lexer stands at offset `p` of `source` : what it has still to read is `source` from
offset `p` on, and `current_line` is the line of that offset. -/
def AtPos (source : List Byte) (lx : Lexer) (p : Nat) : Prop :=
  p ≤ source.length ∧ lx.remaining = source.drop p ∧ lx.current_line = lineAt source p

/-- The invariant of the loop of `getNextToken` at offset `p`, in a call that started at
offset `start` : in `S_STATE` the lexeme is empty and every byte read so far was skipped; in
`A_STATE` and `B_STATE` nothing is pushed back, the bytes up to an offset `q` were skipped,
the lexeme is the text from `q` up to `p`, not empty, of at most 1023 characters, a letter
followed by letters and digits in `A_STATE` and a run of digits in `B_STATE`, and
`token_start_line` is the line of offset `q`. -/
def ScanAt (source : List Byte) (start : Nat) (lx : Lexer) (v : ScanVars) (p : Nat) : Prop :=
  AtPos source lx p ∧ start ≤ p ∧
  ((v.currentState = S_STATE ∧ v.current_lexeme = "" ∧ Skipped source start p) ∨
    ((v.currentState = A_STATE ∨ v.currentState = B_STATE) ∧
      lx.char_buffer_valid = false ∧
      ∃ q, start ≤ q ∧ q < p ∧ Skipped source start q ∧
        LexemeAt source v.current_lexeme q p ∧ v.token_start_line = lineAt source q ∧
        p - q ≤ 1023 ∧
        (v.currentState = A_STATE → IdRun source q p) ∧
        (v.currentState = B_STATE → DigitRun source q p)))

/-- What a call of `getNextToken` started at offset `start` returns: the sentinel, every
byte from `start` up to an offset `pe` where the input ends being skipped; or a token that
lies at an offset `q` behind skipped bytes, the lexer standing at its end. -/
def CallResult (source : List Byte) (start : Nat) (t : Token) (lx1 : Lexer) : Prop :=
  (t.code = EOF_TOK ∧ t.lexeme = "EOF" ∧
    ∃ pe, start ≤ pe ∧ Skipped source start pe ∧ EndAt source pe ∧ t.line = lineAt source pe) ∨
  (t.code ≠ EOF_TOK ∧
    ∃ q e, start ≤ q ∧ Skipped source start q ∧ TokAt source t q e ∧ AtPos source lx1 e)

/-- What one iteration of the loop of `getNextToken` at offset `p` gives: the invariant one
byte further, or the result of the call. -/
def BodyLines (source : List Byte) (start p : Nat) : ScanStep → Prop
  | .again lx1 v1 => ScanAt source start lx1 v1 (p + 1)
  | .ret t lx1 => CallResult source start t lx1

/-- The pairs of a state and a character category on which the table `lexTable` gives the
semantic action `a`. -/
def actionOK (a st cat : Nat) : Bool :=
  match a with
  | 1 => st = 0 && cat = 0
  | 2 => st = 0 && cat = 1
  | 3 => st = 0 && cat = 2
  | 4 => st = 0 && cat = 3
  | 5 => st = 0 && cat = 4
  | 6 => st = 0 && cat = 5
  | 7 => st = 0 && cat = 6
  | 8 => st = 0 && cat = 7
  | 9 => st = 0 && cat = 8
  | 10 => st = 0 && cat = 9
  | 11 => st = 0 && cat = 10
  | 12 => st = 0 && cat = 11
  | 13 => st = 0 && cat = 12
  | 14 => st = 0 && cat = 13
  | 15 => st = 0 && cat = 14
  | 16 => st = 0 && cat = 15
  | 18 => st = 0 && cat = 16
  | 19 => st = 0 && cat = 19
  | 20 => st = 0 && cat = 17
  | 21 => st = 1 && (cat = 0 || cat = 1)
  | 22 => st = 1 && cat ≠ 0 && cat ≠ 1 && cat ≠ 19
  | 24 => (st = 1 && cat = 19) || (st = 2 && (cat = 19 || cat = 0))
  | 27 => st = 2 && cat = 1
  | 28 => st = 2 && cat ≠ 0 && cat ≠ 1 && cat ≠ 19
  | 30 => st = 0 && cat = 18
  | _ => false

/-- A source text of five lines. -/
def sourceLines : List Byte := bytesOf "int a;\nbegin\n\n  a = 12;\nend"

/-- What `get_char` has done when it has read the byte `c` at offset `p` : the lexer `lx1`
it leaves has nothing pushed back, has the bytes behind offset `p` still to read, and its
`current_line` is still the line of offset `p`. -/
def ReadAt (source : List Byte) (p : Nat) (lx1 : Lexer) (c : Byte) : Prop :=
  source[p]? = some c ∧ p < source.length ∧ lx1.char_buffer_valid = false ∧
    lx1.input_stream = source.drop (p + 1) ∧ lx1.current_line = lineAt source p

/-- The lexemes of the tokens `ts`, written one after the other. -/
def lexemesText : List Token → List Char
  | [] => []
  | t :: ts => t.lexeme.toList ++ lexemesText ts

/-- A source text that is made of recognised characters only. -/
def sourceWords : List Byte := bytesOf "int a1;\nbegin a1 = 12 + a1; end"

/-- A word of 1024 letters `a`. -/
def wordLong : List Byte := List.replicate 1024 97

/-- The digit `1` followed by the 1024 letters of `wordLong`. -/
def sourceLong : List Byte := 49 :: wordLong

/-! ### Tokens the parser never accepts -/

/-- The token at index `k` is not an `else`. -/
def NotElse (tokens : List Token) (k : Nat) : Prop :=
  ∀ t, tokens[k]? = some t → t.code ≠ ELSE_TOK

/-- A program with a `)` where the `;` of the first statement should be; the `;` stands on
the next line. -/
def sourceSlip : List Byte := bytesOf "begin\n  output(1) )\n;\nend"

/-- A program with a `;` where a factor should start, on the line after the `(`. -/
def sourceFactor : List Byte := bytesOf "begin\n  output(\n;\nend"
/-! ### Characters the lexer does not know -/

/-- A character of the category `CAT_OTHER` that `get_char` never gives as `EOF` : an ASCII
character that is no letter, digit, space, newline or punctuation character of the language,
or a byte above 127, the byte 255 apart when plain `char` is signed (pushed back behind an
identifier or a number, that byte comes back from `char_buffer` as -1, the value of `EOF`). -/
def isOtherByte (char_is_signed : Bool) (b : Byte) : Bool :=
  decide (byteCat b = CAT_OTHER) && !(char_is_signed && decide (b.val = 255))

/-- The byte `b1` is the byte `b`, or it is a space put in the place of a character `b` of
the category `CAT_OTHER`. -/
def simByte (char_is_signed : Bool) (b b1 : Byte) : Prop :=
  b1 = b ∨ (isOtherByte char_is_signed b = true ∧ b1 = space)

/-- The lexer `lx1` is the lexer `lx` but for its characters still to be read, which are those
of `lx` with spaces in the place of some characters of the category `CAT_OTHER`. -/
def simLexer (lx lx1 : Lexer) : Prop :=
  lx1.current_line = lx.current_line ∧ lx1.char_is_signed = lx.char_is_signed ∧
  lx1.char_buffer_valid = lx.char_buffer_valid ∧
  (lx.char_buffer_valid = true → simByte lx.char_is_signed lx.char_buffer lx1.char_buffer) ∧
  List.Forall₂ (simByte lx.char_is_signed) lx.input_stream lx1.input_stream

/-- Two iterations of the loop of `getNextToken` do the same: both go round again with the
same local variables, or both return the same token. -/
def simStep : ScanStep → ScanStep → Prop
  | .again lx v, .again lx1 v1 => simLexer lx lx1 ∧ v1 = v
  | .ret t lx, .ret t1 lx1 => simLexer lx lx1 ∧ t1 = t
  | _, _ => False

/-- Two calls of `getNextToken` do the same: both return the same token. -/
def simResult : Option (Token × Lexer) → Option (Token × Lexer) → Prop
  | some (t, lx), some (t1, lx1) => simLexer lx lx1 ∧ t1 = t
  | none, none => True
  | _, _ => False

/-- A source text with the invalid characters `@` and `#`. -/
def sourceOther : List Byte := bytesOf "ab@c 1#2"

/-- A program with the byte 200, which is not ASCII, directly behind a number. -/
def sourceByte200 : List Byte := bytesOf "begin output(1" ++ [200] ++ bytesOf "); end"

/-- A program with the byte 255 directly behind a number. -/
def sourceByte255 : List Byte := bytesOf "begin output(1" ++ [255] ++ bytesOf "); end"

/-! ### The kinds of the operands -/

/-- What is known of an item of the operand stack: it is an integer, the name of a scalar
variable of the interpreter, or the name of an array of the interpreter. -/
inductive Kind
  | int
  | scalar
  | array
  deriving DecidableEq, Repr

/-- An item of this kind resolves to an integer: an integer, or the name of a scalar. -/
def Kind.isValue : Kind → Bool
  | .array => false
  | _ => true

/-- The eight operators of `binaryResult`. -/
def isBinaryOp (op : String) : Bool :=
  op = "+" || op = "-" || op = "*" || op = "/" || op = "~" || op = ">" || op = "<" || op = "!"

/-- What the execution of the entry `e` makes of the kinds `ks` known of the top items of
the operand stack (top first); `none` when the operands `e` pops are not known to be of the
kinds it needs.  At a label and behind a jump nothing is taken as known. -/
def kindStep (e : RPNEntry) (ks : List Kind) : Option (List Kind) :=
  match e.type with
  | VAR => some (.scalar :: ks)
  | ARRAY_BASE => some (.array :: ks)
  | CONST => some (.int :: ks)
  | OPERATION =>
    if e.value = "=" then
      match ks with
      | v :: .scalar :: rest => if v.isValue then some rest else none
      | _ => none
    else if e.value = "[]=" then
      match ks with
      | v :: i :: .array :: rest => if v.isValue && i.isValue then some rest else none
      | _ => none
    else
      match ks with
      | b :: a :: rest => if b.isValue && a.isValue then some (.int :: rest) else none
      | _ => none
  | LABEL_DEF => some []
  | JUMP => some []
  | JUMP_FALSE =>
    match ks with
    | v :: _ => if v.isValue then some [] else none
    | _ => none
  | ARRAY_ACCESS =>
    match ks with
    | i :: .array :: rest => if i.isValue then some (.int :: rest) else none
    | _ => none
  | INPUT =>
    if e.value = "IN" then
      match ks with
      | .scalar :: rest => some rest
      | _ => none
    else if e.value = "IN[]" then
      match ks with
      | i :: .array :: rest => if i.isValue then some rest else none
      | _ => none
    else none
  | OUTPUT =>
    match ks with
    | v :: rest => if v.isValue then some rest else none
    | _ => none
  | FUNC_SIN | FUNC_COS | FUNC_TG | FUNC_CTG =>
    match ks with
    | v :: rest => if v.isValue then some (.int :: rest) else none
    | _ => none
  | ARRAY_ASSIGN => none

/-- The kinds known behind a stretch of code, from the kinds `ks` known in front of it;
`none` when an entry of the stretch does not find its operands. -/
def kindsRun : List Kind → List RPNEntry → Option (List Kind)
  | ks, [] => some ks
  | ks, e :: rest =>
    match kindStep e ks with
    | some ks1 => kindsRun ks1 rest
    | none => none

/-- The item `x` of the operand stack is of the kind `k` in the state `s` : an integer; a
name under which `m_variables` holds a value; a name under which `m_arrays` holds an
array. -/
def itemOK (s : RPNInterpreter) : Kind → StackItem → Prop
  | .int, .int _ => True
  | .scalar, .str name => (mapFind s.m_variables name).isSome = true
  | .array, .str name => (mapFind s.m_arrays name).isSome = true
  | _, _ => False

/-- The invariant of a run of generated code: the top items of the operand stack are of
kinds `ks` from which the code in front of the program counter finds all its operands.
(What lies below them is not looked at.) -/
def Typed (p : Program) (s : RPNInterpreter) : Prop :=
  ∃ ks top below, s.m_operandStack = top ++ below ∧ List.Forall₂ (itemOK s) ks top ∧
    (kindsRun ks (p.m_rpn.drop s.m_pc)).isSome = true

/-- Every name a `VAR` entry pushes is the name of a scalar of the state, and every name an
`ARRAY_BASE` entry pushes is the name of an array of the state. -/
def NamesOK (p : Program) (s : RPNInterpreter) : Prop :=
  ∀ e ∈ p.m_rpn, (e.type = VAR → (mapFind s.m_variables e.value).isSome = true) ∧
    (e.type = ARRAY_BASE → (mapFind s.m_arrays e.value).isSome = true)

/-- What the interpreter needs of a program: every entry finds its operands, every jump names
a label of the label map, and every index of the label map is the index of a `LABEL_DEF`
entry. -/
def ProgramOK (p : Program) : Prop :=
  (kindsRun [] p.m_rpn).isSome = true ∧
  (∀ e ∈ p.m_rpn, e.type = JUMP ∨ e.type = JUMP_FALSE →
    (mapFind p.m_labelMap e.value).isSome = true) ∧
  LabelMapSound p.m_rpn p.m_labelMap

/-- The two faults of an entry whose text is not what the interpreter knows: a `CONST`
entry whose text does not start with a digit, and an `OPERATION` entry, other than `=` and
`[]=`, whose text is none of the eight operators of `binaryResult`. -/
def entryFault (e : RPNEntry) (f : Fault) : Prop :=
  (f = .constantInvalid ∧ e.type = CONST ∧ stoi e.value = .error .invalid_argument) ∨
  (f = .unknownOperator ∧ e.type = OPERATION ∧ e.value ≠ "=" ∧ e.value ≠ "[]=" ∧
    isBinaryOp e.value = false)

/-- The faults of a run that the input of the program decides: division by zero, an index
out of bounds, a literal out of the range of `int`, a malformed input, the cotangent where
the tangent is zero. -/
def dataFault (f : Fault) : Bool :=
  f = .divisionByZero || f = .indexOutOfBounds || f = .constantOutOfRange ||
    f = .invalidInput || f = .ctgUndefined

/-- The faults of a run that the values computed decide: those of `dataFault`, and the
quotient `INT_MIN / -1`, which is not an `int`. -/
def runFault (f : Fault) : Bool := dataFault f || f = .divisionOverflow

/-- The names of the four functions. -/
def functionNames : List String := ["sin", "cos", "tg", "ctg"]

/-- The lexeme of every `NUM_TOK` token is a text of decimal digits, not empty (as that of
every `NUM_TOK` token of the lexer is). -/
def DigitLiterals (tokens : List Token) : Prop :=
  ∀ t ∈ tokens, t.code = NUM_TOK →
    t.lexeme.toList ≠ [] ∧ ∀ c ∈ t.lexeme.toList, isdigit c = true

/-- The kinds the code of a method of the expression grammar leaves: `G`, `T` and `F` put
the kind of a value on top of the kinds in front of them; the tails `U'` and `V'` find the
kind of a value on top and leave the kind of a value in its place. -/
def exprKinds (X : NT) (code : List RPNEntry) : Prop :=
  match X with
  | .U_prime | .V_prime =>
    ∀ ks v, v.isValue = true → ∃ v1, v1.isValue = true ∧ kindsRun (v :: ks) code = some (v1 :: ks)
  | _ => ∀ ks, ∃ v, v.isValue = true ∧ kindsRun ks code = some (v :: ks)

/-- Every name under which the state `s` holds a variable or an array is such a name of the
state `s1`. -/
def KeepsNames (s s1 : RPNInterpreter) : Prop :=
  (∀ name, (mapFind s.m_variables name).isSome = true →
    (mapFind s1.m_variables name).isSome = true) ∧
  (∀ name, (mapFind s.m_arrays name).isSome = true →
    (mapFind s1.m_arrays name).isSome = true)

/-- The text of a `CONST` entry is the lexeme of a `NUM_TOK` token of the token vector. -/
def LiteralOf (tokens : List Token) (e : RPNEntry) : Prop :=
  e.type = CONST → ∃ t ∈ tokens, t.code = NUM_TOK ∧ e.value = t.lexeme

/-- The text of an `OPERATION` entry is `=`, `[]=`, one of the four relational operators,
or the lexeme of a token whose code is that of an arithmetic operator. -/
def OperatorOf (tokens : List Token) (e : RPNEntry) : Prop :=
  e.type = OPERATION →
    e.value = "=" ∨ e.value = "[]=" ∨ isBinaryOp e.value = true ∨
    ∃ t ∈ tokens, (t.code = PLUS_TOK ∨ t.code = MINUS_TOK ∨ t.code = STAR_TOK ∨
      t.code = SLASH_TOK) ∧ e.value = t.lexeme

/-- A program whose run ends with a division by zero. -/
def sourceDivZero : List Byte := bytesOf "begin output(7 / 0); end"

/-- A program in which the name of a function stands where an operator may stand. -/
def sourceOperatorName : List Byte := bytesOf "begin output(1 sin 2); end"

/-- A program that divides `INT_MIN` by -1. -/
def sourceOverflow : List Byte := bytesOf "begin output((0 - 2147483647 - 1) / (0 - 1)); end"

/-! ## Arithmetic expressions

The expressions of claim C32: numeric literals, parentheses and the operators `+ - * /`.
An expression is given as a tree; `Expr.wf` says that the tree is the one the grammar
`G → T U'`, `U' → + T U' | - T U' | λ`, `T → F V'`, `V' → * F V' | / F V' | λ`,
`F → ( G ) | k` reads in the tokens `render` writes, `*` and `/` binding tighter than `+` and
`-` and all four associating to the left. -/

/-- The four arithmetic operators. -/
inductive ArithOp
  | add
  | sub
  | mul
  | div
  deriving DecidableEq, Repr

/-- The token code of an operator. -/
def ArithOp.code : ArithOp → TokenCode
  | .add => PLUS_TOK
  | .sub => MINUS_TOK
  | .mul => STAR_TOK
  | .div => SLASH_TOK

/-- The value is in the range of `int`. -/
def fitsInt (v : Int) : Bool := decide (INT_MIN ≤ v) && decide (v ≤ INT_MAX)

/-- The value of an operator on two integers: the sum, difference or product, or the quotient
truncated toward zero; none when the divisor is zero or the value is out of the range of
`int`. -/
def ArithOp.apply (op : ArithOp) (a b : Int) : Option Int :=
  match op with
  | .add => if fitsInt (a + b) then some (a + b) else none
  | .sub => if fitsInt (a - b) then some (a - b) else none
  | .mul => if fitsInt (a * b) then some (a * b) else none
  | .div => if b = 0 then none else if fitsInt (Int.tdiv a b) then some (Int.tdiv a b) else none

theorem mapFind_mem {α : Type} (m : List (String × α)) (k : String) (v : α)
    (h : mapFind m k = some v) : (k, v) ∈ m := by
  induction m with
  | nil => simp [mapFind] at h
  | cons e rest ih =>
    obtain ⟨k1, v1⟩ := e
    simp only [mapFind] at h
    split_ifs at h with hk
    · simp only [Option.some.injEq] at h
      subst hk; subst h
      exact List.mem_cons_self _ _
    · exact List.mem_cons_of_mem _ (ih h)

theorem keywords_ne_EOF (s : String) : keywords s ≠ some EOF_TOK := by
  intro h
  have := mapFind_mem _ _ _ h
  simp [keywordTable] at this

theorem finalize_identifier_code (s : String) (l : Int) :
    (finalize_identifier s l).code ≠ EOF_TOK := by
  unfold finalize_identifier
  have := keywords_ne_EOF s
  cases h : keywords s with
  | none => simp
  | some c =>
    simp only
    intro h2
    exact this (by rw [h, h2])

theorem get_char_spec (lx : Lexer) :
    (get_char lx).2.char_buffer_valid = false ∧
    (get_char lx).2.pending ≤ lx.pending ∧
    ((get_char lx).1 ≠ EOF → (get_char lx).2.pending + 1 = lx.pending) := by
  unfold get_char
  by_cases hv : lx.char_buffer_valid = true
  · simp [hv, Lexer.pending]
  · cases hin : lx.input_stream with
    | nil => simp [hv, hin, Lexer.pending]
    | cons b rest =>
      simp only [Bool.not_eq_true] at hv
      simp [hv, hin, Lexer.pending]

theorem unget_char_pending (lx : Lexer) (c : Byte) (h : lx.char_buffer_valid = false) :
    (unget_char lx c).pending = lx.pending + 1 := by
  simp [unget_char, Lexer.pending, h]

theorem lexTable_S_actions (cat : Nat) :
    lexTable S_STATE cat ≠ 21 ∧ lexTable S_STATE cat ≠ 22 ∧ lexTable S_STATE cat ≠ 24 ∧
    lexTable S_STATE cat ≠ 27 ∧ lexTable S_STATE cat ≠ 28 := by
  simp only [lexTable, if_true]
  unfold lexTable_S
  split <;> decide

theorem getNextToken_body_spec (lx0 : Lexer) (v : ScanVars) :
    BodyProgress lx0 v (getNextToken_body lx0 v) := by
  obtain ⟨h1, h2, h3⟩ := get_char_spec lx0
  obtain ⟨lexeme, st, line⟩ := v
  unfold getNextToken_body
  generalize get_char lx0 = p at h1 h2 h3
  obtain ⟨ch, lx⟩ := p
  simp only at h1 h2 h3 ⊢
  have hu : ∀ c, (unget_char lx c).pending = lx.pending + 1 := fun c => unget_char_pending lx c h1
  by_cases he : ch = EOF
  · simp only [he, if_true]
    split_ifs <;> simp_all [finalize_number, A_STATE, B_STATE, S_STATE, BodyProgress]
  · have h4 := h3 he
    have hS := lexTable_S_actions (if ch < 0 ∨ ch > 127 then CAT_OTHER else AsciiTable ch.toNat)
    simp only [he, if_false]
    split
    all_goals first
      | (simp only [BodyProgress]; omega)
      | (simp only [BodyProgress, Lexer.pending] at h4 ⊢; omega)
      | (obtain ⟨g1, g2, g3, g4, g5⟩ := hS
         split_ifs <;> simp only [BodyProgress, hu] <;> first
          | omega
          | (refine ⟨by omega, fun hs => ?_⟩; subst hs; contradiction))
      | (obtain ⟨g1, g2, g3, g4, g5⟩ := hS
         simp only [BodyProgress, hu]; refine ⟨by omega, fun hs => ?_⟩; subst hs
         contradiction)

theorem getNextToken_loop_spec (fuel : Nat) : ∀ (lx : Lexer) (v : ScanVars),
    lx.pending < fuel →
    ∃ t lx1, getNextToken_loop fuel lx v = some (t, lx1) ∧ lx1.pending ≤ lx.pending ∧
      (v.currentState = S_STATE → t.code ≠ EOF_TOK → lx1.pending < lx.pending) := by
  induction fuel with
  | zero => intro lx v h; omega
  | succ n ih =>
    intro lx v h
    have hb := getNextToken_body_spec lx v
    unfold getNextToken_loop
    cases hr : getNextToken_body lx v with
    | ret t lx1 =>
      rw [hr] at hb
      exact ⟨t, lx1, rfl, hb.1, hb.2⟩
    | again lx1 v1 =>
      rw [hr] at hb
      simp only [BodyProgress] at hb
      obtain ⟨t, lx2, e1, e2, _⟩ := ih lx1 v1 (by omega)
      exact ⟨t, lx2, e1, by omega, fun _ _ => by omega⟩

/-- Every call of `getNextToken` returns, and a call that returns a token other than
`EOF_TOK` has consumed at least one character net of pushback. -/
theorem getNextToken_total (lx : Lexer) :
    ∃ t lx1, getNextToken lx = some (t, lx1) ∧ lx1.pending ≤ lx.pending ∧
      (t.code ≠ EOF_TOK → lx1.pending < lx.pending) := by
  obtain ⟨t, lx1, e1, e2, e3⟩ :=
    getNextToken_loop_spec (lx.pending + 1) lx ⟨"", S_STATE, lx.current_line⟩ (by omega)
  exact ⟨t, lx1, e1, e2, e3 rfl⟩

theorem tokensBeforeEOF_spec (n : Nat) : ∀ lx : Lexer, lx.pending ≤ n →
    ∃ ts lx1 e lx2, tokensBeforeEOF n lx = some (ts, lx1) ∧ ts.length ≤ lx.pending ∧
      (∀ t ∈ ts, t.code ≠ EOF_TOK) ∧
      getNextToken lx1 = some (e, lx2) ∧ e.code = EOF_TOK := by
  induction n with
  | zero =>
    intro lx h
    obtain ⟨t, lx1, e1, e2, e3⟩ := getNextToken_total lx
    by_cases ht : t.code = EOF_TOK
    · refine ⟨[], lx, t, lx1, ?_, by simp, by simp, e1, ht⟩
      unfold tokensBeforeEOF
      simp [e1, ht]
    · have := e3 ht
      omega
  | succ m ih =>
    intro lx h
    obtain ⟨t, lx1, e1, e2, e3⟩ := getNextToken_total lx
    by_cases ht : t.code = EOF_TOK
    · refine ⟨[], lx, t, lx1, ?_, by simp, by simp, e1, ht⟩
      unfold tokensBeforeEOF
      simp [e1, ht]
    · have h3 := e3 ht
      obtain ⟨ts, lx2, e, lx3, f1, f2, f3, f4, f5⟩ := ih lx1 (by omega)
      refine ⟨t :: ts, lx2, e, lx3, ?_, by simp only [List.length_cons]; omega, ?_, f4, f5⟩
      · unfold tokensBeforeEOF
        simp [e1, ht, f1]
      · intro t1 h1
        rcases List.mem_cons.mp h1 with h | h
        · rw [h]; exact ht
        · exact f3 t1 h

/-- C10 (lexer totality).  Every call of `getNextToken`, in whatever state the lexer is,
returns a token, and unless that token is the sentinel `EOF_TOK` the call has consumed at
least one character net of pushback.  Hence on a byte sequence of length `n` the repeated
calls return at most `n` tokens other than the sentinel and then the sentinel. -/
theorem lexer_totality (char_is_signed : Bool) (input : List Byte) (lx : Lexer) :
    (∃ t lx1, getNextToken lx = some (t, lx1) ∧
      (t.code ≠ EOF_TOK → lx1.pending < lx.pending)) ∧
    (∃ ts lx1 e lx2,
      tokensBeforeEOF input.length (Lexer.init char_is_signed input) = some (ts, lx1) ∧
      ts.length ≤ input.length ∧ (∀ t ∈ ts, t.code ≠ EOF_TOK) ∧
      getNextToken lx1 = some (e, lx2) ∧ e.code = EOF_TOK) := by
  constructor
  · obtain ⟨t, lx1, e1, _, e3⟩ := getNextToken_total lx
    exact ⟨t, lx1, e1, e3⟩
  · have hp : (Lexer.init char_is_signed input).pending = input.length := by
      simp [Lexer.init, Lexer.pending]
    obtain ⟨ts, lx1, e, lx2, f1, f2, f3, f4, f5⟩ :=
      tokensBeforeEOF_spec input.length (Lexer.init char_is_signed input) (by omega)
    exact ⟨ts, lx1, e, lx2, f1, by omega, f3, f4, f5⟩

/-! ## Evaluation of whole programs -/

theorem execEntry_congr (fns fns1 : MathFns) (p : Program) (entry : RPNEntry)
    (h : isFunc entry.type = false) : execEntry fns p entry = execEntry fns1 p entry := by
  unfold execEntry
  cases ht : entry.type <;> simp_all [isFunc]

theorem step_congr (fns fns1 : MathFns) (p : Program)
    (h : ∀ e ∈ p.m_rpn, isFunc e.type = false) (s : RPNInterpreter) :
    step fns p s = step fns1 p s := by
  unfold step
  cases he : p.m_rpn[s.m_pc]? with
  | none => rfl
  | some entry =>
    simp only
    rw [execEntry_congr fns fns1 p entry (h entry (List.getElem?_mem he))]

theorem run_loop_congr (fns fns1 : MathFns) (p : Program)
    (h : ∀ e ∈ p.m_rpn, isFunc e.type = false) (n : Nat) :
    ∀ s, run_loop fns p n s = run_loop fns1 p n s := by
  induction n with
  | zero => intro s; rfl
  | succ m ih =>
    intro s
    simp only [run_loop, step_congr fns fns1 p h s]
    cases step fns1 p s with
    | halted => rfl
    | failed e s1 => rfl
    | next s1 => exact ih s1

/-- More fuel does not change the result of a run that ended. -/
theorem run_loop_mono (fns : MathFns) (p : Program) (n k : Nat) :
    ∀ s, (∀ s1, run_loop fns p n s ≠ .outOfFuel s1) →
      run_loop fns p (n + k) s = run_loop fns p n s := by
  induction n with
  | zero => intro s h; exact absurd rfl (h s)
  | succ m ih =>
    intro s h
    have e : m + 1 + k = (m + k) + 1 := by omega
    rw [e]
    simp only [run_loop] at h ⊢
    cases hs : step fns p s with
    | halted => rfl
    | failed e s1 => rfl
    | next s1 =>
      rw [hs] at h
      exact ih s1 h

/-- A program that makes no function call runs the same with every `<cmath>`, and a run
that ended within `n` iterations is the run with any larger bound. -/
theorem main_eq_of (char_is_signed : Bool) (fns : MathFns) (source : List Byte)
    (input : List Int) (n k : Nat) (r : MainResult)
    (h1 : callsMath char_is_signed source = false)
    (h2 : main char_is_signed noMath source input n = some r) :
    main char_is_signed fns source input (n + k) = some r := by
  unfold main at h2 ⊢
  unfold callsMath at h1
  cases ht : tokenLoop (source.length + 1) (Lexer.init char_is_signed source) [] with
  | outOfFuel => rw [ht] at h2; exact h2
  | exit1 => rw [ht] at h2; exact h2
  | tokens tokens =>
    rw [ht] at h1 h2
    simp only at h1 h2 ⊢
    by_cases hl : tokens.length = 1
    · simpa [hl] using h2
    · simp only [hl, if_false] at h2 ⊢
      cases hg : generate tokens with
      | error e => rw [hg] at h2; exact h2
      | ok g =>
        rw [hg] at h1 h2
        simp only at h1 h2 ⊢
        cases hi : RPNInterpreter.init g.m_rpn g.m_symbolTable input with
        | none => rw [hi] at h2; exact h2
        | some ps =>
          obtain ⟨p, s⟩ := ps
          rw [hi] at h2
          simp only at h2 ⊢
          have hp : p.m_rpn = g.m_rpn := by
            unfold RPNInterpreter.init at hi
            cases hb : buildLabelMap g.m_rpn 0 [] with
            | none => rw [hb] at hi; cases hi
            | some labels =>
              rw [hb] at hi
              simp only [Option.some.injEq, Prod.mk.injEq] at hi
              rw [← hi.1]
          have hf : ∀ e ∈ p.m_rpn, isFunc e.type = false := by
            intro e he
            rw [hp] at he
            have := List.any_eq_false.mp h1 e he
            simpa using this
          unfold run at h2 ⊢
          have hc := run_loop_congr fns noMath p hf
          rw [hc]
          have hm := run_loop_mono noMath p n k { s with m_pc := 0, m_operandStack := [] }
          cases hr : run_loop noMath p n { s with m_pc := 0, m_operandStack := [] } with
          | outOfFuel s1 => rw [hr] at h2; cases h2
          | failed e s1 =>
            rw [hr] at h2 hm
            rw [hm (fun s1 h => by cases h)]
            exact h2
          | finished s1 =>
            rw [hr] at h2 hm
            rw [hm (fun s1 h => by cases h)]
            exact h2

/-- C1 (scenario S1).  The source `int a; begin a = 2 + 3 * 4; output(a); end`, run with
an empty input, passes the lexer and the parser, and the interpreter ends normally (exit
code 0) in ten iterations of its loop, having written exactly the value 14. -/
theorem scenario_S1 (char_is_signed : Bool) (fns : MathFns) (extra : Nat) :
    main char_is_signed fns (bytesOf "int a; begin a = 2 + 3 * 4; output(a); end") []
        (10 + extra)
      = some ⟨.success, 0, [14], [], [("a", 14)], [], []⟩ := by
  cases char_is_signed <;> exact main_eq_of _ _ _ _ _ _ _ (by decide!) (by decide!)

/-- C2 (scenario S3).  The `while` loop that sums 0..4 ends normally (exit code 0) after 95
iterations of the interpreter loop, having written exactly the value 10. -/
theorem scenario_S3 (char_is_signed : Bool) (fns : MathFns) (extra : Nat) :
    main char_is_signed fns
        (bytesOf ("int i; int s; begin i = 0; s = 0; while (i < 5) begin s = s + i; " ++
          "i = i + 1; end ; output(s); end")) [] (95 + extra)
      = some ⟨.success, 0, [10], [], [("s", 10), ("i", 5)], [], []⟩ := by
  cases char_is_signed <;> exact main_eq_of _ _ _ _ _ _ _ (by decide!) (by decide!)

/-- C3 (scenario S2), what the code does: the source with `end else begin` is rejected by
the parser.  `parse_A` tests for `ELSE_TOK` while the current token is still `end`, takes the
branch without `else`, and `expect(SEMICOLON_TOK)` then meets `else` : `generate` throws the
syntax error "after 'if' statement", the exit code is 1 and nothing is written. -/
theorem scenario_S2_rejected (char_is_signed : Bool) (fns : MathFns) (fuel : Nat) :
    main char_is_signed fns
        (bytesOf ("int a; int b; begin a = 5; b = 0; if (a > 3) begin b = 1; end " ++
          "else begin b = 2; end ; output(b); end")) [] fuel
      = some ⟨.generator (.syntaxError 1 "after 'if' statement"), 1, [], [], [], [], []⟩ := by
  have h := fun b (hb : b = char_is_signed) => main_eq_of b fns
    (bytesOf ("int a; int b; begin a = 5; b = 0; if (a > 3) begin b = 1; end " ++
          "else begin b = 2; end ; output(b); end")) [] 0 fuel
    ⟨.generator (.syntaxError 1 "after 'if' statement"), 1, [], [], [], [], []⟩
  rw [Nat.zero_add] at h
  cases char_is_signed
  · exact h false rfl (by decide!) (by decide!)
  · exact h true rfl (by decide!) (by decide!)

/-- C4 (scenario S4).  With the integers 7, 2, 11 typed on the console the program fills
the array `x` with them and ends normally having written exactly the value 20; it reads
exactly three integers: a fourth one is left unread. -/
theorem scenario_S4 (char_is_signed : Bool) (fns : MathFns) (extra : Nat) :
    main char_is_signed fns
        (bytesOf ("arr x[3]; int i; begin i = 0; while (i < 3) begin input(x[i]); " ++
          "i = i + 1; end ; output(x[0] + x[1] + x[2]); end")) [7, 2, 11] (64 + extra)
      = some ⟨.success, 0, [20], [], [("i", 3)], [("x", [7, 2, 11])], []⟩ ∧
    main char_is_signed fns
        (bytesOf ("arr x[3]; int i; begin i = 0; while (i < 3) begin input(x[i]); " ++
          "i = i + 1; end ; output(x[0] + x[1] + x[2]); end")) [7, 2, 11, 5] (64 + extra)
      = some ⟨.success, 0, [20], [5], [("i", 3)], [("x", [7, 2, 11])], []⟩ := by
  cases char_is_signed <;>
    exact ⟨main_eq_of _ _ _ _ _ _ _ (by decide!) (by decide!),
           main_eq_of _ _ _ _ _ _ _ (by decide!) (by decide!)⟩

/-- The relational operators on two integer operands: `a` below `b`, both popped, and 1
or 0 pushed. -/
theorem handle_operation_rel (l : Int) (a b : Int) (rest : List StackItem)
    (s : RPNInterpreter) :
    handle_operation ⟨OPERATION, "~", l⟩ { s with m_operandStack := .int b :: .int a :: rest }
      = .ok () { s with m_operandStack := .int (if a = b then 1 else 0) :: rest } ∧
    handle_operation ⟨OPERATION, "!", l⟩ { s with m_operandStack := .int b :: .int a :: rest }
      = .ok () { s with m_operandStack := .int (if a ≠ b then 1 else 0) :: rest } := by
  constructor <;> rfl

/-- C5 (scenario S5).  The program ends normally having written exactly the values 1 and
then 2; and on two integers `~` pushes 1 when they are equal and 0 otherwise, `!` pushes 1
when they differ and 0 otherwise. -/
theorem scenario_S5 (char_is_signed : Bool) (fns : MathFns) (extra : Nat)
    (l a b : Int) (rest : List StackItem) (s : RPNInterpreter) :
    main char_is_signed fns
        (bytesOf ("int a; begin a = 3; if (a ~ 3) begin output(1); end ; " ++
          "if (a ! 4) begin output(2); end ; end")) [] (18 + extra)
      = some ⟨.success, 0, [1, 2], [], [("a", 3)], [], []⟩ ∧
    handle_operation ⟨OPERATION, "~", l⟩ { s with m_operandStack := .int b :: .int a :: rest }
      = .ok () { s with m_operandStack := .int (if a = b then 1 else 0) :: rest } ∧
    handle_operation ⟨OPERATION, "!", l⟩ { s with m_operandStack := .int b :: .int a :: rest }
      = .ok () { s with m_operandStack := .int (if a ≠ b then 1 else 0) :: rest } := by
  refine ⟨?_, handle_operation_rel l a b rest s⟩
  cases char_is_signed <;> exact main_eq_of _ _ _ _ _ _ _ (by decide!) (by decide!)

/-- C6 (scenario S6).  The source `arr q[2]; begin q[2] = 1; end` passes the lexer and the
parser; the interpreter throws at the entry `[]=` (index 3 of the postfix stream) the fault
"Array index out of bounds", reported with source line 1, the line of the statement; the
exit code is 1, nothing is written, and both elements of `q` still hold 0. -/
theorem scenario_S6 (char_is_signed : Bool) (fns : MathFns) (extra : Nat) :
    main char_is_signed fns (bytesOf "arr q[2]; begin q[2] = 1; end") [] (4 + extra)
      = some ⟨.runtime ⟨1, 3, .indexOutOfBounds⟩, 1, [], [], [], [("q", [0, 0])], []⟩ := by
  cases char_is_signed <;> exact main_eq_of _ _ _ _ _ _ _ (by decide!) (by decide!)

/-! ## The generator: what a successful call has done -/

theorem tokenAt_of_getElem {tokens : List Token} {i : Nat} {t : Token}
    (h : tokens[i]? = some t) : tokenAt tokens i = some t := by
  simp [tokenAt, h]

theorem currentToken_ok {g : RPNGenerator} {t : Token} (h : currentToken g = .ok t) :
    tokenAt g.m_tokens g.m_currentIndex = some t := by
  unfold currentToken at h
  unfold tokenAt
  cases h1 : g.m_tokens[g.m_currentIndex]? with
  | some t1 => rw [h1] at h; simp only [Except.ok.injEq] at h; rw [h]
  | none =>
    rw [h1] at h
    simp only at h ⊢
    cases h2 : g.m_tokens.getLast? with
    | none => rw [h2] at h; cases h
    | some t2 =>
      rw [h2] at h
      simp only at h ⊢
      split_ifs at h ⊢ with h3
      simp only [Except.ok.injEq] at h
      rw [h]

theorem consumeToken_ok {g g1 : RPNGenerator} {t : Token}
    (h : consumeToken g = .ok (t, g1)) :
    g.m_tokens[g.m_currentIndex]? = some t ∧
      g1 = { g with m_currentIndex := g.m_currentIndex + 1 } := by
  unfold consumeToken at h
  cases h1 : g.m_tokens[g.m_currentIndex]? with
  | none => rw [h1] at h; cases h
  | some t1 =>
    rw [h1] at h
    simp only at h
    split_ifs at h
    simp only [Except.ok.injEq, Prod.mk.injEq] at h
    exact ⟨by rw [h.1], h.2.symm⟩

theorem expect_ok {g g1 : RPNGenerator} {t : Token} {code : TokenCode} {m : String}
    (h : expect g code m = .ok (t, g1)) :
    g.m_tokens[g.m_currentIndex]? = some t ∧ t.code = code ∧
      g1 = { g with m_currentIndex := g.m_currentIndex + 1 } := by
  unfold expect at h
  cases h1 : consumeToken g with
  | error e => rw [h1] at h; cases h
  | ok p =>
    obtain ⟨t1, g2⟩ := p
    rw [h1] at h
    simp only [throwSyntaxError] at h
    split_ifs at h with h2
    simp only [Except.ok.injEq, Prod.mk.injEq] at h
    obtain ⟨e1, e2⟩ := consumeToken_ok h1
    refine ⟨by rw [← h.1]; exact e1, by rw [← h.1]; simpa using h2, by rw [← h.2]; exact e2⟩

theorem getSymbol_ok {g : RPNGenerator} {name : String} {info : SymbolInfo}
    (h : getSymbol g name = .ok info) : declaredSymbol g.m_symbolTable name = some info := by
  unfold getSymbol at h
  unfold declaredSymbol
  cases h1 : mapFind g.m_symbolTable name with
  | none => rw [h1] at h; cases h
  | some i =>
    rw [h1] at h
    simp only [throwSyntaxError] at h ⊢
    split_ifs at h ⊢
    simp only [Except.ok.injEq] at h
    rw [h]

theorem bind_ok {ε α β : Type} {x : Except ε α} {f : α → Except ε β} {b : β}
    (h : (x >>= f) = .ok b) : ∃ a, x = .ok a ∧ f a = .ok b := by
  cases x with
  | error e => cases h
  | ok a => exact ⟨a, rfl, h⟩

theorem parse_expr_derives (fuel : Nat) :
    (∀ g g1, parse_G fuel g = .ok g1 → ExprStep .G g g1) ∧
    (∀ g g1, parse_U_prime fuel g = .ok g1 → ExprStep .U_prime g g1) ∧
    (∀ g g1, parse_T fuel g = .ok g1 → ExprStep .T g g1) ∧
    (∀ g g1, parse_V_prime fuel g = .ok g1 → ExprStep .V_prime g g1) ∧
    (∀ g g1, parse_F fuel g = .ok g1 → ExprStep .F g g1) := by
  induction fuel with
  | zero =>
    refine ⟨?_, ?_, ?_, ?_, ?_⟩ <;> intro g g1 h
    · simp [parse_G] at h
    · simp [parse_U_prime] at h
    · simp [parse_T] at h
    · simp [parse_V_prime] at h
    · simp [parse_F] at h
  | succ n ih =>
    obtain ⟨ihG, ihU, ihT, ihV, ihF⟩ := ih
    refine ⟨?_, ?_, ?_, ?_, ?_⟩ <;> intro g g1 h
    · -- parse_G
      simp only [parse_G] at h
      obtain ⟨g2, h1, h2⟩ := bind_ok h
      obtain ⟨j, c1, e1, d1⟩ := ihT _ _ h1
      obtain ⟨k, c2, e2, d2⟩ := ihU _ _ h2
      subst e1
      exact ⟨k, c1 ++ c2, by simp [e2, List.append_assoc], DerivesE.G d1 d2⟩
    · -- parse_U_prime
      simp only [parse_U_prime] at h
      obtain ⟨t, h1, h2⟩ := bind_ok h
      have ht := currentToken_ok h1
      split_ifs at h2 with hc
      · obtain ⟨p, h3, h4⟩ := bind_ok h2
        obtain ⟨t1, g2⟩ := p
        obtain ⟨e3, e4⟩ := consumeToken_ok h3
        simp only at h4
        obtain ⟨g3, h5, h6⟩ := bind_ok h4
        obtain ⟨j, c1, e1, d1⟩ := ihT _ _ h5
        obtain ⟨k, c2, e2, d2⟩ := ihU _ _ h6
        subst e4 e1
        have e5 : t1 = t := by
          have := tokenAt_of_getElem e3
          rw [ht] at this
          exact (Option.some.inj this).symm
        subst e5
        exact ⟨k, c1 ++ [⟨OPERATION, t1.lexeme, t1.line⟩] ++ c2,
          by simp [e2, emit, List.append_assoc], DerivesE.U_op e3 hc d1 d2⟩
      · simp only [pure, Except.pure, Except.ok.injEq] at h2
        subst h2
        exact ⟨g.m_currentIndex, [], by simp, DerivesE.U_nil ht hc⟩
    · -- parse_T
      simp only [parse_T] at h
      obtain ⟨g2, h1, h2⟩ := bind_ok h
      obtain ⟨j, c1, e1, d1⟩ := ihF _ _ h1
      obtain ⟨k, c2, e2, d2⟩ := ihV _ _ h2
      subst e1
      exact ⟨k, c1 ++ c2, by simp [e2, List.append_assoc], DerivesE.T d1 d2⟩
    · -- parse_V_prime
      simp only [parse_V_prime] at h
      obtain ⟨t, h1, h2⟩ := bind_ok h
      have ht := currentToken_ok h1
      split_ifs at h2 with hc
      · obtain ⟨p, h3, h4⟩ := bind_ok h2
        obtain ⟨t1, g2⟩ := p
        obtain ⟨e3, e4⟩ := consumeToken_ok h3
        simp only at h4
        obtain ⟨g3, h5, h6⟩ := bind_ok h4
        obtain ⟨j, c1, e1, d1⟩ := ihF _ _ h5
        obtain ⟨k, c2, e2, d2⟩ := ihV _ _ h6
        subst e4 e1
        have e5 : t1 = t := by
          have := tokenAt_of_getElem e3
          rw [ht] at this
          exact (Option.some.inj this).symm
        subst e5
        exact ⟨k, c1 ++ [⟨OPERATION, t1.lexeme, t1.line⟩] ++ c2,
          by simp [e2, emit, List.append_assoc], DerivesE.V_op e3 hc d1 d2⟩
      · simp only [pure, Except.pure, Except.ok.injEq] at h2
        subst h2
        exact ⟨g.m_currentIndex, [], by simp, DerivesE.V_nil ht hc⟩
    · -- parse_F
      simp only [parse_F] at h
      obtain ⟨t, h1, h2⟩ := bind_ok h
      have ht := currentToken_ok h1
      split_ifs at h2 with hc1 hc2 hc3 hc4
      · -- ( G )
        obtain ⟨p, h3, h4⟩ := bind_ok h2
        obtain ⟨t1, g2⟩ := p
        obtain ⟨e3, e4⟩ := consumeToken_ok h3
        simp only at h4
        obtain ⟨g3, h5, h6⟩ := bind_ok h4
        obtain ⟨j, c1, e1, d1⟩ := ihG _ _ h5
        obtain ⟨p2, h7, h8⟩ := bind_ok h6
        obtain ⟨r, g4⟩ := p2
        obtain ⟨e7, e8, e9⟩ := expect_ok h7
        simp only [pure, Except.pure, Except.ok.injEq] at h8
        subst e4 e1 e9 h8
        have e5 : t1 = t := by
          have := tokenAt_of_getElem e3
          rw [ht] at this
          exact (Option.some.inj this).symm
        subst e5
        exact ⟨j + 1, c1, by simp, DerivesE.F_paren e3 hc1 d1 e7 e8⟩
      · -- trig ( G )
        obtain ⟨p, h3, h4⟩ := bind_ok h2
        obtain ⟨t1, g2⟩ := p
        obtain ⟨e3, e4⟩ := consumeToken_ok h3
        simp only at h4
        obtain ⟨p1, h5, h6⟩ := bind_ok h4
        obtain ⟨l, g3⟩ := p1
        obtain ⟨f1, f2, f3⟩ := expect_ok h5
        simp only at h6
        obtain ⟨g4, h7, h8⟩ := bind_ok h6
        obtain ⟨j, c1, e1, d1⟩ := ihG _ _ h7
        obtain ⟨p2, h9, h10⟩ := bind_ok h8
        obtain ⟨r, g5⟩ := p2
        obtain ⟨e7, e8, e9⟩ := expect_ok h9
        simp only [pure, Except.pure, Except.ok.injEq] at h10
        subst e4 f3 e1 e9 h10
        have e5 : t1 = t := by
          have := tokenAt_of_getElem e3
          rw [ht] at this
          exact (Option.some.inj this).symm
        subst e5
        exact ⟨j + 1, c1 ++ [⟨funcType t1.code, t1.lexeme, t1.line⟩], by simp [emit],
          DerivesE.F_trig e3 hc2 f1 f2 d1 e7 e8⟩
      · -- identifier
        obtain ⟨p, h3, h4⟩ := bind_ok h2
        obtain ⟨t1, g2⟩ := p
        obtain ⟨e3, e4⟩ := consumeToken_ok h3
        simp only at h4
        obtain ⟨info, h5, h6⟩ := bind_ok h4
        have hs := getSymbol_ok h5
        obtain ⟨t2, h7, h8⟩ := bind_ok h6
        have ht2 := currentToken_ok h7
        have e5 : t1 = t := by
          have := tokenAt_of_getElem e3
          rw [ht] at this
          exact (Option.some.inj this).symm
        subst e5 e4
        split_ifs at h8 with hb ha ha
        · simp [throwSyntaxError] at h8
        · obtain ⟨p1, h9, h10⟩ := bind_ok h8
          obtain ⟨b, g3⟩ := p1
          obtain ⟨f1, f2⟩ := consumeToken_ok h9
          simp only at h10
          obtain ⟨g4, h11, h12⟩ := bind_ok h10
          obtain ⟨j, c1, e1, d1⟩ := ihG _ _ h11
          obtain ⟨p2, h13, h14⟩ := bind_ok h12
          obtain ⟨r, g5⟩ := p2
          obtain ⟨e7, e8, e9⟩ := expect_ok h13
          simp only [pure, Except.pure, Except.ok.injEq] at h14
          subst f2 e1 e9 h14
          have e6 : b = t2 := by
            have := tokenAt_of_getElem f1
            simp only [emit] at this
            rw [ht2] at this
            exact (Option.some.inj this).symm
          subst e6
          refine ⟨j + 1, [⟨ARRAY_BASE, t1.lexeme, t1.line⟩] ++ c1 ++
            [⟨ARRAY_ACCESS, "[]", t1.line⟩], by simp [emit], ?_⟩
          exact DerivesE.F_index e3 hc3 hs f1 hb (by simpa using ha) d1 e7 e8
        · simp [throwSyntaxError] at h8
        · simp only [pure, Except.pure, Except.ok.injEq] at h8
          subst h8
          exact ⟨g.m_currentIndex + 1, [⟨VAR, t1.lexeme, t1.line⟩], by simp [emit],
            DerivesE.F_var e3 hc3 hs ht2 hb ha⟩
      · -- number
        obtain ⟨p, h3, h4⟩ := bind_ok h2
        obtain ⟨t1, g2⟩ := p
        obtain ⟨e3, e4⟩ := consumeToken_ok h3
        simp only [pure, Except.pure, Except.ok.injEq] at h4
        have e5 : t1 = t := by
          have := tokenAt_of_getElem e3
          rw [ht] at this
          exact (Option.some.inj this).symm
        subst e5 e4 h4
        exact ⟨g.m_currentIndex + 1, [⟨CONST, t1.lexeme, t1.line⟩], by simp [emit],
          DerivesE.F_num e3 hc4⟩
      · simp [throwSyntaxError] at h2


theorem parse_G_derives {fuel : Nat} {g g1 : RPNGenerator} (h : parse_G fuel g = .ok g1) :
    ExprStep .G g g1 := (parse_expr_derives fuel).1 g g1 h

theorem map_ok {ε α β : Type} {x : Except ε α} {f : α → β} {b : β}
    (h : x.map f = .ok b) : ∃ a, x = .ok a ∧ f a = b := by
  cases x with
  | error e => cases h
  | ok a => exact ⟨a, rfl, by simpa [Except.map] using h⟩

theorem parse_C_derives {fuel : Nat} {g g1 : RPNGenerator} (h : parse_C fuel g = .ok g1) :
    CondStep g g1 := by
  simp only [parse_C] at h
  obtain ⟨g2, h1, h2⟩ := bind_ok h
  obtain ⟨j, c1, e1, d1⟩ := parse_G_derives h1
  obtain ⟨t, h3, h4⟩ := bind_ok h2
  have ht := currentToken_ok h3
  split_ifs at h4 with hc1 hc2 hc3 hc4
  · obtain ⟨p, h5, h6⟩ := bind_ok h4
    obtain ⟨q, h9, h10⟩ := map_ok h5
    obtain ⟨t1, g5⟩ := q
    obtain ⟨f1, f2⟩ := consumeToken_ok h9
    obtain ⟨g4, h7, h8⟩ := bind_ok h6
    obtain ⟨k, c2, e2, d2⟩ := parse_G_derives h7
    simp only [pure, Except.pure, Except.ok.injEq] at h8
    have e5 : t1 = t := by
      have := tokenAt_of_getElem f1
      rw [ht] at this
      exact (Option.some.inj this).symm
    subst e5 h10 f2 e1 h8
    exact ⟨k, c1 ++ c2 ++ [⟨OPERATION, "~", t1.line⟩], by simp [e2, emit],
      DerivesC.C d1 f1 (by simp [relOp, hc1]) d2⟩
  · obtain ⟨p, h5, h6⟩ := bind_ok h4
    obtain ⟨q, h9, h10⟩ := map_ok h5
    obtain ⟨t1, g5⟩ := q
    obtain ⟨f1, f2⟩ := consumeToken_ok h9
    obtain ⟨g4, h7, h8⟩ := bind_ok h6
    obtain ⟨k, c2, e2, d2⟩ := parse_G_derives h7
    simp only [pure, Except.pure, Except.ok.injEq] at h8
    have e5 : t1 = t := by
      have := tokenAt_of_getElem f1
      rw [ht] at this
      exact (Option.some.inj this).symm
    subst e5 h10 f2 e1 h8
    exact ⟨k, c1 ++ c2 ++ [⟨OPERATION, ">", t1.line⟩], by simp [e2, emit],
      DerivesC.C d1 f1 (by simp [relOp, hc2]) d2⟩
  · obtain ⟨p, h5, h6⟩ := bind_ok h4
    obtain ⟨q, h9, h10⟩ := map_ok h5
    obtain ⟨t1, g5⟩ := q
    obtain ⟨f1, f2⟩ := consumeToken_ok h9
    obtain ⟨g4, h7, h8⟩ := bind_ok h6
    obtain ⟨k, c2, e2, d2⟩ := parse_G_derives h7
    simp only [pure, Except.pure, Except.ok.injEq] at h8
    have e5 : t1 = t := by
      have := tokenAt_of_getElem f1
      rw [ht] at this
      exact (Option.some.inj this).symm
    subst e5 h10 f2 e1 h8
    exact ⟨k, c1 ++ c2 ++ [⟨OPERATION, "<", t1.line⟩], by simp [e2, emit],
      DerivesC.C d1 f1 (by simp [relOp, hc3]) d2⟩
  · obtain ⟨p, h5, h6⟩ := bind_ok h4
    obtain ⟨q, h9, h10⟩ := map_ok h5
    obtain ⟨t1, g5⟩ := q
    obtain ⟨f1, f2⟩ := consumeToken_ok h9
    obtain ⟨g4, h7, h8⟩ := bind_ok h6
    obtain ⟨k, c2, e2, d2⟩ := parse_G_derives h7
    simp only [pure, Except.pure, Except.ok.injEq] at h8
    have e5 : t1 = t := by
      have := tokenAt_of_getElem f1
      rw [ht] at this
      exact (Option.some.inj this).symm
    subst e5 h10 f2 e1 h8
    exact ⟨k, c1 ++ c2 ++ [⟨OPERATION, "!", t1.line⟩], by simp [e2, emit],
      DerivesC.C d1 f1 (by simp [relOp, hc4]) d2⟩
  · obtain ⟨p, h5, h6⟩ := bind_ok h4
    simp [throwSyntaxError] at h5

theorem same_token {tokens : List Token} {i : Nat} {t t1 : Token}
    (h : tokenAt tokens i = some t) (h1 : tokens[i]? = some t1) : t1 = t := by
  have := tokenAt_of_getElem h1
  rw [h] at this
  exact (Option.some.inj this).symm

theorem startsStatement_false {code : TokenCode} (h1 : ¬ code = ID_TOK) (h2 : ¬ code = IF_TOK)
    (h3 : ¬ code = WHILE_TOK) (h4 : ¬ code = INPUT_TOK) (h5 : ¬ code = OUTPUT_TOK)
    (h6 : ¬ isTrig code = true) : startsStatement code = false := by
  simp [startsStatement, h1, h2, h3, h4, h5, h6]

theorem parse_A_derives (fuel : Nat) :
    ∀ g g1, parse_A fuel g = .ok g1 → StmtStep g g1 := by
  induction fuel with
  | zero => intro g g1 h; simp [parse_A] at h
  | succ n ih =>
    intro g g1 h
    simp only [parse_A] at h
    obtain ⟨t, h1, h2⟩ := bind_ok h
    have ht := currentToken_ok h1
    split_ifs at h2 with hID hIF hWH hIN hOUT hTR
    · -- assignment
      obtain ⟨p, h3, h4⟩ := bind_ok h2
      obtain ⟨t0, g2⟩ := p
      obtain ⟨e3, e4⟩ := consumeToken_ok h3
      have e5 := same_token ht e3
      subst e5 e4
      simp only at h4
      obtain ⟨info, h5, h6⟩ := bind_ok h4
      have hs := getSymbol_ok h5
      obtain ⟨t1, h7, h8⟩ := bind_ok h6
      have ht1 := currentToken_ok h7
      split_ifs at h8 with hb ha ha
      · obtain ⟨y, hy, _⟩ := bind_ok h8
        simp [throwSyntaxError] at hy
      · obtain ⟨p1, k1, k2⟩ := bind_ok h8
        obtain ⟨b, g3⟩ := p1
        obtain ⟨f1, f2⟩ := consumeToken_ok k1
        have e6 := same_token ht1 f1
        subst f2 e6
        obtain ⟨g4, k3, k4⟩ := bind_ok k2
        obtain ⟨j, c1, e1, d1⟩ := parse_G_derives k3
        subst e1
        obtain ⟨p2, k5, k6⟩ := bind_ok k4
        obtain ⟨r, g5⟩ := p2
        obtain ⟨r1, r2, r3⟩ := expect_ok k5
        subst r3
        obtain ⟨y, k7, k8⟩ := bind_ok k6
        simp only [pure, Except.pure, Except.ok.injEq] at k7
        subst k7
        obtain ⟨p3, k9, k10⟩ := bind_ok k8
        obtain ⟨e, g6⟩ := p3
        obtain ⟨q1, q2, q3⟩ := expect_ok k9
        subst q3
        obtain ⟨g7, k11, k12⟩ := bind_ok k10
        obtain ⟨k, c2, e2, d2⟩ := parse_G_derives k11
        subst e2
        obtain ⟨p4, k13, k14⟩ := bind_ok k12
        obtain ⟨sc, g8⟩ := p4
        obtain ⟨s1, s2, s3⟩ := expect_ok k13
        subst s3
        obtain ⟨l, m, rest, e3a, d3⟩ := ih _ _ k14
        refine ⟨l, m, [⟨ARRAY_BASE, t0.lexeme, t0.line⟩] ++ c1 ++ c2 ++
          [⟨OPERATION, "[]=", t0.line⟩] ++ rest, by simp [e3a, emit], ?_⟩
        exact DerivesA.assignIndexed e3 hID hs f1 hb (by simpa using ha) d1 r1 r2 q1 q2 d2
          s1 s2 d3
      · obtain ⟨y, hy, _⟩ := bind_ok h8
        simp [throwSyntaxError] at hy
      · obtain ⟨y, k7, k8⟩ := bind_ok h8
        simp only [pure, Except.pure, Except.ok.injEq] at k7
        subst k7
        obtain ⟨p3, k9, k10⟩ := bind_ok k8
        obtain ⟨e, g6⟩ := p3
        obtain ⟨q1, q2, q3⟩ := expect_ok k9
        subst q3
        obtain ⟨g7, k11, k12⟩ := bind_ok k10
        obtain ⟨k, c2, e2, d2⟩ := parse_G_derives k11
        subst e2
        obtain ⟨p4, k13, k14⟩ := bind_ok k12
        obtain ⟨sc, g8⟩ := p4
        obtain ⟨s1, s2, s3⟩ := expect_ok k13
        subst s3
        obtain ⟨l, m, rest, e3a, d3⟩ := ih _ _ k14
        refine ⟨l, m, [⟨VAR, t0.lexeme, t0.line⟩] ++ c2 ++
          [⟨OPERATION, "=", t0.line⟩] ++ rest, by simp [e3a, emit], ?_⟩
        exact DerivesA.assign e3 hID hs ht1 hb ha q1 q2 d2 s1 s2 d3
    · -- if
      obtain ⟨p, h3, h4⟩ := bind_ok h2
      obtain ⟨t0, g2⟩ := p
      obtain ⟨e3, e4⟩ := consumeToken_ok h3
      have e5 := same_token ht e3
      subst e5 e4
      obtain ⟨p1, k1, k2⟩ := bind_ok h4
      obtain ⟨lp, g3⟩ := p1
      obtain ⟨l1, l2, l3⟩ := expect_ok k1
      subst l3
      obtain ⟨g4, k3, k4⟩ := bind_ok k2
      obtain ⟨j, c1, e1, d1⟩ := parse_C_derives k3
      subst e1
      obtain ⟨p2, k5, k6⟩ := bind_ok k4
      obtain ⟨rp, g5⟩ := p2
      obtain ⟨r1, r2, r3⟩ := expect_ok k5
      subst r3
      obtain ⟨p3, k7, k8⟩ := bind_ok k6
      obtain ⟨bg, g6⟩ := p3
      obtain ⟨b1, b2, b3⟩ := expect_ok k7
      subst b3
      obtain ⟨g7, k9, k10⟩ := bind_ok k8
      obtain ⟨k, n1, body, e2, d2⟩ := ih _ _ k9
      subst e2
      obtain ⟨t2, k11, k12⟩ := bind_ok k10
      have ht2 := currentToken_ok k11
      split_ifs at k12 with hel
      · obtain ⟨p4, k13, _⟩ := bind_ok k12
        obtain ⟨en, g8⟩ := p4
        obtain ⟨n1a, n2a, _⟩ := expect_ok k13
        have e6 := same_token ht2 n1a
        subst e6
        rw [hel] at n2a
        cases n2a
      · obtain ⟨p4, k13, k14⟩ := bind_ok k12
        obtain ⟨en, g8⟩ := p4
        obtain ⟨n1a, n2a, n3a⟩ := expect_ok k13
        subst n3a
        obtain ⟨y, k15, k16⟩ := bind_ok k14
        simp only [pure, Except.pure, Except.ok.injEq] at k15
        subst k15
        obtain ⟨p5, k17, k18⟩ := bind_ok k16
        obtain ⟨sc, g9⟩ := p5
        obtain ⟨s1, s2, s3⟩ := expect_ok k17
        subst s3
        obtain ⟨l, m, rest, e3a, d3⟩ := ih _ _ k18
        refine ⟨l, m, c1 ++ [⟨JUMP_FALSE, labelName g.m_labelCounter, t0.line⟩] ++ body ++
          [⟨LABEL_DEF, labelName g.m_labelCounter, t0.line⟩] ++ rest,
          by simp [e3a, emit, newLabel, labelName], ?_⟩
        exact DerivesA.ifThen e3 hIF l1 l2 d1 r1 r2 b1 b2 d2 n1a n2a s1 s2 d3
    · -- while
      obtain ⟨p, h3, h4⟩ := bind_ok h2
      obtain ⟨t0, g2⟩ := p
      obtain ⟨e3, e4⟩ := consumeToken_ok h3
      have e5 := same_token ht e3
      subst e5 e4
      obtain ⟨p1, k1, k2⟩ := bind_ok h4
      obtain ⟨lp, g3⟩ := p1
      obtain ⟨l1, l2, l3⟩ := expect_ok k1
      subst l3
      obtain ⟨g4, k3, k4⟩ := bind_ok k2
      obtain ⟨j, c1, e1, d1⟩ := parse_C_derives k3
      subst e1
      obtain ⟨p2, k5, k6⟩ := bind_ok k4
      obtain ⟨rp, g5⟩ := p2
      obtain ⟨r1, r2, r3⟩ := expect_ok k5
      subst r3
      obtain ⟨p3, k7, k8⟩ := bind_ok k6
      obtain ⟨bg, g6⟩ := p3
      obtain ⟨b1, b2, b3⟩ := expect_ok k7
      subst b3
      obtain ⟨g7, k9, k10⟩ := bind_ok k8
      obtain ⟨k, n1, body, e2, d2⟩ := ih _ _ k9
      subst e2
      obtain ⟨p4, k13, k14⟩ := bind_ok k10
      obtain ⟨en, g8⟩ := p4
      obtain ⟨n1a, n2a, n3a⟩ := expect_ok k13
      subst n3a
      obtain ⟨p5, k17, k18⟩ := bind_ok k14
      obtain ⟨sc, g9⟩ := p5
      obtain ⟨s1, s2, s3⟩ := expect_ok k17
      subst s3
      obtain ⟨l, m, rest, e3a, d3⟩ := ih _ _ k18
      refine ⟨l, m, [⟨LABEL_DEF, labelName g.m_labelCounter, t0.line⟩] ++ c1 ++
        [⟨JUMP_FALSE, labelName (g.m_labelCounter + 1), t0.line⟩] ++ body ++
        [⟨JUMP, labelName g.m_labelCounter, t0.line⟩,
         ⟨LABEL_DEF, labelName (g.m_labelCounter + 1), t0.line⟩] ++ rest,
        by simp [e3a, emit, newLabel, labelName], ?_⟩
      exact DerivesA.while e3 hWH l1 l2 d1 r1 r2 b1 b2 d2 n1a n2a s1 s2 d3
    · -- input
      obtain ⟨p, h3, h4⟩ := bind_ok h2
      obtain ⟨t0, g2⟩ := p
      obtain ⟨e3, e4⟩ := consumeToken_ok h3
      have e5 := same_token ht e3
      subst e5 e4
      obtain ⟨p1, k1, k2⟩ := bind_ok h4
      obtain ⟨lp, g3⟩ := p1
      obtain ⟨l1, l2, l3⟩ := expect_ok k1
      subst l3
      obtain ⟨p2, k3, k4⟩ := bind_ok k2
      obtain ⟨id, g4⟩ := p2
      obtain ⟨i1, i2, i3⟩ := expect_ok k3
      subst i3
      simp only at k4
      obtain ⟨info, h5, h6⟩ := bind_ok k4
      have hs := getSymbol_ok h5
      obtain ⟨t1, h7, h8⟩ := bind_ok h6
      have ht1 := currentToken_ok h7
      split_ifs at h8 with hb ha ha
      · obtain ⟨y, hy, _⟩ := bind_ok h8
        simp [throwSyntaxError] at hy
      · obtain ⟨p3, k6, k7⟩ := bind_ok h8
        obtain ⟨b, g5⟩ := p3
        obtain ⟨f1, f2⟩ := consumeToken_ok k6
        have e6 := same_token ht1 f1
        subst f2 e6
        obtain ⟨g6, k8, k9⟩ := bind_ok k7
        obtain ⟨j, c1, e1, d1⟩ := parse_G_derives k8
        subst e1
        obtain ⟨p4, k10, k11⟩ := bind_ok k9
        obtain ⟨r, g7⟩ := p4
        obtain ⟨r1, r2, r3⟩ := expect_ok k10
        subst r3
        obtain ⟨y, hy, k5⟩ := bind_ok k11
        simp only [pure, Except.pure, Except.ok.injEq] at hy
        subst hy
        obtain ⟨p5, k12, k13⟩ := bind_ok k5
        obtain ⟨rp, g8⟩ := p5
        obtain ⟨q1, q2, q3⟩ := expect_ok k12
        subst q3
        obtain ⟨p6, k14, k15⟩ := bind_ok k13
        obtain ⟨sc, g9⟩ := p6
        obtain ⟨s1, s2, s3⟩ := expect_ok k14
        subst s3
        obtain ⟨l, m, rest, e3a, d3⟩ := ih _ _ k15
        refine ⟨l, m, [⟨ARRAY_BASE, id.lexeme, id.line⟩] ++ c1 ++
          [⟨INPUT, "IN[]", t0.line⟩] ++ rest, by simp [e3a, emit], ?_⟩
        exact DerivesA.inputIndexed e3 hIN l1 l2 i1 i2 hs f1 hb (by simpa using ha) d1 r1 r2
          q1 q2 s1 s2 d3
      · obtain ⟨y, hy, _⟩ := bind_ok h8
        simp [throwSyntaxError] at hy
      · obtain ⟨y, hy, k5⟩ := bind_ok h8
        simp only [pure, Except.pure, Except.ok.injEq] at hy
        subst hy
        obtain ⟨p5, k12, k13⟩ := bind_ok k5
        obtain ⟨rp, g8⟩ := p5
        obtain ⟨q1, q2, q3⟩ := expect_ok k12
        subst q3
        obtain ⟨p6, k14, k15⟩ := bind_ok k13
        obtain ⟨sc, g9⟩ := p6
        obtain ⟨s1, s2, s3⟩ := expect_ok k14
        subst s3
        obtain ⟨l, m, rest, e3a, d3⟩ := ih _ _ k15
        refine ⟨l, m, [⟨VAR, id.lexeme, id.line⟩, ⟨INPUT, "IN", t0.line⟩] ++ rest,
          by simp [e3a, emit], ?_⟩
        exact DerivesA.input e3 hIN l1 l2 i1 i2 hs ht1 hb ha q1 q2 s1 s2 d3
    · -- output
      obtain ⟨p, h3, h4⟩ := bind_ok h2
      obtain ⟨t0, g2⟩ := p
      obtain ⟨e3, e4⟩ := consumeToken_ok h3
      have e5 := same_token ht e3
      subst e5 e4
      obtain ⟨p1, k1, k2⟩ := bind_ok h4
      obtain ⟨lp, g3⟩ := p1
      obtain ⟨l1, l2, l3⟩ := expect_ok k1
      subst l3
      obtain ⟨g4, k3, k4⟩ := bind_ok k2
      obtain ⟨j, c1, e1, d1⟩ := parse_G_derives k3
      subst e1
      obtain ⟨p2, k5, k6⟩ := bind_ok k4
      obtain ⟨rp, g5⟩ := p2
      obtain ⟨r1, r2, r3⟩ := expect_ok k5
      subst r3
      obtain ⟨p6, k14, k15⟩ := bind_ok k6
      obtain ⟨sc, g9⟩ := p6
      obtain ⟨s1, s2, s3⟩ := expect_ok k14
      subst s3
      obtain ⟨l, m, rest, e3a, d3⟩ := ih _ _ k15
      refine ⟨l, m, c1 ++ [⟨OUTPUT, "OUT", t0.line⟩] ++ rest, by simp [e3a, emit], ?_⟩
      exact DerivesA.output e3 hOUT l1 l2 d1 r1 r2 s1 s2 d3
    · -- statement-form function call
      obtain ⟨p, h3, h4⟩ := bind_ok h2
      obtain ⟨t0, g2⟩ := p
      obtain ⟨e3, e4⟩ := consumeToken_ok h3
      have e5 := same_token ht e3
      subst e5 e4
      obtain ⟨p1, k1, k2⟩ := bind_ok h4
      obtain ⟨lp, g3⟩ := p1
      obtain ⟨l1, l2, l3⟩ := expect_ok k1
      subst l3
      obtain ⟨g4, k3, k4⟩ := bind_ok k2
      obtain ⟨j, c1, e1, d1⟩ := parse_G_derives k3
      subst e1
      obtain ⟨p2, k5, k6⟩ := bind_ok k4
      obtain ⟨rp, g5⟩ := p2
      obtain ⟨r1, r2, r3⟩ := expect_ok k5
      subst r3
      obtain ⟨p6, k14, k15⟩ := bind_ok k6
      obtain ⟨sc, g9⟩ := p6
      obtain ⟨s1, s2, s3⟩ := expect_ok k14
      subst s3
      obtain ⟨l, m, rest, e3a, d3⟩ := ih _ _ k15
      refine ⟨l, m, c1 ++ [⟨funcType t0.code, t0.lexeme, t0.line⟩] ++ rest,
        by simp [e3a, emit], ?_⟩
      exact DerivesA.trig e3 hTR l1 l2 d1 r1 r2 s1 s2 d3
    · simp only [pure, Except.pure, Except.ok.injEq] at h2
      subst h2
      exact ⟨g.m_currentIndex, g.m_labelCounter, [], by simp,
        DerivesA.nil ht (startsStatement_false hID hIF hWH hIN hOUT hTR)⟩

theorem addSymbol_ok {g g1 : RPNGenerator} {name : String} {c : SymbolClass} {ty : TokenCode}
    {line size : Int} (h : addSymbol g name c ty line size = .ok g1) :
    isDeclared g.m_symbolTable name = false ∧
      g1 = { g with m_symbolTable := mapSet g.m_symbolTable name ⟨c, ty, size, line, true⟩ } := by
  unfold addSymbol at h
  split_ifs at h with hd
  · simp [throwSyntaxError] at h
  · simp only [Except.ok.injEq] at h
    exact ⟨by simpa using hd, h.symm⟩

theorem parse_block_derives {fuel : Nat} {g g1 : RPNGenerator} {msg : String} {t : Token}
    (ht : tokenAt g.m_tokens g.m_currentIndex = some t) (hc : t.code = BEG_TOK)
    (h : parse_block fuel g msg = .ok g1) : PreludeStep g g1 := by
  simp only [parse_block] at h
  obtain ⟨p, h3, h4⟩ := bind_ok h
  obtain ⟨t0, g2⟩ := p
  obtain ⟨e3, e4⟩ := consumeToken_ok h3
  have e5 := same_token ht e3
  subst e5 e4
  obtain ⟨g3, k1, k2⟩ := bind_ok h4
  obtain ⟨j, m, code, e1, d1⟩ := parse_A_derives _ _ _ k1
  subst e1
  obtain ⟨p2, k5, k6⟩ := bind_ok k2
  obtain ⟨en, g5⟩ := p2
  obtain ⟨r1, r2, r3⟩ := expect_ok k5
  simp only [pure, Except.pure, Except.ok.injEq] at k6
  subst r3 k6
  exact ⟨j + 1, g.m_symbolTable, m, code, by simp, DerivesP.block e3 hc d1 r1 r2⟩

theorem parse_prelude_derives (fuel : Nat) :
    (∀ g g1, parse_E fuel g = .ok g1 → PreludeStep g g1) ∧
    (∀ g g1, parse_int_LE fuel g = .ok g1 → PreludeStep g g1) ∧
    (∀ g g1, parse_arr_ME fuel g = .ok g1 → PreludeStep g g1) := by
  induction fuel with
  | zero =>
    refine ⟨?_, ?_, ?_⟩ <;> intro g g1 h
    · simp [parse_E] at h
    · simp [parse_int_LE] at h
    · simp [parse_arr_ME] at h
  | succ n ih =>
    obtain ⟨ihE, ihL, ihM⟩ := ih
    refine ⟨?_, ?_, ?_⟩ <;> intro g g1 h
    · -- parse_E
      simp only [parse_E] at h
      obtain ⟨t, h1, h2⟩ := bind_ok h
      have ht := currentToken_ok h1
      split_ifs at h2 with c1 c2 c3
      · exact ihL _ _ h2
      · exact ihM _ _ h2
      · exact parse_block_derives ht c3 h2
      · simp only [pure, Except.pure, Except.ok.injEq] at h2
        subst h2
        exact ⟨g.m_currentIndex, g.m_symbolTable, g.m_labelCounter, [], by simp,
          DerivesP.empty ht c1 c2 c3⟩
    · -- parse_int_LE
      simp only [parse_int_LE] at h
      obtain ⟨p1, k1, k2⟩ := bind_ok h
      obtain ⟨kw, g2⟩ := p1
      obtain ⟨a1, a2, a3⟩ := expect_ok k1
      subst a3
      obtain ⟨p2, k3, k4⟩ := bind_ok k2
      obtain ⟨id, g3⟩ := p2
      obtain ⟨b1, b2, b3⟩ := expect_ok k3
      subst b3
      obtain ⟨g4, k5, k6⟩ := bind_ok k4
      obtain ⟨d1, d2⟩ := addSymbol_ok k5
      subst d2
      obtain ⟨p3, k7, k8⟩ := bind_ok k6
      obtain ⟨sc, g5⟩ := p3
      obtain ⟨s1, s2, s3⟩ := expect_ok k7
      subst s3
      obtain ⟨j, table, m, code, e1, r1⟩ := ihE _ _ k8
      exact ⟨j, table, m, code, by simp [e1], DerivesP.int a1 a2 b1 b2 d1 s1 s2 r1⟩
    · -- parse_arr_ME
      simp only [parse_arr_ME] at h
      obtain ⟨p1, k1, k2⟩ := bind_ok h
      obtain ⟨kw, g2⟩ := p1
      obtain ⟨a1, a2, a3⟩ := expect_ok k1
      subst a3
      obtain ⟨p2, k3, k4⟩ := bind_ok k2
      obtain ⟨id, g3⟩ := p2
      obtain ⟨b1, b2, b3⟩ := expect_ok k3
      subst b3
      obtain ⟨p3, k5, k6⟩ := bind_ok k4
      obtain ⟨lb, g4⟩ := p3
      obtain ⟨l1, l2, l3⟩ := expect_ok k5
      subst l3
      obtain ⟨p4, k7, k8⟩ := bind_ok k6
      obtain ⟨num, g5⟩ := p4
      obtain ⟨n1, n2, n3⟩ := expect_ok k7
      subst n3
      simp only at k8
      split at k8
      case h_2 => obtain ⟨_, k9, _⟩ := bind_ok k8; simp [throwSyntaxError] at k9
      case h_3 => obtain ⟨_, k9, _⟩ := bind_ok k8; simp [throwSyntaxError] at k9
      rename_i size hsz
      obtain ⟨size1, k9, k10⟩ := bind_ok k8
      simp only [pure, Except.pure, Except.ok.injEq] at k9
      subst k9
      split_ifs at k10 with hpos
      · simp [throwSyntaxError] at k10
      · obtain ⟨p5, k11, k12⟩ := bind_ok k10
        obtain ⟨rb, g6⟩ := p5
        obtain ⟨r1, r2, r3⟩ := expect_ok k11
        subst r3
        obtain ⟨g7, k13, k14⟩ := bind_ok k12
        obtain ⟨d1, d2⟩ := addSymbol_ok k13
        subst d2
        obtain ⟨p6, k15, k16⟩ := bind_ok k14
        obtain ⟨sc, g8⟩ := p6
        obtain ⟨s1, s2, s3⟩ := expect_ok k15
        subst s3
        obtain ⟨j, table, m, code, e1, q1⟩ := ihE _ _ k16
        exact ⟨j, table, m, code, by simp [e1],
          DerivesP.arr a1 a2 b1 b2 l1 l2 n1 n2 hsz (by omega) r1 r2 d1 s1 s2 q1⟩

theorem parse_P_derives {fuel : Nat} {g g1 : RPNGenerator} (h : parse_P fuel g = .ok g1) :
    PreludeStep g g1 := by
  simp only [parse_P] at h
  obtain ⟨t, h1, h2⟩ := bind_ok h
  have ht := currentToken_ok h1
  split_ifs at h2 with c1 c2 c3
  · exact (parse_prelude_derives fuel).2.1 _ _ h2
  · exact (parse_prelude_derives fuel).2.2 _ _ h2
  · exact parse_block_derives ht c3 h2
  · simp [throwSyntaxError] at h2

/-- Every successful call of `generate` is a derivation of the whole prelude and block,
from token 0, the empty symbol table and label counter 0. -/
theorem generate_derives {tokens : List Token} {g : RPNGenerator}
    (h : generate tokens = .ok g) :
    g.m_tokens = tokens ∧
    DerivesP tokens 0 [] g.m_currentIndex g.m_symbolTable 0 g.m_labelCounter g.m_rpn := by
  unfold generate at h
  simp only at h
  split at h
  · cases h
  · split_ifs at h
    split at h
    · cases h
    · rename_i g1 hp
      split at h
      · cases h
      · split_ifs at h
        · simp [throwSyntaxError] at h
        · simp only [Except.ok.injEq] at h
          subst h
          obtain ⟨j, table, m, code, e1, d1⟩ := parse_P_derives hp
          subst e1
          simpa using d1

/-! ## Label uniqueness -/

theorem digitChar_toNat (k : Nat) (h : k < 10) : (Char.ofNat (48 + k)).toNat - 48 = k := by
  interval_cases k <;> rfl

theorem digitsValue_append (ds : List Char) (d : Char) :
    digitsValue (ds ++ [d]) = 10 * digitsValue ds + (d.toNat - 48) := by
  simp [digitsValue, List.foldl_append]

theorem digitsValue_decimalDigits (fuel : Nat) :
    ∀ n, n < fuel → digitsValue (decimalDigits fuel n) = n := by
  induction fuel with
  | zero => intro n h; omega
  | succ f ih =>
    intro n h
    unfold decimalDigits
    split_ifs with h10
    · have := digitChar_toNat n h10
      simp [digitsValue, this]
    · rw [digitsValue_append, ih (n / 10) (by omega), digitChar_toNat _ (Nat.mod_lt _ (by omega))]
      omega

theorem labelName_injective {a b : Nat} (h : labelName a = labelName b) : a = b := by
  unfold labelName decimal at h
  have h1 := String.ext_iff.mp h
  simp only [String.data_append, List.append_cancel_left_eq] at h1
  have h2 := congrArg digitsValue h1
  rwa [digitsValue_decimalDigits _ _ (by omega), digitsValue_decimalDigits _ _ (by omega)] at h2

theorem labelsOf_append (a b : List RPNEntry) : labelsOf (a ++ b) = labelsOf a ++ labelsOf b := by
  simp [labelsOf]

theorem jumpsOf_append (a b : List RPNEntry) : jumpsOf (a ++ b) = jumpsOf a ++ jumpsOf b := by
  simp [jumpsOf]

theorem funcType_isFunc (code : TokenCode) : isFunc (funcType code) = true := by
  unfold funcType
  split_ifs <;> rfl

/-- The code of an expression holds no label and no jump. -/
theorem DerivesE_noControl {tokens : List Token} {table : List (String × SymbolInfo)}
    {X : NT} {i j : Nat} {code : List RPNEntry} (h : DerivesE tokens table X i j code) :
    labelsOf code = [] ∧ jumpsOf code = [] := by
  induction h with
  | G _ _ ih1 ih2 => simp [labelsOf_append, jumpsOf_append, ih1, ih2]
  | U_nil _ _ => simp [labelsOf, jumpsOf]
  | U_op _ _ _ _ ih1 ih2 =>
    simp only [labelsOf_append, jumpsOf_append, ih1, ih2]
    simp [labelsOf, jumpsOf]
  | T _ _ ih1 ih2 => simp [labelsOf_append, jumpsOf_append, ih1, ih2]
  | V_nil _ _ => simp [labelsOf, jumpsOf]
  | V_op _ _ _ _ ih1 ih2 =>
    simp only [labelsOf_append, jumpsOf_append, ih1, ih2]
    simp [labelsOf, jumpsOf]
  | F_paren _ _ _ _ _ ih => exact ih
  | @F_trig i j t l r c _ _ _ _ _ _ _ ih =>
    simp only [labelsOf_append, jumpsOf_append, ih]
    have := funcType_isFunc t.code
    cases hf : funcType t.code <;> simp_all [labelsOf, jumpsOf, isFunc]
  | F_var _ _ _ _ _ _ => simp [labelsOf, jumpsOf]
  | F_index _ _ _ _ _ _ _ _ _ ih =>
    simp only [labelsOf_append, jumpsOf_append, ih]
    simp [labelsOf, jumpsOf]
  | F_num _ _ => simp [labelsOf, jumpsOf]

theorem DerivesC_noControl {tokens : List Token} {table : List (String × SymbolInfo)}
    {i j : Nat} {code : List RPNEntry} (h : DerivesC tokens table i j code) :
    labelsOf code = [] ∧ jumpsOf code = [] := by
  cases h with
  | C d1 _ _ d2 =>
    have h1 := DerivesE_noControl d1
    have h2 := DerivesE_noControl d2
    simp only [labelsOf_append, jumpsOf_append, h1, h2]
    simp [labelsOf, jumpsOf]

theorem LabelsOK_same {n m : Nat} {code rest : List RPNEntry} (h : LabelsOK n m rest)
    (hl : labelsOf code = labelsOf rest) (hj : jumpsOf code = jumpsOf rest) :
    LabelsOK n m code := by
  unfold LabelsOK at h ⊢
  rw [hl, hj]
  exact h

theorem LabelsOK_if {n n1 m : Nat} {code body rest : List RPNEntry}
    (hb : LabelsOK (n + 2) n1 body) (hr : LabelsOK n1 m rest)
    (hl : labelsOf code = labelsOf body ++ [labelName n] ++ labelsOf rest)
    (hj : jumpsOf code = [labelName n] ++ jumpsOf body ++ jumpsOf rest) :
    LabelsOK n m code := by
  obtain ⟨b0, kb, b1, b2, b3, b4⟩ := hb
  obtain ⟨r0, kr, r1, r2, r3, r4⟩ := hr
  refine ⟨by omega, kb ++ [n] ++ kr, by simp [hl, b1, r1], ?_, ?_, ?_⟩
  · rw [List.nodup_append, List.nodup_append]
    refine ⟨⟨b2, List.nodup_singleton n, ?_⟩, r2, ?_⟩
    · intro k hk hk2
      have := b3 k hk
      simp only [List.mem_singleton] at hk2
      omega
    · intro k hk hk2
      have := r3 k hk2
      rcases List.mem_append.mp hk with h1 | h1
      · have := b3 k h1
        omega
      · simp only [List.mem_singleton] at h1
        omega
  · intro k hk
    simp only [List.mem_append, List.mem_singleton] at hk
    rcases hk with (h1 | h1) | h1
    · have := b3 k h1; omega
    · omega
    · have := r3 k h1; omega
  · intro v hv
    rw [hj] at hv
    rw [hl]
    simp only [List.mem_append, List.mem_singleton] at hv ⊢
    rcases hv with (h1 | h1) | h1
    · exact Or.inl (Or.inr h1)
    · exact Or.inl (Or.inl (b4 v h1))
    · exact Or.inr (r4 v h1)

theorem LabelsOK_while {n n1 m : Nat} {code body rest : List RPNEntry}
    (hb : LabelsOK (n + 2) n1 body) (hr : LabelsOK n1 m rest)
    (hl : labelsOf code =
      [labelName n] ++ labelsOf body ++ [labelName (n + 1)] ++ labelsOf rest)
    (hj : jumpsOf code =
      [labelName (n + 1)] ++ jumpsOf body ++ [labelName n] ++ jumpsOf rest) :
    LabelsOK n m code := by
  obtain ⟨b0, kb, b1, b2, b3, b4⟩ := hb
  obtain ⟨r0, kr, r1, r2, r3, r4⟩ := hr
  refine ⟨by omega, [n] ++ kb ++ [n + 1] ++ kr, by simp [hl, b1, r1], ?_, ?_, ?_⟩
  · rw [List.nodup_append, List.nodup_append, List.nodup_append]
    refine ⟨⟨⟨List.nodup_singleton n, b2, ?_⟩, List.nodup_singleton _, ?_⟩, r2, ?_⟩
    · intro k hk hk2
      have := b3 k hk2
      simp only [List.mem_singleton] at hk
      omega
    · intro k hk hk2
      simp only [List.mem_singleton] at hk2
      rcases List.mem_append.mp hk with h1 | h1
      · simp only [List.mem_singleton] at h1
        omega
      · have := b3 k h1
        omega
    · intro k hk hk2
      have := r3 k hk2
      simp only [List.mem_append, List.mem_singleton] at hk
      rcases hk with (h1 | h1) | h1
      · omega
      · have := b3 k h1; omega
      · omega
  · intro k hk
    simp only [List.mem_append, List.mem_singleton] at hk
    rcases hk with ((h1 | h1) | h1) | h1
    · omega
    · have := b3 k h1; omega
    · omega
    · have := r3 k h1; omega
  · intro v hv
    rw [hj] at hv
    rw [hl]
    simp only [List.mem_append, List.mem_singleton] at hv ⊢
    rcases hv with ((h1 | h1) | h1) | h1
    · exact Or.inl (Or.inr h1)
    · exact Or.inl (Or.inl (Or.inr (b4 v h1)))
    · exact Or.inl (Or.inl (Or.inl h1))
    · exact Or.inr (r4 v h1)

/-- The labels of the code of a statement sequence. -/
theorem DerivesA_labels {tokens : List Token} {table : List (String × SymbolInfo)}
    {i j n m : Nat} {code : List RPNEntry} (h : DerivesA tokens table i j n m code) :
    LabelsOK n m code := by
  induction h with
  | nil _ _ => exact ⟨Nat.le_refl _, [], by simp [labelsOf], List.nodup_nil, by simp,
      by simp [jumpsOf]⟩
  | assign _ _ _ _ _ _ _ _ d _ _ _ ih =>
    have hc := DerivesE_noControl d
    refine LabelsOK_same ih ?_ ?_
    · simp only [labelsOf_append, hc]; simp [labelsOf]
    · simp only [jumpsOf_append, hc]; simp [jumpsOf]
  | assignIndexed _ _ _ _ _ _ d1 _ _ _ _ d2 _ _ _ ih =>
    have hc1 := DerivesE_noControl d1
    have hc2 := DerivesE_noControl d2
    refine LabelsOK_same ih ?_ ?_
    · simp only [labelsOf_append, hc1, hc2]; simp [labelsOf]
    · simp only [jumpsOf_append, hc1, hc2]; simp [jumpsOf]
  | ifThen _ _ _ _ d _ _ _ _ _ _ _ _ _ _ ihb ihr =>
    have hc := DerivesC_noControl d
    refine LabelsOK_if ihb ihr ?_ ?_
    · simp only [labelsOf_append, hc]; simp [labelsOf]
    · simp only [jumpsOf_append, hc]; simp [jumpsOf]
  | «while» _ _ _ _ d _ _ _ _ _ _ _ _ _ _ ihb ihr =>
    have hc := DerivesC_noControl d
    refine LabelsOK_while ihb ihr ?_ ?_
    · simp only [labelsOf_append, hc]; simp [labelsOf]
    · simp only [jumpsOf_append, hc]; simp [jumpsOf]
  | input _ _ _ _ _ _ _ _ _ _ _ _ _ _ _ ih =>
    refine LabelsOK_same ih ?_ ?_
    · simp only [labelsOf_append]; simp [labelsOf]
    · simp only [jumpsOf_append]; simp [jumpsOf]
  | inputIndexed _ _ _ _ _ _ _ _ _ _ d _ _ _ _ _ _ _ ih =>
    have hc := DerivesE_noControl d
    refine LabelsOK_same ih ?_ ?_
    · simp only [labelsOf_append, hc]; simp [labelsOf]
    · simp only [jumpsOf_append, hc]; simp [jumpsOf]
  | output _ _ _ _ d _ _ _ _ _ ih =>
    have hc := DerivesE_noControl d
    refine LabelsOK_same ih ?_ ?_
    · simp only [labelsOf_append, hc]; simp [labelsOf]
    · simp only [jumpsOf_append, hc]; simp [jumpsOf]
  | @trig i j k n m t lp rp sc c rest _ _ _ _ d _ _ _ _ _ ih =>
    have hc := DerivesE_noControl d
    have hf := funcType_isFunc t.code
    refine LabelsOK_same ih ?_ ?_
    · simp only [labelsOf_append, hc]
      cases hft : funcType t.code <;> simp_all [labelsOf, isFunc]
    · simp only [jumpsOf_append, hc]
      cases hft : funcType t.code <;> simp_all [jumpsOf, isFunc]

theorem DerivesP_labels {tokens : List Token} {i j n m : Nat}
    {table table1 : List (String × SymbolInfo)} {code : List RPNEntry}
    (h : DerivesP tokens i table j table1 n m code) : LabelsOK n m code := by
  induction h with
  | empty _ _ _ _ => exact ⟨Nat.le_refl _, [], by simp [labelsOf], List.nodup_nil, by simp,
      by simp [jumpsOf]⟩
  | block _ _ d _ _ => exact DerivesA_labels d
  | int _ _ _ _ _ _ _ _ ih => exact ih
  | arr _ _ _ _ _ _ _ _ _ _ _ _ _ _ _ _ ih => exact ih

/-- C7 (label uniqueness).  In the postfix stream of every successful `generate`, no two
`LABEL_DEF` entries carry the same payload, and the payload of every `JUMP` and
`JUMP_FALSE` entry is the payload of exactly one `LABEL_DEF` entry. -/
theorem label_uniqueness (tokens : List Token) (g : RPNGenerator)
    (h : generate tokens = .ok g) :
    (labelsOf g.m_rpn).Nodup ∧
    ∀ e ∈ g.m_rpn, (e.type = JUMP ∨ e.type = JUMP_FALSE) →
      (labelsOf g.m_rpn).count e.value = 1 := by
  obtain ⟨_, ks, h1, h2, _, h4⟩ := DerivesP_labels (generate_derives h).2
  have hn : (labelsOf g.m_rpn).Nodup := by
    rw [h1]
    exact List.Nodup.map (fun a b hab => labelName_injective hab) h2
  refine ⟨hn, fun e he ht => ?_⟩
  apply List.count_eq_one_of_mem hn
  apply h4
  unfold jumpsOf
  apply List.mem_map.mpr
  refine ⟨e, List.mem_filter.mpr ⟨he, ?_⟩, rfl⟩
  rcases ht with ht | ht <;> simp [ht]

/-! ## The interpreter: what a successful entry has done to the operand stack -/

theorem exec_bind_ok {α β : Type} {x : Exec α} {f : α → Exec β} {s s2 : RPNInterpreter}
    {b : β} (h : (x >>= f) s = .ok b s2) : ∃ a s1, x s = .ok a s1 ∧ f a s1 = .ok b s2 := by
  have e : (x >>= f) s = Exec.bind x f s := rfl
  rw [e] at h
  unfold Exec.bind at h
  cases hx : x s with
  | ok a s1 => rw [hx] at h; exact ⟨a, s1, rfl, h⟩
  | throw f1 s1 => rw [hx] at h; cases h

theorem exec_pure_ok {α : Type} {a b : α} {s s1 : RPNInterpreter}
    (h : (pure a : Exec α) s = .ok b s1) : a = b ∧ s = s1 := by
  have e : (pure a : Exec α) s = .ok a s := rfl
  rw [e] at h
  cases h
  exact ⟨rfl, rfl⟩

theorem raise_ok {α : Type} {f : Fault} {b : α} {s s1 : RPNInterpreter}
    (h : (raise f : Exec α) s = .ok b s1) : False := by
  cases h

theorem pop_operand_ok {s s1 : RPNInterpreter} {v : StackItem}
    (h : pop_operand s = .ok v s1) :
    ∃ rest, s.m_operandStack = v :: rest ∧ s1 = { s with m_operandStack := rest } := by
  unfold pop_operand at h
  cases hs : s.m_operandStack with
  | nil => rw [hs] at h; cases h
  | cons a rest =>
    rw [hs] at h
    cases h
    exact ⟨rest, rfl, rfl⟩

theorem push_operand_ok {s s1 : RPNInterpreter} {v : StackItem} {u : Unit}
    (h : push_operand v s = .ok u s1) :
    s1 = { s with m_operandStack := v :: s.m_operandStack } := by
  cases h
  rfl

theorem get_int_ok {s s1 : RPNInterpreter} {item : StackItem} {v : Int}
    (h : get_int item s = .ok v s1) : s1 = s := by
  unfold get_int at h
  cases item with
  | int w => exact (exec_pure_ok h).2.symm
  | str name =>
    simp only at h
    obtain ⟨s0, s2, h1, h2⟩ := exec_bind_ok h
    cases h1
    cases h3 : mapFind s.m_variables name with
    | some w => rw [h3] at h2; exact (exec_pure_ok h2).2.symm
    | none =>
      rw [h3] at h2
      simp only at h2
      cases h4 : mapFind s.m_arrays name with
      | some w => rw [h4] at h2; cases h2
      | none => rw [h4] at h2; cases h2

theorem get_string_ok {s s1 : RPNInterpreter} {item : StackItem} {name : String}
    (h : get_string item s = .ok name s1) : s1 = s ∧ item = .str name := by
  unfold get_string at h
  cases item with
  | int w => cases h
  | str n => obtain ⟨e1, e2⟩ := exec_pure_ok h; exact ⟨e2.symm, by rw [e1]⟩

theorem binaryResult_ok {op : String} {a b r : Int} {s s1 : RPNInterpreter}
    (h : binaryResult op a b s = .ok r s1) : s1 = s := by
  unfold binaryResult at h
  by_cases c1 : op = "+"
  · rw [if_pos c1] at h; exact (exec_pure_ok h).2.symm
  rw [if_neg c1] at h
  by_cases c2 : op = "-"
  · rw [if_pos c2] at h; exact (exec_pure_ok h).2.symm
  rw [if_neg c2] at h
  by_cases c3 : op = "*"
  · rw [if_pos c3] at h; exact (exec_pure_ok h).2.symm
  rw [if_neg c3] at h
  by_cases c4 : op = "/"
  · rw [if_pos c4] at h
    by_cases c0 : b = 0
    · rw [if_pos c0] at h; cases h
    · rw [if_neg c0] at h
      by_cases c9 : a = INT_MIN ∧ b = -1
      · rw [if_pos c9] at h; cases h
      · rw [if_neg c9] at h; exact (exec_pure_ok h).2.symm
  rw [if_neg c4] at h
  by_cases c5 : op = "~"
  · rw [if_pos c5] at h; exact (exec_pure_ok h).2.symm
  rw [if_neg c5] at h
  by_cases c6 : op = ">"
  · rw [if_pos c6] at h; exact (exec_pure_ok h).2.symm
  rw [if_neg c6] at h
  by_cases c7 : op = "<"
  · rw [if_pos c7] at h; exact (exec_pure_ok h).2.symm
  rw [if_neg c7] at h
  by_cases c8 : op = "!"
  · rw [if_pos c8] at h; exact (exec_pure_ok h).2.symm
  rw [if_neg c8] at h
  cases h

theorem get_int_value {s s1 : RPNInterpreter} {item : StackItem} {v : Int}
    (h : get_int item s = .ok v s1) : intValue s item = some v := by
  unfold get_int at h
  cases item with
  | int w => rw [(exec_pure_ok h).1]; rfl
  | str name =>
    simp only at h
    obtain ⟨s0, s2, h1, h2⟩ := exec_bind_ok h
    cases h1
    cases h3 : mapFind s.m_variables name with
    | some w => rw [h3] at h2; rw [← (exec_pure_ok h2).1]; exact h3
    | none =>
      rw [h3] at h2
      simp only at h2
      cases h4 : mapFind s.m_arrays name with
      | some w => rw [h4] at h2; cases h2
      | none => rw [h4] at h2; cases h2

/-- What a successful `handle_array_access` has done. -/
theorem handle_array_access_ok {s s1 : RPNInterpreter} {u : Unit}
    (h : handle_array_access s = .ok u s1) :
    ∃ idx name rest i arr, s.m_operandStack = idx :: .str name :: rest ∧
      intValue s idx = some i ∧ mapFind s.m_arrays name = some arr ∧
      0 ≤ i ∧ i.toNat < arr.length ∧
      s1 = { s with m_operandStack := .int (arr.getD i.toNat 0) :: rest } := by
  unfold handle_array_access at h
  obtain ⟨idx, s2, k1, k2⟩ := exec_bind_ok h
  obtain ⟨r1, p1, p2⟩ := pop_operand_ok k1
  obtain ⟨nm, s3, k3, k4⟩ := exec_bind_ok k2
  obtain ⟨r2, p3, p4⟩ := pop_operand_ok k3
  obtain ⟨i, s4, k5, k6⟩ := exec_bind_ok k4
  have e4 := get_int_ok k5
  have v4 := get_int_value k5
  obtain ⟨name, s5, k7, k8⟩ := exec_bind_ok k6
  obtain ⟨e5, e6⟩ := get_string_ok k7
  obtain ⟨s6, s7, k9, k10⟩ := exec_bind_ok k8
  cases k9
  subst e4 e5 e6 p4 p2
  simp only at p3
  cases hm : mapFind s.m_arrays name with
  | none => simp only [hm] at k10; cases k10
  | some arr =>
    simp only [hm] at k10
    split_ifs at k10 with hb
    · cases k10
    · have e7 := push_operand_ok k10
      exact ⟨idx, name, r2, i, arr, by rw [p1, p3], v4, hm, by omega, by omega, e7⟩

/-- What a successful indexed assignment `[]=` has done. -/
theorem handle_operation_indexed_ok {e : RPNEntry} {s s1 : RPNInterpreter} {u : Unit}
    (he : e.value = "[]=") (h : handle_operation e s = .ok u s1) :
    ∃ val idx name rest v i arr, s.m_operandStack = val :: idx :: .str name :: rest ∧
      intValue s val = some v ∧ intValue s idx = some i ∧
      mapFind s.m_arrays name = some arr ∧ 0 ≤ i ∧ i.toNat < arr.length ∧
      s1 = { s with m_operandStack := rest,
                    m_arrays := mapSet s.m_arrays name (arr.set i.toNat v) } := by
  unfold handle_operation at h
  have h1 : ¬ e.value = "=" := by rw [he]; decide
  rw [if_neg h1, if_pos he] at h
  obtain ⟨val, s2, k1, k2⟩ := exec_bind_ok h
  obtain ⟨r1, p1, p2⟩ := pop_operand_ok k1
  obtain ⟨idx, s3, k3, k4⟩ := exec_bind_ok k2
  obtain ⟨r2, p3, p4⟩ := pop_operand_ok k3
  obtain ⟨nm, s4, k5, k6⟩ := exec_bind_ok k4
  obtain ⟨r3, p5, p6⟩ := pop_operand_ok k5
  obtain ⟨v, s5, k7, k8⟩ := exec_bind_ok k6
  have e4 := get_int_ok k7
  have v4 := get_int_value k7
  obtain ⟨i, s6, k9, k10⟩ := exec_bind_ok k8
  have e5 := get_int_ok k9
  have v5 := get_int_value k9
  obtain ⟨name, s7, k11, k12⟩ := exec_bind_ok k10
  obtain ⟨e6, e7⟩ := get_string_ok k11
  obtain ⟨s8, s9, k13, k14⟩ := exec_bind_ok k12
  cases k13
  subst e4 e5 e6 e7 p6 p4 p2
  simp only at p3 p5
  cases hm : mapFind s.m_arrays name with
  | none => simp only [hm] at k14; cases k14
  | some arr =>
    simp only [hm] at k14
    split_ifs at k14 with hb
    · cases k14
    · cases k14
      exact ⟨val, idx, name, r3, v, i, arr, by rw [p1, p3, p5], v4, v5, hm, by omega,
        by omega, rfl⟩

theorem readInt_ok {s s1 : RPNInterpreter} {val : Int} (h : readInt s = .ok val s1) :
    ∃ rest, s.cin = val :: rest ∧ INT_MIN ≤ val ∧ val ≤ INT_MAX ∧
      s1 = { s with cin := rest } := by
  unfold readInt at h
  cases hc : s.cin with
  | nil => rw [hc] at h; cases h
  | cons a rest =>
    rw [hc] at h
    simp only at h
    split_ifs at h with hr
    cases h
    exact ⟨rest, rfl, by omega, by omega, rfl⟩

/-- What a successful indexed input `IN[]` has done. -/
theorem handle_input_indexed_ok {e : RPNEntry} {s s1 : RPNInterpreter} {u : Unit}
    (he : e.value = "IN[]") (h : handle_input e s = .ok u s1) :
    ∃ val unread idx name rest i arr, s.cin = val :: unread ∧
      s.m_operandStack = idx :: .str name :: rest ∧ intValue s idx = some i ∧
      mapFind s.m_arrays name = some arr ∧ 0 ≤ i ∧ i.toNat < arr.length ∧
      s1 = { s with cin := unread, m_operandStack := rest,
                    m_arrays := mapSet s.m_arrays name (arr.set i.toNat val) } := by
  unfold handle_input at h
  obtain ⟨val, s0, k0, k00⟩ := exec_bind_ok h
  obtain ⟨unread, c1, _, _, c2⟩ := readInt_ok k0
  have h1 : ¬ e.value = "IN" := by rw [he]; decide
  rw [if_neg h1, if_pos he] at k00
  obtain ⟨idx, s3, k3, k4⟩ := exec_bind_ok k00
  obtain ⟨r2, p3, p4⟩ := pop_operand_ok k3
  obtain ⟨nm, s4, k5, k6⟩ := exec_bind_ok k4
  obtain ⟨r3, p5, p6⟩ := pop_operand_ok k5
  obtain ⟨i, s6, k9, k10⟩ := exec_bind_ok k6
  have e5 := get_int_ok k9
  have v5 := get_int_value k9
  obtain ⟨name, s7, k11, k12⟩ := exec_bind_ok k10
  obtain ⟨e6, e7⟩ := get_string_ok k11
  obtain ⟨s8, s9, k13, k14⟩ := exec_bind_ok k12
  cases k13
  subst e5 e6 e7 p6 p4 c2
  simp only at p3 p5
  cases hm : mapFind s.m_arrays name with
  | none => simp only [hm] at k14; cases k14
  | some arr =>
    simp only [hm] at k14
    split_ifs at k14 with hb
    · cases k14
    · cases k14
      exact ⟨val, unread, idx, name, r3, i, arr, c1, by rw [p3, p5], v5, hm, by omega,
        by omega, rfl⟩

theorem find_label_ok {p : Program} {name : String} {s s1 : RPNInterpreter} {t : Nat}
    (h : find_label p name s = .ok t s1) : mapFind p.m_labelMap name = some t ∧ s1 = s := by
  unfold find_label at h
  cases hm : mapFind p.m_labelMap name with
  | none => rw [hm] at h; cases h
  | some i =>
    rw [hm] at h
    obtain ⟨e1, e2⟩ := exec_pure_ok h
    exact ⟨by rw [e1], e2.symm⟩

theorem arith_lexeme {tokens : List Token} (hc : CanonicalOps tokens) {i : Nat} {t : Token}
    (ht : tokens[i]? = some t)
    (ho : t.code = PLUS_TOK ∨ t.code = MINUS_TOK ∨ t.code = STAR_TOK ∨ t.code = SLASH_TOK) :
    t.lexeme ≠ "=" ∧ t.lexeme ≠ "[]=" := by
  obtain ⟨c1, c2, c3, c4⟩ := hc t (List.getElem?_mem ht)
  rcases ho with h | h | h | h
  · rcases c1 h with e | e <;> rw [e] <;> decide
  · rcases c2 h with e | e <;> rw [e] <;> decide
  · rcases c3 h with e | e <;> rw [e] <;> decide
  · rcases c4 h with e | e <;> rw [e] <;> decide

theorem mapFind_mapSet {α : Type} (m : List (String × α)) (k : String) (v : α) (k1 : String) :
    mapFind (mapSet m k v) k1 = if k1 = k then some v else mapFind m k1 := by
  induction m with
  | nil => simp [mapSet, mapFind]
  | cons e rest ih =>
    obtain ⟨a, b⟩ := e
    simp only [mapSet]
    by_cases h : k = a
    · subst h
      simp only [if_true, mapFind]
      by_cases h1 : k1 = k
      · simp [h1]
      · simp [h1]
    · simp only [h, if_false, mapFind, ih]
      by_cases h1 : k1 = a
      · have h2 : ¬ a = k := fun hh => h hh.symm
        simp [h1, h2]
      · simp [h1]

theorem buildLabelMap_sound (full : List RPNEntry) :
    ∀ (rest : List RPNEntry) (i : Nat) (m m1 : List (String × Nat)),
      buildLabelMap rest i m = some m1 →
      (∀ k e, rest[k]? = some e → full[i + k]? = some e) →
      LabelMapSound full m → LabelMapSound full m1 := by
  intro rest
  induction rest with
  | nil =>
    intro i m m1 h _ hm
    simp only [buildLabelMap, Option.some.injEq] at h
    rw [← h]; exact hm
  | cons e rest ih =>
    intro i m m1 h hf hm
    have hrest : ∀ k x, rest[k]? = some x → full[i + 1 + k]? = some x := by
      intro k x hk
      have := hf (k + 1) x (by simpa using hk)
      rw [← this]
      congr 1
      omega
    simp only [buildLabelMap] at h
    split_ifs at h with hl
    · cases hfind : mapFind m e.value with
      | some x => rw [hfind] at h; cases h
      | none =>
        rw [hfind] at h
        refine ih (i + 1) _ m1 h hrest ?_
        intro name t hnt
        rw [mapFind_mapSet] at hnt
        split_ifs at hnt with hname
        · simp only [Option.some.injEq] at hnt
          subst hnt
          exact ⟨e, by simpa using hf 0 e (by simp), hl⟩
        · exact hm name t hnt
    · exact ih (i + 1) m m1 h hrest hm

theorem init_sound {rpn : List RPNEntry} {table : List (String × SymbolInfo)}
    {input : List Int} {p : Program} {s : RPNInterpreter}
    (h : RPNInterpreter.init rpn table input = some (p, s)) :
    p.m_rpn = rpn ∧ LabelMapSound rpn p.m_labelMap := by
  unfold RPNInterpreter.init at h
  cases hb : buildLabelMap rpn 0 [] with
  | none => rw [hb] at h; cases h
  | some labels =>
    rw [hb] at h
    simp only [Option.some.injEq, Prod.mk.injEq] at h
    rw [← h.1]
    refine ⟨rfl, buildLabelMap_sound rpn rpn 0 [] labels hb (fun k e hk => by simpa using hk) ?_⟩
    intro name t hnt
    simp [mapFind] at hnt

/-! ## The lexer spells the arithmetic operators canonically -/

theorem AsciiTable_cat_fin : ∀ n : Fin 128,
    (AsciiTable n.val = CAT_PLUS → n.val = 43) ∧ (AsciiTable n.val = CAT_MINUS → n.val = 45) ∧
    (AsciiTable n.val = CAT_STAR → n.val = 42) ∧ (AsciiTable n.val = CAT_SLASH → n.val = 47) := by
  decide

theorem AsciiTable_cat (n : Nat) (h : n < 128) :
    (AsciiTable n = CAT_PLUS → n = 43) ∧ (AsciiTable n = CAT_MINUS → n = 45) ∧
    (AsciiTable n = CAT_STAR → n = 42) ∧ (AsciiTable n = CAT_SLASH → n = 47) :=
  AsciiTable_cat_fin ⟨n, h⟩

theorem lexTable_S_cat (cat : Nat) :
    (lexTable_S cat = 3 → cat = CAT_PLUS) ∧ (lexTable_S cat = 4 → cat = CAT_MINUS) ∧
    (lexTable_S cat = 6 → cat = CAT_STAR) ∧ (lexTable_S cat = 7 → cat = CAT_SLASH) := by
  unfold lexTable_S CAT_PLUS CAT_MINUS CAT_STAR CAT_SLASH
  split <;> omega

theorem lexTable_op (st cat a : Nat) (h : lexTable st cat = a)
    (ha : a = 3 ∨ a = 4 ∨ a = 6 ∨ a = 7) : lexTable_S cat = a := by
  unfold lexTable at h
  split_ifs at h with h1 h2 h3
  · exact h
  · unfold lexTable_A at h
    split_ifs at h <;> omega
  · unfold lexTable_B at h
    split_ifs at h <;> omega
  · omega

/-- The character read when the action is one of `+`, `-`, `*`, `/`. -/
theorem action_char (st : Nat) (ch : Int) (a : Nat)
    (h : lexTable st (if ch < 0 ∨ ch > 127 then CAT_OTHER else AsciiTable ch.toNat) = a) :
    (a = 3 → ch = 43) ∧ (a = 4 → ch = 45) ∧ (a = 6 → ch = 42) ∧ (a = 7 → ch = 47) := by
  have key : ∀ (cat : Nat) (n : Nat), (a = 3 ∨ a = 4 ∨ a = 6 ∨ a = 7) →
      (ch.toNat < 128 → AsciiTable ch.toNat = cat → ch.toNat = n) →
      (lexTable_S (if ch < 0 ∨ ch > 127 then CAT_OTHER else AsciiTable ch.toNat) = a →
        (if ch < 0 ∨ ch > 127 then CAT_OTHER else AsciiTable ch.toNat) = cat) →
      cat ≠ CAT_OTHER → ch = n := by
    intro cat n ha h1 h3 h4
    have h5 := h3 (lexTable_op _ _ _ h ha)
    split_ifs at h5 with hr
    · exact absurd h5.symm h4
    · have := h1 (by omega) h5
      omega
  refine ⟨fun e => ?_, fun e => ?_, fun e => ?_, fun e => ?_⟩
  · exact key CAT_PLUS 43 (by omega) (fun hb => (AsciiTable_cat _ hb).1)
      (fun x => (lexTable_S_cat _).1 (by rw [x, e])) (by decide)
  · exact key CAT_MINUS 45 (by omega) (fun hb => (AsciiTable_cat _ hb).2.1)
      (fun x => (lexTable_S_cat _).2.1 (by rw [x, e])) (by decide)
  · exact key CAT_STAR 42 (by omega) (fun hb => (AsciiTable_cat _ hb).2.2.1)
      (fun x => (lexTable_S_cat _).2.2.1 (by rw [x, e])) (by decide)
  · exact key CAT_SLASH 47 (by omega) (fun hb => (AsciiTable_cat _ hb).2.2.2)
      (fun x => (lexTable_S_cat _).2.2.2 (by rw [x, e])) (by decide)

theorem canonicalOp_of_not_op {t : Token}
    (h : t.code ≠ PLUS_TOK ∧ t.code ≠ MINUS_TOK ∧ t.code ≠ STAR_TOK ∧ t.code ≠ SLASH_TOK) :
    canonicalOp t := by
  unfold canonicalOp
  exact ⟨fun x => absurd x h.1, fun x => absurd x h.2.1, fun x => absurd x h.2.2.1,
    fun x => absurd x h.2.2.2⟩

/-- The keywords whose code is the value of an arithmetic operator are the names of the
four functions. -/
theorem keywords_op (s : String) (c : TokenCode) (h : keywords s = some c) :
    (c = PLUS_TOK → s = "sin") ∧ (c = MINUS_TOK → s = "cos") ∧ (c = STAR_TOK → s = "tg") ∧
      (c = SLASH_TOK → s = "ctg") := by
  have := mapFind_mem _ _ _ h
  simp only [keywordTable, List.mem_cons, Prod.mk.injEq, List.mem_singleton,
    List.not_mem_nil, or_false] at this
  rcases this with h | h | h | h | h | h | h | h | h | h | h | h | h <;>
    (rw [h.1, h.2]; decide)

theorem finalize_identifier_canonical (s : String) (l : Int) :
    canonicalOp (finalize_identifier s l) := by
  unfold finalize_identifier
  cases h : keywords s with
  | none => exact canonicalOp_of_not_op (by simp)
  | some c =>
    obtain ⟨k1, k2, k3, k4⟩ := keywords_op s c h
    exact ⟨fun x => Or.inr (k1 x), fun x => Or.inr (k2 x), fun x => Or.inr (k3 x),
      fun x => Or.inr (k4 x)⟩

theorem finalize_number_canonical (s : String) (l : Int) :
    canonicalOp (finalize_number s l) := canonicalOp_of_not_op (by simp [finalize_number])

theorem string1_ops : string1 (int_to_char 43) = "+" ∧ string1 (int_to_char 45) = "-" ∧
    string1 (int_to_char 42) = "*" ∧ string1 (int_to_char 47) = "/" := by decide

/-- Every token one iteration of the scanning loop returns spells an arithmetic operator
canonically. -/
theorem getNextToken_body_canonical (lx0 : Lexer) (v : ScanVars) :
    ∀ t lx1, getNextToken_body lx0 v = .ret t lx1 → canonicalOp t := by
  intro t lx1 h
  unfold getNextToken_body at h
  generalize get_char lx0 = p at h
  obtain ⟨ch, lx⟩ := p
  simp only at h
  by_cases he : ch = EOF
  · simp only [he, if_true] at h
    split_ifs at h <;> simp only [ScanStep.ret.injEq] at h <;> rw [← h.1]
    · exact finalize_identifier_canonical _ _
    · exact finalize_number_canonical _ _
    · exact canonicalOp_of_not_op (by simp)
  · simp only [he, if_false] at h
    have hact := action_char v.currentState ch _ rfl
    obtain ⟨a3, a4, a6, a7⟩ := hact
    obtain ⟨s3, s4, s6, s7⟩ := string1_ops
    split at h
    all_goals first
      | (cases h; done)
      | (rename_i heq
         simp only [ScanStep.ret.injEq] at h
         rw [← h.1]
         first
          | exact finalize_identifier_canonical _ _
          | exact finalize_number_canonical _ _
          | (refine canonicalOp_of_not_op ?_; simp; done)
          | (unfold canonicalOp
             simp [a3 heq, s3])
          | (unfold canonicalOp
             simp [a4 heq, s4])
          | (unfold canonicalOp
             simp [a6 heq, s6])
          | (unfold canonicalOp
             simp [a7 heq, s7]))
      | (split_ifs at h <;> first
          | (cases h; done)
          | (simp only [ScanStep.ret.injEq] at h
             rw [← h.1]
             first
              | exact finalize_identifier_canonical _ _
              | exact finalize_number_canonical _ _
              | (refine canonicalOp_of_not_op ?_; simp)))

theorem getNextToken_loop_canonical :
    ∀ (fuel : Nat) (lx : Lexer) (v : ScanVars) (t : Token) (lx1 : Lexer),
      getNextToken_loop fuel lx v = some (t, lx1) → canonicalOp t := by
  intro fuel
  induction fuel with
  | zero => intro lx v t lx1 h; simp [getNextToken_loop] at h
  | succ n ih =>
    intro lx v t lx1 h
    unfold getNextToken_loop at h
    cases hb : getNextToken_body lx v with
    | ret t2 lx2 =>
      rw [hb] at h
      simp only [Option.some.injEq, Prod.mk.injEq] at h
      rw [← h.1]
      exact getNextToken_body_canonical lx v t2 lx2 hb
    | again lx2 v2 =>
      rw [hb] at h
      exact ih lx2 v2 t lx1 h

/-- Every token the lexer returns spells an arithmetic operator canonically. -/
theorem getNextToken_canonical (lx lx1 : Lexer) (t : Token)
    (h : getNextToken lx = some (t, lx1)) : canonicalOp t :=
  getNextToken_loop_canonical _ _ _ _ _ h

theorem tokenLoop_canonical :
    ∀ (fuel : Nat) (lx : Lexer) (acc ts : List Token),
      tokenLoop fuel lx acc = .tokens ts → (∀ t ∈ acc, canonicalOp t) →
      ∀ t ∈ ts, canonicalOp t := by
  intro fuel
  induction fuel with
  | zero => intro lx acc ts h; simp [tokenLoop] at h
  | succ n ih =>
    intro lx acc ts h hacc
    unfold tokenLoop at h
    cases hg : getNextToken lx with
    | none => rw [hg] at h; cases h
    | some r =>
      obtain ⟨t, lx1⟩ := r
      rw [hg] at h
      simp only at h
      have hc := getNextToken_canonical lx lx1 t hg
      have hacc1 : ∀ u ∈ (if t.code ≠ NONE_TOK then acc ++ [t] else acc), canonicalOp u := by
        intro u hu
        split_ifs at hu
        · rcases List.mem_append.mp hu with h1 | h1
          · exact hacc u h1
          · rw [List.mem_singleton.mp h1]; exact hc
        · exact hacc u hu
      generalize (if t.code ≠ NONE_TOK then acc ++ [t] else acc) = tokens1 at h hacc1
      split_ifs at h
      · exact ih lx1 _ ts h hacc1
      · simp only [TokenLoopResult.tokens.injEq] at h
        rw [← h]; exact hacc1

/-- The token vector `main` builds spells the arithmetic operators canonically. -/
theorem tokenLoop_CanonicalOps {fuel : Nat} {lx : Lexer} {ts : List Token}
    (h : tokenLoop fuel lx [] = .tokens ts) : CanonicalOps ts := by
  intro t ht
  exact tokenLoop_canonical fuel lx [] ts h (fun u hu => by cases hu) t ht
/-! ## Stack balance -/

theorem generate_generated {tokens : List Token} (h : (generate tokens).toBool = true) :
    generate tokens = .ok (generated tokens) := by
  unfold generated
  cases hg : generate tokens with
  | error e => rw [hg] at h; cases h
  | ok g => rfl

theorem init_loaded {tokens : List Token} {input : List Int}
    (h : (RPNInterpreter.init (generated tokens).m_rpn (generated tokens).m_symbolTable
      input).isSome = true) :
    RPNInterpreter.init (generated tokens).m_rpn (generated tokens).m_symbolTable input =
      some ((loaded tokens input).1, (loaded tokens input).2) := by
  unfold loaded
  cases hg : RPNInterpreter.init (generated tokens).m_rpn (generated tokens).m_symbolTable
    input with
  | none => rw [hg] at h; cases h
  | some r => rfl

theorem exec_bind_eq {α β : Type} (x : Exec α) (f : α → Exec β) (s : RPNInterpreter) :
    (x >>= f) s = match x s with
      | .ok a s1 => f a s1
      | .throw e s1 => .throw e s1 := rfl

theorem exec_pure_eq {α : Type} (a : α) (s : RPNInterpreter) :
    (pure a : Exec α) s = .ok a s := rfl

theorem pop_operand_eval {s : RPNInterpreter} {v : StackItem} {r : List StackItem}
    (hs : s.m_operandStack = v :: r) :
    pop_operand s = .ok v { s with m_operandStack := r } := by
  unfold pop_operand
  rw [hs]

theorem get_int_eval {s : RPNInterpreter} {item : StackItem} {i : Int}
    (h : intValue s item = some i) : get_int item s = .ok i s := by
  cases item with
  | int v =>
    simp only [intValue, Option.some.injEq] at h
    rw [h]; rfl
  | str name =>
    simp only [intValue] at h
    unfold get_int
    simp only [exec_bind_eq, getState, h]
    rfl

theorem indexAt_some {s : RPNInterpreter} {stack : List StackItem} {i : Int} {arr : List Int}
    (h : indexAt s stack = some (i, arr)) :
    ∃ idx name rest, stack = idx :: .str name :: rest ∧ intValue s idx = some i ∧
      mapFind s.m_arrays name = some arr := by
  cases stack with
  | nil => simp [indexAt] at h
  | cons idx r =>
    cases r with
    | nil => simp [indexAt] at h
    | cons nm rest =>
      cases nm with
      | int v => simp [indexAt] at h
      | str name =>
        simp only [indexAt] at h
        cases h1 : intValue s idx with
        | none => rw [h1] at h; simp at h
        | some j =>
          cases h2 : mapFind s.m_arrays name with
          | none => rw [h1, h2] at h; simp at h
          | some a =>
            rw [h1, h2] at h
            simp only [Option.some.injEq, Prod.mk.injEq] at h
            exact ⟨idx, name, rest, rfl, by rw [← h.1]; exact h1, by rw [← h.2]; exact h2⟩

theorem indexAt_eq {s : RPNInterpreter} {idx : StackItem} {name : String}
    {rest : List StackItem} {i : Int} {arr : List Int}
    (h1 : intValue s idx = some i) (h2 : mapFind s.m_arrays name = some arr) :
    indexAt s (idx :: .str name :: rest) = some (i, arr) := by
  simp only [indexAt, h1, h2]

/-- The method `handle_array_access` on operands that resolve. -/
theorem handle_array_access_eval {s : RPNInterpreter} {idx : StackItem} {name : String}
    {rest : List StackItem} {i : Int} {arr : List Int}
    (hs : s.m_operandStack = idx :: .str name :: rest)
    (hi : intValue s idx = some i) (ha : mapFind s.m_arrays name = some arr) :
    handle_array_access s =
      if i < 0 ∨ i.toNat ≥ arr.length then
        .throw .indexOutOfBounds { s with m_operandStack := rest }
      else .ok () { s with m_operandStack := .int (arr.getD i.toNat 0) :: rest } := by
  unfold handle_array_access
  rw [exec_bind_eq, pop_operand_eval hs]
  simp only
  rw [exec_bind_eq, pop_operand_eval (rfl : ({ s with m_operandStack := .str name :: rest } :
    RPNInterpreter).m_operandStack = _)]
  simp only
  rw [exec_bind_eq, get_int_eval (s := { s with m_operandStack := rest }) (by cases idx <;> exact hi)]
  simp only
  rw [exec_bind_eq]
  simp only [get_string, exec_bind_eq, exec_pure_eq, getState, ha]
  split_ifs <;> rfl

/-- The operation `[]=` on operands that resolve. -/
theorem handle_operation_indexed_eval {e : RPNEntry} {s : RPNInterpreter}
    {val idx : StackItem} {name : String} {rest : List StackItem} {v i : Int} {arr : List Int}
    (he : e.value = "[]=") (hs : s.m_operandStack = val :: idx :: .str name :: rest)
    (hv : intValue s val = some v) (hi : intValue s idx = some i)
    (ha : mapFind s.m_arrays name = some arr) :
    handle_operation e s =
      if i < 0 ∨ i.toNat ≥ arr.length then
        .throw .indexOutOfBounds { s with m_operandStack := rest }
      else .ok () { s with m_operandStack := rest,
                           m_arrays := mapSet s.m_arrays name (arr.set i.toNat v) } := by
  unfold handle_operation
  have h1 : ¬ e.value = "=" := by rw [he]; decide
  rw [if_neg h1, if_pos he]
  rw [exec_bind_eq, pop_operand_eval hs]
  simp only
  rw [exec_bind_eq, pop_operand_eval (s := { s with m_operandStack := idx :: .str name :: rest })
    (v := idx) (r := .str name :: rest) rfl]
  simp only
  rw [exec_bind_eq, pop_operand_eval (s := { s with m_operandStack := .str name :: rest })
    (v := .str name) (r := rest) rfl]
  simp only
  rw [exec_bind_eq, get_int_eval (s := { s with m_operandStack := rest })
    (by cases val <;> exact hv)]
  simp only
  rw [exec_bind_eq, get_int_eval (s := { s with m_operandStack := rest })
    (by cases idx <;> exact hi)]
  simp only
  rw [exec_bind_eq]
  simp only [get_string, exec_bind_eq, exec_pure_eq, getState, ha]
  split_ifs <;> rfl

/-- The input `IN[]` on a console that holds an integer and operands that resolve. -/
theorem handle_input_indexed_eval {e : RPNEntry} {s : RPNInterpreter}
    {idx : StackItem} {name : String} {rest : List StackItem} {val i : Int}
    {unread arr : List Int}
    (he : e.value = "IN[]") (hc : s.cin = val :: unread)
    (hr : ¬ (val < INT_MIN ∨ val > INT_MAX))
    (hs : s.m_operandStack = idx :: .str name :: rest)
    (hi : intValue s idx = some i) (ha : mapFind s.m_arrays name = some arr) :
    handle_input e s =
      if i < 0 ∨ i.toNat ≥ arr.length then
        .throw .indexOutOfBounds { s with cin := unread, m_operandStack := rest }
      else .ok () { s with cin := unread, m_operandStack := rest,
                           m_arrays := mapSet s.m_arrays name (arr.set i.toNat val) } := by
  unfold handle_input
  have h1 : ¬ e.value = "IN" := by rw [he]; decide
  have hread : readInt s = .ok val { s with cin := unread } := by
    unfold readInt
    rw [hc]
    simp only [if_neg hr]
  rw [exec_bind_eq, hread]
  simp only
  rw [if_neg h1, if_pos he]
  rw [exec_bind_eq, pop_operand_eval (s := { s with cin := unread }) hs]
  simp only
  rw [exec_bind_eq, pop_operand_eval
    (s := { s with cin := unread, m_operandStack := .str name :: rest })
    (v := .str name) (r := rest) rfl]
  simp only
  rw [exec_bind_eq, get_int_eval (s := { s with cin := unread, m_operandStack := rest })
    (by cases idx <;> exact hi)]
  simp only
  rw [exec_bind_eq]
  simp only [get_string, exec_bind_eq, exec_pure_eq, getState, ha]
  split_ifs <;> rfl

theorem isIndexed_cases {e : RPNEntry} (h : isIndexed e = true) :
    e.type = ARRAY_ACCESS ∨ (e.type = OPERATION ∧ e.value = "[]=") ∨
      (e.type = INPUT ∧ e.value = "IN[]") := by
  unfold isIndexed at h
  simp only [Bool.or_eq_true, Bool.and_eq_true, decide_eq_true_eq] at h
  rcases h with (h | h) | h
  · exact Or.inl h
  · exact Or.inr (Or.inl h)
  · exact Or.inr (Or.inr h)

/-- What `execEntry` does on each of the three indexed operations. -/
theorem execEntry_indexed (fns : MathFns) (p : Program) (e : RPNEntry) (s : RPNInterpreter) :
    (e.type = ARRAY_ACCESS → execEntry fns p e s = (handle_array_access >>= fun _ => pure true) s) ∧
    (e.type = OPERATION → execEntry fns p e s = (handle_operation e >>= fun _ => pure true) s) ∧
    (e.type = INPUT → execEntry fns p e s = (handle_input e >>= fun _ => pure true) s) := by
  refine ⟨fun h => ?_, fun h => ?_, fun h => ?_⟩ <;> (unfold execEntry; rw [h])

/-- C9. Bounds safety.  For each of the three indexed operations (`ARRAY_ACCESS`, `[]=`,
`IN[]`) executed by the loop of `run` in any state: if the entry is executed without a
throw, the execution arrived at the bounds check with a resolved index `i` and a named
array `arr`, and `0 ≤ i < arr.length`; conversely, when it arrives at the check with
`i < 0` or `i ≥ arr.length`, it throws "index out of bounds", leaving the arrays, the
variables and the output as they were and pushing nothing (the operands are popped); and
when it arrives there with `0 ≤ i < arr.length`, it does not throw. -/
theorem bounds_safety (fns : MathFns) (p : Program) (e : RPNEntry) (s : RPNInterpreter)
    (hx : isIndexed e = true) :
    (∀ b s1, execEntry fns p e s = .ok b s1 →
      ∃ i arr, resolvedIndex e s = some (i, arr) ∧ 0 ≤ i ∧ i < arr.length) ∧
    (∀ i arr, resolvedIndex e s = some (i, arr) → (i < 0 ∨ (arr.length : Int) ≤ i) →
      ∃ s1, execEntry fns p e s = .throw .indexOutOfBounds s1 ∧
        s1.m_arrays = s.m_arrays ∧ s1.m_variables = s.m_variables ∧ s1.cout = s.cout ∧
        s1.m_operandStack = s.m_operandStack.drop (if e.type = OPERATION then 3 else 2)) ∧
    (∀ i arr, resolvedIndex e s = some (i, arr) → 0 ≤ i → i < arr.length →
      ∃ s1, execEntry fns p e s = .ok true s1) := by
  obtain ⟨x1, x2, x3⟩ := execEntry_indexed fns p e s
  rcases isIndexed_cases hx with ht | ⟨ht, hv⟩ | ⟨ht, hv⟩
  · -- ARRAY_ACCESS
    have hr : resolvedIndex e s = indexAt s s.m_operandStack := by
      unfold resolvedIndex
      rw [ht]
      rfl
    rw [x1 ht, hr]
    refine ⟨?_, ?_, ?_⟩
    · intro b s1 h
      obtain ⟨u, s2, k1, _⟩ := exec_bind_ok h
      obtain ⟨idx, name, rest, i, arr, hs, hi, ha, h0, h1, _⟩ := handle_array_access_ok k1
      refine ⟨i, arr, ?_, h0, by omega⟩
      rw [hs]
      exact indexAt_eq hi ha
    · intro i arr h hb
      obtain ⟨idx, name, rest, hs, hi, ha⟩ := indexAt_some h
      have hc : i < 0 ∨ i.toNat ≥ arr.length := by omega
      rw [exec_bind_eq, handle_array_access_eval hs hi ha, if_pos hc]
      refine ⟨_, rfl, rfl, rfl, rfl, ?_⟩
      rw [hs, ht]
      rfl
    · intro i arr h h0 h1
      obtain ⟨idx, name, rest, hs, hi, ha⟩ := indexAt_some h
      have hc : ¬ (i < 0 ∨ i.toNat ≥ arr.length) := by omega
      rw [exec_bind_eq, handle_array_access_eval hs hi ha, if_neg hc]
      exact ⟨_, rfl⟩
  · -- the operation `[]=`
    rw [x2 ht]
    refine ⟨?_, ?_, ?_⟩
    · intro b s1 h
      obtain ⟨u, s2, k1, _⟩ := exec_bind_ok h
      obtain ⟨val, idx, name, rest, v, i, arr, hs, hw, hi, ha, h0, h1, _⟩ :=
        handle_operation_indexed_ok hv k1
      refine ⟨i, arr, ?_, h0, by omega⟩
      unfold resolvedIndex
      rw [if_pos ht, hs]
      simp only [hw, Option.isSome_some, if_true]
      exact indexAt_eq hi ha
    · intro i arr h hb
      unfold resolvedIndex at h
      rw [if_pos ht] at h
      cases hst : s.m_operandStack with
      | nil => rw [hst] at h; cases h
      | cons val r =>
        rw [hst] at h
        simp only at h
        cases hw : intValue s val with
        | none => rw [hw] at h; simp at h
        | some v =>
          rw [hw] at h
          simp only [Option.isSome_some, if_true] at h
          obtain ⟨idx, name, rest, hs, hi, ha⟩ := indexAt_some h
          subst hs
          have hc : i < 0 ∨ i.toNat ≥ arr.length := by omega
          rw [exec_bind_eq, handle_operation_indexed_eval hv hst hw hi ha, if_pos hc]
          refine ⟨_, rfl, rfl, rfl, rfl, ?_⟩
          rw [if_pos ht]
          rfl
    · intro i arr h h0 h1
      unfold resolvedIndex at h
      rw [if_pos ht] at h
      cases hst : s.m_operandStack with
      | nil => rw [hst] at h; cases h
      | cons val r =>
        rw [hst] at h
        simp only at h
        cases hw : intValue s val with
        | none => rw [hw] at h; simp at h
        | some v =>
          rw [hw] at h
          simp only [Option.isSome_some, if_true] at h
          obtain ⟨idx, name, rest, hs, hi, ha⟩ := indexAt_some h
          subst hs
          have hc : ¬ (i < 0 ∨ i.toNat ≥ arr.length) := by omega
          rw [exec_bind_eq, handle_operation_indexed_eval hv hst hw hi ha, if_neg hc]
          exact ⟨_, rfl⟩
  · -- the input `IN[]`
    have hno : ¬ e.type = OPERATION := by rw [ht]; intro h; cases h
    rw [x3 ht]
    refine ⟨?_, ?_, ?_⟩
    · intro b s1 h
      obtain ⟨u, s2, k1, _⟩ := exec_bind_ok h
      unfold handle_input at k1
      obtain ⟨val, s0, k0, _⟩ := exec_bind_ok k1
      obtain ⟨unread0, c1, c3, c4, _⟩ := readInt_ok k0
      have k1b : handle_input e s = .ok u s2 := by unfold handle_input; exact k1
      obtain ⟨val1, unread, idx, name, rest, i, arr, hc, hs, hi, ha, h0, h1, _⟩ :=
        handle_input_indexed_ok hv k1b
      refine ⟨i, arr, ?_, h0, by omega⟩
      unfold resolvedIndex
      rw [if_neg hno, if_pos ht, c1]
      simp only
      rw [if_neg (by omega), hs]
      exact indexAt_eq hi ha
    · intro i arr h hb
      unfold resolvedIndex at h
      rw [if_neg hno, if_pos ht] at h
      cases hcin : s.cin with
      | nil => rw [hcin] at h; cases h
      | cons val unread =>
        rw [hcin] at h
        simp only at h
        by_cases hr : val < INT_MIN ∨ val > INT_MAX
        · rw [if_pos hr] at h; cases h
        · rw [if_neg hr] at h
          obtain ⟨idx, name, rest, hs, hi, ha⟩ := indexAt_some h
          have hc : i < 0 ∨ i.toNat ≥ arr.length := by omega
          rw [exec_bind_eq, handle_input_indexed_eval hv hcin hr hs hi ha, if_pos hc]
          refine ⟨_, rfl, rfl, rfl, rfl, ?_⟩
          rw [if_neg hno, hs]
          rfl
    · intro i arr h h0 h1
      unfold resolvedIndex at h
      rw [if_neg hno, if_pos ht] at h
      cases hcin : s.cin with
      | nil => rw [hcin] at h; cases h
      | cons val unread =>
        rw [hcin] at h
        simp only at h
        by_cases hr : val < INT_MIN ∨ val > INT_MAX
        · rw [if_pos hr] at h; cases h
        · rw [if_neg hr] at h
          obtain ⟨idx, name, rest, hs, hi, ha⟩ := indexAt_some h
          have hc : ¬ (i < 0 ∨ i.toNat ≥ arr.length) := by omega
          rw [exec_bind_eq, handle_input_indexed_eval hv hcin hr hs hi ha, if_neg hc]
          exact ⟨_, rfl⟩

/-- Witness of bounds safety: `ARRAY_ACCESS` with the operands `q`, 2 on the stack and an
array `q` of two elements. -/
theorem bounds_safety_witness :
    isIndexed ⟨ARRAY_ACCESS, "[]", 1⟩ = true ∧
    resolvedIndex ⟨ARRAY_ACCESS, "[]", 1⟩ stateQ2 = some (2, [0, 0]) ∧
    ∃ s1, execEntry noMath ⟨[], [], []⟩ ⟨ARRAY_ACCESS, "[]", 1⟩ stateQ2 =
        .throw .indexOutOfBounds s1 ∧
      s1.m_arrays = stateQ2.m_arrays ∧ s1.m_variables = stateQ2.m_variables ∧
      s1.cout = stateQ2.cout ∧ s1.m_operandStack = stateQ2.m_operandStack.drop 2 :=
  ⟨by decide, by decide,
    (bounds_safety noMath ⟨[], [], []⟩ ⟨ARRAY_ACCESS, "[]", 1⟩ stateQ2 (by decide)).2.1
      2 [0, 0] (by decide) (by decide)⟩

/-- Witness of label uniqueness: the `while` program of scenario S3, whose code defines the
labels `L0` and `L1`. -/
theorem label_uniqueness_witness :
    generate (tokensOf true sourceS3) = .ok (generated (tokensOf true sourceS3)) ∧
    labelsOf (generated (tokensOf true sourceS3)).m_rpn = ["L0", "L1"] ∧
    (labelsOf (generated (tokensOf true sourceS3)).m_rpn).Nodup ∧
    ∀ e ∈ (generated (tokensOf true sourceS3)).m_rpn, (e.type = JUMP ∨ e.type = JUMP_FALSE) →
      (labelsOf (generated (tokensOf true sourceS3)).m_rpn).count e.value = 1 :=
  ⟨generate_generated (by decide!), by decide!,
    label_uniqueness (tokensOf true sourceS3) (generated (tokensOf true sourceS3))
      (generate_generated (by decide!))⟩

/-! ## The descent never runs out of recursion depth -/

theorem DerivesE_le {tokens : List Token} {table : List (String × SymbolInfo)} {X : NT}
    {i j : Nat} {code : List RPNEntry} (h : DerivesE tokens table X i j code) : i ≤ j := by
  induction h <;> omega

theorem DerivesC_le {tokens : List Token} {table : List (String × SymbolInfo)}
    {i j : Nat} {code : List RPNEntry} (h : DerivesC tokens table i j code) : i ≤ j := by
  cases h with
  | C d1 _ _ d2 =>
    have := DerivesE_le d1
    have := DerivesE_le d2
    omega

theorem DerivesA_le {tokens : List Token} {table : List (String × SymbolInfo)}
    {i j n m : Nat} {code : List RPNEntry} (h : DerivesA tokens table i j n m code) :
    i ≤ j := by
  induction h with
  | nil _ _ => exact Nat.le_refl _
  | assign _ _ _ _ _ _ _ _ d _ _ _ ih => have := DerivesE_le d; omega
  | assignIndexed _ _ _ _ _ _ d1 _ _ _ _ d2 _ _ _ ih =>
    have := DerivesE_le d1
    have := DerivesE_le d2
    omega
  | ifThen _ _ _ _ d _ _ _ _ _ _ _ _ _ _ ih1 ih2 => have := DerivesC_le d; omega
  | «while» _ _ _ _ d _ _ _ _ _ _ _ _ _ _ ih1 ih2 => have := DerivesC_le d; omega
  | input _ _ _ _ _ _ _ _ _ _ _ _ _ _ _ ih => omega
  | inputIndexed _ _ _ _ _ _ _ _ _ _ d _ _ _ _ _ _ _ ih => have := DerivesE_le d; omega
  | output _ _ _ _ d _ _ _ _ _ ih => have := DerivesE_le d; omega
  | trig _ _ _ _ d _ _ _ _ _ ih => have := DerivesE_le d; omega

@[simp] theorem remaining_emit (g : RPNGenerator) (t : RPNItemType) (v : String) (l : Int) :
    remaining (emit g t v l) = remaining g := rfl

@[simp] theorem remaining_newLabel (g : RPNGenerator) :
    remaining (newLabel g).2 = remaining g := rfl

theorem bind_oof {α β : Type} {x : Except GenError α} {f : α → Except GenError β}
    (h : (x >>= f) = .error .outOfFuel) :
    x = .error .outOfFuel ∨ ∃ a, x = .ok a ∧ f a = .error .outOfFuel := by
  cases x with
  | error e => left; simpa [bind, Except.bind] using h
  | ok a => right; exact ⟨a, rfl, h⟩

theorem currentToken_oof {g : RPNGenerator} (h : currentToken g = .error .outOfFuel) :
    False := by
  unfold currentToken at h
  cases h1 : g.m_tokens[g.m_currentIndex]? with
  | some t => rw [h1] at h; cases h
  | none =>
    rw [h1] at h
    simp only at h
    cases h2 : g.m_tokens.getLast? with
    | none => rw [h2] at h; cases h
    | some t =>
      rw [h2] at h
      simp only at h
      split_ifs at h
      cases h

theorem consumeToken_oof {g : RPNGenerator} (h : consumeToken g = .error .outOfFuel) :
    False := by
  unfold consumeToken at h
  cases h1 : g.m_tokens[g.m_currentIndex]? with
  | none => rw [h1] at h; cases h
  | some t =>
    rw [h1] at h
    simp only at h
    split_ifs at h
    cases h

theorem expect_oof {g : RPNGenerator} {code : TokenCode} {m : String}
    (h : expect g code m = .error .outOfFuel) : False := by
  unfold expect at h
  cases h1 : consumeToken g with
  | error e =>
    rw [h1] at h
    simp only [Except.error.injEq] at h
    rw [h] at h1
    exact consumeToken_oof h1
  | ok p =>
    obtain ⟨t, g1⟩ := p
    rw [h1] at h
    simp only [throwSyntaxError] at h
    split_ifs at h
    cases h

theorem getSymbol_oof {g : RPNGenerator} {name : String}
    (h : getSymbol g name = .error .outOfFuel) : False := by
  unfold getSymbol at h
  cases h1 : mapFind g.m_symbolTable name with
  | none => rw [h1] at h; simp [throwSyntaxError] at h
  | some i =>
    rw [h1] at h
    simp only [throwSyntaxError] at h
    split_ifs at h
    cases h

theorem addSymbol_oof {g : RPNGenerator} {name : String} {c : SymbolClass} {t : TokenCode}
    {l s : Int} (h : addSymbol g name c t l s = .error .outOfFuel) : False := by
  unfold addSymbol at h
  simp only [throwSyntaxError] at h
  split_ifs at h
  cases h

theorem consumeToken_remaining {g g1 : RPNGenerator} {t : Token}
    (h : consumeToken g = .ok (t, g1)) : remaining g1 + 1 = remaining g := by
  obtain ⟨e1, e2⟩ := consumeToken_ok h
  have hl : g.m_currentIndex < g.m_tokens.length := by
    by_contra hc
    rw [List.getElem?_eq_none (by omega)] at e1
    cases e1
  subst e2
  simp only [remaining]
  omega

theorem expect_remaining {g g1 : RPNGenerator} {t : Token} {code : TokenCode} {m : String}
    (h : expect g code m = .ok (t, g1)) : remaining g1 + 1 = remaining g := by
  unfold expect at h
  cases h1 : consumeToken g with
  | error e => rw [h1] at h; cases h
  | ok p =>
    obtain ⟨t1, g2⟩ := p
    rw [h1] at h
    simp only [throwSyntaxError] at h
    split_ifs at h
    simp only [Except.ok.injEq, Prod.mk.injEq] at h
    rw [← h.2]
    exact consumeToken_remaining h1

theorem step_current {β : Type} {g : RPNGenerator} {f : Token → Except GenError β}
    (h : (currentToken g >>= f) = .error .outOfFuel) : ∃ t, f t = .error .outOfFuel := by
  rcases bind_oof h with h1 | ⟨t, _, h2⟩
  · exact (currentToken_oof h1).elim
  · exact ⟨t, h2⟩

theorem step_consume {β : Type} {g : RPNGenerator}
    {f : Token × RPNGenerator → Except GenError β}
    (h : (consumeToken g >>= f) = .error .outOfFuel) :
    ∃ t g1, remaining g1 + 1 = remaining g ∧ f (t, g1) = .error .outOfFuel := by
  rcases bind_oof h with h1 | ⟨p, h1, h2⟩
  · exact (consumeToken_oof h1).elim
  · exact ⟨p.1, p.2, consumeToken_remaining h1, h2⟩

theorem step_expect {β : Type} {g : RPNGenerator} {code : TokenCode} {m : String}
    {f : Token × RPNGenerator → Except GenError β}
    (h : (expect g code m >>= f) = .error .outOfFuel) :
    ∃ t g1, remaining g1 + 1 = remaining g ∧ f (t, g1) = .error .outOfFuel := by
  rcases bind_oof h with h1 | ⟨p, h1, h2⟩
  · exact (expect_oof h1).elim
  · exact ⟨p.1, p.2, expect_remaining h1, h2⟩

theorem step_getSymbol {β : Type} {g : RPNGenerator} {name : String}
    {f : SymbolInfo → Except GenError β}
    (h : (getSymbol g name >>= f) = .error .outOfFuel) :
    ∃ info, f info = .error .outOfFuel := by
  rcases bind_oof h with h1 | ⟨p, _, h2⟩
  · exact (getSymbol_oof h1).elim
  · exact ⟨p, h2⟩

theorem step_call {β : Type} {g : RPNGenerator} {x : Except GenError RPNGenerator}
    {f : RPNGenerator → Except GenError β} {P : Prop}
    (hx : x = .error .outOfFuel → P) (hm : ∀ g1, x = .ok g1 → remaining g1 ≤ remaining g)
    (h : (x >>= f) = .error .outOfFuel) :
    P ∨ ∃ g1, remaining g1 ≤ remaining g ∧ f g1 = .error .outOfFuel := by
  rcases bind_oof h with h1 | ⟨g1, h1, h2⟩
  · exact Or.inl (hx h1)
  · exact Or.inr ⟨g1, hm g1 h1, h2⟩

theorem ExprStep_remaining {X : NT} {g g1 : RPNGenerator} (h : ExprStep X g g1) :
    remaining g1 ≤ remaining g := by
  obtain ⟨j, code, e, d⟩ := h
  have := DerivesE_le d
  subst e
  simp only [remaining]
  omega

theorem CondStep_remaining {g g1 : RPNGenerator} (h : CondStep g g1) :
    remaining g1 ≤ remaining g := by
  obtain ⟨j, code, e, d⟩ := h
  have := DerivesC_le d
  subst e
  simp only [remaining]
  omega

theorem StmtStep_remaining {g g1 : RPNGenerator} (h : StmtStep g g1) :
    remaining g1 ≤ remaining g := by
  obtain ⟨j, m, code, e, d⟩ := h
  have := DerivesA_le d
  subst e
  simp only [remaining]
  omega

/-- The methods of the expression grammar run out of recursion depth only when the depth is
small against the number of tokens still to read. -/
theorem parse_expr_fuel (fuel : Nat) :
    (∀ g, parse_G fuel g = .error .outOfFuel → fuel < 3 * remaining g + 3) ∧
    (∀ g, parse_U_prime fuel g = .error .outOfFuel → fuel < 3 * remaining g + 1) ∧
    (∀ g, parse_T fuel g = .error .outOfFuel → fuel < 3 * remaining g + 2) ∧
    (∀ g, parse_V_prime fuel g = .error .outOfFuel → fuel < 3 * remaining g + 1) ∧
    (∀ g, parse_F fuel g = .error .outOfFuel → fuel < 3 * remaining g + 1) := by
  induction fuel with
  | zero => refine ⟨?_, ?_, ?_, ?_, ?_⟩ <;> intro g _ <;> omega
  | succ n ih =>
    obtain ⟨ihG, ihU, ihT, ihV, ihF⟩ := ih
    have mG := fun g g1 (h : parse_G n g = .ok g1) =>
      ExprStep_remaining ((parse_expr_derives n).1 g g1 h)
    have mT := fun g g1 (h : parse_T n g = .ok g1) =>
      ExprStep_remaining ((parse_expr_derives n).2.2.1 g g1 h)
    have mF := fun g g1 (h : parse_F n g = .ok g1) =>
      ExprStep_remaining ((parse_expr_derives n).2.2.2.2 g g1 h)
    refine ⟨?_, ?_, ?_, ?_, ?_⟩ <;> intro g h
    · -- parse_G
      simp only [parse_G] at h
      rcases step_call (ihT g) (mT g) h with hb | ⟨g1, r1, h⟩
      · omega
      · have := ihU _ h
        omega
    · -- parse_U_prime
      simp only [parse_U_prime] at h
      obtain ⟨t, h⟩ := step_current h
      split_ifs at h
      · obtain ⟨t1, g1, r1, h⟩ := step_consume h
        simp only at h
        rcases step_call (ihT g1) (mT g1) h with hb | ⟨g2, r2, h⟩
        · omega
        · have := ihU _ h
          simp only [remaining_emit] at this
          omega
      · cases h
    · -- parse_T
      simp only [parse_T] at h
      rcases step_call (ihF g) (mF g) h with hb | ⟨g1, r1, h⟩
      · omega
      · have := ihV _ h
        omega
    · -- parse_V_prime
      simp only [parse_V_prime] at h
      obtain ⟨t, h⟩ := step_current h
      split_ifs at h
      · obtain ⟨t1, g1, r1, h⟩ := step_consume h
        simp only at h
        rcases step_call (ihF g1) (mF g1) h with hb | ⟨g2, r2, h⟩
        · omega
        · have := ihV _ h
          simp only [remaining_emit] at this
          omega
      · cases h
    · -- parse_F
      simp only [parse_F] at h
      obtain ⟨t, h⟩ := step_current h
      split_ifs at h
      · obtain ⟨t1, g1, r1, h⟩ := step_consume h
        simp only at h
        rcases step_call (ihG g1) (mG g1) h with hb | ⟨g2, r2, h⟩
        · omega
        · obtain ⟨t2, g3, r3, h⟩ := step_expect h
          cases h
      · obtain ⟨t1, g1, r1, h⟩ := step_consume h
        simp only at h
        obtain ⟨t2, g2, r2, h⟩ := step_expect h
        simp only at h
        rcases step_call (ihG g2) (mG g2) h with hb | ⟨g3, r3, h⟩
        · omega
        · obtain ⟨t3, g4, r4, h⟩ := step_expect h
          cases h
      · obtain ⟨t1, g1, r1, h⟩ := step_consume h
        simp only at h
        obtain ⟨info, h⟩ := step_getSymbol h
        obtain ⟨t2, h⟩ := step_current h
        split_ifs at h
        · cases h
        · obtain ⟨t3, g2, r2, h⟩ := step_consume h
          simp only [remaining_emit] at r2 h
          rcases step_call (ihG g2) (mG g2) h with hb | ⟨g3, r3, h⟩
          · omega
          · obtain ⟨t4, g4, r4, h⟩ := step_expect h
            cases h
        · cases h
        · cases h
      · obtain ⟨t1, g1, r1, h⟩ := step_consume h
        cases h
      · cases h

theorem parse_G_fuel {fuel : Nat} {g : RPNGenerator}
    (h : parse_G fuel g = .error .outOfFuel) : fuel < 3 * remaining g + 3 :=
  (parse_expr_fuel fuel).1 g h

theorem parse_G_remaining {fuel : Nat} {g g1 : RPNGenerator} (h : parse_G fuel g = .ok g1) :
    remaining g1 ≤ remaining g := ExprStep_remaining (parse_G_derives h)

theorem parse_C_remaining {fuel : Nat} {g g1 : RPNGenerator} (h : parse_C fuel g = .ok g1) :
    remaining g1 ≤ remaining g := CondStep_remaining (parse_C_derives h)

theorem parse_A_remaining {fuel : Nat} {g g1 : RPNGenerator} (h : parse_A fuel g = .ok g1) :
    remaining g1 ≤ remaining g := StmtStep_remaining (parse_A_derives fuel g g1 h)

theorem map_oof {α β : Type} {x : Except GenError α} {f : α → β}
    (h : x.map f = .error .outOfFuel) : x = .error .outOfFuel := by
  cases x with
  | error e => simpa [Except.map] using h
  | ok a => simp [Except.map] at h

theorem parse_C_fuel {fuel : Nat} {g : RPNGenerator}
    (h : parse_C fuel g = .error .outOfFuel) : fuel < 3 * remaining g + 3 := by
  simp only [parse_C] at h
  rcases step_call (g := g) parse_G_fuel (fun g1 => parse_G_remaining) h with hb | ⟨g1, r1, h⟩
  · exact hb
  · obtain ⟨t, h⟩ := step_current h
    have key : ∀ (op : String) (k : String × RPNGenerator → Except GenError RPNGenerator),
        ((consumeToken g1).map (fun r => (op, r.2)) >>= k) = .error .outOfFuel →
        ∃ g2, remaining g2 + 1 = remaining g1 ∧ k (op, g2) = .error .outOfFuel := by
      intro op k hk
      rcases bind_oof hk with h1 | ⟨p, h1, h2⟩
      · exact (consumeToken_oof (map_oof h1)).elim
      · obtain ⟨a, h3, h4⟩ := map_ok h1
        exact ⟨a.2, consumeToken_remaining (t := a.1) h3, by rw [← h4] at h2; exact h2⟩
    have fin : ∀ (op : String) (g2 : RPNGenerator), remaining g2 + 1 = remaining g1 →
        (parse_G fuel g2 >>= fun g3 => pure (emit g3 OPERATION op t.line)) =
          .error .outOfFuel → fuel < 3 * remaining g + 3 := by
      intro op g2 r2 hk
      rcases step_call (g := g2) parse_G_fuel (fun g3 => parse_G_remaining) hk with
        hb | ⟨g3, r3, hk⟩
      · omega
      · cases hk
    split_ifs at h
    · obtain ⟨g2, r2, h⟩ := key _ _ h
      exact fin _ g2 r2 h
    · obtain ⟨g2, r2, h⟩ := key _ _ h
      exact fin _ g2 r2 h
    · obtain ⟨g2, r2, h⟩ := key _ _ h
      exact fin _ g2 r2 h
    · obtain ⟨g2, r2, h⟩ := key _ _ h
      exact fin _ g2 r2 h
    · rcases bind_oof h with h1 | ⟨p, h1, _⟩
      · cases h1
      · cases h1

theorem step_throw {α β : Type} {g : RPNGenerator} {m : String} {f : α → Except GenError β}
    (h : ((throwSyntaxError g m : Except GenError α) >>= f) = .error .outOfFuel) : False := by
  rcases bind_oof h with h1 | ⟨p, h1, _⟩
  · cases h1
  · cases h1

/-- The method `parse_A` runs out of recursion depth only when the depth is at most three
times the number of tokens still to read. -/
theorem parse_A_fuel (fuel : Nat) :
    ∀ g, parse_A fuel g = .error .outOfFuel → fuel < 3 * remaining g + 1 := by
  induction fuel with
  | zero => intro g _; omega
  | succ n ih =>
    intro g h
    simp only [parse_A] at h
    obtain ⟨t, h⟩ := step_current h
    split_ifs at h with hID hIF hWH hIN hOUT hTR
    · -- assignment
      obtain ⟨t0, g1, r1, h⟩ := step_consume h
      simp only at h
      obtain ⟨info, h⟩ := step_getSymbol h
      obtain ⟨t1, h⟩ := step_current h
      split_ifs at h
      · exact (step_throw h).elim
      · simp only [bind_assoc, pure_bind] at h
        obtain ⟨t2, g2, r2, h⟩ := step_consume h
        simp only [remaining_emit] at r2 h
        rcases step_call (g := g2) parse_G_fuel (fun g3 => parse_G_remaining) h with
          hb | ⟨g3, r3, h⟩
        · omega
        obtain ⟨t3, g4, r4, h⟩ := step_expect h
        simp only at h
        obtain ⟨t4, g5, r5, h⟩ := step_expect h
        simp only at h
        rcases step_call (g := g5) parse_G_fuel (fun g6 => parse_G_remaining) h with
          hb | ⟨g6, r6, h⟩
        · omega
        obtain ⟨t5, g7, r7, h⟩ := step_expect h
        simp only [remaining_emit] at r7 h
        have := ih _ h
        omega
      · exact (step_throw h).elim
      · simp only [bind_assoc, pure_bind] at h
        obtain ⟨t4, g5, r5, h⟩ := step_expect h
        simp only [remaining_emit] at r5 h
        rcases step_call (g := g5) parse_G_fuel (fun g6 => parse_G_remaining) h with
          hb | ⟨g6, r6, h⟩
        · omega
        obtain ⟨t5, g7, r7, h⟩ := step_expect h
        simp only [remaining_emit] at r7 h
        have := ih _ h
        omega
    · -- if
      obtain ⟨t0, g1, r1, h⟩ := step_consume h
      simp only at h
      obtain ⟨t1, g2, r2, h⟩ := step_expect h
      simp only at h
      rcases step_call (g := g2) parse_C_fuel (fun g3 => parse_C_remaining) h with
        hb | ⟨g3, r3, h⟩
      · omega
      obtain ⟨t2, g4, r4, h⟩ := step_expect h
      simp only at h
      obtain ⟨t3, g5, r5, h⟩ := step_expect h
      simp only [remaining_emit, remaining_newLabel] at r5 h
      rcases step_call (g := g5) (ih g5) (fun g6 => parse_A_remaining) h with
        hb | ⟨g6, r6, h⟩
      · omega
      obtain ⟨t4, h⟩ := step_current h
      split_ifs at h
      · simp only [bind_assoc, pure_bind] at h
        obtain ⟨t5, g7, r7, h⟩ := step_expect h
        simp only at h
        obtain ⟨t6, h⟩ := step_current h
        obtain ⟨t7, h⟩ := step_current h
        obtain ⟨t8, g8, r8, h⟩ := step_consume h
        simp only [remaining_emit] at r8 h
        obtain ⟨t9, g9, r9, h⟩ := step_expect h
        simp only at h
        rcases step_call (g := g9) (ih g9) (fun g10 => parse_A_remaining) h with
          hb | ⟨g10, r10, h⟩
        · omega
        obtain ⟨t10, g11, r11, h⟩ := step_expect h
        simp only at h
        obtain ⟨t11, h⟩ := step_current h
        obtain ⟨t12, g12, r12, h⟩ := step_expect h
        simp only [remaining_emit] at r12 h
        have := ih _ h
        omega
      · simp only [bind_assoc, pure_bind] at h
        obtain ⟨t5, g7, r7, h⟩ := step_expect h
        simp only at h
        obtain ⟨t12, g12, r12, h⟩ := step_expect h
        simp only [remaining_emit] at r12 h
        have := ih _ h
        omega
    · -- while
      obtain ⟨t0, g1, r1, h⟩ := step_consume h
      simp only at h
      obtain ⟨t1, g2, r2, h⟩ := step_expect h
      simp only [remaining_emit, remaining_newLabel] at r2 h
      rcases step_call (g := g2) parse_C_fuel (fun g3 => parse_C_remaining) h with
        hb | ⟨g3, r3, h⟩
      · omega
      obtain ⟨t2, g4, r4, h⟩ := step_expect h
      simp only at h
      obtain ⟨t3, g5, r5, h⟩ := step_expect h
      simp only [remaining_emit] at r5 h
      rcases step_call (g := g5) (ih g5) (fun g6 => parse_A_remaining) h with
        hb | ⟨g6, r6, h⟩
      · omega
      obtain ⟨t5, g7, r7, h⟩ := step_expect h
      simp only at h
      obtain ⟨t12, g12, r12, h⟩ := step_expect h
      simp only [remaining_emit] at r12 h
      have := ih _ h
      omega
    · -- input
      obtain ⟨t0, g1, r1, h⟩ := step_consume h
      simp only at h
      obtain ⟨t1, g2, r2, h⟩ := step_expect h
      simp only at h
      obtain ⟨t2, g3, r3, h⟩ := step_expect h
      simp only at h
      obtain ⟨info, h⟩ := step_getSymbol h
      obtain ⟨t3, h⟩ := step_current h
      split_ifs at h
      · exact (step_throw h).elim
      · simp only [bind_assoc, pure_bind] at h
        obtain ⟨t4, g4, r4, h⟩ := step_consume h
        simp only [remaining_emit] at r4 h
        rcases step_call (g := g4) parse_G_fuel (fun g5 => parse_G_remaining) h with
          hb | ⟨g5, r5, h⟩
        · omega
        obtain ⟨t5, g6, r6, h⟩ := step_expect h
        simp only at h
        obtain ⟨t6, g7, r7, h⟩ := step_expect h
        simp only [remaining_emit] at r7 h
        obtain ⟨t7, g8, r8, h⟩ := step_expect h
        simp only at h
        have := ih _ h
        omega
      · exact (step_throw h).elim
      · simp only [bind_assoc, pure_bind] at h
        obtain ⟨t6, g7, r7, h⟩ := step_expect h
        simp only [remaining_emit] at r7 h
        obtain ⟨t7, g8, r8, h⟩ := step_expect h
        simp only at h
        have := ih _ h
        omega
    · -- output
      obtain ⟨t0, g1, r1, h⟩ := step_consume h
      simp only at h
      obtain ⟨t1, g2, r2, h⟩ := step_expect h
      simp only at h
      rcases step_call (g := g2) parse_G_fuel (fun g3 => parse_G_remaining) h with
        hb | ⟨g3, r3, h⟩
      · omega
      obtain ⟨t2, g4, r4, h⟩ := step_expect h
      simp only at h
      obtain ⟨t3, g5, r5, h⟩ := step_expect h
      simp only [remaining_emit] at r5 h
      have := ih _ h
      omega
    · -- function call
      obtain ⟨t0, g1, r1, h⟩ := step_consume h
      simp only at h
      obtain ⟨t1, g2, r2, h⟩ := step_expect h
      simp only at h
      rcases step_call (g := g2) parse_G_fuel (fun g3 => parse_G_remaining) h with
        hb | ⟨g3, r3, h⟩
      · omega
      obtain ⟨t2, g4, r4, h⟩ := step_expect h
      simp only at h
      obtain ⟨t3, g5, r5, h⟩ := step_expect h
      simp only [remaining_emit] at r5 h
      have := ih _ h
      omega
    · cases h

theorem step_addSymbol {β : Type} {g : RPNGenerator} {name : String} {c : SymbolClass}
    {ty : TokenCode} {l s : Int} {f : RPNGenerator → Except GenError β}
    (h : (addSymbol g name c ty l s >>= f) = .error .outOfFuel) :
    ∃ g1, remaining g1 = remaining g ∧ f g1 = .error .outOfFuel := by
  rcases bind_oof h with h1 | ⟨g1, h1, h2⟩
  · exact (addSymbol_oof h1).elim
  · refine ⟨g1, ?_, h2⟩
    rw [(addSymbol_ok h1).2]
    rfl

theorem parse_block_fuel {fuel : Nat} {g : RPNGenerator} {msg : String}
    (h : parse_block fuel g msg = .error .outOfFuel) : fuel < 3 * remaining g := by
  simp only [parse_block] at h
  obtain ⟨t0, g1, r1, h⟩ := step_consume h
  simp only at h
  rcases step_call (g := g1) (parse_A_fuel fuel g1) (fun g2 => parse_A_remaining) h with
    hb | ⟨g2, r2, h⟩
  · omega
  obtain ⟨t1, g3, r3, h⟩ := step_expect h
  cases h

/-- The methods of the declaration prelude run out of recursion depth only when the depth
is small against the number of tokens still to read. -/
theorem parse_prelude_fuel (fuel : Nat) :
    (∀ g, parse_E fuel g = .error .outOfFuel → fuel < 3 * remaining g + 2) ∧
    (∀ g, parse_int_LE fuel g = .error .outOfFuel → fuel < 3 * remaining g + 1) ∧
    (∀ g, parse_arr_ME fuel g = .error .outOfFuel → fuel < 3 * remaining g + 1) := by
  induction fuel with
  | zero => refine ⟨?_, ?_, ?_⟩ <;> intro g _ <;> omega
  | succ n ih =>
    obtain ⟨ihE, ihL, ihM⟩ := ih
    refine ⟨?_, ?_, ?_⟩ <;> intro g h
    · -- parse_E
      simp only [parse_E] at h
      obtain ⟨t, h⟩ := step_current h
      split_ifs at h
      · have := ihL _ h
        omega
      · have := ihM _ h
        omega
      · have := parse_block_fuel h
        omega
      · cases h
    · -- parse_int_LE
      simp only [parse_int_LE] at h
      obtain ⟨t0, g1, r1, h⟩ := step_expect h
      simp only at h
      obtain ⟨t1, g2, r2, h⟩ := step_expect h
      simp only at h
      obtain ⟨g3, r3, h⟩ := step_addSymbol h
      obtain ⟨t2, g4, r4, h⟩ := step_expect h
      simp only at h
      have := ihE _ h
      omega
    · -- parse_arr_ME
      simp only [parse_arr_ME] at h
      obtain ⟨t0, g1, r1, h⟩ := step_expect h
      simp only at h
      obtain ⟨t1, g2, r2, h⟩ := step_expect h
      simp only at h
      obtain ⟨t2, g3, r3, h⟩ := step_expect h
      simp only at h
      obtain ⟨t3, g4, r4, h⟩ := step_expect h
      simp only at h
      split at h
      case h_2 => exact (step_throw h).elim
      case h_3 => exact (step_throw h).elim
      simp only [pure_bind] at h
      split_ifs at h
      · cases h
      · obtain ⟨t4, g5, r5, h⟩ := step_expect h
        simp only at h
        obtain ⟨g6, r6, h⟩ := step_addSymbol h
        obtain ⟨t5, g7, r7, h⟩ := step_expect h
        simp only at h
        have := ihE _ h
        omega

theorem parse_P_fuel {fuel : Nat} {g : RPNGenerator}
    (h : parse_P fuel g = .error .outOfFuel) : fuel < 3 * remaining g + 1 := by
  simp only [parse_P] at h
  obtain ⟨t, h⟩ := step_current h
  split_ifs at h
  · exact (parse_prelude_fuel fuel).2.1 _ h
  · exact (parse_prelude_fuel fuel).2.2 _ h
  · have := parse_block_fuel h
    omega
  · cases h

/-- The recursion depth `generate` allows is enough: what `generate` throws is an error of
the C++ program, never the exhaustion of the depth of the model. -/
theorem generate_fuel (tokens : List Token) : generate tokens ≠ .error .outOfFuel := by
  intro h
  unfold generate at h
  simp only at h
  split at h
  · cases h
  · split_ifs at h
    · cases h
    · split at h
      · rename_i e hp
        simp only [Except.error.injEq] at h
        rw [h] at hp
        have := parse_P_fuel hp
        simp only [remaining, generateFuel] at this
        omega
      · split at h
        · rename_i g1 _ e hc
          simp only [Except.error.injEq] at h
          rw [h] at hc
          exact currentToken_oof hc
        · split_ifs at h
          cases h

/-- When `generate` does not return a generator it throws an error of the program. -/
theorem generate_fails {tokens : List Token} (h : ∀ g, generate tokens ≠ .ok g) :
    ∃ e, generate tokens = .error e ∧ e ≠ .outOfFuel := by
  cases hg : generate tokens with
  | ok g => exact absurd hg (h g)
  | error e =>
    refine ⟨e, rfl, fun he => ?_⟩
    rw [he] at hg
    exact generate_fuel tokens hg

/-! ## Single-character tokens and keywords -/

/-- C11 (punctuation round-trip).  For each of the fifteen characters
`+ - * / = ~ < > ! ( ) [ ] ; $`, the token loop of `main` run on the two-character text
made of that character and a space collects exactly two tokens: the single-character token
of that character, with the character as lexeme (line 1), and then the sentinel `EOF_TOK`. -/
theorem punctuation_round_trip (char_is_signed : Bool) :
    ∀ p ∈ [("+", PLUS_TOK), ("-", MINUS_TOK), ("*", STAR_TOK), ("/", SLASH_TOK),
        ("=", EQ_TOK), ("~", EQ_COMPARE_TOK), ("<", LT_TOK), (">", GT_TOK), ("!", NOT_TOK),
        ("(", LPAREN_TOK), (")", RPAREN_TOK), ("[", LBRACKET_TOK), ("]", RBRACKET_TOK),
        (";", SEMICOLON_TOK), ("$", DOLLAR_TOK)],
      tokenLoop ((bytesOf (p.1 ++ " ")).length + 1)
          (Lexer.init char_is_signed (bytesOf (p.1 ++ " "))) [] =
        .tokens [⟨p.2, p.1, 1⟩, ⟨EOF_TOK, "EOF", 1⟩] := by
  cases char_is_signed <;> decide!


/-! ## Every token of a statement is checked -/

theorem checked_code {tokens : List Token} {table : List (String × SymbolInfo)} {k : Nat}
    {t : Token} (h : tokens[k]? = some t) (h1 : t.code ≠ INT_TOK) (h2 : t.code ≠ IMAS_TOK)
    (h3 : t.code ≠ EOF_TOK) (h4 : t.code ≠ ID_TOK) : TokenChecked tokens table k := by
  intro u hu
  rw [h] at hu
  cases hu
  exact ⟨h1, h2, h3, fun h => absurd h h4⟩

theorem checked_id {tokens : List Token} {table : List (String × SymbolInfo)} {k : Nat}
    {t : Token} {info : SymbolInfo} (h : tokens[k]? = some t) (hc : t.code = ID_TOK)
    (hs : declaredSymbol table t.lexeme = some info)
    (hi : info.s_class = SymbolClass.INT_ARRAY ↔ indexed tokens k) :
    TokenChecked tokens table k := by
  intro u hu
  rw [h] at hu
  cases hu
  refine ⟨?_, ?_, ?_, fun _ => ⟨info, hs, hi⟩⟩ <;> rw [hc] <;> decide

theorem not_indexed {tokens : List Token} {k : Nat} {t1 : Token}
    (h : tokenAt tokens (k + 1) = some t1) (hc : t1.code ≠ LBRACKET_TOK) :
    ¬ indexed tokens k := by
  rintro ⟨b, hb, hbc⟩
  have := same_token h hb
  rw [this] at hbc
  exact hc hbc

theorem isTrig_code {c : TokenCode} (h : isTrig c = true) :
    c ≠ INT_TOK ∧ c ≠ IMAS_TOK ∧ c ≠ EOF_TOK ∧ c ≠ ID_TOK := by
  cases c <;> simp [isTrig] at h ⊢

theorem relOp_code {c : TokenCode} {op : String} (h : relOp c = some op) :
    c ≠ INT_TOK ∧ c ≠ IMAS_TOK ∧ c ≠ EOF_TOK ∧ c ≠ ID_TOK := by
  cases c <;> simp [relOp] at h ⊢

theorem checked_of_code {tokens : List Token} {table : List (String × SymbolInfo)} {k : Nat}
    {t : Token} {c : TokenCode} (h : tokens[k]? = some t) (hc : t.code = c)
    (hd : c ≠ INT_TOK ∧ c ≠ IMAS_TOK ∧ c ≠ EOF_TOK ∧ c ≠ ID_TOK) :
    TokenChecked tokens table k := by
  subst hc
  exact checked_code h hd.1 hd.2.1 hd.2.2.1 hd.2.2.2

theorem checked_of_or {tokens : List Token} {table : List (String × SymbolInfo)} {k : Nat}
    {t : Token} {c1 c2 : TokenCode} (h : tokens[k]? = some t)
    (hc : t.code = c1 ∨ t.code = c2)
    (hd1 : c1 ≠ INT_TOK ∧ c1 ≠ IMAS_TOK ∧ c1 ≠ EOF_TOK ∧ c1 ≠ ID_TOK)
    (hd2 : c2 ≠ INT_TOK ∧ c2 ≠ IMAS_TOK ∧ c2 ≠ EOF_TOK ∧ c2 ≠ ID_TOK) :
    TokenChecked tokens table k := by
  rcases hc with hc | hc
  · exact checked_of_code h hc hd1
  · exact checked_of_code h hc hd2

/-- Every token an expression is made of has been checked. -/
theorem DerivesE_checked {tokens : List Token} {table : List (String × SymbolInfo)} {X : NT}
    {i j : Nat} {code : List RPNEntry} (h : DerivesE tokens table X i j code) :
    ∀ k, i ≤ k → k < j → TokenChecked tokens table k := by
  induction h with
  | @G i j l c1 c2 d1 d2 ih1 ih2 =>
    intro k h1 h2
    rcases Nat.lt_or_ge k j with h | h
    · exact ih1 k h1 h
    · exact ih2 k h h2
  | U_nil _ _ => intro k h1 h2; omega
  | @U_op i j l t c1 c2 a1 a2 d1 d2 ih1 ih2 =>
    intro k h1 h2
    rcases Nat.eq_or_lt_of_le h1 with h | h
    · subst h; exact checked_of_or a1 a2 (by decide) (by decide)
    rcases Nat.lt_or_ge k j with h3 | h3
    · exact ih1 k h h3
    · exact ih2 k h3 h2
  | @T i j l c1 c2 d1 d2 ih1 ih2 =>
    intro k h1 h2
    rcases Nat.lt_or_ge k j with h | h
    · exact ih1 k h1 h
    · exact ih2 k h h2
  | V_nil _ _ => intro k h1 h2; omega
  | @V_op i j l t c1 c2 a1 a2 d1 d2 ih1 ih2 =>
    intro k h1 h2
    rcases Nat.eq_or_lt_of_le h1 with h | h
    · subst h; exact checked_of_or a1 a2 (by decide) (by decide)
    rcases Nat.lt_or_ge k j with h3 | h3
    · exact ih1 k h h3
    · exact ih2 k h3 h2
  | @F_paren i j t r c a1 a2 d a3 a4 ih =>
    intro k h1 h2
    rcases Nat.eq_or_lt_of_le h1 with h | h
    · subst h; exact checked_of_code a1 a2 (by decide)
    rcases Nat.lt_or_ge k j with h3 | h3
    · exact ih k h h3
    · have : k = j := by omega
      subst this; exact checked_of_code a3 a4 (by decide)
  | @F_trig i j t l r c a1 a2 a3 a4 d a5 a6 ih =>
    intro k h1 h2
    rcases Nat.eq_or_lt_of_le h1 with h | h
    · subst h; exact checked_of_code a1 rfl (isTrig_code a2)
    rcases Nat.eq_or_lt_of_le (Nat.succ_le_of_lt h) with h3 | h3
    · have : k = i + 1 := by omega
      subst this; exact checked_of_code a3 a4 (by decide)
    rcases Nat.lt_or_ge k j with h4 | h4
    · exact ih k (by omega) h4
    · have : k = j := by omega
      subst this; exact checked_of_code a5 a6 (by decide)
  | @F_var i t t1 info a1 a2 a3 a4 a5 a6 =>
    intro k h1 h2
    have : k = i := by omega
    subst this
    exact checked_id a1 a2 a3 ⟨fun h => absurd h a6, fun h => absurd h (not_indexed a4 a5)⟩
  | @F_index i j t b r info c a1 a2 a3 a4 a5 a6 d a7 a8 ih =>
    intro k h1 h2
    rcases Nat.eq_or_lt_of_le h1 with h | h
    · subst h; exact checked_id a1 a2 a3 ⟨fun _ => ⟨b, a4, a5⟩, fun _ => a6⟩
    rcases Nat.eq_or_lt_of_le (Nat.succ_le_of_lt h) with h3 | h3
    · have : k = i + 1 := by omega
      subst this; exact checked_of_code a4 a5 (by decide)
    rcases Nat.lt_or_ge k j with h4 | h4
    · exact ih k (by omega) h4
    · have : k = j := by omega
      subst this; exact checked_of_code a7 a8 (by decide)
  | @F_num i t a1 a2 =>
    intro k h1 h2
    have : k = i := by omega
    subst this
    exact checked_of_code a1 a2 (by decide)

theorem DerivesC_checked {tokens : List Token} {table : List (String × SymbolInfo)}
    {i j : Nat} {code : List RPNEntry} (h : DerivesC tokens table i j code) :
    ∀ k, i ≤ k → k < j → TokenChecked tokens table k := by
  cases h with
  | @C l _ t op c1 c2 d1 a1 a2 d2 =>
    intro k h1 h2
    rcases Nat.lt_or_ge k l with h | h
    · exact DerivesE_checked d1 k h1 h
    rcases Nat.eq_or_lt_of_le h with h3 | h3
    · subst h3; exact checked_of_code a1 rfl (relOp_code a2)
    · exact DerivesE_checked d2 k (by omega) h2

/-- Every token a statement list is made of has been checked. -/
theorem DerivesA_checked {tokens : List Token} {table : List (String × SymbolInfo)}
    {i j n m : Nat} {code : List RPNEntry} (h : DerivesA tokens table i j n m code) :
    ∀ k, i ≤ k → k < j → TokenChecked tokens table k := by
  induction h with
  | nil _ _ => intro k h1 h2; omega
  | @assign i j l n m t t1 e sc info c rest a1 a2 a3 a4 a5 a6 a7 a8 d a9 a10 dr ih =>
    intro k h1 h2
    have := DerivesE_le d
    by_cases e0 : k = i
    · subst e0
      exact checked_id a1 a2 a3 ⟨fun h => absurd h a6, fun h => absurd h (not_indexed a4 a5)⟩
    by_cases e1 : k = i + 1
    · subst e1; exact checked_of_code a7 a8 (by decide)
    by_cases e2 : k < j
    · exact DerivesE_checked d k (by omega) e2
    by_cases e3 : k = j
    · subst e3; exact checked_of_code a9 a10 (by decide)
    exact ih k (by omega) h2
  | @assignIndexed i j l o n m t b r e sc info c1 c2 rest a1 a2 a3 a4 a5 a6 d1 a7 a8 a9 a10
      d2 a11 a12 dr ih =>
    intro k h1 h2
    have := DerivesE_le d1
    have := DerivesE_le d2
    by_cases e0 : k = i
    · subst e0; exact checked_id a1 a2 a3 ⟨fun _ => ⟨b, a4, a5⟩, fun _ => a6⟩
    by_cases e1 : k = i + 1
    · subst e1; exact checked_of_code a4 a5 (by decide)
    by_cases e2 : k < j
    · exact DerivesE_checked d1 k (by omega) e2
    by_cases e3 : k = j
    · subst e3; exact checked_of_code a7 a8 (by decide)
    by_cases e4 : k = j + 1
    · subst e4; exact checked_of_code a9 a10 (by decide)
    by_cases e5 : k < l
    · exact DerivesE_checked d2 k (by omega) e5
    by_cases e6 : k = l
    · subst e6; exact checked_of_code a11 a12 (by decide)
    exact ih k (by omega) h2
  | @ifThen i j l o n n1 m t lp rp bg en sc c body rest a1 a2 a3 a4 dC a5 a6 a7 a8 db a9 a10
      a11 a12 dr ih1 ih2 =>
    intro k h1 h2
    have := DerivesC_le dC
    have := DerivesA_le db
    by_cases e0 : k = i
    · subst e0; exact checked_of_code a1 a2 (by decide)
    by_cases e1 : k = i + 1
    · subst e1; exact checked_of_code a3 a4 (by decide)
    by_cases e2 : k < j
    · exact DerivesC_checked dC k (by omega) e2
    by_cases e3 : k = j
    · subst e3; exact checked_of_code a5 a6 (by decide)
    by_cases e4 : k = j + 1
    · subst e4; exact checked_of_code a7 a8 (by decide)
    by_cases e5 : k < l
    · exact ih1 k (by omega) e5
    by_cases e6 : k = l
    · subst e6; exact checked_of_code a9 a10 (by decide)
    by_cases e7 : k = l + 1
    · subst e7; exact checked_of_code a11 a12 (by decide)
    exact ih2 k (by omega) h2
  | @«while» i j l o n n1 m t lp rp bg en sc c body rest a1 a2 a3 a4 dC a5 a6 a7 a8 db a9 a10
      a11 a12 dr ih1 ih2 =>
    intro k h1 h2
    have := DerivesC_le dC
    have := DerivesA_le db
    by_cases e0 : k = i
    · subst e0; exact checked_of_code a1 a2 (by decide)
    by_cases e1 : k = i + 1
    · subst e1; exact checked_of_code a3 a4 (by decide)
    by_cases e2 : k < j
    · exact DerivesC_checked dC k (by omega) e2
    by_cases e3 : k = j
    · subst e3; exact checked_of_code a5 a6 (by decide)
    by_cases e4 : k = j + 1
    · subst e4; exact checked_of_code a7 a8 (by decide)
    by_cases e5 : k < l
    · exact ih1 k (by omega) e5
    by_cases e6 : k = l
    · subst e6; exact checked_of_code a9 a10 (by decide)
    by_cases e7 : k = l + 1
    · subst e7; exact checked_of_code a11 a12 (by decide)
    exact ih2 k (by omega) h2
  | @input i l n m t lp id t1 rp sc info rest a1 a2 a3 a4 a5 a6 a7 a8 a9 a10 a11 a12 a13 a14
      dr ih =>
    intro k h1 h2
    by_cases e0 : k = i
    · subst e0; exact checked_of_code a1 a2 (by decide)
    by_cases e1 : k = i + 1
    · subst e1; exact checked_of_code a3 a4 (by decide)
    by_cases e2 : k = i + 2
    · subst e2
      exact checked_id a5 a6 a7 ⟨fun h => absurd h a10, fun h => absurd h (not_indexed a8 a9)⟩
    by_cases e3 : k = i + 3
    · subst e3; exact checked_of_code a11 a12 (by decide)
    by_cases e4 : k = i + 4
    · subst e4; exact checked_of_code a13 a14 (by decide)
    exact ih k (by omega) h2
  | @inputIndexed i j l n m t lp id b r rp sc info c rest a1 a2 a3 a4 a5 a6 a7 a8 a9 a10 d
      a11 a12 a13 a14 a15 a16 dr ih =>
    intro k h1 h2
    have := DerivesE_le d
    by_cases e0 : k = i
    · subst e0; exact checked_of_code a1 a2 (by decide)
    by_cases e1 : k = i + 1
    · subst e1; exact checked_of_code a3 a4 (by decide)
    by_cases e2 : k = i + 2
    · subst e2; exact checked_id a5 a6 a7 ⟨fun _ => ⟨b, a8, a9⟩, fun _ => a10⟩
    by_cases e3 : k = i + 3
    · subst e3; exact checked_of_code a8 a9 (by decide)
    by_cases e4 : k < j
    · exact DerivesE_checked d k (by omega) e4
    by_cases e5 : k = j
    · subst e5; exact checked_of_code a11 a12 (by decide)
    by_cases e6 : k = j + 1
    · subst e6; exact checked_of_code a13 a14 (by decide)
    by_cases e7 : k = j + 2
    · subst e7; exact checked_of_code a15 a16 (by decide)
    exact ih k (by omega) h2
  | @output i j l n m t lp rp sc c rest a1 a2 a3 a4 d a5 a6 a7 a8 dr ih =>
    intro k h1 h2
    have := DerivesE_le d
    by_cases e0 : k = i
    · subst e0; exact checked_of_code a1 a2 (by decide)
    by_cases e1 : k = i + 1
    · subst e1; exact checked_of_code a3 a4 (by decide)
    by_cases e2 : k < j
    · exact DerivesE_checked d k (by omega) e2
    by_cases e3 : k = j
    · subst e3; exact checked_of_code a5 a6 (by decide)
    by_cases e4 : k = j + 1
    · subst e4; exact checked_of_code a7 a8 (by decide)
    exact ih k (by omega) h2
  | @trig i j l n m t lp rp sc c rest a1 a2 a3 a4 d a5 a6 a7 a8 dr ih =>
    intro k h1 h2
    have := DerivesE_le d
    by_cases e0 : k = i
    · subst e0; exact checked_of_code a1 rfl (isTrig_code a2)
    by_cases e1 : k = i + 1
    · subst e1; exact checked_of_code a3 a4 (by decide)
    by_cases e2 : k < j
    · exact DerivesE_checked d k (by omega) e2
    by_cases e3 : k = j
    · subst e3; exact checked_of_code a5 a6 (by decide)
    by_cases e4 : k = j + 1
    · subst e4; exact checked_of_code a7 a8 (by decide)
    exact ih k (by omega) h2

/-! ## The declaration prelude of an accepted program -/

theorem mapFind_append {α : Type} (a b : List (String × α)) (k : String) :
    mapFind (a ++ b) k = match mapFind a k with
      | some v => some v
      | none => mapFind b k := by
  induction a with
  | nil => rfl
  | cons e rest ih =>
    obtain ⟨x, y⟩ := e
    simp only [List.cons_append, mapFind]
    by_cases h : k = x
    · simp [h]
    · simp only [h, if_false]
      exact ih

theorem mapSet_fresh {α : Type} (m : List (String × α)) (k : String) (v : α)
    (h : mapFind m k = none) : mapSet m k v = m ++ [(k, v)] := by
  induction m with
  | nil => rfl
  | cons e rest ih =>
    obtain ⟨x, y⟩ := e
    simp only [mapFind] at h
    by_cases hk : k = x
    · simp [hk] at h
    · simp only [hk, if_false] at h
      simp only [mapSet, hk, if_false, List.cons_append, ih h]

theorem mapFind_none_of_undeclared {table : List (String × SymbolInfo)} {name : String}
    (hd : ∀ e ∈ table, e.2.is_declared = true) (h : isDeclared table name = false) :
    mapFind table name = none := by
  unfold isDeclared at h
  cases hm : mapFind table name with
  | none => rfl
  | some info =>
    rw [hm] at h
    simp only at h
    have := hd _ (mapFind_mem _ _ _ hm)
    simp only at this
    rw [this] at h
    cases h

theorem stoi_range {s : String} {n : Int} (h : stoi s = .ok n) : INT_MIN ≤ n ∧ n ≤ INT_MAX := by
  unfold stoi at h
  simp only at h
  split_ifs at h <;> (simp only [Except.ok.injEq] at h; rw [← h]; omega)

theorem sizeValue_ok {num : Token} {n : Int} (h : stoi num.lexeme = .ok n) :
    sizeValue num = n := by
  unfold sizeValue
  rw [h]

theorem mapFind_snoc_none {α : Type} {m : List (String × α)} {k name : String} {v : α}
    (h : mapFind (m ++ [(name, v)]) k = none) : mapFind m k = none ∧ k ≠ name := by
  rw [mapFind_append] at h
  cases hm : mapFind m k with
  | some w => rw [hm] at h; cases h
  | none =>
    rw [hm] at h
    simp only [mapFind] at h
    refine ⟨rfl, fun hk => ?_⟩
    simp [hk] at h

/-- The shape of an accepted program: a chain of declarations with new names and valid
sizes, which is the whole symbol table, and behind it nothing or a block all of whose tokens
have been checked against that table. -/
theorem DerivesP_prelude {tokens : List Token} {i j n m : Nat}
    {table table1 : List (String × SymbolInfo)} {code : List RPNEntry}
    (h : DerivesP tokens i table j table1 n m code)
    (hd : ∀ e ∈ table, e.2.is_declared = true) :
    ∃ j1 ds, Prelude tokens i j1 ds ∧ table1 = table ++ ds ∧
      (∀ d ∈ ds, mapFind table d.1 = none) ∧ (ds.map Prod.fst).Nodup ∧
      (∀ d ∈ ds, validEntry d) ∧ PreludeEnds tokens j1 ∧ j1 ≤ j ∧
      (∀ k, j1 ≤ k → k < j → TokenChecked tokens table1 k) ∧
      (j = j1 → code = []) := by
  induction h with
  | @empty i table n t a1 a2 a3 a4 =>
    refine ⟨i, [], Prelude.nil, by simp, by simp, by simp, by simp, ?_, Nat.le_refl _,
      fun k h1 h2 => by omega, fun _ => rfl⟩
    intro u hu
    have := same_token a1 hu
    subst this
    exact ⟨a2, a3⟩
  | @block i j table n m bg en code a1 a2 d a3 a4 =>
    have := DerivesA_le d
    refine ⟨i, [], Prelude.nil, by simp, by simp, by simp, by simp, ?_, by omega, ?_,
      fun h => by omega⟩
    · intro u hu
      rw [a1] at hu
      cases hu
      rw [a2]
      exact ⟨by decide, by decide⟩
    · intro k h1 h2
      by_cases e0 : k = i
      · subst e0; exact checked_of_code a1 a2 (by decide)
      by_cases e1 : k < j
      · exact DerivesA_checked d k (by omega) e1
      have : k = j := by omega
      subst this
      exact checked_of_code a3 a4 (by decide)
  | @int i j table table1 n m kw id sc code a1 a2 a3 a4 a5 a6 a7 d ih =>
    have hf := mapFind_none_of_undeclared hd a5
    rw [mapSet_fresh _ _ _ hf] at d ih
    have hd1 : ∀ e ∈ table ++ [(id.lexeme, intInfo id)], e.2.is_declared = true := by
      intro e he
      rcases List.mem_append.mp he with h | h
      · exact hd e h
      · rw [List.mem_singleton.mp h]; rfl
    obtain ⟨j1, ds, p1, p2, p3, p4, p5, p6, p7, p8, p9⟩ := ih hd1
    refine ⟨j1, (id.lexeme, intInfo id) :: ds, Prelude.int a1 a2 a3 a4 a6 a7 p1,
      by rw [p2]; simp [intInfo], ?_, ?_, ?_, p6, by omega, p8, p9⟩
    · intro e he
      rcases List.mem_cons.mp he with h | h
      · rw [h]; exact hf
      · exact (mapFind_snoc_none (p3 e h)).1
    · simp only [List.map_cons, List.nodup_cons]
      refine ⟨fun hm => ?_, p4⟩
      obtain ⟨e, he, hn⟩ := List.mem_map.mp hm
      exact (mapFind_snoc_none (p3 e he)).2 hn
    · intro e he
      rcases List.mem_cons.mp he with h | h
      · rw [h]; exact ⟨rfl, fun hc => by cases hc⟩
      · exact p5 e h
  | @arr i j table table1 n m kw id lb num rb sc size code a1 a2 a3 a4 a5 a6 a7 a8 a9 a10 a11
      a12 a13 a14 a15 d ih =>
    have hf := mapFind_none_of_undeclared hd a13
    rw [mapSet_fresh _ _ _ hf] at d ih
    have hd1 : ∀ e ∈ table ++ [(id.lexeme, arrInfo id size)], e.2.is_declared = true := by
      intro e he
      rcases List.mem_append.mp he with h | h
      · exact hd e h
      · rw [List.mem_singleton.mp h]; rfl
    obtain ⟨j1, ds, p1, p2, p3, p4, p5, p6, p7, p8, p9⟩ := ih hd1
    have hsz := sizeValue_ok a9
    refine ⟨j1, (id.lexeme, arrInfo id (sizeValue num)) :: ds,
      Prelude.arr a1 a2 a3 a4 a5 a6 a7 a8 a11 a12 a14 a15 p1,
      by rw [p2, hsz]; simp [arrInfo], ?_, ?_, ?_, p6, by omega, p8, p9⟩
    · intro e he
      rcases List.mem_cons.mp he with h | h
      · rw [h]; exact hf
      · exact (mapFind_snoc_none (p3 e h)).1
    · simp only [List.map_cons, List.nodup_cons]
      refine ⟨fun hm => ?_, p4⟩
      obtain ⟨e, he, hn⟩ := List.mem_map.mp hm
      exact (mapFind_snoc_none (p3 e he)).2 hn
    · intro e he
      rcases List.mem_cons.mp he with h | h
      · rw [h, hsz]; exact ⟨rfl, fun _ => ⟨a10, (stoi_range a9).2⟩⟩
      · exact p5 e h

theorem generate_end {tokens : List Token} {g : RPNGenerator} (h : generate tokens = .ok g) :
    ∃ t, tokenAt tokens g.m_currentIndex = some t ∧ t.code = EOF_TOK := by
  have hg := (generate_derives h).1
  unfold generate at h
  simp only at h
  split at h
  · cases h
  · split_ifs at h
    split at h
    · cases h
    · rename_i g1 hp
      split at h
      · cases h
      · rename_i t hc
        split_ifs at h with he
        · simp [throwSyntaxError] at h
        · simp only [Except.ok.injEq] at h
          subst h
          have := currentToken_ok hc
          rw [hg] at this
          exact ⟨t, this, by simpa using he⟩

theorem Prelude_le {tokens : List Token} {i j : Nat} {ds : List (String × SymbolInfo)}
    (h : Prelude tokens i j ds) : i ≤ j := by
  induction h <;> omega

/-- The tokens of a chain of declarations: none is `EOF_TOK`, an identifier among them is
the identifier of a declaration, and an `arr` among them starts a declaration of the chain. -/
theorem Prelude_tokens {tokens : List Token} {i j : Nat} {ds : List (String × SymbolInfo)}
    (h : Prelude tokens i j ds) :
    ∀ k t, i ≤ k → k < j → tokens[k]? = some t →
      t.code ≠ EOF_TOK ∧ (t.code = ID_TOK → isDeclarator tokens k) ∧
      (t.code = IMAS_TOK → ∃ id num, tokens[k + 1]? = some id ∧ tokens[k + 3]? = some num ∧
        num.code = NUM_TOK ∧ (id.lexeme, arrInfo id (sizeValue num)) ∈ ds) := by
  induction h with
  | nil => intro k t h1 h2; omega
  | @int i j kw id sc ds a1 a2 a3 a4 a5 a6 p ih =>
    intro k t h1 h2 ht
    have key : ∀ (u : Token) (c : TokenCode), tokens[k]? = some u → u.code = c →
        c ≠ EOF_TOK → c ≠ ID_TOK → c ≠ IMAS_TOK →
        t.code ≠ EOF_TOK ∧ (t.code = ID_TOK → isDeclarator tokens k) ∧
        (t.code = IMAS_TOK → ∃ id1 num, tokens[k + 1]? = some id1 ∧
          tokens[k + 3]? = some num ∧ num.code = NUM_TOK ∧
          (id1.lexeme, arrInfo id1 (sizeValue num)) ∈ (id.lexeme, intInfo id) :: ds) := by
      intro u c hu hc c1 c2 c3
      rw [ht] at hu
      cases hu
      rw [hc]
      exact ⟨c1, fun h => absurd h c2, fun h => absurd h c3⟩
    by_cases e0 : k = i
    · subst e0; exact key kw _ a1 a2 (by decide) (by decide) (by decide)
    by_cases e1 : k = i + 1
    · subst e1
      rw [a3] at ht
      cases ht
      refine ⟨by rw [a4]; decide, fun _ => ⟨i, kw, rfl, a1, Or.inl a2⟩, fun h => ?_⟩
      rw [a4] at h
      cases h
    by_cases e2 : k = i + 2
    · subst e2; exact key sc _ a5 a6 (by decide) (by decide) (by decide)
    obtain ⟨q1, q2, q3⟩ := ih k t (by omega) h2 ht
    refine ⟨q1, q2, fun h => ?_⟩
    obtain ⟨id1, num, r1, r2, r3, r4⟩ := q3 h
    exact ⟨id1, num, r1, r2, r3, List.mem_cons_of_mem _ r4⟩
  | @arr i j kw id lb num rb sc ds a1 a2 a3 a4 a5 a6 a7 a8 a9 a10 a11 a12 p ih =>
    intro k t h1 h2 ht
    have key : ∀ (u : Token) (c : TokenCode), tokens[k]? = some u → u.code = c →
        c ≠ EOF_TOK → c ≠ ID_TOK → c ≠ IMAS_TOK →
        t.code ≠ EOF_TOK ∧ (t.code = ID_TOK → isDeclarator tokens k) ∧
        (t.code = IMAS_TOK → ∃ id1 num1, tokens[k + 1]? = some id1 ∧
          tokens[k + 3]? = some num1 ∧ num1.code = NUM_TOK ∧
          (id1.lexeme, arrInfo id1 (sizeValue num1)) ∈
            (id.lexeme, arrInfo id (sizeValue num)) :: ds) := by
      intro u c hu hc c1 c2 c3
      rw [ht] at hu
      cases hu
      rw [hc]
      exact ⟨c1, fun h => absurd h c2, fun h => absurd h c3⟩
    by_cases e0 : k = i
    · subst e0
      rw [a1] at ht
      cases ht
      refine ⟨by rw [a2]; decide, fun h => ?_, fun _ =>
        ⟨id, num, a3, a7, a8, List.mem_cons_self _ _⟩⟩
      rw [a2] at h
      cases h
    by_cases e1 : k = i + 1
    · subst e1
      rw [a3] at ht
      cases ht
      refine ⟨by rw [a4]; decide, fun _ => ⟨i, kw, rfl, a1, Or.inr a2⟩, fun h => ?_⟩
      rw [a4] at h
      cases h
    by_cases e2 : k = i + 2
    · subst e2; exact key lb _ a5 a6 (by decide) (by decide) (by decide)
    by_cases e3 : k = i + 3
    · subst e3; exact key num _ a7 a8 (by decide) (by decide) (by decide)
    by_cases e4 : k = i + 4
    · subst e4; exact key rb _ a9 a10 (by decide) (by decide) (by decide)
    by_cases e5 : k = i + 5
    · subst e5; exact key sc _ a11 a12 (by decide) (by decide) (by decide)
    obtain ⟨q1, q2, q3⟩ := ih k t (by omega) h2 ht
    refine ⟨q1, q2, fun h => ?_⟩
    obtain ⟨id1, num1, r1, r2, r3, r4⟩ := q3 h
    exact ⟨id1, num1, r1, r2, r3, List.mem_cons_of_mem _ r4⟩

/-- A chain of declarations is the start of every chain from the same index that ends
where no declaration follows. -/
theorem Prelude_split {tokens : List Token} {i j : Nat} {ds : List (String × SymbolInfo)}
    (h : Prelude tokens i j ds) :
    ∀ {j1 : Nat} {ds1 : List (String × SymbolInfo)}, Prelude tokens i j1 ds1 →
      PreludeEnds tokens j1 → ∃ rest, ds1 = ds ++ rest ∧ Prelude tokens j j1 rest := by
  induction h with
  | nil => intro j1 ds1 h1 _; exact ⟨ds1, rfl, h1⟩
  | @int i j kw id sc ds a1 a2 a3 a4 a5 a6 p ih =>
    intro j1 ds1 h1 he
    cases h1 with
    | nil =>
      have := (he kw a1).1
      exact absurd a2 this
    | int b1 b2 b3 b4 b5 b6 q =>
      rw [a3] at b3
      cases b3
      obtain ⟨rest, e1, e2⟩ := ih q he
      exact ⟨rest, by rw [e1]; rfl, e2⟩
    | arr b1 b2 =>
      rw [a1] at b1
      cases b1
      rw [a2] at b2
      cases b2
  | @arr i j kw id lb num rb sc ds a1 a2 a3 a4 a5 a6 a7 a8 a9 a10 a11 a12 p ih =>
    intro j1 ds1 h1 he
    cases h1 with
    | nil =>
      have := (he kw a1).2
      exact absurd a2 this
    | int b1 b2 =>
      rw [a1] at b1
      cases b1
      rw [a2] at b2
      cases b2
    | arr b1 b2 b3 b4 b5 b6 b7 b8 b9 b10 b11 b12 q =>
      rw [a3] at b3
      cases b3
      rw [a7] at b7
      cases b7
      obtain ⟨rest, e1, e2⟩ := ih q he
      exact ⟨rest, by rw [e1]; rfl, e2⟩

/-- The shape of an accepted program, in terms of the result of `generate` : the symbol
table is the chain of declarations the token vector starts with, the names are pairwise
different and the entries valid, and every token behind the chain and in front of the read
position has been checked; the read position is at an `EOF_TOK`. -/
theorem generate_shape {tokens : List Token} {g : RPNGenerator}
    (h : generate tokens = .ok g) :
    ∃ j1, Prelude tokens 0 j1 g.m_symbolTable ∧ (g.m_symbolTable.map Prod.fst).Nodup ∧
      (∀ d ∈ g.m_symbolTable, validEntry d) ∧ PreludeEnds tokens j1 ∧
      j1 ≤ g.m_currentIndex ∧
      (∀ k, j1 ≤ k → k < g.m_currentIndex → TokenChecked tokens g.m_symbolTable k) ∧
      (g.m_currentIndex = j1 → g.m_rpn = []) ∧
      ∃ t, tokenAt tokens g.m_currentIndex = some t ∧ t.code = EOF_TOK := by
  obtain ⟨_, d⟩ := generate_derives h
  obtain ⟨j1, ds, p1, p2, _, p4, p5, p6, p7, p8, p9⟩ :=
    DerivesP_prelude d (fun e he => by cases he)
  simp only [List.nil_append] at p2
  rw [← p2] at p1 p4 p5
  exact ⟨j1, p1, p4, p5, p6, p7, p8, p9, generate_end h⟩

theorem lt_of_beforeEOF {tokens : List Token} {k j : Nat} {t u : Token}
    (hk : tokens[k]? = some t) (hb : beforeEOF tokens k)
    (hu : tokenAt tokens j = some u) (hc : u.code = EOF_TOK) : k < j := by
  by_contra hn
  have hlen : k < tokens.length := by
    by_contra hc1
    rw [List.getElem?_eq_none (by omega)] at hk
    cases hk
  have hj : j < tokens.length := by omega
  have h1 : tokens[j]? = some tokens[j] := List.getElem?_eq_getElem hj
  have := same_token hu h1
  exact hb j _ (by omega) h1 (by rw [this]; exact hc)

theorem mapFind_of_mem {α : Type} {m : List (String × α)} {k : String} {v : α}
    (hn : (m.map Prod.fst).Nodup) (h : (k, v) ∈ m) : mapFind m k = some v := by
  induction m with
  | nil => cases h
  | cons e rest ih =>
    obtain ⟨x, y⟩ := e
    simp only [List.map_cons, List.nodup_cons] at hn
    simp only [mapFind]
    rcases List.mem_cons.mp h with h1 | h1
    · simp only [Prod.mk.injEq] at h1
      simp [h1.1, h1.2]
    · have hx : k ≠ x := by
        intro hk
        apply hn.1
        rw [← hk]
        exact List.mem_map.mpr ⟨(k, v), h1, rfl⟩
      simp only [hx, if_false]
      exact ih hn.2 h1

theorem declaredSymbol_mapFind {table : List (String × SymbolInfo)} {name : String}
    {info : SymbolInfo} (h : declaredSymbol table name = some info) :
    mapFind table name = some info := by
  unfold declaredSymbol at h
  cases hm : mapFind table name with
  | none => rw [hm] at h; cases h
  | some i =>
    rw [hm] at h
    simp only at h
    split_ifs at h
    exact h

/-- In an accepted program, an identifier in front of the first `EOF_TOK` that is not the
identifier of a declaration is in the symbol table, and its entry is an array exactly when a
`[` follows it. -/
theorem generate_use {tokens : List Token} {g : RPNGenerator} (h : generate tokens = .ok g)
    {k : Nat} {t : Token} (hk : tokens[k]? = some t) (hid : t.code = ID_TOK)
    (hb : beforeEOF tokens k) (hn : ¬ isDeclarator tokens k) :
    ∃ info, mapFind g.m_symbolTable t.lexeme = some info ∧
      (info.s_class = SymbolClass.INT_ARRAY ↔ indexed tokens k) := by
  obtain ⟨j1, p1, _, _, _, _, p8, _, u, q1, q2⟩ := generate_shape h
  have hlt := lt_of_beforeEOF hk hb q1 q2
  by_cases hj : k < j1
  · exact absurd ((Prelude_tokens p1 k t (Nat.zero_le _) hj hk).2.1 hid) hn
  · obtain ⟨info, r1, r2⟩ := (p8 k (by omega) hlt t hk).2.2.2 hid
    exact ⟨info, declaredSymbol_mapFind r1, r2⟩

/-! ## Declarations and uses of identifiers -/

/-- C13 (redeclaration is an error).  When the token vector starts with a chain of
declarations (`int ID ;` or `arr ID [ NUM ] ;`, in any combination) in which a name occurs
twice, `generate` throws.  And when `generate` returns, the symbol table is exactly the
chain of declarations the token vector starts with (up to the first token that is neither
`int` nor `arr`), one entry per declaration in order, each with the name, the class and the
line of its declaration, and no name occurs twice in it. -/
theorem redeclaration_rejected (tokens : List Token) :
    (∀ j ds, Prelude tokens 0 j ds → ¬ (ds.map Prod.fst).Nodup →
      ∃ e, generate tokens = .error e ∧ e ≠ .outOfFuel) ∧
    (∀ g, generate tokens = .ok g →
      (∃ j, Prelude tokens 0 j g.m_symbolTable ∧ PreludeEnds tokens j) ∧
      (g.m_symbolTable.map Prod.fst).Nodup) := by
  constructor
  · intro j ds hp hn
    apply generate_fails
    intro g hg
    obtain ⟨j1, p1, p4, _, p6, _⟩ := generate_shape hg
    obtain ⟨rest, e1, _⟩ := Prelude_split hp p1 p6
    rw [e1, List.map_append] at p4
    exact hn (List.Nodup.of_append_left p4)
  · intro g hg
    obtain ⟨j1, p1, p4, _, p6, _⟩ := generate_shape hg
    exact ⟨⟨j1, p1, p6⟩, p4⟩

/-- C14 (undeclared use is an error).  When an `ID_TOK` token stands in front of the first
`EOF_TOK` of the token vector, is not the identifier of a declaration (it does not stand
right behind `int` or `arr`) and its name is declared by no chain of declarations the token
vector starts with, `generate` throws.  In an accepted program every identifier outside the
declarations is an assignment target, an input target or a factor of an expression. -/
theorem undeclared_use_rejected (tokens : List Token) (k : Nat) (t : Token)
    (hk : tokens[k]? = some t) (hid : t.code = ID_TOK)
    (hb : beforeEOF tokens k) (hn : ¬ isDeclarator tokens k)
    (hu : ∀ j ds, Prelude tokens 0 j ds → mapFind ds t.lexeme = none) :
    ∃ e, generate tokens = .error e ∧ e ≠ .outOfFuel := by
  apply generate_fails
  intro g hg
  obtain ⟨info, h1, _⟩ := generate_use hg hk hid hb hn
  obtain ⟨j1, p1, _⟩ := generate_shape hg
  rw [hu j1 _ p1] at h1
  cases h1

/-- C15 (scalar/array misuse is an error).  Let an `ID_TOK` token stand in front of the
first `EOF_TOK`, not as the identifier of a declaration, and let its name be declared in a
chain of declarations the token vector starts with.  If the name is declared with `arr` and
no `[` follows the token, `generate` throws; if the name is declared with `int` and a `[`
follows the token, `generate` throws. -/
theorem misuse_rejected (tokens : List Token) (k : Nat) (t : Token) (j : Nat)
    (ds : List (String × SymbolInfo)) (info : SymbolInfo)
    (hk : tokens[k]? = some t) (hid : t.code = ID_TOK)
    (hb : beforeEOF tokens k) (hn : ¬ isDeclarator tokens k)
    (hp : Prelude tokens 0 j ds) (hd : (t.lexeme, info) ∈ ds)
    (hm : (info.s_class = SymbolClass.INT_ARRAY ∧ ¬ indexed tokens k) ∨
      (info.s_class = SymbolClass.INT_VAR ∧ indexed tokens k)) :
    ∃ e, generate tokens = .error e ∧ e ≠ .outOfFuel := by
  apply generate_fails
  intro g hg
  obtain ⟨info1, h1, h2⟩ := generate_use hg hk hid hb hn
  obtain ⟨j1, p1, p4, _, p6, _⟩ := generate_shape hg
  obtain ⟨rest, e1, _⟩ := Prelude_split hp p1 p6
  have hmem : (t.lexeme, info) ∈ g.m_symbolTable := by
    rw [e1]
    exact List.mem_append_left _ hd
  rw [mapFind_of_mem p4 hmem] at h1
  cases h1
  rcases hm with ⟨c1, c2⟩ | ⟨c1, c2⟩
  · exact c2 (h2.mp c1)
  · have := h2.mpr c2
    rw [c1] at this
    cases this

/-! ## Array sizes and literals -/

theorem isdigit_not_space {c : Char} (h : isdigit c = true) : isspace c = false := by
  simp only [isdigit, Bool.and_eq_true, decide_eq_true_eq] at h
  simp only [isspace, Bool.or_eq_false_iff, decide_eq_false_iff_not, Bool.and_eq_false_imp,
    decide_eq_true_eq]
  omega

/-- The function `stoi` on a text made of decimal digits only (the text of every `NUM_TOK`
of the lexer): the value of the digits, or `out_of_range` when it is above `INT_MAX`. -/
theorem stoi_digits (ds : List Char) (hne : ds ≠ []) (hd : ∀ c ∈ ds, isdigit c = true) :
    stoi (String.mk ds) =
      if (digitsValue ds : Int) > INT_MAX then .error .out_of_range
      else .ok (digitsValue ds : Int) := by
  cases ds with
  | nil => exact absurd rfl hne
  | cons c rest =>
    have hc := hd c (List.mem_cons_self _ _)
    have hs := isdigit_not_space hc
    have h1 : List.dropWhile isspace (c :: rest) = c :: rest := by
      simp [List.dropWhile, hs]
    have h2 : List.takeWhile isdigit (c :: rest) = c :: rest :=
      List.takeWhile_eq_self_iff.mpr hd
    have hm : c ≠ '-' := by
      intro h; rw [h] at hc; exact absurd hc (by decide)
    have hp : c ≠ '+' := by
      intro h; rw [h] at hc; exact absurd hc (by decide)
    have hv : ¬ ((digitsValue (c :: rest) : Int) < INT_MIN) := by
      unfold INT_MIN
      omega
    unfold stoi
    simp only [String.toList, h1]
    simp [hm, hp, h2, hv]

theorem consumeToken_eval {g : RPNGenerator} {t : Token}
    (h : g.m_tokens[g.m_currentIndex]? = some t) (hne : t.code ≠ EOF_TOK) :
    consumeToken g = .ok (t, { g with m_currentIndex := g.m_currentIndex + 1 }) := by
  unfold consumeToken
  rw [h]
  simp only
  rw [if_neg (fun hc => hne hc.1)]

theorem expect_eval {g : RPNGenerator} {t : Token} {c : TokenCode} (m : String)
    (h : g.m_tokens[g.m_currentIndex]? = some t) (hc : t.code = c) (hne : c ≠ EOF_TOK) :
    expect g c m = .ok (t, { g with m_currentIndex := g.m_currentIndex + 1 }) := by
  unfold expect
  rw [consumeToken_eval h (by rw [hc]; exact hne)]
  simp only
  rw [if_neg (by simpa using hc)]

theorem currentToken_eval {g : RPNGenerator} {t : Token}
    (h : tokenAt g.m_tokens g.m_currentIndex = some t) : currentToken g = .ok t := by
  unfold tokenAt at h
  unfold currentToken
  cases h1 : g.m_tokens[g.m_currentIndex]? with
  | some u => rw [h1] at h; simp only at h ⊢; rw [Option.some.inj h]
  | none =>
    rw [h1] at h
    simp only at h ⊢
    cases h2 : g.m_tokens.getLast? with
    | none => rw [h2] at h; cases h
    | some u =>
      rw [h2] at h
      simp only at h ⊢
      split_ifs at h ⊢
      rw [Option.some.inj h]

theorem addSymbol_eval {g : RPNGenerator} {name : String} (c : SymbolClass) (ty : TokenCode)
    (l s : Int) (h : isDeclared g.m_symbolTable name = false) :
    addSymbol g name c ty l s =
      .ok { g with m_symbolTable := mapSet g.m_symbolTable name ⟨c, ty, s, l, true⟩ } := by
  unfold addSymbol
  simp [h]

theorem sizeValue_pos {num : Token} (h : 0 < sizeValue num) :
    stoi num.lexeme = .ok (sizeValue num) := by
  unfold sizeValue at h ⊢
  cases hs : stoi num.lexeme with
  | ok n => rfl
  | error e => rw [hs] at h; simp at h

/-- The method `parse_arr_ME` on `arr ID [ NUM` with a size that is not positive or does
not fit an `int` : it throws at the test of the size, in front of the call of `addSymbol`. -/
theorem parse_arr_ME_invalid {g : RPNGenerator} {kw id lb num : Token} (fuel : Nat)
    (h0 : g.m_tokens[g.m_currentIndex]? = some kw) (c0 : kw.code = IMAS_TOK)
    (h1 : g.m_tokens[g.m_currentIndex + 1]? = some id) (c1 : id.code = ID_TOK)
    (h2 : g.m_tokens[g.m_currentIndex + 2]? = some lb) (c2 : lb.code = LBRACKET_TOK)
    (h3 : g.m_tokens[g.m_currentIndex + 3]? = some num) (c3 : num.code = NUM_TOK) :
    (∀ n, stoi num.lexeme = .ok n → n ≤ 0 →
      parse_arr_ME (fuel + 1) g = .error (.syntaxError
        (errorLine { g with m_currentIndex := g.m_currentIndex + 4 })
        "Array size must be positive")) ∧
    (stoi num.lexeme = .error .out_of_range →
      parse_arr_ME (fuel + 1) g = .error (.syntaxError
        (errorLine { g with m_currentIndex := g.m_currentIndex + 4 })
        "Array size number too large")) := by
  have e0 := expect_eval "array declaration ('arr')" h0 c0 (by decide)
  have e1 := expect_eval (g := { g with m_currentIndex := g.m_currentIndex + 1 })
    "identifier after 'arr'" h1 c1 (by decide)
  have e2 := expect_eval (g := { g with m_currentIndex := g.m_currentIndex + 1 + 1 })
    "for array size" h2 c2 (by decide)
  have e3 := expect_eval (g := { g with m_currentIndex := g.m_currentIndex + 1 + 1 + 1 })
    "number for array size" h3 c3 (by decide)
  constructor
  · intro n hs hn
    simp only [parse_arr_ME, e0, e1, e2, e3, hs, bind, Except.bind, pure, Except.pure, hn,
      if_true, throwSyntaxError]
  · intro hs
    simp only [parse_arr_ME, e0, e1, e2, e3, hs, bind, Except.bind, throwSyntaxError]

/-! ## Programs that only declare -/

theorem isDeclared_of_none {table : List (String × SymbolInfo)} {name : String}
    (h : mapFind table name = none) : isDeclared table name = false := by
  unfold isDeclared
  rw [h]

theorem mapFind_snoc_of_ne {α : Type} {m : List (String × α)} {k name : String} {v : α}
    (h : mapFind m k = none) (hne : k ≠ name) : mapFind (m ++ [(name, v)]) k = none := by
  rw [mapFind_append, h]
  simp [mapFind, hne]

theorem expect_lit {tokens : List Token} {idx : Nat} (rpn : List RPNEntry)
    (table : List (String × SymbolInfo)) (lc : Nat) {t : Token} {c : TokenCode} (m : String)
    (h : tokens[idx]? = some t) (hc : t.code = c) (hne : c ≠ EOF_TOK) :
    expect ⟨tokens, idx, rpn, table, lc⟩ c m = .ok (t, ⟨tokens, idx + 1, rpn, table, lc⟩) :=
  expect_eval m h hc hne

theorem addSymbol_lit (tokens : List Token) (idx : Nat) (rpn : List RPNEntry)
    {table : List (String × SymbolInfo)} (lc : Nat) {name : String} (info : SymbolInfo)
    (hd : info.is_declared = true) (h : mapFind table name = none) :
    addSymbol ⟨tokens, idx, rpn, table, lc⟩ name info.s_class info.type_token
        info.declaration_line info.size =
      .ok ⟨tokens, idx, rpn, table ++ [(name, info)], lc⟩ := by
  rw [addSymbol_eval _ _ _ _ (isDeclared_of_none h)]
  simp only
  rw [mapSet_fresh _ _ _ h]
  obtain ⟨a, b, c, d, e⟩ := info
  simp only at hd
  rw [hd]

/-- The prelude methods on a chain of declarations with new names and positive sizes: they
enter the declarations in the symbol table and go on behind the chain. -/
theorem parse_E_prelude {tokens : List Token} {i j : Nat} {ds : List (String × SymbolInfo)}
    (h : Prelude tokens i j ds) :
    ∀ (rpn : List RPNEntry) (table : List (String × SymbolInfo)) (lc fuel : Nat),
      (∀ d ∈ ds, mapFind table d.1 = none) → (ds.map Prod.fst).Nodup →
      (∀ d ∈ ds, d.2.s_class = SymbolClass.INT_ARRAY → 0 < d.2.size) →
      parse_E (fuel + 2 * ds.length) ⟨tokens, i, rpn, table, lc⟩ =
        parse_E fuel ⟨tokens, j, rpn, table ++ ds, lc⟩ := by
  induction h with
  | nil =>
    intro rpn table lc fuel _ _ _
    simp
  | @int i j kw id sc ds a1 a2 a3 a4 a5 a6 p ih =>
    intro rpn table lc fuel hf hn hv
    have hfr := hf _ (List.mem_cons_self _ _)
    simp only at hfr
    have e0 : currentToken ⟨tokens, i, rpn, table, lc⟩ = .ok kw :=
      currentToken_eval (tokenAt_of_getElem a1)
    have e1 := expect_lit rpn table lc "int declaration" a1 a2 (by decide)
    have e2 := expect_lit rpn table lc "identifier after 'int'" a3 a4 (by decide)
    have e3 := addSymbol_lit tokens (i + 1 + 1) rpn lc (intInfo id) rfl hfr
    have e4 := expect_lit rpn (table ++ [(id.lexeme, intInfo id)]) lc "after int declaration"
      (show tokens[i + 1 + 1]? = some sc from a5) a6 (by decide)
    have hl : fuel + 2 * ((id.lexeme, intInfo id) :: ds).length =
        (fuel + 2 * ds.length + 1) + 1 := by
      simp only [List.length_cons]; omega
    rw [hl]
    simp only [List.map_cons, List.nodup_cons] at hn
    have step : parse_E (fuel + 2 * ds.length + 1 + 1) ⟨tokens, i, rpn, table, lc⟩ =
        parse_E (fuel + 2 * ds.length)
          ⟨tokens, i + 1 + 1 + 1, rpn, table ++ [(id.lexeme, intInfo id)], lc⟩ := by
      simp only [intInfo] at e3 e4
      simp only [parse_E, parse_int_LE, e0, e1, e2, e3, e4, a2, bind, Except.bind, if_true,
        intInfo]
    rw [step, ih rpn _ lc fuel ?_ hn.2 (fun d hd => hv d (List.mem_cons_of_mem _ hd))]
    · simp
    · intro d hd
      refine mapFind_snoc_of_ne (hf d (List.mem_cons_of_mem _ hd)) (fun he => hn.1 ?_)
      rw [← he]
      exact List.mem_map.mpr ⟨d, hd, rfl⟩
  | @arr i j kw id lb num rb sc ds a1 a2 a3 a4 a5 a6 a7 a8 a9 a10 a11 a12 p ih =>
    intro rpn table lc fuel hf hn hv
    have hfr := hf _ (List.mem_cons_self _ _)
    simp only at hfr
    have hpos := hv _ (List.mem_cons_self _ _) rfl
    simp only [arrInfo] at hpos
    have hs := sizeValue_pos hpos
    have e0 : currentToken ⟨tokens, i, rpn, table, lc⟩ = .ok kw :=
      currentToken_eval (tokenAt_of_getElem a1)
    have e1 := expect_lit rpn table lc "array declaration ('arr')" a1 a2 (by decide)
    have e2 := expect_lit rpn table lc "identifier after 'arr'" a3 a4 (by decide)
    have e3 := expect_lit rpn table lc "for array size"
      (show tokens[i + 1 + 1]? = some lb from a5) a6 (by decide)
    have e4 := expect_lit rpn table lc "number for array size"
      (show tokens[i + 1 + 1 + 1]? = some num from a7) a8 (by decide)
    have e5 := expect_lit rpn table lc "after array size"
      (show tokens[i + 1 + 1 + 1 + 1]? = some rb from a9) a10 (by decide)
    have e6 := addSymbol_lit tokens (i + 1 + 1 + 1 + 1 + 1) rpn lc
      (arrInfo id (sizeValue num)) rfl hfr
    have e7 := expect_lit rpn (table ++ [(id.lexeme, arrInfo id (sizeValue num))]) lc
      "after array declaration"
      (show tokens[i + 1 + 1 + 1 + 1 + 1]? = some sc from a11) a12 (by decide)
    have hl : fuel + 2 * ((id.lexeme, arrInfo id (sizeValue num)) :: ds).length =
        (fuel + 2 * ds.length + 1) + 1 := by
      simp only [List.length_cons]; omega
    rw [hl]
    simp only [List.map_cons, List.nodup_cons] at hn
    have hnp : ¬ sizeValue num ≤ 0 := by omega
    have step : parse_E (fuel + 2 * ds.length + 1 + 1) ⟨tokens, i, rpn, table, lc⟩ =
        parse_E (fuel + 2 * ds.length)
          ⟨tokens, i + 1 + 1 + 1 + 1 + 1 + 1, rpn,
            table ++ [(id.lexeme, arrInfo id (sizeValue num))], lc⟩ := by
      simp only [arrInfo] at e6 e7
      simp only [parse_E, parse_arr_ME, e0, e1, e2, e3, e4, e5, e6, e7, a2, hs, bind,
        Except.bind, pure, Except.pure, if_true, if_false, hnp, arrInfo, reduceCtorEq]
    rw [step, ih rpn _ lc fuel ?_ hn.2 (fun d hd => hv d (List.mem_cons_of_mem _ hd))]
    · simp
    · intro d hd
      refine mapFind_snoc_of_ne (hf d (List.mem_cons_of_mem _ hd)) (fun he => hn.1 ?_)
      rw [← he]
      exact List.mem_map.mpr ⟨d, hd, rfl⟩

theorem Prelude_length {tokens : List Token} {i j : Nat} {ds : List (String × SymbolInfo)}
    (h : Prelude tokens i j ds) : i + 3 * ds.length ≤ j := by
  induction h with
  | nil => simp
  | int _ _ _ _ _ _ _ ih => simp only [List.length_cons]; omega
  | arr _ _ _ _ _ _ _ _ _ _ _ _ _ ih => simp only [List.length_cons]; omega

theorem parse_P_prelude {tokens : List Token} {j : Nat} {ds : List (String × SymbolInfo)}
    (h : Prelude tokens 0 j ds) (hne : ds ≠ []) (fuel : Nat) (g : RPNGenerator)
    (hg : g.m_tokens = tokens) (hi : g.m_currentIndex = 0) :
    parse_P fuel g = parse_E (fuel + 1) g := by
  subst hg
  cases h with
  | nil => exact absurd rfl hne
  | int a1 a2 =>
    have e0 : currentToken g = .ok _ := currentToken_eval (tokenAt_of_getElem (by rw [hi]; exact a1))
    simp only [parse_P, parse_E, e0, a2, bind, Except.bind, if_true]
  | arr a1 a2 =>
    have e0 : currentToken g = .ok _ := currentToken_eval (tokenAt_of_getElem (by rw [hi]; exact a1))
    simp only [parse_P, parse_E, e0, a2, bind, Except.bind, if_true, if_false, reduceCtorEq]

/-- What `generate` returns for a token vector made of a chain of declarations with new
names and positive sizes and the closing `EOF_TOK`. -/
theorem generate_declarations {tokens : List Token} {j : Nat}
    {ds : List (String × SymbolInfo)} {eof : Token}
    (hp : Prelude tokens 0 j ds) (hne : ds ≠ []) (hn : (ds.map Prod.fst).Nodup)
    (hv : ∀ d ∈ ds, d.2.s_class = SymbolClass.INT_ARRAY → 0 < d.2.size)
    (he : tokens[j]? = some eof) (hc : eof.code = EOF_TOK) (hl : tokens.length = j + 1) :
    generate tokens = .ok ⟨tokens, j, [], ds, 0⟩ := by
  have hlast : tokens.getLast? = some eof := by
    rw [List.getLast?_eq_getElem?, hl]
    exact he
  have hlen := Prelude_length hp
  obtain ⟨f, hf⟩ : ∃ f, generateFuel tokens + 1 = (f + 1) + 2 * ds.length := by
    refine ⟨generateFuel tokens - 2 * ds.length, ?_⟩
    unfold generateFuel
    omega
  have h1 := parse_P_prelude hp hne (generateFuel tokens) ⟨tokens, 0, [], [], 0⟩ rfl rfl
  have h2 := parse_E_prelude hp [] [] 0 (f + 1) (fun d _ => rfl) hn hv
  rw [← hf, ← h1] at h2
  simp only [List.nil_append] at h2
  have e0 : currentToken ⟨tokens, j, [], ds, 0⟩ = .ok eof :=
    currentToken_eval (tokenAt_of_getElem he)
  have h3 : parse_E (f + 1) ⟨tokens, j, [], ds, 0⟩ = .ok ⟨tokens, j, [], ds, 0⟩ := by
    simp only [parse_E, e0, hc, bind, Except.bind, pure, Except.pure, if_false, reduceCtorEq]
  rw [h3] at h2
  unfold generate
  simp only [hlast, hc, h2, e0, ne_eq, not_true_eq_false, if_false]

/-! ## The lexer never reports an error token -/

theorem keywords_ne_ERROR (s : String) : keywords s ≠ some ERROR_TOK := by
  intro h
  have := mapFind_mem _ _ _ h
  simp [keywordTable] at this

theorem finalize_identifier_ne_ERROR (s : String) (l : Int) :
    (finalize_identifier s l).code ≠ ERROR_TOK := by
  unfold finalize_identifier
  have := keywords_ne_ERROR s
  cases h : keywords s with
  | none => simp
  | some c =>
    simp only
    intro h2
    exact this (by rw [h, h2])

theorem push_ne_empty (s : String) (c : Char) : s.push c ≠ "" := by
  intro h
  have := congrArg String.length h
  simp at this

theorem AsciiTable_le_fin : ∀ n : Fin 128, AsciiTable n.val ≤ 19 := by decide

/-- The character category `getNextToken` computes is one of the twenty categories. -/
theorem category_le (ch : Int) :
    (if ch < 0 ∨ ch > 127 then CAT_OTHER else AsciiTable ch.toNat) ≤ 19 := by
  split_ifs with h
  · decide
  · exact AsciiTable_le_fin ⟨ch.toNat, by omega⟩

theorem lexTable_listed_fin : ∀ (st : Fin 3) (cat : Fin 20),
    lexTable st.val cat.val ∈ [1, 2, 3, 4, 5, 6, 7, 8, 9, 10, 11, 12, 13, 14, 15, 16, 18, 19,
      20, 21, 22, 24, 27, 28, 30] := by
  decide

theorem lexTable_A_B : ∀ (cat : Fin 20),
    lexTable A_STATE cat.val ∈ [21, 22, 24] ∧ lexTable B_STATE cat.val ∈ [24, 27, 28] := by
  decide

theorem lexTable_listed {st cat : Nat} (hs : st < 3) (hc : cat ≤ 19) :
    lexTable st cat ∈ [1, 2, 3, 4, 5, 6, 7, 8, 9, 10, 11, 12, 13, 14, 15, 16, 18, 19,
      20, 21, 22, 24, 27, 28, 30] :=
  lexTable_listed_fin ⟨st, hs⟩ ⟨cat, by omega⟩

theorem ScanInv_state {v : ScanVars} (h : ScanInv v) : v.currentState < 3 := by
  rcases h with h | ⟨_, h | h⟩ <;> rw [h] <;> decide

/-- One iteration of the scanning loop keeps the invariant and returns no `ERROR_TOK`. -/
theorem getNextToken_body_sound (lx0 : Lexer) (v : ScanVars) (hinv : ScanInv v) :
    BodySound (getNextToken_body lx0 v) := by
  unfold getNextToken_body
  generalize get_char lx0 = p
  obtain ⟨ch, lx⟩ := p
  simp only
  by_cases he : ch = EOF
  · simp only [he, if_true]
    split_ifs
    · exact finalize_identifier_ne_ERROR _ _
    · simp [BodySound, finalize_number]
    · simp [BodySound]
  · simp only [he, if_false]
    have hl := lexTable_listed (ScanInv_state hinv) (category_le ch)
    have hS := lexTable_S_actions (if ch < 0 ∨ ch > 127 then CAT_OTHER else AsciiTable ch.toNat)
    have hA : v.currentState = S_STATE →
        lexTable v.currentState (if ch < 0 ∨ ch > 127 then CAT_OTHER else AsciiTable ch.toNat)
          ≠ 21 ∧
        lexTable v.currentState (if ch < 0 ∨ ch > 127 then CAT_OTHER else AsciiTable ch.toNat)
          ≠ 24 ∧
        lexTable v.currentState (if ch < 0 ∨ ch > 127 then CAT_OTHER else AsciiTable ch.toNat)
          ≠ 27 := by
      intro hs
      rw [hs]
      exact ⟨hS.1, hS.2.2.1, hS.2.2.2.1⟩
    generalize lexTable v.currentState
      (if ch < 0 ∨ ch > 127 then CAT_OTHER else AsciiTable ch.toNat) = a at hl hA
    split
    all_goals first
      | (simp only [BodySound, ne_eq, reduceCtorEq, not_false_eq_true]; done)
      | exact finalize_identifier_ne_ERROR _ _
      | (simp only [BodySound, finalize_number, ne_eq, reduceCtorEq, not_false_eq_true]; done)
      | exact Or.inl rfl
      | exact Or.inr ⟨push_ne_empty _ _, Or.inl rfl⟩
      | exact Or.inr ⟨push_ne_empty _ _, Or.inr rfl⟩
      | skip
    · -- action 21
      rcases hinv with hs | ⟨hne, hst⟩
      · exact absurd rfl (hA hs).1
      · split_ifs
        · exact Or.inr ⟨push_ne_empty _ _, hst⟩
        · exact finalize_identifier_ne_ERROR _ _
    · -- action 24
      rcases hinv with hs | ⟨hne, hst | hst⟩
      · exact absurd rfl (hA hs).2.1
      · rw [if_pos ⟨hne, hst⟩]
        exact finalize_identifier_ne_ERROR _ _
      · split_ifs
        · exact finalize_identifier_ne_ERROR _ _
        · simp [BodySound, finalize_number]
        · rename_i h1 h2
          exact absurd ⟨hne, hst⟩ h2
    · -- action 27
      rcases hinv with hs | ⟨hne, hst⟩
      · exact absurd rfl (hA hs).2.2
      · split_ifs
        · exact Or.inr ⟨push_ne_empty _ _, hst⟩
        · simp [BodySound, finalize_number]
    · -- no other action is in the table
      exfalso
      simp only [List.mem_cons, List.mem_singleton, List.not_mem_nil, or_false] at hl
      rcases hl with h | h | h | h | h | h | h | h | h | h | h | h | h | h | h | h | h | h | h |
        h | h | h | h | h | h <;> contradiction

theorem getNextToken_loop_sound :
    ∀ (fuel : Nat) (lx : Lexer) (v : ScanVars) (t : Token) (lx1 : Lexer), ScanInv v →
      getNextToken_loop fuel lx v = some (t, lx1) → t.code ≠ ERROR_TOK := by
  intro fuel
  induction fuel with
  | zero => intro lx v t lx1 _ h; simp [getNextToken_loop] at h
  | succ n ih =>
    intro lx v t lx1 hinv h
    have hb := getNextToken_body_sound lx v hinv
    unfold getNextToken_loop at h
    cases hr : getNextToken_body lx v with
    | ret t2 lx2 =>
      rw [hr] at h hb
      simp only [Option.some.injEq, Prod.mk.injEq] at h
      rw [← h.1]
      exact hb
    | again lx2 v2 =>
      rw [hr] at h hb
      exact ih lx2 v2 t lx1 hb h

/-- No call of `getNextToken` returns `ERROR_TOK`. -/
theorem getNextToken_ne_ERROR {lx lx1 : Lexer} {t : Token}
    (h : getNextToken lx = some (t, lx1)) : t.code ≠ ERROR_TOK :=
  getNextToken_loop_sound _ _ _ _ _ (Or.inl rfl) h

/-- A byte outside the recognised categories met where a token starts is skipped. -/
theorem getNextToken_skip (lx : Lexer) (b : Byte) (rest : List Byte)
    (hv : lx.char_buffer_valid = false) (hi : lx.input_stream = b :: rest)
    (hb : unrecognised b) :
    getNextToken lx = getNextToken { lx with input_stream := rest } := by
  have hp : lx.pending + 1 = ({ lx with input_stream := rest } : Lexer).pending + 1 + 1 := by
    simp [Lexer.pending, hv, hi]
  have hg : get_char lx = ((b.val : Int), { lx with input_stream := rest }) := by
    simp [get_char, hv, hi]
  have hne : ¬ ((b.val : Int) = EOF) := by
    unfold EOF
    omega
  have hcat : (if (b.val : Int) < 0 ∨ (b.val : Int) > 127 then CAT_OTHER
      else AsciiTable (b.val : Int).toNat) = CAT_OTHER := by
    rcases hb with h | h
    · rw [if_pos (Or.inr (by omega))]
    · split_ifs
      · rfl
      · simpa using h
  have hbody : getNextToken_body lx ⟨"", S_STATE, lx.current_line⟩ =
      .again { lx with input_stream := rest } ⟨"", S_STATE, lx.current_line⟩ := by
    unfold getNextToken_body
    rw [hg]
    simp only [hne, if_false, hcat]
    rfl
  unfold getNextToken
  rw [hp]
  conv_lhs => unfold getNextToken_loop
  rw [hbody]

/-- The token loop of `main` ends within as many iterations as there are characters to
read, plus one. -/
theorem tokenLoop_ends :
    ∀ (fuel : Nat) (lx : Lexer) (acc : List Token), lx.pending < fuel →
      tokenLoop fuel lx acc ≠ .outOfFuel := by
  intro fuel
  induction fuel with
  | zero => intro lx acc h; omega
  | succ n ih =>
    intro lx acc h
    obtain ⟨t, lx1, e1, e2, e3⟩ := getNextToken_total lx
    unfold tokenLoop
    rw [e1]
    simp only
    generalize (if t.code ≠ NONE_TOK then acc ++ [t] else acc) = tokens1
    split_ifs with c1 c2 c3
    · intro hc; cases hc
    · intro hc; cases hc
    · exact ih lx1 _ (by have := e3 c3; omega)
    · intro hc; cases hc

/-- The token loop of `main` ends with `return 1` only when more than 10000 tokens have
been read. -/
theorem tokenLoop_exit1 :
    ∀ (fuel : Nat) (lx : Lexer) (acc : List Token),
      tokenLoop fuel lx acc = .exit1 → 10000 < acc.length + fuel := by
  intro fuel
  induction fuel with
  | zero => intro lx acc h; simp [tokenLoop] at h
  | succ n ih =>
    intro lx acc h
    unfold tokenLoop at h
    cases hg : getNextToken lx with
    | none => rw [hg] at h; cases h
    | some r =>
      obtain ⟨t, lx1⟩ := r
      rw [hg] at h
      simp only at h
      have hne := getNextToken_ne_ERROR hg
      have hlen : (if t.code ≠ NONE_TOK then acc ++ [t] else acc).length ≤ acc.length + 1 := by
        split_ifs <;> simp
      generalize (if t.code ≠ NONE_TOK then acc ++ [t] else acc) = tokens1 at h hlen
      split_ifs at h with c1 c2 c3
      · exact absurd c1 hne
      · omega
      · have := ih lx1 tokens1 h
        omega

/-- For a source text of fewer than 10000 bytes the token loop of `main` ends with the
token vector. -/
theorem tokenLoop_tokens (char_is_signed : Bool) (source : List Byte)
    (h : source.length < 10000) :
    ∃ tokens, tokenLoop (source.length + 1) (Lexer.init char_is_signed source) [] =
      .tokens tokens := by
  have h1 := tokenLoop_ends (source.length + 1) (Lexer.init char_is_signed source) []
    (by simp [Lexer.init, Lexer.pending])
  have h2 := tokenLoop_exit1 (source.length + 1) (Lexer.init char_is_signed source) []
  cases hr : tokenLoop (source.length + 1) (Lexer.init char_is_signed source) [] with
  | tokens ts => exact ⟨ts, rfl⟩
  | exit1 =>
    have := h2 hr
    simp only [List.length_nil] at this
    omega
  | outOfFuel => exact absurd hr h1

/-! ## What is written when a run fails -/

theorem keepsOut_pure {α : Type} (a : α) : KeepsOut (Pure.pure a : Exec α) := fun _ => rfl

theorem keepsOut_raise {α : Type} (f : Fault) : KeepsOut (raise f : Exec α) := fun _ => rfl

theorem keepsOut_getState : KeepsOut getState := fun _ => rfl

theorem keepsOut_bind {α β : Type} {x : Exec α} {f : α → Exec β} (hx : KeepsOut x)
    (hf : ∀ a, KeepsOut (f a)) : KeepsOut (x >>= f) := by
  intro s
  have h1 := hx s
  rw [exec_bind_eq]
  cases hr : x s with
  | ok a s1 =>
    rw [hr] at h1
    simp only at h1 ⊢
    have h2 := hf a s1
    cases hr2 : f a s1 with
    | ok b s2 => rw [hr2] at h2; simp only at h2 ⊢; rw [h2, h1]
    | throw e s2 => rw [hr2] at h2; simp only at h2 ⊢; rw [h2, h1]
  | throw e s1 =>
    rw [hr] at h1
    exact h1

theorem keepsOut_pop_operand : KeepsOut pop_operand := by
  intro s
  unfold Compil.pop_operand
  cases s.m_operandStack <;> rfl

theorem keepsOut_push_operand (v : StackItem) : KeepsOut (push_operand v) := fun _ => rfl

theorem keepsOut_setVariable (n : String) (v : Int) : KeepsOut (setVariable n v) := fun _ => rfl

theorem keepsOut_setElement (n : String) (a : List Int) (i v : Int) :
    KeepsOut (setElement n a i v) := fun _ => rfl

theorem keepsOut_setPc (t : Nat) : KeepsOut (setPc t) := fun _ => rfl

theorem keepsOut_readInt : KeepsOut readInt := by
  intro s
  unfold Compil.readInt
  cases s.cin with
  | nil => rfl
  | cons v rest =>
    simp only
    split_ifs <;> rfl

theorem keepsOut_find_label (p : Program) (l : String) : KeepsOut (find_label p l) := by
  unfold Compil.find_label
  split
  · exact keepsOut_pure _
  · exact keepsOut_raise _

theorem keepsOut_get_string (item : StackItem) : KeepsOut (get_string item) := by
  unfold Compil.get_string
  split
  · exact keepsOut_pure _
  · exact keepsOut_raise _

theorem keepsOut_get_int (item : StackItem) : KeepsOut (get_int item) := by
  unfold Compil.get_int
  split
  · exact keepsOut_pure _
  · refine keepsOut_bind keepsOut_getState (fun s => ?_)
    split
    · exact keepsOut_pure _
    · split
      · exact keepsOut_raise _
      · exact keepsOut_raise _

theorem keepsOut_binaryResult (op : String) (a b : Int) : KeepsOut (binaryResult op a b) := by
  unfold Compil.binaryResult
  repeat' (first
    | exact keepsOut_pure _
    | exact keepsOut_raise _
    | split)

theorem keepsOut_handle_operation (e : RPNEntry) : KeepsOut (handle_operation e) := by
  unfold Compil.handle_operation
  dsimp only
  repeat' (first
    | exact keepsOut_pop_operand
    | exact keepsOut_get_int _
    | exact keepsOut_get_string _
    | exact keepsOut_getState
    | exact keepsOut_raise _
    | exact keepsOut_push_operand _
    | exact keepsOut_pure _
    | exact keepsOut_setVariable _ _
    | exact keepsOut_setElement _ _ _ _
    | exact keepsOut_binaryResult _ _ _
    | (refine keepsOut_bind ?_ (fun _ => ?_))
    | split)

theorem keepsOut_handle_array_access : KeepsOut handle_array_access := by
  unfold Compil.handle_array_access
  repeat' (first
    | exact keepsOut_pop_operand
    | exact keepsOut_get_int _
    | exact keepsOut_get_string _
    | exact keepsOut_getState
    | exact keepsOut_raise _
    | exact keepsOut_push_operand _
    | (refine keepsOut_bind ?_ (fun _ => ?_))
    | split)

theorem keepsOut_handle_input (e : RPNEntry) : KeepsOut (handle_input e) := by
  unfold Compil.handle_input
  repeat' (first
    | exact keepsOut_pop_operand
    | exact keepsOut_readInt
    | exact keepsOut_get_int _
    | exact keepsOut_get_string _
    | exact keepsOut_getState
    | exact keepsOut_raise _
    | exact keepsOut_setVariable _ _
    | exact keepsOut_setElement _ _ _ _
    | (refine keepsOut_bind ?_ (fun _ => ?_))
    | split)

theorem writesLast_of_keeps {α : Type} {x : Exec α} (h : KeepsOut x) : WritesLast x := by
  intro s
  have h1 := h s
  cases hr : x s with
  | ok a s1 => rw [hr] at h1; simp only at h1 ⊢; exact ⟨[], by rw [h1]; simp⟩
  | throw e s1 => rw [hr] at h1; exact h1

theorem writesLast_bind {α β : Type} {x : Exec α} {f : α → Exec β} (hx : KeepsOut x)
    (hf : ∀ a, WritesLast (f a)) : WritesLast (x >>= f) := by
  intro s
  have h1 := hx s
  rw [exec_bind_eq]
  cases hr : x s with
  | ok a s1 =>
    rw [hr] at h1
    simp only at h1 ⊢
    have h2 := hf a s1
    cases hr2 : f a s1 with
    | ok b s2 => rw [hr2] at h2; simp only at h2 ⊢; rw [← h1]; exact h2
    | throw e s2 => rw [hr2] at h2; simp only at h2 ⊢; rw [h2, h1]
  | throw e s1 =>
    rw [hr] at h1
    exact h1

theorem writesLast_then_pure {α β : Type} {x : Exec α} (b : β) (hx : WritesLast x) :
    WritesLast (x >>= fun _ => (Pure.pure b : Exec β)) := by
  intro s
  have h1 := hx s
  rw [exec_bind_eq]
  cases hr : x s with
  | ok a s1 => rw [hr] at h1; exact h1
  | throw e s1 => rw [hr] at h1; exact h1

/-- The method `handle_output` writes one value, after everything that can throw. -/
theorem writesLast_handle_output : WritesLast handle_output := by
  unfold Compil.handle_output
  refine writesLast_bind keepsOut_pop_operand (fun item => ?_)
  refine writesLast_bind (keepsOut_get_int _) (fun v => ?_)
  intro s
  exact ⟨[v], rfl⟩

/-- An entry of the postfix stream only appends to the output stream, and appends nothing
when it throws. -/
theorem writesLast_execEntry (fns : MathFns) (p : Program) (e : RPNEntry) :
    WritesLast (execEntry fns p e) := by
  unfold Compil.execEntry
  cases e.type
  case OUTPUT => exact writesLast_then_pure true writesLast_handle_output
  all_goals
    apply writesLast_of_keeps
    simp only
    repeat' (first
      | exact keepsOut_pop_operand
      | exact keepsOut_get_int _
      | exact keepsOut_raise _
      | exact keepsOut_push_operand _
      | exact keepsOut_pure _
      | exact keepsOut_setPc _
      | exact keepsOut_find_label _ _
      | exact keepsOut_handle_operation _
      | exact keepsOut_handle_array_access
      | exact keepsOut_handle_input _
      | (refine keepsOut_bind ?_ (fun _ => ?_))
      | split)

/-- One iteration of the loop of `run` only appends to the output stream, and an iteration
that throws leaves the stream as it was. -/
theorem step_output (fns : MathFns) (p : Program) (s : RPNInterpreter) :
    match step fns p s with
    | .halted => True
    | .next s1 => ∃ written, s1.cout = s.cout ++ written
    | .failed _ s1 => s1.cout = s.cout := by
  unfold step
  cases hq : p.m_rpn[s.m_pc]? with
  | none => trivial
  | some entry =>
    have h := writesLast_execEntry fns p entry s
    show (match (match execEntry fns p entry s with
        | .throw f s1 => StepResult.failed ⟨entry.line_num, s1.m_pc, f⟩ s1
        | .ok increment_pc s1 =>
          .next (if increment_pc then { s1 with m_pc := s1.m_pc + 1 } else s1)) with
      | .halted => True
      | .next s1 => ∃ written, s1.cout = s.cout ++ written
      | .failed _ s1 => s1.cout = s.cout)
    cases hr : execEntry fns p entry s with
    | throw f s1 => rw [hr] at h; exact h
    | ok b s1 =>
      rw [hr] at h
      obtain ⟨w, hw⟩ := h
      refine ⟨w, ?_⟩
      cases b <;> exact hw

theorem step_failed_output {fns : MathFns} {p : Program} {s s1 : RPNInterpreter} {e : RunError}
    (h : step fns p s = .failed e s1) : s1.cout = s.cout := by
  have h1 := step_output fns p s
  rw [h] at h1
  exact h1

theorem step_next_output {fns : MathFns} {p : Program} {s s1 : RPNInterpreter}
    (h : step fns p s = .next s1) : ∃ written, s1.cout = s.cout ++ written := by
  have h1 := step_output fns p s
  rw [h] at h1
  exact h1

/-- A run that throws has executed some number `n` of entries without a throw, and thrown in
the next one. -/
theorem run_loop_failed (fns : MathFns) (p : Program) :
    ∀ (fuel : Nat) (s : RPNInterpreter) (e : RunError) (s1 : RPNInterpreter),
      run_loop fns p fuel s = .failed e s1 →
      ∃ n s0, n < fuel ∧ run_loop fns p n s = .outOfFuel s0 ∧ step fns p s0 = .failed e s1 := by
  intro fuel
  induction fuel with
  | zero => intro s e s1 h; simp [run_loop] at h
  | succ fuel ih =>
    intro s e s1 h
    unfold run_loop at h
    cases hs : step fns p s with
    | halted => rw [hs] at h; simp at h
    | failed e2 s2 =>
      rw [hs] at h
      simp only [RunResult.failed.injEq] at h
      obtain ⟨h1, h2⟩ := h
      subst h1 h2
      exact ⟨0, s, by omega, rfl, hs⟩
    | next s2 =>
      rw [hs] at h
      obtain ⟨n, s0, hn, hr, hf⟩ := ih s2 e s1 h
      refine ⟨n + 1, s0, by omega, ?_, hf⟩
      show (match step fns p s with
        | .halted => RunResult.finished s
        | .failed e s1 => .failed e s1
        | .next s1 => run_loop fns p n s1) = _
      rw [hs]
      exact hr

/-- The entries a run executes only append to the output stream. -/
theorem run_loop_output (fns : MathFns) (p : Program) :
    ∀ (fuel : Nat) (s : RPNInterpreter),
      match run_loop fns p fuel s with
      | .finished s1 => ∃ written, s1.cout = s.cout ++ written
      | .failed _ s1 => ∃ written, s1.cout = s.cout ++ written
      | .outOfFuel s1 => ∃ written, s1.cout = s.cout ++ written := by
  intro fuel
  induction fuel with
  | zero => intro s; exact ⟨[], by simp⟩
  | succ fuel ih =>
    intro s
    unfold run_loop
    cases hs : step fns p s with
    | halted => exact ⟨[], by simp⟩
    | failed e2 s2 => exact ⟨[], by rw [step_failed_output hs]; simp⟩
    | next s2 =>
      obtain ⟨w, hw⟩ := step_next_output hs
      have h := ih s2
      simp only
      cases hr : run_loop fns p fuel s2 with
      | finished s1 =>
        rw [hr] at h; obtain ⟨w1, hw1⟩ := h
        exact ⟨w ++ w1, by rw [hw1, hw]; simp⟩
      | failed e1 s1 =>
        rw [hr] at h; obtain ⟨w1, hw1⟩ := h
        exact ⟨w ++ w1, by rw [hw1, hw]; simp⟩
      | outOfFuel s1 =>
        rw [hr] at h; obtain ⟨w1, hw1⟩ := h
        exact ⟨w ++ w1, by rw [hw1, hw]; simp⟩

/-- Claim C20, amended.  When `main` ends with exit code 1 before the interpreter runs (in
the token loop, in `generate`, or in the constructor of the interpreter), nothing has been
written by `output` statements.  When it ends with a runtime error, the entry that throws
writes nothing, but what the entries before it wrote stays on the output stream: `run` has
executed some number `n` of entries without a throw, reaching the state `s0`, the next
entry throws, and the output of the run is the output stream of `s0`. -/
theorem output_on_error (char_is_signed : Bool) (fns : MathFns) (source : List Byte)
    (input : List Int) (fuel : Nat) (r : MainResult)
    (h : main char_is_signed fns source input fuel = some r) (he : r.exit_code = 1) :
    ((∀ e, r.stage ≠ .runtime e) → r.output = []) ∧
    (∀ e, r.stage = .runtime e → ∃ tokens g p s n s0 s1,
      tokenLoop (source.length + 1) (Lexer.init char_is_signed source) [] = .tokens tokens ∧
      generate tokens = .ok g ∧
      RPNInterpreter.init g.m_rpn g.m_symbolTable input = some (p, s) ∧
      n < fuel ∧
      run_loop fns p n { s with m_pc := 0, m_operandStack := [] } = .outOfFuel s0 ∧
      step fns p s0 = .failed e s1 ∧
      s1.cout = s0.cout ∧
      r.output = s0.cout) := by
  unfold main at h
  cases hl : tokenLoop (source.length + 1) (Lexer.init char_is_signed source) [] with
  | outOfFuel => rw [hl] at h; simp at h
  | exit1 =>
    rw [hl] at h
    simp only [Option.some.injEq] at h
    subst h
    exact ⟨fun _ => rfl, fun e h1 => by simp at h1⟩
  | tokens tokens =>
    rw [hl] at h
    simp only at h
    split_ifs at h with h1
    · simp only [Option.some.injEq] at h
      subst h
      simp at he
    · cases hg : generate tokens with
      | error e1 =>
        rw [hg] at h
        simp only [Option.some.injEq] at h
        subst h
        exact ⟨fun _ => rfl, fun e h1 => by simp at h1⟩
      | ok g =>
        rw [hg] at h
        simp only at h
        cases hi : RPNInterpreter.init g.m_rpn g.m_symbolTable input with
        | none =>
          rw [hi] at h
          simp only [Option.some.injEq] at h
          subst h
          exact ⟨fun _ => rfl, fun e h1 => by simp at h1⟩
        | some ps =>
          obtain ⟨p, s⟩ := ps
          rw [hi] at h
          simp only at h
          cases hr : run fns p fuel s with
          | outOfFuel s1 => rw [hr] at h; simp at h
          | finished s1 =>
            rw [hr] at h
            simp only [Option.some.injEq] at h
            subst h
            simp at he
          | failed e1 s1 =>
            rw [hr] at h
            simp only at h
            split_ifs at h with hk
            · simp only [Option.some.injEq] at h
              subst h
              simp at he
            simp only [Option.some.injEq] at h
            subst h
            refine ⟨fun h2 => absurd rfl (h2 e1), fun e h2 => ?_⟩
            simp only [Stage.runtime.injEq] at h2
            subst h2
            obtain ⟨n, s0, hn, hr1, hf⟩ := run_loop_failed fns p fuel _ _ _ hr
            exact ⟨tokens, g, p, s, n, s0, s1, rfl, hg, hi, hn, hr1, hf,
              step_failed_output hf, step_failed_output hf⟩

/-- Witness of `output_on_error`: the program `begin output(1); output(1/0); end`, which
ends with a division by zero. -/
theorem output_on_error_witness :
    main true noMath (bytesOf "begin output(1); output(1/0); end") [] 10 =
      some ⟨.runtime ⟨1, 4, .divisionByZero⟩, 1, [1], [], [], [], []⟩ ∧
    (⟨.runtime ⟨1, 4, .divisionByZero⟩, 1, [1], [], [], [], []⟩ : MainResult).exit_code = 1 ∧
    ∃ tokens g p s n s0 s1,
      tokenLoop ((bytesOf "begin output(1); output(1/0); end").length + 1)
        (Lexer.init true (bytesOf "begin output(1); output(1/0); end")) [] = .tokens tokens ∧
      generate tokens = .ok g ∧
      RPNInterpreter.init g.m_rpn g.m_symbolTable [] = some (p, s) ∧
      n < 10 ∧
      run_loop noMath p n { s with m_pc := 0, m_operandStack := [] } = .outOfFuel s0 ∧
      step noMath p s0 = .failed ⟨1, 4, .divisionByZero⟩ s1 ∧
      s1.cout = s0.cout ∧
      (⟨.runtime ⟨1, 4, .divisionByZero⟩, 1, [1], [], [], [], []⟩ : MainResult).output =
        s0.cout :=
  ⟨by decide!, rfl,
    (output_on_error true noMath (bytesOf "begin output(1); output(1/0); end") [] 10
      ⟨.runtime ⟨1, 4, .divisionByZero⟩, 1, [1], [], [], [], []⟩ (by decide!) rfl).2
      ⟨1, 4, .divisionByZero⟩ rfl⟩

/-- C20 as stated fails: the program `begin output(1); output(1/0); end` ends with the
runtime error `Division by zero` (exit code 1) after its first statement has written `1`
to the output stream. -/
theorem output_on_error_counterexample :
    ∃ r, main true noMath (bytesOf "begin output(1); output(1/0); end") [] 10 = some r ∧
      r.stage = .runtime ⟨1, 4, .divisionByZero⟩ ∧ r.exit_code = 1 ∧ r.output = [1] :=
  ⟨⟨.runtime ⟨1, 4, .divisionByZero⟩, 1, [1], [], [], [], []⟩, by decide!, rfl, rfl, rfl⟩
/-- For a source shorter than 10000 bytes `main` does not stop in the token loop. -/
theorem main_not_lexical (char_is_signed : Bool) (fns : MathFns) (source : List Byte)
    (input : List Int) (fuel : Nat) (r : MainResult) (hlen : source.length < 10000)
    (h : main char_is_signed fns source input fuel = some r) : r.stage ≠ .lexical := by
  obtain ⟨tokens, ht⟩ := tokenLoop_tokens char_is_signed source hlen
  unfold main at h
  rw [ht] at h
  simp only at h
  split_ifs at h with h1
  · simp only [Option.some.injEq] at h
    subst h
    simp
  · cases hg : generate tokens with
    | error e1 =>
      rw [hg] at h
      simp only [Option.some.injEq] at h
      subst h
      simp
    | ok g =>
      rw [hg] at h
      simp only at h
      cases hi : RPNInterpreter.init g.m_rpn g.m_symbolTable input with
      | none =>
        rw [hi] at h
        simp only [Option.some.injEq] at h
        subst h
        simp
      | some ps =>
        obtain ⟨p, s⟩ := ps
        rw [hi] at h
        simp only at h
        cases hr : run fns p fuel s with
        | outOfFuel s1 => rw [hr] at h; simp at h
        | finished s1 =>
          rw [hr] at h
          simp only [Option.some.injEq] at h
          subst h
          simp
        | failed e1 s1 =>
          rw [hr] at h
          simp only at h
          split_ifs at h with hk
          · simp only [Option.some.injEq] at h
            subst h
            simp
          · simp only [Option.some.injEq] at h
            subst h
            simp


/-- The method `parse_F` on a number: the text of the token goes to a `CONST` entry, and
is not read. -/
theorem parse_F_literal (fuel : Nat) (g : RPNGenerator) (t : Token)
    (h : g.m_tokens[g.m_currentIndex]? = some t) (hc : t.code = NUM_TOK) :
    parse_F (fuel + 1) g =
      .ok (emit { g with m_currentIndex := g.m_currentIndex + 1 } CONST t.lexeme t.line) := by
  have e0 : currentToken g = .ok t := by
    unfold currentToken
    rw [h]
  have e1 := consumeToken_eval h (by rw [hc]; decide)
  simp [parse_F, e0, e1, hc, bind, Except.bind, pure, Except.pure, isTrig]

/-- The case `CONST` of `run` : the value of the text is pushed, and a text whose value
does not fit an `int` throws, the state being as it was. -/
theorem step_CONST (fns : MathFns) (p : Program) (s : RPNInterpreter) (e : RPNEntry)
    (hq : p.m_rpn[s.m_pc]? = some e) (ht : e.type = CONST) :
    (stoi e.value = .error .out_of_range →
      step fns p s = .failed ⟨e.line_num, s.m_pc, .constantOutOfRange⟩ s) ∧
    (∀ v, stoi e.value = .ok v →
      step fns p s =
        .next { s with m_operandStack := .int v :: s.m_operandStack, m_pc := s.m_pc + 1 }) := by
  constructor
  · intro hs
    have h1 : execEntry fns p e s = .throw .constantOutOfRange s := by
      unfold execEntry
      rw [ht]
      simp only [hs]
      rfl
    unfold step
    rw [hq]
    simp only [h1]
  · intro v hs
    have h1 : execEntry fns p e s =
        .ok true { s with m_operandStack := .int v :: s.m_operandStack } := by
      unfold execEntry
      rw [ht]
      simp only [hs]
      rfl
    unfold step
    rw [hq]
    simp only [h1, if_true]

/-- Claim C17, amended.  A literal of an expression whose value exceeds the range of `int`
is a run-time error, not a parse-time one.  The method `parse_F` copies the text of every
number token to a `CONST` entry whatever its value; `run` reads the text with `stoi` when
it reaches the entry, and throws `Invalid constant (too large/small)` there, with the state
as the entries before it left it; a text of digits is out of range exactly when its value
is above `INT_MAX`. -/
theorem literal_range_at_run_time :
    (∀ fuel g t, g.m_tokens[g.m_currentIndex]? = some t → t.code = NUM_TOK →
      parse_F (fuel + 1) g =
        .ok (emit { g with m_currentIndex := g.m_currentIndex + 1 } CONST t.lexeme t.line)) ∧
    (∀ fns p s e, p.m_rpn[s.m_pc]? = some e → e.type = CONST →
      (stoi e.value = .error .out_of_range →
        step fns p s = .failed ⟨e.line_num, s.m_pc, .constantOutOfRange⟩ s) ∧
      (∀ v, stoi e.value = .ok v →
        step fns p s =
          .next { s with m_operandStack := .int v :: s.m_operandStack,
                         m_pc := s.m_pc + 1 })) ∧
    (∀ ds : List Char, ds ≠ [] → (∀ c ∈ ds, isdigit c = true) →
      stoi (String.mk ds) =
        if (digitsValue ds : Int) > INT_MAX then .error .out_of_range
        else .ok (digitsValue ds : Int)) :=
  ⟨fun fuel g t h hc => parse_F_literal fuel g t h hc,
    fun fns p s e hq ht => step_CONST fns p s e hq ht,
    fun ds hne hd => stoi_digits ds hne hd⟩

/-- C17 as stated fails: the program `int a; begin a = 99999999999; end` passes the lexer
and the parser, its code is `VAR a; CONST 99999999999; OPERATION =`, and the run stops at
entry 1 with the runtime error for a constant out of range, after entry 0 has pushed the
name `a`; and a program whose out-of-range literal is never reached runs to the end. -/
theorem literal_range_counterexample :
    (∃ g, generate (tokensOf true (bytesOf "int a; begin a = 99999999999; end")) = .ok g ∧
      g.m_rpn = [⟨VAR, "a", 1⟩, ⟨CONST, "99999999999", 1⟩, ⟨OPERATION, "=", 1⟩]) ∧
    main true noMath (bytesOf "int a; begin a = 99999999999; end") [] 5 =
      some ⟨.runtime ⟨1, 1, .constantOutOfRange⟩, 1, [], [], [("a", 0)], [], [.str "a"]⟩ ∧
    main true noMath
      (bytesOf "int a; begin if (1 < 0) begin a = 99999999999; end; output(7); end") [] 20 =
      some ⟨.success, 0, [7], [], [("a", 0)], [], []⟩ :=
  ⟨⟨generated _, generate_generated (by decide!), by decide!⟩, by decide!, by decide!⟩

/-- In an accepted program every `arr` in front of the first `EOF_TOK` starts a declaration
whose size text `stoi` reads as an `n` with `1 ≤ n ≤ INT_MAX`, and the symbol table holds the
name with that size. -/
theorem generate_arr {tokens : List Token} {g : RPNGenerator} (h : generate tokens = .ok g)
    {k : Nat} {kw : Token} (hk : tokens[k]? = some kw) (hc : kw.code = IMAS_TOK)
    (hb : beforeEOF tokens k) :
    ∃ id num n, tokens[k + 1]? = some id ∧ tokens[k + 3]? = some num ∧ num.code = NUM_TOK ∧
      stoi num.lexeme = .ok n ∧ 1 ≤ n ∧ n ≤ INT_MAX ∧
      mapFind g.m_symbolTable id.lexeme = some (arrInfo id n) := by
  obtain ⟨j1, p1, p4, p5, _, _, p8, _, u, q1, q2⟩ := generate_shape h
  have hlt := lt_of_beforeEOF hk hb q1 q2
  by_cases hj : k < j1
  · obtain ⟨id, num, r1, r2, r3, r4⟩ :=
      (Prelude_tokens p1 k kw (Nat.zero_le _) hj hk).2.2 hc
    have hv := (p5 _ r4).2 rfl
    simp only [arrInfo] at hv
    exact ⟨id, num, sizeValue num, r1, r2, r3, sizeValue_pos hv.1, by omega, hv.2,
      mapFind_of_mem p4 r4⟩
  · exact absurd hc (p8 k (by omega) hlt kw hk).2.1

/-- C16 (array size validation).  When `generate` returns, every `arr` in front of the
first `EOF_TOK` starts a declaration `arr ID [ NUM ...` whose NUM text `stoi` reads as an
integer `n` with `1 ≤ n ≤ 2147483647`, and the name is in the symbol table as an array of
that size.  When the NUM text of such a declaration is not read as a positive integer,
`generate` throws; in particular when the text is a run of digits whose value is 0 or is
above `INT_MAX`.  The throw comes from `parse_arr_ME` at the test of the size, which stands
in front of the call of `addSymbol` : the error is that of the size (`Array size must be
positive`, `Array size number too large`), and the name has not been added. -/
theorem array_size_validation (tokens : List Token) :
    (∀ g, generate tokens = .ok g →
      ∀ k kw, tokens[k]? = some kw → kw.code = IMAS_TOK → beforeEOF tokens k →
        ∃ id num n, tokens[k + 1]? = some id ∧ tokens[k + 3]? = some num ∧
          num.code = NUM_TOK ∧ stoi num.lexeme = .ok n ∧ 1 ≤ n ∧ n ≤ INT_MAX ∧
          mapFind g.m_symbolTable id.lexeme = some (arrInfo id n)) ∧
    (∀ k kw num, tokens[k]? = some kw → kw.code = IMAS_TOK → beforeEOF tokens k →
      tokens[k + 3]? = some num → (∀ n, stoi num.lexeme = .ok n → n ≤ 0) →
      ∃ e, generate tokens = .error e ∧ e ≠ .outOfFuel) ∧
    (∀ k kw num ds, tokens[k]? = some kw → kw.code = IMAS_TOK → beforeEOF tokens k →
      tokens[k + 3]? = some num → num.lexeme = String.mk ds → ds ≠ [] →
      (∀ c ∈ ds, isdigit c = true) → (digitsValue ds = 0 ∨ (digitsValue ds : Int) > INT_MAX) →
      ∃ e, generate tokens = .error e ∧ e ≠ .outOfFuel) ∧
    (∀ fuel g kw id lb num, g.m_tokens = tokens →
      g.m_tokens[g.m_currentIndex]? = some kw → kw.code = IMAS_TOK →
      g.m_tokens[g.m_currentIndex + 1]? = some id → id.code = ID_TOK →
      g.m_tokens[g.m_currentIndex + 2]? = some lb → lb.code = LBRACKET_TOK →
      g.m_tokens[g.m_currentIndex + 3]? = some num → num.code = NUM_TOK →
      (∀ n, stoi num.lexeme = .ok n → n ≤ 0 →
        parse_arr_ME (fuel + 1) g = .error (.syntaxError
          (errorLine { g with m_currentIndex := g.m_currentIndex + 4 })
          "Array size must be positive")) ∧
      (stoi num.lexeme = .error .out_of_range →
        parse_arr_ME (fuel + 1) g = .error (.syntaxError
          (errorLine { g with m_currentIndex := g.m_currentIndex + 4 })
          "Array size number too large"))) := by
  have key : ∀ k kw num, tokens[k]? = some kw → kw.code = IMAS_TOK → beforeEOF tokens k →
      tokens[k + 3]? = some num → (∀ n, stoi num.lexeme = .ok n → n ≤ 0) →
      ∃ e, generate tokens = .error e ∧ e ≠ .outOfFuel := by
    intro k kw num hk hc hb h3 hs
    apply generate_fails
    intro g hg
    obtain ⟨id, num1, n, _, r2, _, r4, r5, _⟩ := generate_arr hg hk hc hb
    rw [h3] at r2
    cases r2
    have := hs n r4
    omega
  refine ⟨fun g hg k kw hk hc hb => generate_arr hg hk hc hb, key, ?_, ?_⟩
  · intro k kw num ds hk hc hb h3 hl hne hd hv
    refine key k kw num hk hc hb h3 ?_
    intro n hs
    rw [hl, stoi_digits ds hne hd] at hs
    split_ifs at hs with h1
    rcases hv with hv | hv
    · simp only [Except.ok.injEq] at hs
      rw [← hs, hv]
      simp
    · exact absurd hv h1
  · intro fuel g kw id lb num _ h0 c0 h1 c1 h2 c2 h3 c3
    exact parse_arr_ME_invalid fuel h0 c0 h1 c1 h2 c2 h3 c3

/-- C18 (declaration-only programs).  Let the token vector `main` builds for the source be
a non-empty chain of declarations `int ID ;` / `arr ID [ NUM ] ;` followed by the closing
`EOF_TOK` and nothing else, the names being pairwise distinct and every array size
positive.  Then `generate` returns with an empty postfix stream and with the symbol table
holding exactly the declarations of the chain, in order; the constructor of the interpreter
accepts it; the loop of `run` ends at once, no entry being executed; and `main` ends with
exit code 0, nothing written and nothing read.  (The model gives an array of any declared
size; the memory of the machine is not bounded in it.) -/
theorem declaration_only (char_is_signed : Bool) (fns : MathFns) (source : List Byte)
    (input : List Int) (fuel : Nat) (tokens : List Token) (j : Nat)
    (ds : List (String × SymbolInfo)) (eof : Token)
    (hlex : tokenLoop (source.length + 1) (Lexer.init char_is_signed source) [] =
      .tokens tokens)
    (hp : Prelude tokens 0 j ds) (hne : ds ≠ []) (hn : (ds.map Prod.fst).Nodup)
    (hv : ∀ d ∈ ds, d.2.s_class = SymbolClass.INT_ARRAY → 0 < d.2.size)
    (he : tokens[j]? = some eof) (hc : eof.code = EOF_TOK) (hl : tokens.length = j + 1) :
    generate tokens = .ok ⟨tokens, j, [], ds, 0⟩ ∧
    RPNInterpreter.init [] ds input =
      some (⟨[], ds, []⟩, ⟨0, [], initVariables ds, initArrays ds, input, []⟩) ∧
    step fns ⟨[], ds, []⟩ ⟨0, [], initVariables ds, initArrays ds, input, []⟩ = .halted ∧
    run fns ⟨[], ds, []⟩ (fuel + 1) ⟨0, [], initVariables ds, initArrays ds, input, []⟩ =
      .finished ⟨0, [], initVariables ds, initArrays ds, input, []⟩ ∧
    main char_is_signed fns source input (fuel + 1) =
      some ⟨.success, 0, [], input, initVariables ds, initArrays ds, []⟩ := by
  have hg := generate_declarations hp hne hn hv he hc hl
  have hlen := Prelude_length hp
  have hds : 0 < ds.length := List.length_pos.mpr hne
  have hr : run fns ⟨[], ds, []⟩ (fuel + 1)
      ⟨0, [], initVariables ds, initArrays ds, input, []⟩ =
      .finished ⟨0, [], initVariables ds, initArrays ds, input, []⟩ := rfl
  refine ⟨hg, rfl, rfl, hr, ?_⟩
  have h1 : ¬ tokens.length = 1 := by omega
  have hi : RPNInterpreter.init [] ds input =
      some (⟨[], ds, []⟩, ⟨0, [], initVariables ds, initArrays ds, input, []⟩) := rfl
  unfold main
  rw [hlex]
  simp only [h1, if_false, hg, hi, hr]

/-- Witness of `declaration_only` : the program `int a; arr b[3];`. -/
theorem declaration_only_witness :
    tokenLoop ((bytesOf "int a; arr b[3];").length + 1)
      (Lexer.init true (bytesOf "int a; arr b[3];")) [] = .tokens tokensDecl ∧
    Prelude tokensDecl 0 9
      [("a", intInfo ⟨ID_TOK, "a", 1⟩),
       ("b", arrInfo ⟨ID_TOK, "b", 1⟩ (sizeValue ⟨NUM_TOK, "3", 1⟩))] ∧
    sizeValue ⟨NUM_TOK, "3", 1⟩ = 3 ∧
    generate tokensDecl = .ok ⟨tokensDecl, 9, [],
      [("a", intInfo ⟨ID_TOK, "a", 1⟩),
       ("b", arrInfo ⟨ID_TOK, "b", 1⟩ (sizeValue ⟨NUM_TOK, "3", 1⟩))], 0⟩ ∧
    main true noMath (bytesOf "int a; arr b[3];") [5] 1 =
      some ⟨.success, 0, [], [5], [("a", 0)], [("b", [0, 0, 0])], []⟩ :=
  have hp : Prelude tokensDecl 0 9
      [("a", intInfo ⟨ID_TOK, "a", 1⟩),
       ("b", arrInfo ⟨ID_TOK, "b", 1⟩ (sizeValue ⟨NUM_TOK, "3", 1⟩))] :=
    Prelude.int (i := 0) rfl rfl rfl rfl rfl rfl
      (Prelude.arr (i := 3) rfl rfl rfl rfl rfl rfl rfl rfl rfl rfl rfl rfl Prelude.nil)
  have h := declaration_only true noMath (bytesOf "int a; arr b[3];") [5] 0 tokensDecl 9
    [("a", intInfo ⟨ID_TOK, "a", 1⟩),
     ("b", arrInfo ⟨ID_TOK, "b", 1⟩ (sizeValue ⟨NUM_TOK, "3", 1⟩))] ⟨EOF_TOK, "EOF", 1⟩
    (by decide!) hp (by simp) (by decide) (by decide!) rfl rfl rfl
  ⟨by decide!, hp, by decide!, h.1, by
    have h5 := h.2.2.2.2
    have e1 : initVariables [("a", intInfo ⟨ID_TOK, "a", 1⟩),
       ("b", arrInfo ⟨ID_TOK, "b", 1⟩ (sizeValue ⟨NUM_TOK, "3", 1⟩))] = [("a", 0)] := by
      decide!
    have e2 : initArrays [("a", intInfo ⟨ID_TOK, "a", 1⟩),
       ("b", arrInfo ⟨ID_TOK, "b", 1⟩ (sizeValue ⟨NUM_TOK, "3", 1⟩))] =
        [("b", [0, 0, 0])] := by
      decide!
    rw [e1, e2] at h5
    exact h5⟩

/-! ## Concrete programs for the declaration checks -/

theorem tokensTwice_prelude :
    Prelude tokensTwice 0 9
      [("a", intInfo ⟨ID_TOK, "a", 1⟩),
       ("a", arrInfo ⟨ID_TOK, "a", 1⟩ (sizeValue ⟨NUM_TOK, "2", 1⟩))] :=
  Prelude.int (i := 0) rfl rfl rfl rfl rfl rfl
    (Prelude.arr (i := 3) rfl rfl rfl rfl rfl rfl rfl rfl rfl rfl rfl rfl Prelude.nil)

theorem tokensWhole_prelude :
    Prelude tokensWhole 0 6
      [("a", arrInfo ⟨ID_TOK, "a", 1⟩ (sizeValue ⟨NUM_TOK, "2", 1⟩))] :=
  Prelude.arr (i := 0) rfl rfl rfl rfl rfl rfl rfl rfl rfl rfl rfl rfl Prelude.nil

theorem tokensUndeclared_beforeEOF : beforeEOF tokensUndeclared 4 := by
  intro i t hi ht
  have h5 : i < 5 := by omega
  interval_cases i <;> simp [tokensUndeclared] at ht <;> subst ht <;> decide

theorem tokensUndeclared_use : ¬ isDeclarator tokensUndeclared 4 := by
  rintro ⟨i, kw, h1, h2, h3⟩
  obtain rfl : i = 3 := by omega
  simp [tokensUndeclared] at h2
  subst h2
  simp at h3

theorem tokensUndeclared_prelude :
    ∀ j ds, Prelude tokensUndeclared 0 j ds → mapFind ds "b" = none := by
  intro j ds h
  cases h with
  | nil => rfl
  | int a1 a2 a3 a4 a5 a6 p =>
    simp [tokensUndeclared] at a3
    subst a3
    cases p with
    | nil => decide
    | int b1 b2 =>
      simp [tokensUndeclared] at b1
      subst b1
      simp at b2
    | arr b1 b2 =>
      simp [tokensUndeclared] at b1
      subst b1
      simp at b2
  | arr a1 a2 =>
    simp [tokensUndeclared] at a1
    subst a1
    simp at a2

theorem tokensWhole_beforeEOF : beforeEOF tokensWhole 7 := by
  intro i t hi ht
  have h5 : i < 8 := by omega
  interval_cases i <;> simp [tokensWhole] at ht <;> subst ht <;> decide

theorem tokensWhole_use : ¬ isDeclarator tokensWhole 7 := by
  rintro ⟨i, kw, h1, h2, h3⟩
  obtain rfl : i = 6 := by omega
  simp [tokensWhole] at h2
  subst h2
  simp at h3

theorem tokensWhole_plain : ¬ indexed tokensWhole 7 := by
  rintro ⟨b, h1, h2⟩
  simp [tokensWhole] at h1
  subst h1
  simp at h2

/-- Witness of `undeclared_use_rejected` : in `int a; begin b = 1; end` the token at index
4 is the undeclared name `b`, and `generate` throws `Undeclared identifier`. -/
theorem undeclared_use_rejected_witness :
    tokenLoop ((bytesOf "int a; begin b = 1; end").length + 1)
      (Lexer.init true (bytesOf "int a; begin b = 1; end")) [] = .tokens tokensUndeclared ∧
    tokensUndeclared[4]? = some ⟨ID_TOK, "b", 1⟩ ∧
    beforeEOF tokensUndeclared 4 ∧ ¬ isDeclarator tokensUndeclared 4 ∧
    (∀ j ds, Prelude tokensUndeclared 0 j ds → mapFind ds "b" = none) ∧
    main true noMath (bytesOf "int a; begin b = 1; end") [] 0 =
      some ⟨.generator (.syntaxError 1 "Undeclared identifier"), 1, [], [], [], [], []⟩ ∧
    ∃ e, generate tokensUndeclared = .error e ∧ e ≠ .outOfFuel :=
  ⟨by decide!, rfl, tokensUndeclared_beforeEOF, tokensUndeclared_use,
    tokensUndeclared_prelude, by decide!,
    undeclared_use_rejected tokensUndeclared 4 ⟨ID_TOK, "b", 1⟩ rfl rfl
      tokensUndeclared_beforeEOF tokensUndeclared_use tokensUndeclared_prelude⟩

/-- Witness of `misuse_rejected` : in `arr a[2]; begin a = 1; end` the token at index 7 is
the array `a` with no `[` behind it, and `generate` throws. -/
theorem misuse_rejected_witness :
    tokenLoop ((bytesOf "arr a[2]; begin a = 1; end").length + 1)
      (Lexer.init true (bytesOf "arr a[2]; begin a = 1; end")) [] = .tokens tokensWhole ∧
    tokensWhole[7]? = some ⟨ID_TOK, "a", 1⟩ ∧
    beforeEOF tokensWhole 7 ∧ ¬ isDeclarator tokensWhole 7 ∧
    Prelude tokensWhole 0 6 [("a", arrInfo ⟨ID_TOK, "a", 1⟩ (sizeValue ⟨NUM_TOK, "2", 1⟩))] ∧
    ¬ indexed tokensWhole 7 ∧
    main true noMath (bytesOf "arr a[2]; begin a = 1; end") [] 0 =
      some ⟨.generator (.syntaxError 1 "Cannot assign to array as a whole."), 1, [], [], [],
        [], []⟩ ∧
    ∃ e, generate tokensWhole = .error e ∧ e ≠ .outOfFuel :=
  ⟨by decide!, rfl, tokensWhole_beforeEOF, tokensWhole_use, tokensWhole_prelude,
    tokensWhole_plain, by decide!,
    misuse_rejected tokensWhole 7 ⟨ID_TOK, "a", 1⟩ 6
      [("a", arrInfo ⟨ID_TOK, "a", 1⟩ (sizeValue ⟨NUM_TOK, "2", 1⟩))]
      (arrInfo ⟨ID_TOK, "a", 1⟩ (sizeValue ⟨NUM_TOK, "2", 1⟩)) rfl rfl
      tokensWhole_beforeEOF tokensWhole_use tokensWhole_prelude (List.mem_singleton.mpr rfl)
      (Or.inl ⟨rfl, tokensWhole_plain⟩)⟩

/-- Witness of `redeclaration_rejected` : `int a; arr a[2];` declares `a` twice, and
`generate` throws `Identifier already declared`. -/
theorem redeclaration_rejected_witness :
    tokenLoop ((bytesOf "int a; arr a[2];").length + 1)
      (Lexer.init true (bytesOf "int a; arr a[2];")) [] = .tokens tokensTwice ∧
    Prelude tokensTwice 0 9
      [("a", intInfo ⟨ID_TOK, "a", 1⟩),
       ("a", arrInfo ⟨ID_TOK, "a", 1⟩ (sizeValue ⟨NUM_TOK, "2", 1⟩))] ∧
    main true noMath (bytesOf "int a; arr a[2];") [] 0 =
      some ⟨.generator (.syntaxError 1 "Identifier already declared"), 1, [], [], [], [],
        []⟩ ∧
    ∃ e, generate tokensTwice = .error e ∧ e ≠ .outOfFuel :=
  ⟨by decide!, tokensTwice_prelude, by decide!,
    (redeclaration_rejected tokensTwice).1 9 _ tokensTwice_prelude (by decide)⟩

theorem tokensZero_beforeEOF : beforeEOF tokensZero 0 := by
  intro i t hi ht
  obtain rfl : i = 0 := by omega
  simp [tokensZero] at ht
  subst ht
  decide

/-- Witness of `array_size_validation` : `arr a[0];` declares an array of size 0, and
`generate` throws `Array size must be positive`; `arr a[99999999999];` gives
`Array size number too large`. -/
theorem array_size_validation_witness :
    tokenLoop ((bytesOf "arr a[0];").length + 1) (Lexer.init true (bytesOf "arr a[0];")) [] =
      .tokens tokensZero ∧
    beforeEOF tokensZero 0 ∧
    main true noMath (bytesOf "arr a[0];") [] 0 =
      some ⟨.generator (.syntaxError 1 "Array size must be positive"), 1, [], [], [], [],
        []⟩ ∧
    main true noMath (bytesOf "arr a[99999999999];") [] 0 =
      some ⟨.generator (.syntaxError 1 "Array size number too large"), 1, [], [], [], [],
        []⟩ ∧
    ∃ e, generate tokensZero = .error e ∧ e ≠ .outOfFuel :=
  ⟨by decide!, tokensZero_beforeEOF, by decide!, by decide!,
    (array_size_validation tokensZero).2.2.1 0 ⟨IMAS_TOK, "arr", 1⟩ ⟨NUM_TOK, "0", 1⟩ ['0']
      rfl rfl tokensZero_beforeEOF rfl rfl (by simp) (by decide) (Or.inl (by decide))⟩

/-- Witness of `punctuation_round_trip` : the text `+` followed by a space. -/
theorem punctuation_round_trip_witness :
    ("+", PLUS_TOK) ∈ [("+", PLUS_TOK), ("-", MINUS_TOK), ("*", STAR_TOK), ("/", SLASH_TOK),
        ("=", EQ_TOK), ("~", EQ_COMPARE_TOK), ("<", LT_TOK), (">", GT_TOK), ("!", NOT_TOK),
        ("(", LPAREN_TOK), (")", RPAREN_TOK), ("[", LBRACKET_TOK), ("]", RBRACKET_TOK),
        (";", SEMICOLON_TOK), ("$", DOLLAR_TOK)] ∧
    tokenLoop ((bytesOf ("+" ++ " ")).length + 1) (Lexer.init true (bytesOf ("+" ++ " "))) [] =
      .tokens [⟨PLUS_TOK, "+", 1⟩, ⟨EOF_TOK, "EOF", 1⟩] :=
  ⟨List.mem_cons_self _ _,
    punctuation_round_trip true ("+", PLUS_TOK) (List.mem_cons_self _ _)⟩

/-! ## Division -/

theorem intValue_stack (s : RPNInterpreter) (stack : List StackItem) (item : StackItem) :
    intValue { s with m_operandStack := stack } item = intValue s item := by
  cases item <;> rfl

/-- The arithmetic branch of `handle_operation` on two operands that resolve. -/
theorem handle_operation_binary_eval {e : RPNEntry} {s : RPNInterpreter} {bi ai : StackItem}
    {rest : List StackItem} {a b : Int} (h1 : e.value ≠ "=") (h2 : e.value ≠ "[]=")
    (hs : s.m_operandStack = bi :: ai :: rest)
    (hb : intValue s bi = some b) (ha : intValue s ai = some a) :
    handle_operation e s =
      match binaryResult e.value a b { s with m_operandStack := rest } with
      | .ok r s1 => push_operand (.int r) s1
      | .throw f s1 => .throw f s1 := by
  unfold handle_operation
  rw [if_neg h1, if_neg h2]
  rw [exec_bind_eq, pop_operand_eval hs]
  simp only
  rw [exec_bind_eq, pop_operand_eval (rfl : ({ s with m_operandStack := ai :: rest } :
    RPNInterpreter).m_operandStack = _)]
  simp only
  rw [exec_bind_eq, get_int_eval (s := { s with m_operandStack := rest })
    (by rw [intValue_stack]; exact hb)]
  simp only
  rw [exec_bind_eq, get_int_eval (s := { s with m_operandStack := rest })
    (by rw [intValue_stack]; exact ha)]
  simp only
  rw [exec_bind_eq]
  cases binaryResult e.value a b { s with m_operandStack := rest } <;> rfl

theorem wrap32_of_range {v : Int} (h1 : INT_MIN ≤ v) (h2 : v ≤ INT_MAX) : wrap32 v = v := by
  unfold wrap32
  unfold INT_MIN at h1
  unfold INT_MAX at h2
  omega

/-- C21 (division).  Let the entry the program counter stands at be the operation `/`, and
let the operand stack hold `bi` on top and `ai` beneath it, resolving to the integers `b` and
`a`.  When `b = 0` the iteration fails with `Division by zero`, both operands popped and
nothing pushed.  When `b ≠ 0` and the quotient fits an `int`, both operands are popped and
the quotient of `a` by `b` truncated toward zero is pushed: its absolute value is
`|a| / |b|` rounded down, it is not negative when `a` and `b` have the same sign and not
positive when they have opposite signs. -/
theorem division (fns : MathFns) (p : Program) (s : RPNInterpreter) (e : RPNEntry)
    (bi ai : StackItem) (rest : List StackItem) (a b : Int)
    (hq : p.m_rpn[s.m_pc]? = some e) (ht : e.type = OPERATION) (he : e.value = "/")
    (hs : s.m_operandStack = bi :: ai :: rest)
    (hb : intValue s bi = some b) (ha : intValue s ai = some a) :
    (b = 0 → step fns p s =
      .failed ⟨e.line_num, s.m_pc, .divisionByZero⟩ { s with m_operandStack := rest }) ∧
    (b ≠ 0 → INT_MIN ≤ Int.tdiv a b → Int.tdiv a b ≤ INT_MAX →
      step fns p s = .next { s with m_operandStack := .int (Int.tdiv a b) :: rest,
                                    m_pc := s.m_pc + 1 }) ∧
    (Int.tdiv a b).natAbs = a.natAbs / b.natAbs ∧
    (0 ≤ a → 0 ≤ b → 0 ≤ Int.tdiv a b) ∧ (a ≤ 0 → b ≤ 0 → 0 ≤ Int.tdiv a b) ∧
    (0 ≤ a → b ≤ 0 → Int.tdiv a b ≤ 0) ∧ (a ≤ 0 → 0 ≤ b → Int.tdiv a b ≤ 0) := by
  have hop := handle_operation_binary_eval (e := e) (by rw [he]; decide) (by rw [he]; decide)
    hs hb ha
  have hbin : ∀ s0 : RPNInterpreter, binaryResult e.value a b s0 =
      if b = 0 then .throw .divisionByZero s0
      else if a = INT_MIN ∧ b = -1 then .throw .divisionOverflow s0
      else .ok (wrap32 (Int.tdiv a b)) s0 := by
    intro s0
    unfold binaryResult
    rw [he]
    rw [if_neg (by decide), if_neg (by decide), if_neg (by decide), if_pos rfl]
    split_ifs <;> rfl
  refine ⟨?_, ?_, Int.natAbs_tdiv a b, ?_, ?_, ?_, ?_⟩
  · intro h0
    have h1 : execEntry fns p e s = .throw .divisionByZero { s with m_operandStack := rest } := by
      unfold execEntry
      rw [ht]
      simp only
      rw [exec_bind_eq, hop, hbin, if_pos h0]
    unfold step
    rw [hq]
    simp only [h1]
  · intro h0 hlo hhi
    have h1 : execEntry fns p e s =
        .ok true { s with m_operandStack := .int (Int.tdiv a b) :: rest } := by
      unfold execEntry
      rw [ht]
      simp only
      have h9 : ¬ (a = INT_MIN ∧ b = -1) := by
        rintro ⟨h1, h2⟩
        rw [h1, h2] at hhi
        revert hhi
        decide
      rw [exec_bind_eq, hop, hbin, if_neg h0, if_neg h9, wrap32_of_range hlo hhi]
      rfl
    unfold step
    rw [hq]
    simp only [h1, if_true]
  · intro h1 h2
    exact Int.tdiv_nonneg h1 h2
  · intro h1 h2
    have := Int.tdiv_nonneg (a := -a) (b := -b) (by omega) (by omega)
    rwa [Int.neg_tdiv_neg] at this
  · intro h1 h2
    exact Int.tdiv_nonpos h1 h2
  · intro h1 h2
    have := Int.tdiv_nonpos (a := -a) (b := -b) (by omega) (by omega)
    rwa [Int.neg_tdiv_neg] at this

/-- Witness of `division` : `(0 - 7) / 2` and `7 / (0 - 2)` evaluate to -3, the operation
`/` on the stack `2, -7` pushes -3, and on the stack `0, 7` it fails. -/
theorem division_witness :
    main true noMath (bytesOf "begin output((0 - 7) / 2); output(7 / (0 - 2)); end") [] 20 =
      some ⟨.success, 0, [-3, -3], [], [], [], []⟩ ∧
    step noMath ⟨[⟨OPERATION, "/", 1⟩], [], []⟩ ⟨0, [.int 2, .int (-7)], [], [], [], []⟩ =
      .next ⟨1, [.int (-3)], [], [], [], []⟩ ∧
    step noMath ⟨[⟨OPERATION, "/", 1⟩], [], []⟩ ⟨0, [.int 0, .int 7], [], [], [], []⟩ =
      .failed ⟨1, 0, .divisionByZero⟩ ⟨0, [], [], [], [], []⟩ :=
  ⟨by decide!,
    (division noMath ⟨[⟨OPERATION, "/", 1⟩], [], []⟩ ⟨0, [.int 2, .int (-7)], [], [], [], []⟩
      ⟨OPERATION, "/", 1⟩ (.int 2) (.int (-7)) [] (-7) 2 rfl rfl rfl rfl rfl rfl).2.1
      (by decide) (by decide) (by decide),
    (division noMath ⟨[⟨OPERATION, "/", 1⟩], [], []⟩ ⟨0, [.int 0, .int 7], [], [], [], []⟩
      ⟨OPERATION, "/", 1⟩ (.int 0) (.int 7) [] 7 0 rfl rfl rfl rfl rfl rfl).1 rfl⟩

/-! ## The symbol table of an accepted program -/

/-- Every entry of a chain of declarations is the entry of an `int` or of an `arr`
declaration of the token vector. -/
theorem Prelude_entries {tokens : List Token} {i j : Nat} {ds : List (String × SymbolInfo)}
    (h : Prelude tokens i j ds) :
    ∀ d ∈ ds, DeclaredInt tokens d ∨ ∃ num, DeclaredArr tokens d num := by
  induction h with
  | nil => intro d hd; cases hd
  | @int i j kw id sc ds a1 a2 a3 a4 a5 a6 p ih =>
    intro d hd
    rcases List.mem_cons.mp hd with h | h
    · exact Or.inl ⟨i, kw, id, a1, a2, a3, a4, h⟩
    · exact ih d h
  | @arr i j kw id lb num rb sc ds a1 a2 a3 a4 a5 a6 a7 a8 a9 a10 a11 a12 p ih =>
    intro d hd
    rcases List.mem_cons.mp hd with h | h
    · exact Or.inr ⟨num, i, kw, id, a1, a2, a3, a4, a7, a8, h⟩
    · exact ih d h

theorem tokensDecl_prelude :
    Prelude tokensDecl 0 9
      [("a", intInfo ⟨ID_TOK, "a", 1⟩),
       ("b", arrInfo ⟨ID_TOK, "b", 1⟩ (sizeValue ⟨NUM_TOK, "3", 1⟩))] :=
  Prelude.int (i := 0) rfl rfl rfl rfl rfl rfl
    (Prelude.arr (i := 3) rfl rfl rfl rfl rfl rfl rfl rfl rfl rfl rfl rfl Prelude.nil)

theorem tokensDecl_generate :
    generate tokensDecl = .ok ⟨tokensDecl, 9, [],
      [("a", intInfo ⟨ID_TOK, "a", 1⟩),
       ("b", arrInfo ⟨ID_TOK, "b", 1⟩ (sizeValue ⟨NUM_TOK, "3", 1⟩))], 0⟩ :=
  generate_declarations tokensDecl_prelude (by simp) (by decide) (by decide!)
    (rfl : tokensDecl[9]? = some ⟨EOF_TOK, "EOF", 1⟩) rfl rfl

/-- C25 (symbol size invariant).  In the symbol table of an accepted program every entry is
the entry of a declaration of the token vector, declared, of class scalar or array; an
entry of class scalar has size 0; an entry of class array is the entry of a declaration
`arr ID [ NUM ] ;` and its size is strictly positive, at most `INT_MAX`, and is the value
`stoi` reads from the text of that NUM token. -/
theorem symbol_size_invariant (tokens : List Token) (g : RPNGenerator)
    (h : generate tokens = .ok g) :
    ∀ d ∈ g.m_symbolTable,
      d.2.is_declared = true ∧
      (d.2.s_class = SymbolClass.INT_VAR ∨ d.2.s_class = SymbolClass.INT_ARRAY) ∧
      (d.2.s_class = SymbolClass.INT_VAR → d.2.size = 0 ∧ DeclaredInt tokens d) ∧
      (d.2.s_class = SymbolClass.INT_ARRAY →
        0 < d.2.size ∧ d.2.size ≤ INT_MAX ∧
        ∃ num, DeclaredArr tokens d num ∧ stoi num.lexeme = .ok d.2.size) := by
  obtain ⟨j1, p1, _, p5, _⟩ := generate_shape h
  intro d hd
  have hv := p5 d hd
  rcases Prelude_entries p1 d hd with ⟨k, kw, id, a1, a2, a3, a4, a5⟩ |
    ⟨num, k, kw, id, a1, a2, a3, a4, a5, a6, a7⟩
  · refine ⟨hv.1, Or.inl (by rw [a5]; rfl), fun _ => ⟨by rw [a5]; rfl,
      ⟨k, kw, id, a1, a2, a3, a4, a5⟩⟩, fun hc => ?_⟩
    rw [a5] at hc
    cases hc
  · refine ⟨hv.1, Or.inr (by rw [a7]; rfl), fun hc => ?_, fun hc => ?_⟩
    · rw [a7] at hc
      cases hc
    · have hs := hv.2 hc
      refine ⟨hs.1, hs.2, num, ⟨k, kw, id, a1, a2, a3, a4, a5, a6, a7⟩, ?_⟩
      have h0 : 0 < sizeValue num := by
        have := hs.1
        rw [a7] at this
        exact this
      rw [a7]
      exact sizeValue_pos h0

/-- Witness of `symbol_size_invariant` : the program `int a; arr b[3];`, whose table holds
`a` with size 0 and `b` with size 3. -/
theorem symbol_size_invariant_witness :
    generate tokensDecl = .ok ⟨tokensDecl, 9, [],
      [("a", intInfo ⟨ID_TOK, "a", 1⟩),
       ("b", arrInfo ⟨ID_TOK, "b", 1⟩ (sizeValue ⟨NUM_TOK, "3", 1⟩))], 0⟩ ∧
    [("a", intInfo ⟨ID_TOK, "a", 1⟩),
       ("b", arrInfo ⟨ID_TOK, "b", 1⟩ (sizeValue ⟨NUM_TOK, "3", 1⟩))] =
      [("a", ⟨SymbolClass.INT_VAR, INT_TOK, 0, 1, true⟩),
       ("b", ⟨SymbolClass.INT_ARRAY, IMAS_TOK, 3, 1, true⟩)] ∧
    ∀ d ∈ [("a", intInfo ⟨ID_TOK, "a", 1⟩),
        ("b", arrInfo ⟨ID_TOK, "b", 1⟩ (sizeValue ⟨NUM_TOK, "3", 1⟩))],
      d.2.is_declared = true ∧
      (d.2.s_class = SymbolClass.INT_VAR ∨ d.2.s_class = SymbolClass.INT_ARRAY) ∧
      (d.2.s_class = SymbolClass.INT_VAR → d.2.size = 0 ∧ DeclaredInt tokensDecl d) ∧
      (d.2.s_class = SymbolClass.INT_ARRAY →
        0 < d.2.size ∧ d.2.size ≤ INT_MAX ∧
        ∃ num, DeclaredArr tokensDecl d num ∧ stoi num.lexeme = .ok d.2.size) :=
  ⟨tokensDecl_generate, by decide!,
    symbol_size_invariant tokensDecl _ tokensDecl_generate⟩

/-! ## Declared operands -/

theorem operands_append {table : List (String × SymbolInfo)} {a b : List RPNEntry}
    (ha : ∀ e ∈ a, OperandChecked table e) (hb : ∀ e ∈ b, OperandChecked table e) :
    ∀ e ∈ a ++ b, OperandChecked table e := by
  intro e he
  rcases List.mem_append.mp he with h | h
  · exact ha e h
  · exact hb e h

theorem operands_single {table : List (String × SymbolInfo)} {x : RPNEntry}
    (h : OperandChecked table x) : ∀ e ∈ [x], OperandChecked table e := by
  intro e he
  rw [List.mem_singleton.mp he]
  exact h

theorem operands_nil {table : List (String × SymbolInfo)} :
    ∀ e ∈ ([] : List RPNEntry), OperandChecked table e := by
  intro e he
  cases he

theorem operand_other {table : List (String × SymbolInfo)} {x : RPNEntry}
    (h1 : x.type ≠ VAR) (h2 : x.type ≠ ARRAY_BASE) : OperandChecked table x :=
  ⟨fun h => absurd h h1, fun h => absurd h h2⟩

theorem operand_func {table : List (String × SymbolInfo)} (c : TokenCode) (v : String)
    (l : Int) : OperandChecked table ⟨funcType c, v, l⟩ := by
  have := funcType_isFunc c
  apply operand_other <;> (intro h; simp only at h; rw [h] at this; cases this)

theorem operand_var {table : List (String × SymbolInfo)} {name : String} {info : SymbolInfo}
    (l : Int) (h : declaredSymbol table name = some info)
    (hc : info.s_class ≠ SymbolClass.INT_ARRAY) : OperandChecked table ⟨VAR, name, l⟩ :=
  ⟨fun _ => ⟨info, h, hc⟩, fun h1 => by cases h1⟩

theorem operand_base {table : List (String × SymbolInfo)} {name : String} {info : SymbolInfo}
    (l : Int) (h : declaredSymbol table name = some info)
    (hc : info.s_class = SymbolClass.INT_ARRAY) : OperandChecked table ⟨ARRAY_BASE, name, l⟩ :=
  ⟨fun h1 => (by cases h1), fun _ => ⟨info, h, hc⟩⟩

/-- The operand entries of the code of an expression name checked symbols. -/
theorem DerivesE_operands {tokens : List Token} {table : List (String × SymbolInfo)}
    {X : NT} {i j : Nat} {code : List RPNEntry} (h : DerivesE tokens table X i j code) :
    ∀ e ∈ code, OperandChecked table e := by
  induction h with
  | G _ _ ih1 ih2 => exact operands_append ih1 ih2
  | U_nil _ _ => exact operands_nil
  | U_op _ _ _ _ ih1 ih2 =>
    exact operands_append (operands_append ih1
      (operands_single (operand_other (by simp) (by simp)))) ih2
  | T _ _ ih1 ih2 => exact operands_append ih1 ih2
  | V_nil _ _ => exact operands_nil
  | V_op _ _ _ _ ih1 ih2 =>
    exact operands_append (operands_append ih1
      (operands_single (operand_other (by simp) (by simp)))) ih2
  | F_paren _ _ _ _ _ ih => exact ih
  | F_trig _ _ _ _ _ _ _ ih =>
    exact operands_append ih (operands_single (operand_func _ _ _))
  | F_var _ _ a3 _ _ a6 => exact operands_single (operand_var _ a3 a6)
  | F_index _ _ a3 _ _ a6 _ _ _ ih =>
    exact operands_append (operands_append (operands_single (operand_base _ a3 a6)) ih)
      (operands_single (operand_other (by simp) (by simp)))
  | F_num _ _ => exact operands_single (operand_other (by simp) (by simp))

theorem DerivesC_operands {tokens : List Token} {table : List (String × SymbolInfo)}
    {i j : Nat} {code : List RPNEntry} (h : DerivesC tokens table i j code) :
    ∀ e ∈ code, OperandChecked table e := by
  cases h with
  | C d1 _ _ d2 =>
    exact operands_append (operands_append (DerivesE_operands d1) (DerivesE_operands d2))
      (operands_single (operand_other (by simp) (by simp)))

/-- The operand entries of the code of a statement list name checked symbols. -/
theorem DerivesA_operands {tokens : List Token} {table : List (String × SymbolInfo)}
    {i j n m : Nat} {code : List RPNEntry} (h : DerivesA tokens table i j n m code) :
    ∀ e ∈ code, OperandChecked table e := by
  induction h with
  | nil _ _ => exact operands_nil
  | assign _ _ a3 _ _ a6 _ _ d _ _ _ ih =>
    exact operands_append (operands_append (operands_append
      (operands_single (operand_var _ a3 a6)) (DerivesE_operands d))
      (operands_single (operand_other (by simp) (by simp)))) ih
  | assignIndexed _ _ a3 _ _ a6 d1 _ _ _ _ d2 _ _ _ ih =>
    exact operands_append (operands_append (operands_append (operands_append
      (operands_single (operand_base _ a3 a6)) (DerivesE_operands d1))
      (DerivesE_operands d2)) (operands_single (operand_other (by simp) (by simp)))) ih
  | ifThen _ _ _ _ dC _ _ _ _ _ _ _ _ _ _ ih1 ih2 =>
    exact operands_append (operands_append (operands_append (operands_append
      (DerivesC_operands dC) (operands_single (operand_other (by simp) (by simp)))) ih1)
      (operands_single (operand_other (by simp) (by simp)))) ih2
  | «while» _ _ _ _ dC _ _ _ _ _ _ _ _ _ _ ih1 ih2 =>
    refine operands_append (operands_append (operands_append (operands_append
      (operands_append (operands_single (operand_other (by simp) (by simp)))
      (DerivesC_operands dC)) (operands_single (operand_other (by simp) (by simp)))) ih1)
      ?_) ih2
    intro e he
    simp only [List.mem_cons, List.mem_singleton, List.not_mem_nil, or_false] at he
    rcases he with h | h <;> rw [h] <;> exact operand_other (by simp) (by simp)
  | input _ _ _ _ _ _ a7 _ _ a10 _ _ _ _ _ ih =>
    refine operands_append ?_ ih
    intro e he
    simp only [List.mem_cons, List.mem_singleton, List.not_mem_nil, or_false] at he
    rcases he with h | h <;> rw [h]
    · exact operand_var _ a7 a10
    · exact operand_other (by simp) (by simp)
  | inputIndexed _ _ _ _ _ _ a7 _ _ a10 d _ _ _ _ _ _ _ ih =>
    exact operands_append (operands_append (operands_append
      (operands_single (operand_base _ a7 a10)) (DerivesE_operands d))
      (operands_single (operand_other (by simp) (by simp)))) ih
  | output _ _ _ _ d _ _ _ _ _ ih =>
    exact operands_append (operands_append (DerivesE_operands d)
      (operands_single (operand_other (by simp) (by simp)))) ih
  | trig _ _ _ _ d _ _ _ _ _ ih =>
    exact operands_append (operands_append (DerivesE_operands d)
      (operands_single (operand_func _ _ _))) ih

theorem DerivesP_operands {tokens : List Token} {i j n m : Nat}
    {table table1 : List (String × SymbolInfo)} {code : List RPNEntry}
    (h : DerivesP tokens i table j table1 n m code) :
    ∀ e ∈ code, OperandChecked table1 e := by
  induction h with
  | empty _ _ _ _ => exact operands_nil
  | block _ _ d _ _ => exact DerivesA_operands d
  | int _ _ _ _ _ _ _ _ ih => exact ih
  | arr _ _ _ _ _ _ _ _ _ _ _ _ _ _ _ _ ih => exact ih

/-- C24 (declared operands).  In the postfix stream of an accepted program, the name of
every `VAR` entry has a declared entry of class scalar in the symbol table, and the name of
every `ARRAY_BASE` entry has a declared entry of class array. -/
theorem declared_operands (tokens : List Token) (g : RPNGenerator)
    (h : generate tokens = .ok g) :
    ∀ e ∈ g.m_rpn, OperandDeclared g.m_symbolTable e := by
  obtain ⟨_, d⟩ := generate_derives h
  obtain ⟨j1, p1, _, p5, _⟩ := generate_shape h
  intro e he
  obtain ⟨c1, c2⟩ := DerivesP_operands d e he
  have key : ∀ info, declaredSymbol g.m_symbolTable e.value = some info →
      mapFind g.m_symbolTable e.value = some info ∧ info.is_declared = true ∧
      (info.s_class = SymbolClass.INT_VAR ∨ info.s_class = SymbolClass.INT_ARRAY) := by
    intro info hs
    have hm := declaredSymbol_mapFind hs
    have hmem := mapFind_mem _ _ _ hm
    refine ⟨hm, (p5 _ hmem).1, ?_⟩
    rcases Prelude_entries p1 _ hmem with ⟨k, kw, id, _, _, _, _, a5⟩ |
      ⟨num, k, kw, id, _, _, _, _, _, _, a7⟩
    · simp only [Prod.mk.injEq] at a5
      exact Or.inl (by rw [a5.2]; rfl)
    · simp only [Prod.mk.injEq] at a7
      exact Or.inr (by rw [a7.2]; rfl)
  constructor
  · intro ht
    obtain ⟨info, hs, hc⟩ := c1 ht
    obtain ⟨k1, k2, k3⟩ := key info hs
    exact ⟨info, k1, k2, k3.resolve_right hc⟩
  · intro ht
    obtain ⟨info, hs, hc⟩ := c2 ht
    obtain ⟨k1, k2, _⟩ := key info hs
    exact ⟨info, k1, k2, hc⟩

/-- Witness of `declared_operands` : the program
`int i; arr a[2]; begin a[i] = i + 7; output(a[i]); end`. -/
theorem declared_operands_witness :
    generate (tokensOf true sourceIndexed) = .ok (generated (tokensOf true sourceIndexed)) ∧
    (generated (tokensOf true sourceIndexed)).m_rpn =
      [⟨ARRAY_BASE, "a", 1⟩, ⟨VAR, "i", 1⟩, ⟨VAR, "i", 1⟩, ⟨CONST, "7", 1⟩,
       ⟨OPERATION, "+", 1⟩, ⟨OPERATION, "[]=", 1⟩, ⟨ARRAY_BASE, "a", 1⟩, ⟨VAR, "i", 1⟩,
       ⟨ARRAY_ACCESS, "[]", 1⟩, ⟨OUTPUT, "OUT", 1⟩] ∧
    (generated (tokensOf true sourceIndexed)).m_symbolTable =
      [("i", ⟨SymbolClass.INT_VAR, INT_TOK, 0, 1, true⟩),
       ("a", ⟨SymbolClass.INT_ARRAY, IMAS_TOK, 2, 1, true⟩)] ∧
    ∀ e ∈ (generated (tokensOf true sourceIndexed)).m_rpn,
      OperandDeclared (generated (tokensOf true sourceIndexed)).m_symbolTable e :=
  ⟨generate_generated (by decide!), by decide!, by decide!,
    declared_operands _ _ (generate_generated (by decide!))⟩

/-! ## The code of `while` and `if` -/

theorem fresh_of_LabelsOK {n m : Nat} {code : List RPNEntry} (h : LabelsOK n m code) :
    ∀ k, k < n → labelName k ∉ labelsOf code := by
  obtain ⟨_, ks, h1, _, h3, _⟩ := h
  intro k hk hmem
  rw [h1] at hmem
  obtain ⟨q, hq, he⟩ := List.mem_map.mp hmem
  have := labelName_injective he
  have := (h3 q hq).1
  omega

theorem LabelsOK_le {n m : Nat} {code : List RPNEntry} (h : LabelsOK n m code) : n ≤ m := h.1

/-- C28 (while emission).  Let `parse_A` be called on a `while` token `t` with label counter
`n`, and return.  Then it has appended to the postfix stream, in order: `LABEL_DEF Ln`; the
code `cC` the call of `parse_C` on the condition has appended; `JUMP_FALSE L(n+1)`; the code
`cA` the call of `parse_A` on the block has appended; `JUMP Ln`; `LABEL_DEF L(n+1)`; and
then the code `rest` of the statements that follow.  The four control entries carry the
line of the `while` token.  The labels `Ln` and `L(n+1)` are different, the counter has
advanced past both before the condition is parsed, and neither is defined in `cC`, `cA`
or `rest`, nor in the stream so far when all its labels are below the counter. -/
theorem while_emission (fuel : Nat) (g g1 : RPNGenerator) (t : Token)
    (h : parse_A (fuel + 1) g = .ok g1)
    (ht : g.m_tokens[g.m_currentIndex]? = some t) (hc : t.code = WHILE_TOK) :
    ∃ gC gA cC cA rest,
      parse_C fuel { g with
        m_currentIndex := g.m_currentIndex + 2,
        m_rpn := g.m_rpn ++ [⟨LABEL_DEF, labelName g.m_labelCounter, t.line⟩],
        m_labelCounter := g.m_labelCounter + 2 } = .ok gC ∧
      gC.m_rpn = g.m_rpn ++ [⟨LABEL_DEF, labelName g.m_labelCounter, t.line⟩] ++ cC ∧
      parse_A fuel { gC with
        m_currentIndex := gC.m_currentIndex + 2,
        m_rpn := gC.m_rpn ++ [⟨JUMP_FALSE, labelName (g.m_labelCounter + 1), t.line⟩] } =
        .ok gA ∧
      gA.m_rpn = gC.m_rpn ++ [⟨JUMP_FALSE, labelName (g.m_labelCounter + 1), t.line⟩] ++ cA ∧
      parse_A fuel { gA with
        m_currentIndex := gA.m_currentIndex + 2,
        m_rpn := gA.m_rpn ++ [⟨JUMP, labelName g.m_labelCounter, t.line⟩,
          ⟨LABEL_DEF, labelName (g.m_labelCounter + 1), t.line⟩] } = .ok g1 ∧
      g1.m_rpn = g.m_rpn ++ ([⟨LABEL_DEF, labelName g.m_labelCounter, t.line⟩] ++ cC ++
        [⟨JUMP_FALSE, labelName (g.m_labelCounter + 1), t.line⟩] ++ cA ++
        [⟨JUMP, labelName g.m_labelCounter, t.line⟩,
         ⟨LABEL_DEF, labelName (g.m_labelCounter + 1), t.line⟩] ++ rest) ∧
      labelName g.m_labelCounter ≠ labelName (g.m_labelCounter + 1) ∧
      (∀ k, k < g.m_labelCounter + 2 → labelName k ∉ labelsOf (cC ++ cA ++ rest)) ∧
      ((∀ k, labelName k ∈ labelsOf g.m_rpn → k < g.m_labelCounter) →
        labelName g.m_labelCounter ∉ labelsOf g.m_rpn ∧
        labelName (g.m_labelCounter + 1) ∉ labelsOf g.m_rpn) ∧
      (∃ lp rp bg en sc,
        g.m_tokens[g.m_currentIndex + 1]? = some lp ∧ lp.code = LPAREN_TOK ∧
        g.m_tokens[gC.m_currentIndex]? = some rp ∧ rp.code = RPAREN_TOK ∧
        g.m_tokens[gC.m_currentIndex + 1]? = some bg ∧ bg.code = BEG_TOK ∧
        g.m_tokens[gA.m_currentIndex]? = some en ∧ en.code = END_TOK ∧
        g.m_tokens[gA.m_currentIndex + 1]? = some sc ∧ sc.code = SEMICOLON_TOK) := by
  simp only [parse_A] at h
  obtain ⟨t1, h1, h2⟩ := bind_ok h
  have ht1 := same_token (currentToken_ok h1) ht
  subst ht1
  rw [if_neg (by rw [hc]; decide), if_neg (by rw [hc]; decide), if_pos hc] at h2
  obtain ⟨p, h3, h4⟩ := bind_ok h2
  obtain ⟨t0, g2⟩ := p
  obtain ⟨e3, e4⟩ := consumeToken_ok h3
  subst e4
  obtain ⟨p1, k1, k2⟩ := bind_ok h4
  obtain ⟨lp, g3⟩ := p1
  obtain ⟨l1, l2, l3⟩ := expect_ok k1
  subst l3
  obtain ⟨g4, k3, k4⟩ := bind_ok k2
  obtain ⟨j, c1, e1, d1⟩ := parse_C_derives k3
  obtain ⟨p2, k5, k6⟩ := bind_ok k4
  obtain ⟨rp, g5⟩ := p2
  obtain ⟨r1, r2, r3⟩ := expect_ok k5
  subst r3
  obtain ⟨p3, k7, k8⟩ := bind_ok k6
  obtain ⟨bg, g6⟩ := p3
  obtain ⟨b1, b2, b3⟩ := expect_ok k7
  subst b3
  obtain ⟨g7, k9, k10⟩ := bind_ok k8
  obtain ⟨k, n1, body, e2, d2⟩ := parse_A_derives _ _ _ k9
  obtain ⟨p4, k13, k14⟩ := bind_ok k10
  obtain ⟨en, g8⟩ := p4
  obtain ⟨n1a, n2a, n3a⟩ := expect_ok k13
  subst n3a
  obtain ⟨p5, k17, k18⟩ := bind_ok k14
  obtain ⟨sc, g9⟩ := p5
  obtain ⟨s1, s2, s3⟩ := expect_ok k17
  subst s3
  obtain ⟨l, m, rest, e3a, d3⟩ := parse_A_derives _ _ _ k18
  have hC := DerivesC_noControl d1
  have hA : LabelsOK (g.m_labelCounter + 2) n1 body := by
    have h0 := DerivesA_labels d2
    rw [e1] at h0
    exact h0
  have hR : LabelsOK n1 m rest := by
    have h0 := DerivesA_labels d3
    rw [e2] at h0
    exact h0
  have hT4 : g4.m_tokens = g.m_tokens := by rw [e1]; rfl
  have hT7 : g7.m_tokens = g.m_tokens := by rw [e2]; exact hT4
  refine ⟨g4, g7, c1, body, rest, ?_, ?_, ?_, ?_, ?_, ?_, ?_, ?_, ?_,
    ⟨lp, rp, bg, en, sc, l1, l2, by rw [← hT4]; exact r1, r2, by rw [← hT4]; exact b1, b2,
      by rw [← hT7]; exact n1a, n2a, by rw [← hT7]; exact s1, s2⟩⟩
  · exact k3
  · rw [e1]
    rfl
  · exact k9
  · rw [e2]
    rfl
  · simpa [emit, newLabel, labelName] using k18
  · rw [e3a, e2, e1]
    simp [emit, newLabel, labelName]
  · intro he
    have := labelName_injective he
    omega
  · intro q hq hmem
    rw [labelsOf_append, labelsOf_append, hC.1] at hmem
    rcases List.mem_append.mp hmem with hm | hm
    · simp only [List.nil_append] at hm
      exact fresh_of_LabelsOK hA q hq hm
    · have h3 := LabelsOK_le hA
      exact fresh_of_LabelsOK hR q (by omega) hm
  · intro hpre
    exact ⟨fun hm => by have := hpre _ hm; omega, fun hm => by have := hpre _ hm; omega⟩

/-- C29 (if-without-else emission).  Let `parse_A` be called on an `if` token `t` with label
counter `n`, and return.  Then it has appended to the postfix stream, in order: the code
`cC` the call of `parse_C` on the condition has appended; `JUMP_FALSE Ln`; the code `cA` the
call of `parse_A` on the block has appended; `LABEL_DEF Ln`; and then the code `rest` of the
statements that follow.  Both control entries carry the line of the `if` token.  The code
of the condition holds no label and no jump.  The second label `L(n+1)` the method
generates is never emitted: it is neither defined nor targeted in `cC`, `cA` or `rest`, and
neither is `Ln` apart from the two entries above. -/
theorem if_emission (fuel : Nat) (g g1 : RPNGenerator) (t : Token)
    (h : parse_A (fuel + 1) g = .ok g1)
    (ht : g.m_tokens[g.m_currentIndex]? = some t) (hc : t.code = IF_TOK) :
    ∃ gC gA cC cA rest,
      parse_C fuel { g with m_currentIndex := g.m_currentIndex + 2 } = .ok gC ∧
      gC.m_rpn = g.m_rpn ++ cC ∧
      parse_A fuel { gC with
        m_currentIndex := gC.m_currentIndex + 2,
        m_rpn := gC.m_rpn ++ [⟨JUMP_FALSE, labelName g.m_labelCounter, t.line⟩],
        m_labelCounter := g.m_labelCounter + 2 } = .ok gA ∧
      gA.m_rpn = gC.m_rpn ++ [⟨JUMP_FALSE, labelName g.m_labelCounter, t.line⟩] ++ cA ∧
      parse_A fuel { gA with
        m_currentIndex := gA.m_currentIndex + 2,
        m_rpn := gA.m_rpn ++ [⟨LABEL_DEF, labelName g.m_labelCounter, t.line⟩] } = .ok g1 ∧
      g1.m_rpn = g.m_rpn ++ (cC ++ [⟨JUMP_FALSE, labelName g.m_labelCounter, t.line⟩] ++ cA ++
        [⟨LABEL_DEF, labelName g.m_labelCounter, t.line⟩] ++ rest) ∧
      labelsOf cC = [] ∧ jumpsOf cC = [] ∧
      (∀ k, k < g.m_labelCounter + 2 →
        labelName k ∉ labelsOf (cC ++ cA ++ rest) ∧ labelName k ∉ jumpsOf (cC ++ cA ++ rest)) ∧
      (∃ lp rp bg en sc,
        g.m_tokens[g.m_currentIndex + 1]? = some lp ∧ lp.code = LPAREN_TOK ∧
        g.m_tokens[gC.m_currentIndex]? = some rp ∧ rp.code = RPAREN_TOK ∧
        g.m_tokens[gC.m_currentIndex + 1]? = some bg ∧ bg.code = BEG_TOK ∧
        g.m_tokens[gA.m_currentIndex]? = some en ∧ en.code = END_TOK ∧
        g.m_tokens[gA.m_currentIndex + 1]? = some sc ∧ sc.code = SEMICOLON_TOK) := by
  simp only [parse_A] at h
  obtain ⟨t1, h1, h2⟩ := bind_ok h
  have ht1 := same_token (currentToken_ok h1) ht
  subst ht1
  rw [if_neg (by rw [hc]; decide), if_pos hc] at h2
  obtain ⟨p, h3, h4⟩ := bind_ok h2
  obtain ⟨t0, g2⟩ := p
  obtain ⟨e3, e4⟩ := consumeToken_ok h3
  subst e4
  obtain ⟨p1, k1, k2⟩ := bind_ok h4
  obtain ⟨lp, g3⟩ := p1
  obtain ⟨l1, l2, l3⟩ := expect_ok k1
  subst l3
  obtain ⟨g4, k3, k4⟩ := bind_ok k2
  obtain ⟨j, c1, e1, d1⟩ := parse_C_derives k3
  subst e1
  obtain ⟨p2, k5, k6⟩ := bind_ok k4
  obtain ⟨rp, g5⟩ := p2
  obtain ⟨r1, r2, r3⟩ := expect_ok k5
  subst r3
  obtain ⟨p3, k7, k8⟩ := bind_ok k6
  obtain ⟨bg, g6⟩ := p3
  obtain ⟨b1, b2, b3⟩ := expect_ok k7
  subst b3
  obtain ⟨g7, k9, k10⟩ := bind_ok k8
  obtain ⟨k, n1, body, e2, d2⟩ := parse_A_derives _ _ _ k9
  subst e2
  obtain ⟨t2, k11, k12⟩ := bind_ok k10
  have ht2 := currentToken_ok k11
  split_ifs at k12 with hel
  · obtain ⟨p4, k13, _⟩ := bind_ok k12
    obtain ⟨en, g8⟩ := p4
    obtain ⟨n1a, n2a, _⟩ := expect_ok k13
    have e6 := same_token ht2 n1a
    subst e6
    rw [hel] at n2a
    cases n2a
  · obtain ⟨p4, k13, k14⟩ := bind_ok k12
    obtain ⟨en, g8⟩ := p4
    obtain ⟨n1a, n2a, n3a⟩ := expect_ok k13
    subst n3a
    obtain ⟨y, k15, k16⟩ := bind_ok k14
    simp only [pure, Except.pure, Except.ok.injEq] at k15
    subst k15
    obtain ⟨p5, k17, k18⟩ := bind_ok k16
    obtain ⟨sc, g9⟩ := p5
    obtain ⟨s1, s2, s3⟩ := expect_ok k17
    subst s3
    obtain ⟨l, m, rest, e3a, d3⟩ := parse_A_derives _ _ _ k18
    have hC := DerivesC_noControl d1
    have hA : LabelsOK (g.m_labelCounter + 2) n1 body := DerivesA_labels d2
    have hR : LabelsOK n1 m rest := DerivesA_labels d3
    have fresh : ∀ q, q < g.m_labelCounter + 2 → labelName q ∉ labelsOf (c1 ++ body ++ rest) := by
      intro q hq hmem
      rw [labelsOf_append, labelsOf_append, hC.1] at hmem
      rcases List.mem_append.mp hmem with hm | hm
      · simp only [List.nil_append] at hm
        exact fresh_of_LabelsOK hA q hq hm
      · have h3 := LabelsOK_le hA
        exact fresh_of_LabelsOK hR q (by omega) hm
    refine ⟨_, _, c1, body, rest, k3, rfl, ?_, ?_, ?_, ?_, hC.1, hC.2, ?_,
      ⟨lp, rp, bg, en, sc, l1, l2, r1, r2, b1, b2, n1a, n2a, s1, s2⟩⟩
    · simpa [emit, newLabel, labelName] using k9
    · simp [emit, newLabel, labelName]
    · simpa [emit, newLabel, labelName] using k18
    · rw [e3a]
      simp [emit, newLabel, labelName]
    · intro q hq
      refine ⟨fresh q hq, fun hmem => ?_⟩
      apply fresh q hq
      rw [jumpsOf_append, jumpsOf_append, hC.2] at hmem
      rw [labelsOf_append, labelsOf_append]
      rcases List.mem_append.mp hmem with hm | hm
      · simp only [List.nil_append] at hm
        exact List.mem_append_left _ (List.mem_append_right _ (hA.2.choose_spec.2.2.2 _ hm))
      · exact List.mem_append_right _ (hR.2.choose_spec.2.2.2 _ hm)

/-! ## `if` with `else` -/

theorem expect_mismatch {g : RPNGenerator} {t : Token} {c : TokenCode} (m : String)
    (h : g.m_tokens[g.m_currentIndex]? = some t) (hc : t.code ≠ c) (hne : t.code ≠ EOF_TOK) :
    expect g c m =
      .error (.syntaxError (errorLine { g with m_currentIndex := g.m_currentIndex + 1 }) m) := by
  unfold expect
  rw [consumeToken_eval h hne]
  simp only
  rw [if_pos hc]
  rfl

theorem currentToken_at {g : RPNGenerator} {t : Token}
    (h : g.m_tokens[g.m_currentIndex]? = some t) : currentToken g = .ok t := by
  unfold currentToken
  rw [h]

/-- C27, what the code does.  Let `parse_A` be called on `if ( C ) begin A1 end else ...` :
the current token is `if`, a `(` follows, `parse_C` returns on the condition, a `)` and a
`begin` follow, `parse_A` returns on the block, and the tokens behind the block are `end`
and `else`.  Then `parse_A` throws the syntax error `after 'if' statement` : the test for
`else` is made while the current token is still `end`, so the branch without `else` is
taken; it consumes `end`, emits the label, and `expect(SEMICOLON_TOK)` meets the `else`.
No code for an `else` branch is ever emitted. -/
theorem if_else_rejected (fuel : Nat) (g gC gA : RPNGenerator) (t lp rp bg en el : Token)
    (ht : g.m_tokens[g.m_currentIndex]? = some t) (hc : t.code = IF_TOK)
    (hl : g.m_tokens[g.m_currentIndex + 1]? = some lp) (hlc : lp.code = LPAREN_TOK)
    (hC : parse_C fuel { g with m_currentIndex := g.m_currentIndex + 2 } = .ok gC)
    (hr : g.m_tokens[gC.m_currentIndex]? = some rp) (hrc : rp.code = RPAREN_TOK)
    (hb : g.m_tokens[gC.m_currentIndex + 1]? = some bg) (hbc : bg.code = BEG_TOK)
    (hA : parse_A fuel { gC with
        m_currentIndex := gC.m_currentIndex + 2,
        m_rpn := gC.m_rpn ++ [⟨JUMP_FALSE, labelName g.m_labelCounter, t.line⟩],
        m_labelCounter := g.m_labelCounter + 2 } = .ok gA)
    (he : g.m_tokens[gA.m_currentIndex]? = some en) (hec : en.code = END_TOK)
    (hx : g.m_tokens[gA.m_currentIndex + 1]? = some el) (hxc : el.code = ELSE_TOK) :
    parse_A (fuel + 1) g =
      .error (.syntaxError (errorLine { g with m_currentIndex := gA.m_currentIndex + 2 })
        "after 'if' statement") := by
  obtain ⟨tokens, i, rpn, table, lc⟩ := g
  simp only at ht hl hC hr hb hA he hx ⊢
  obtain ⟨j, c1, e1, d1⟩ := parse_C_derives hC
  simp only at e1
  subst e1
  simp only at hr hb hA
  obtain ⟨k, n1, body, e2, d2⟩ := parse_A_derives _ _ _ hA
  simp only at e2
  subst e2
  simp only at he hx
  have s0 : currentToken ⟨tokens, i, rpn, table, lc⟩ = .ok t := currentToken_at ht
  have s1 : consumeToken ⟨tokens, i, rpn, table, lc⟩ = .ok (t, ⟨tokens, i + 1, rpn, table, lc⟩) :=
    consumeToken_eval ht (by rw [hc]; decide)
  have s2 : expect ⟨tokens, i + 1, rpn, table, lc⟩ LPAREN_TOK "after 'if'" =
      .ok (lp, ⟨tokens, i + 2, rpn, table, lc⟩) :=
    expect_eval (g := ⟨tokens, i + 1, rpn, table, lc⟩) "after 'if'" hl hlc (by decide)
  have s3 : expect ⟨tokens, j, rpn ++ c1, table, lc⟩ RPAREN_TOK "after 'if' condition" =
      .ok (rp, ⟨tokens, j + 1, rpn ++ c1, table, lc⟩) :=
    expect_eval (g := ⟨tokens, j, rpn ++ c1, table, lc⟩) "after 'if' condition" hr hrc
      (by decide)
  have s4 : expect ⟨tokens, j + 1, rpn ++ c1 ++ [⟨JUMP_FALSE, labelName lc, t.line⟩], table,
        lc + 1 + 1⟩ BEG_TOK "'if' block" =
      .ok (bg, ⟨tokens, j + 2, rpn ++ c1 ++ [⟨JUMP_FALSE, labelName lc, t.line⟩], table,
        lc + 2⟩) :=
    expect_eval (g := ⟨tokens, j + 1, rpn ++ c1 ++ [⟨JUMP_FALSE, labelName lc, t.line⟩], table,
      lc + 1 + 1⟩) "'if' block" hb hbc (by decide)
  have s5 : currentToken ⟨tokens, k, rpn ++ c1 ++ [⟨JUMP_FALSE, labelName lc, t.line⟩] ++ body,
      table, n1⟩ = .ok en := currentToken_at he
  have s6 : expect ⟨tokens, k, rpn ++ c1 ++ [⟨JUMP_FALSE, labelName lc, t.line⟩] ++ body,
        table, n1⟩ END_TOK "'if' block (no else)" =
      .ok (en, ⟨tokens, k + 1, rpn ++ c1 ++ [⟨JUMP_FALSE, labelName lc, t.line⟩] ++ body,
        table, n1⟩) :=
    expect_eval (g := ⟨tokens, k, rpn ++ c1 ++ [⟨JUMP_FALSE, labelName lc, t.line⟩] ++ body,
      table, n1⟩) "'if' block (no else)" he hec (by decide)
  have s7 : expect ⟨tokens, k + 1, rpn ++ c1 ++ [⟨JUMP_FALSE, labelName lc, t.line⟩] ++ body ++
        [⟨LABEL_DEF, labelName lc, t.line⟩], table, n1⟩ SEMICOLON_TOK "after 'if' statement" =
      .error (.syntaxError (errorLine ⟨tokens, k + 2, rpn, table, lc⟩)
        "after 'if' statement") :=
    expect_mismatch (g := ⟨tokens, k + 1, rpn ++ c1 ++ [⟨JUMP_FALSE, labelName lc, t.line⟩] ++
      body ++ [⟨LABEL_DEF, labelName lc, t.line⟩], table, n1⟩) "after 'if' statement" hx
      (by rw [hxc]; decide) (by rw [hxc]; decide)
  have hne : ¬ en.code = ELSE_TOK := by rw [hec]; decide
  simp only [labelName] at hA s4 s5 s6 s7
  simp only [parse_A, s0, hc, bind, Except.bind, reduceCtorEq, if_false, if_true, s1, s2, hC,
    s3, newLabel, emit, s4, hA, s5, hne, s6, pure, Except.pure, s7]

/-! ## Concrete `while` and `if` statements -/

theorem eq_ok_of_toBool {ε α : Type} {x : Except ε α} (d : α) (h : x.toBool = true) :
    x = .ok (resultOr d x) := by
  cases x with
  | error e => cases h
  | ok a => rfl

/-- Witness of `while_emission` : the `while` statement of scenario S3. -/
theorem while_emission_witness :
    stateWhile.m_tokens[stateWhile.m_currentIndex]? = some ⟨WHILE_TOK, "while", 1⟩ ∧
    parse_A 101 stateWhile = .ok (resultOr stateWhile (parse_A 101 stateWhile)) ∧
    (resultOr stateWhile (parse_A 101 stateWhile)).m_rpn =
      [⟨LABEL_DEF, "L0", 1⟩, ⟨VAR, "i", 1⟩, ⟨CONST, "5", 1⟩, ⟨OPERATION, "<", 1⟩,
       ⟨JUMP_FALSE, "L1", 1⟩, ⟨VAR, "s", 1⟩, ⟨VAR, "s", 1⟩, ⟨VAR, "i", 1⟩,
       ⟨OPERATION, "+", 1⟩, ⟨OPERATION, "=", 1⟩, ⟨VAR, "i", 1⟩, ⟨VAR, "i", 1⟩,
       ⟨CONST, "1", 1⟩, ⟨OPERATION, "+", 1⟩, ⟨OPERATION, "=", 1⟩, ⟨JUMP, "L0", 1⟩,
       ⟨LABEL_DEF, "L1", 1⟩, ⟨VAR, "s", 1⟩, ⟨OUTPUT, "OUT", 1⟩] ∧
    ∃ cC cA rest,
      (resultOr stateWhile (parse_A 101 stateWhile)).m_rpn =
        stateWhile.m_rpn ++ ([⟨LABEL_DEF, labelName 0, 1⟩] ++ cC ++
          [⟨JUMP_FALSE, labelName 1, 1⟩] ++ cA ++
          [⟨JUMP, labelName 0, 1⟩, ⟨LABEL_DEF, labelName 1, 1⟩] ++ rest) :=
  ⟨by decide!, eq_ok_of_toBool _ (by decide!), by decide!,
    (while_emission 100 stateWhile _ ⟨WHILE_TOK, "while", 1⟩
      (eq_ok_of_toBool stateWhile (by decide!)) (by decide!) rfl).elim
      fun _ h1 => h1.elim fun _ h2 => h2.elim fun cC h3 => h3.elim fun cA h4 =>
        h4.elim fun rest h5 => ⟨cC, cA, rest, h5.2.2.2.2.2.1⟩⟩

/-- Witness of `if_emission` : the `if` statement of
`int a; begin if (a < 1) begin a = 1; end ; output(a); end`. -/
theorem if_emission_witness :
    stateIf.m_tokens[stateIf.m_currentIndex]? = some ⟨IF_TOK, "if", 1⟩ ∧
    parse_A 101 stateIf = .ok (resultOr stateIf (parse_A 101 stateIf)) ∧
    (resultOr stateIf (parse_A 101 stateIf)).m_rpn =
      [⟨VAR, "a", 1⟩, ⟨CONST, "1", 1⟩, ⟨OPERATION, "<", 1⟩, ⟨JUMP_FALSE, "L0", 1⟩,
       ⟨VAR, "a", 1⟩, ⟨CONST, "1", 1⟩, ⟨OPERATION, "=", 1⟩, ⟨LABEL_DEF, "L0", 1⟩,
       ⟨VAR, "a", 1⟩, ⟨OUTPUT, "OUT", 1⟩] ∧
    ∃ cC cA rest,
      (resultOr stateIf (parse_A 101 stateIf)).m_rpn =
        stateIf.m_rpn ++ (cC ++ [⟨JUMP_FALSE, labelName 0, 1⟩] ++ cA ++
          [⟨LABEL_DEF, labelName 0, 1⟩] ++ rest) ∧
      labelsOf cC = [] ∧ jumpsOf cC = [] :=
  ⟨by decide!, eq_ok_of_toBool _ (by decide!), by decide!,
    (if_emission 100 stateIf _ ⟨IF_TOK, "if", 1⟩
      (eq_ok_of_toBool stateIf (by decide!)) (by decide!) rfl).elim
      fun _ h1 => h1.elim fun _ h2 => h2.elim fun cC h3 => h3.elim fun cA h4 =>
        h4.elim fun rest h5 =>
          ⟨cC, cA, rest, h5.2.2.2.2.2.1, h5.2.2.2.2.2.2.1, h5.2.2.2.2.2.2.2.1⟩⟩

/-- Witness of `if_else_rejected` : the `if` statement of
`int a; begin if (a < 1) begin a = 1; end else begin a = 2; end ; output(a); end`.  The
condition ends at token 9, the block at token 15 (`end`), token 16 is `else`; `parse_A`
throws, and so does `main` for the whole program. -/
theorem if_else_rejected_witness :
    stateElse.m_tokens = tokensOf true sourceElse ∧
    stateElse.m_tokens[4]? = some ⟨IF_TOK, "if", 1⟩ ∧
    stateElse.m_tokens[15]? = some ⟨END_TOK, "end", 1⟩ ∧
    stateElse.m_tokens[16]? = some ⟨ELSE_TOK, "else", 1⟩ ∧
    errorLine { stateElse with m_currentIndex := 17 } = 1 ∧
    parse_A 101 stateElse =
      .error (.syntaxError (errorLine { stateElse with m_currentIndex := 17 })
        "after 'if' statement") ∧
    main true noMath sourceElse [] 0 =
      some ⟨.generator (.syntaxError 1 "after 'if' statement"), 1, [], [], [], [], []⟩ :=
  ⟨rfl, by decide!, by decide!, by decide!, by decide!,
    if_else_rejected 100 stateElse
      (resultOr stateElse (parse_C 100 { stateElse with m_currentIndex := 6 }))
      ⟨tokensOf true sourceElse, 15,
        [⟨VAR, "a", 1⟩, ⟨CONST, "1", 1⟩, ⟨OPERATION, "<", 1⟩, ⟨JUMP_FALSE, "L0", 1⟩,
         ⟨VAR, "a", 1⟩, ⟨CONST, "1", 1⟩, ⟨OPERATION, "=", 1⟩],
        [("a", ⟨SymbolClass.INT_VAR, INT_TOK, 0, 1, true⟩)], 2⟩
      ⟨IF_TOK, "if", 1⟩ ⟨LPAREN_TOK, "(", 1⟩ ⟨RPAREN_TOK, ")", 1⟩ ⟨BEG_TOK, "begin", 1⟩
      ⟨END_TOK, "end", 1⟩ ⟨ELSE_TOK, "else", 1⟩
      (by decide!) rfl (by decide!) rfl (eq_ok_of_toBool stateElse (by decide!))
      (by decide!) rfl (by decide!) rfl
      ((eq_ok_of_toBool stateElse (by decide!)).trans (congrArg Except.ok (by decide!)))
      (by decide!) rfl (by decide!) rfl,
    by decide!⟩

/-! ## The scalar input round trip -/

theorem readInt_eval {s : RPNInterpreter} {v : Int} {r : List Int} (hs : s.cin = v :: r)
    (h1 : INT_MIN ≤ v) (h2 : v ≤ INT_MAX) : readInt s = .ok v { s with cin := r } := by
  unfold readInt
  rw [hs]
  simp only
  rw [if_neg (by omega)]

theorem programInput_run (fns : MathFns) (v : Int) (h1 : INT_MIN ≤ v) (h2 : v ≤ INT_MAX) :
    run_loop fns programInput 5 ⟨0, [], [("a", 0)], [], [v], []⟩ =
      .finished ⟨4, [], [("a", v)], [], [], [v]⟩ := by
  have e1 : step fns programInput ⟨0, [], [("a", 0)], [], [v], []⟩ =
      .next ⟨1, [.str "a"], [("a", 0)], [], [v], []⟩ := rfl
  have e2 : step fns programInput ⟨1, [.str "a"], [("a", 0)], [], [v], []⟩ =
      .next ⟨2, [], [("a", v)], [], [], []⟩ := by
    have h : handle_input ⟨INPUT, "IN", 1⟩ ⟨1, [.str "a"], [("a", 0)], [], [v], []⟩ =
        .ok () ⟨1, [], [("a", v)], [], [], []⟩ := by
      unfold handle_input
      rw [exec_bind_eq, readInt_eval rfl h1 h2]
      rfl
    unfold step
    simp only [programInput, List.getElem?_cons_succ, List.getElem?_cons_zero]
    unfold execEntry
    simp only [exec_bind_eq, h]
    rfl
  have e3 : step fns programInput ⟨2, [], [("a", v)], [], [], []⟩ =
      .next ⟨3, [.str "a"], [("a", v)], [], [], []⟩ := rfl
  have e4 : step fns programInput ⟨3, [.str "a"], [("a", v)], [], [], []⟩ =
      .next ⟨4, [], [("a", v)], [], [], [v]⟩ := rfl
  have e5 : step fns programInput ⟨4, [], [("a", v)], [], [], [v]⟩ = .halted := rfl
  simp only [run_loop, e1, e2, e3, e4, e5]

theorem sourceInput_loaded (char_is_signed : Bool) (v : Int) :
    tokenLoop (sourceInput.length + 1) (Lexer.init char_is_signed sourceInput) [] =
      .tokens (tokensOf char_is_signed sourceInput) ∧
    (tokensOf char_is_signed sourceInput).length ≠ 1 ∧
    generate (tokensOf char_is_signed sourceInput) =
      .ok (generated (tokensOf char_is_signed sourceInput)) ∧
    (generated (tokensOf char_is_signed sourceInput)).m_rpn = programInput.m_rpn ∧
    RPNInterpreter.init (generated (tokensOf char_is_signed sourceInput)).m_rpn
        (generated (tokensOf char_is_signed sourceInput)).m_symbolTable [v] =
      some (programInput, ⟨0, [], [("a", 0)], [], [v], []⟩) := by
  have h : tokenLoop (sourceInput.length + 1) (Lexer.init char_is_signed sourceInput) [] =
        .tokens (tokensOf char_is_signed sourceInput) ∧
      (tokensOf char_is_signed sourceInput).length ≠ 1 ∧
      (generate (tokensOf char_is_signed sourceInput)).toBool = true ∧
      (generated (tokensOf char_is_signed sourceInput)).m_rpn = programInput.m_rpn ∧
      (generated (tokensOf char_is_signed sourceInput)).m_symbolTable =
        programInput.m_symbolTable := by
    cases char_is_signed <;> decide!
  refine ⟨h.1, h.2.1, generate_generated h.2.2.1, h.2.2.2.1, ?_⟩
  rw [h.2.2.2.1, h.2.2.2.2]
  rfl

/-- C23 (scalar input round trip).  For every integer `v` in the range of `int`, the program
`int a; begin input(a); output(a); end` run with the input stream `[v]` ends with exit code
0, has read the one integer (nothing is left unread), has written exactly `[v]`, and leaves
`a = v`; this for every bound of at least 5 iterations, whatever `<cmath>` does and whether
`char` is signed or not.  The code emitted is `VAR a; INPUT "IN"` for `input(a);` followed
by `VAR a; OUTPUT "OUT"`. -/
theorem input_round_trip (char_is_signed : Bool) (fns : MathFns) (v : Int) (extra : Nat)
    (h1 : INT_MIN ≤ v) (h2 : v ≤ INT_MAX) :
    main char_is_signed fns sourceInput [v] (5 + extra) =
      some ⟨.success, 0, [v], [], [("a", v)], [], []⟩ ∧
    (generated (tokensOf char_is_signed sourceInput)).m_rpn =
      [⟨VAR, "a", 1⟩, ⟨INPUT, "IN", 1⟩, ⟨VAR, "a", 1⟩, ⟨OUTPUT, "OUT", 1⟩] := by
  obtain ⟨k1, k2, k3, k4, k5⟩ := sourceInput_loaded char_is_signed v
  refine ⟨?_, k4⟩
  have hr : run fns programInput (5 + extra) ⟨0, [], [("a", 0)], [], [v], []⟩ =
      .finished ⟨4, [], [("a", v)], [], [], [v]⟩ := by
    unfold run
    have hm := run_loop_mono fns programInput 5 extra ⟨0, [], [("a", 0)], [], [v], []⟩
      (by rw [programInput_run fns v h1 h2]; intro s1 h; cases h)
    rw [programInput_run fns v h1 h2] at hm
    exact hm
  unfold main
  rw [k1]
  simp only [k2, if_false, k3, k5, hr]

/-- Witness of `input_round_trip` : the input 2147483647, the largest `int`. -/
theorem input_round_trip_witness :
    INT_MIN ≤ 2147483647 ∧ (2147483647 : Int) ≤ INT_MAX ∧
    main true noMath sourceInput [2147483647] 5 =
      some ⟨.success, 0, [2147483647], [], [("a", 2147483647)], [], []⟩ :=
  ⟨by decide, by decide, (input_round_trip true noMath 2147483647 0 (by decide) (by decide)).1⟩

/-! ## What an entry does to the state -/

theorem handle_operation_assign_ok {e : RPNEntry} {s s1 : RPNInterpreter} {u : Unit}
    (he : e.value = "=") (h : handle_operation e s = .ok u s1) :
    ∃ rhs name rest v old, s.m_operandStack = rhs :: .str name :: rest ∧
      intValue s rhs = some v ∧ mapFind s.m_variables name = some old ∧
      s1 = { s with m_operandStack := rest, m_variables := mapSet s.m_variables name v } := by
  unfold handle_operation at h
  rw [if_pos he] at h
  obtain ⟨rhs, s2, k1, k2⟩ := exec_bind_ok h
  obtain ⟨r1, p1, p2⟩ := pop_operand_ok k1
  obtain ⟨lhs, s3, k3, k4⟩ := exec_bind_ok k2
  obtain ⟨r2, p3, p4⟩ := pop_operand_ok k3
  obtain ⟨v, s4, k5, k6⟩ := exec_bind_ok k4
  have e4 := get_int_ok k5
  have hv := get_int_value k5
  obtain ⟨name, s5, k7, k8⟩ := exec_bind_ok k6
  obtain ⟨e5, e6⟩ := get_string_ok k7
  obtain ⟨s6, s7, k9, k10⟩ := exec_bind_ok k8
  cases k9
  subst e4 e5 p4 p2 e6
  simp only at p3
  cases hm : mapFind s.m_variables name with
  | none =>
    simp only [hm] at k10
    cases hm2 : mapFind s.m_arrays name <;> simp only [hm2] at k10 <;> cases k10
  | some w =>
    simp only [hm] at k10
    cases k10
    refine ⟨rhs, name, r2, v, w, by rw [p1, p3], ?_, hm, rfl⟩
    rw [← hv]
    cases rhs <;> rfl

theorem handle_operation_binary_ok {e : RPNEntry} {s s1 : RPNInterpreter} {u : Unit}
    (h1 : e.value ≠ "=") (h2 : e.value ≠ "[]=") (h : handle_operation e s = .ok u s1) :
    ∃ bi ai rest a b r, s.m_operandStack = bi :: ai :: rest ∧
      intValue s bi = some b ∧ intValue s ai = some a ∧
      s1 = { s with m_operandStack := .int r :: rest } := by
  unfold handle_operation at h
  rw [if_neg h1, if_neg h2] at h
  obtain ⟨rhs, s2, k1, k2⟩ := exec_bind_ok h
  obtain ⟨r1, p1, p2⟩ := pop_operand_ok k1
  obtain ⟨lhs, s3, k3, k4⟩ := exec_bind_ok k2
  obtain ⟨r2, p3, p4⟩ := pop_operand_ok k3
  obtain ⟨b, s4, k5, k6⟩ := exec_bind_ok k4
  have e4 := get_int_ok k5
  have hb := get_int_value k5
  obtain ⟨a, s5, k7, k8⟩ := exec_bind_ok k6
  have e5 := get_int_ok k7
  have ha := get_int_value k7
  obtain ⟨r, s6, k9, k10⟩ := exec_bind_ok k8
  have e6 := binaryResult_ok k9
  subst e4 e5 e6 p4 p2
  simp only at p3
  rw [push_operand_ok k10]
  refine ⟨rhs, lhs, r2, a, b, r, by rw [p1, p3], ?_, ?_, rfl⟩
  · rw [← hb]
    cases rhs <;> rfl
  · rw [← ha]
    cases lhs <;> rfl

theorem handle_input_scalar_ok {e : RPNEntry} {s s1 : RPNInterpreter} {u : Unit}
    (he : e.value = "IN") (h : handle_input e s = .ok u s1) :
    ∃ val unread name rest old, s.cin = val :: unread ∧
      s.m_operandStack = .str name :: rest ∧ mapFind s.m_variables name = some old ∧
      s1 = { s with cin := unread, m_operandStack := rest,
                    m_variables := mapSet s.m_variables name val } := by
  unfold handle_input at h
  obtain ⟨val, s0, k0, k00⟩ := exec_bind_ok h
  obtain ⟨unread, c1, _, _, c2⟩ := readInt_ok k0
  rw [if_pos he] at k00
  obtain ⟨nm, s4, k5, k6⟩ := exec_bind_ok k00
  obtain ⟨r3, p5, p6⟩ := pop_operand_ok k5
  obtain ⟨name, s7, k11, k12⟩ := exec_bind_ok k6
  obtain ⟨e6, e7⟩ := get_string_ok k11
  obtain ⟨s8, s9, k13, k14⟩ := exec_bind_ok k12
  cases k13
  subst e6 e7 p6 c2
  simp only at p5
  cases hm : mapFind s.m_variables name with
  | none =>
    simp only [hm] at k14
    cases hm2 : mapFind s.m_arrays name <;> simp only [hm2] at k14 <;> cases k14
  | some w =>
    simp only [hm] at k14
    cases k14
    exact ⟨val, unread, name, r3, w, c1, p5, hm, rfl⟩

theorem handle_output_ok {s s1 : RPNInterpreter} {u : Unit}
    (h : handle_output s = .ok u s1) :
    ∃ item rest v, s.m_operandStack = item :: rest ∧ intValue s item = some v ∧
      s1 = { s with m_operandStack := rest, cout := s.cout ++ [v] } := by
  unfold handle_output at h
  obtain ⟨item, s2, k1, k2⟩ := exec_bind_ok h
  obtain ⟨r1, p1, p2⟩ := pop_operand_ok k1
  obtain ⟨v, s3, k3, k4⟩ := exec_bind_ok k2
  have e3 := get_int_ok k3
  have hv := get_int_value k3
  subst e3 p2
  cases k4
  refine ⟨item, r1, v, p1, ?_, rfl⟩
  rw [← hv]
  cases item <;> rfl

theorem unary_ok {f : Int → Int} {s s1 : RPNInterpreter} {b : Bool}
    (h : (do
      let arg ← pop_operand
      let val ← get_int arg
      push_operand (.int (f val))
      pure true : Exec Bool) s = .ok b s1) :
    ∃ item rest v, s.m_operandStack = item :: rest ∧ intValue s item = some v ∧
      s1 = { s with m_operandStack := .int (f v) :: rest } := by
  obtain ⟨item, s2, k1, k2⟩ := exec_bind_ok h
  obtain ⟨r1, p1, p2⟩ := pop_operand_ok k1
  obtain ⟨v, s3, k3, k4⟩ := exec_bind_ok k2
  have e3 := get_int_ok k3
  have hv := get_int_value k3
  obtain ⟨u, s4, k5, k6⟩ := exec_bind_ok k4
  have e4 := push_operand_ok k5
  obtain ⟨e5, e6⟩ := exec_pure_ok k6
  subst e3 p2 e4 e6
  refine ⟨item, r1, v, p1, ?_, rfl⟩
  rw [← hv]
  cases item <;> rfl

theorem effect_of {e : RPNEntry} {s s1 : RPNInterpreter}
    (popped pushed rest : List StackItem)
    (hs : s.m_operandStack = popped ++ rest) (hp : popped.length = pops e)
    (h1 : s1.m_operandStack = pushed ++ rest) (hl : pushed.length = pushes e)
    (hx : ∀ x ∈ pushed, (∃ v, x = .int v) ∨
      ((e.type = VAR ∨ e.type = ARRAY_BASE) ∧ x = .str e.value))
    (hv : s1.m_variables = s.m_variables ∨
      ∃ name v old, AssignsVar e s name ∧
        mapFind s.m_variables name = some old ∧
        s1.m_variables = mapSet s.m_variables name v)
    (ha : s1.m_arrays = s.m_arrays ∨
      ∃ name arr i v, AssignsElem e s name i ∧ 0 ≤ i ∧ i.toNat < arr.length ∧
        mapFind s.m_arrays name = some arr ∧
        s1.m_arrays = mapSet s.m_arrays name (arr.set i.toNat v)) :
    Effect e s s1 := by
  refine ⟨⟨pushed, ?_, ?_, hl, hx⟩, hv, ha⟩
  · rw [hs, List.length_append]
    omega
  · rw [h1, hs, ← hp, List.drop_left]

theorem effect_int {e : RPNEntry} (v : Int) :
    ∀ x ∈ [StackItem.int v], (∃ w, x = .int w) ∨
      ((e.type = VAR ∨ e.type = ARRAY_BASE) ∧ x = .str e.value) := by
  intro x hx
  rw [List.mem_singleton.mp hx]
  exact Or.inl ⟨v, rfl⟩

theorem effect_none {e : RPNEntry} :
    ∀ x ∈ ([] : List StackItem), (∃ w, x = .int w) ∨
      ((e.type = VAR ∨ e.type = ARRAY_BASE) ∧ x = .str e.value) := by
  intro x hx
  cases hx

/-- Every entry executed without a fault has the effect `Effect` describes. -/
theorem execEntry_effect {fns : MathFns} {p : Program} {e : RPNEntry}
    {s s1 : RPNInterpreter} {b : Bool} (h : execEntry fns p e s = .ok b s1) :
    Effect e s s1 := by
  unfold execEntry at h
  cases ht : e.type <;> rw [ht] at h <;> simp only at h
  · -- VAR
    obtain ⟨u, s2, k1, k2⟩ := exec_bind_ok h
    have e1 := push_operand_ok k1
    obtain ⟨e2, e3⟩ := exec_pure_ok k2
    subst e1 e3 e2
    refine effect_of [] [.str e.value] _ rfl (by simp [pops, ht]) rfl
      (by simp [pushes, ht]) ?_ (Or.inl rfl) (Or.inl rfl)
    intro x hx
    rw [List.mem_singleton.mp hx]
    exact Or.inr ⟨Or.inl ht, rfl⟩
  · -- ARRAY_BASE
    obtain ⟨u, s2, k1, k2⟩ := exec_bind_ok h
    have e1 := push_operand_ok k1
    obtain ⟨e2, e3⟩ := exec_pure_ok k2
    subst e1 e3 e2
    refine effect_of [] [.str e.value] _ rfl (by simp [pops, ht]) rfl
      (by simp [pushes, ht]) ?_ (Or.inl rfl) (Or.inl rfl)
    intro x hx
    rw [List.mem_singleton.mp hx]
    exact Or.inr ⟨Or.inr ht, rfl⟩
  · -- CONST
    cases hs : stoi e.value with
    | ok v =>
      rw [hs] at h
      obtain ⟨u, s2, k1, k2⟩ := exec_bind_ok h
      have e1 := push_operand_ok k1
      obtain ⟨e2, e3⟩ := exec_pure_ok k2
      subst e1 e3 e2
      exact effect_of [] [.int v] _ rfl (by simp [pops, ht]) rfl
        (by simp [pushes, ht]) (effect_int v) (Or.inl rfl) (Or.inl rfl)
    | error x => rw [hs] at h; cases x <;> cases h
  · -- OPERATION
    obtain ⟨u, s2, k1, k2⟩ := exec_bind_ok h
    obtain ⟨e2, e3⟩ := exec_pure_ok k2
    subst e3 e2
    by_cases h1 : e.value = "="
    · obtain ⟨rhs, name, rest, v, old, q1, _, q3, q4⟩ := handle_operation_assign_ok h1 k1
      subst q4
      have hne : ¬ e.value = "[]=" := by rw [h1]; decide
      refine effect_of [rhs, .str name] [] rest q1 (by simp [pops, ht, hne]) rfl
        (by simp [pushes, ht, h1]) effect_none (Or.inr ⟨name, v, old, ?_, q3, rfl⟩)
        (Or.inl rfl)
      simp [AssignsVar, writesScalar, writeTarget, ht, h1, q1]
    by_cases h2 : e.value = "[]="
    · obtain ⟨val, idx, name, rest, v, i, arr, q1, _, q3, q4, q5, q6, q7⟩ :=
        handle_operation_indexed_ok h2 k1
      subst q7
      refine effect_of [val, idx, .str name] [] rest q1 (by simp [pops, ht, h2]) rfl
        (by simp [pushes, ht, h1, h2]) effect_none (Or.inl rfl)
        (Or.inr ⟨name, arr, i, v, ?_, q5, q6, q4, rfl⟩)
      simp [AssignsElem, writesElement, writeIndex, writeTarget, ht, h1, h2, q1, q3]
    · obtain ⟨bi, ai, rest, a, b, r, q1, _, _, q4⟩ := handle_operation_binary_ok h1 h2 k1
      subst q4
      exact effect_of [bi, ai] [.int r] rest q1 (by simp [pops, ht, h2]) rfl
        (by simp [pushes, ht, h1, h2]) (effect_int r) (Or.inl rfl) (Or.inl rfl)
  · -- LABEL_DEF
    obtain ⟨e2, e3⟩ := exec_pure_ok h
    subst e3 e2
    exact effect_of [] [] _ rfl (by simp [pops, ht]) rfl
      (by simp [pushes, ht]) effect_none (Or.inl rfl) (Or.inl rfl)
  · -- JUMP
    obtain ⟨t, s2, k1, k2⟩ := exec_bind_ok h
    obtain ⟨f1, f2⟩ := find_label_ok k1
    obtain ⟨u, s3, k3, k4⟩ := exec_bind_ok k2
    cases k3
    obtain ⟨e2, e3⟩ := exec_pure_ok k4
    subst f2 e3 e2
    exact effect_of [] [] _ rfl (by simp [pops, ht]) rfl
      (by simp [pushes, ht]) effect_none (Or.inl rfl) (Or.inl rfl)
  · -- JUMP_FALSE
    obtain ⟨item, s2, k1, k2⟩ := exec_bind_ok h
    obtain ⟨r1, p1, p2⟩ := pop_operand_ok k1
    obtain ⟨v, s3, k3, k4⟩ := exec_bind_ok k2
    have e3 := get_int_ok k3
    subst e3 p2
    split_ifs at k4 with hz
    · obtain ⟨t, s4, k5, k6⟩ := exec_bind_ok k4
      obtain ⟨f1, f2⟩ := find_label_ok k5
      obtain ⟨u, s5, k7, k8⟩ := exec_bind_ok k6
      cases k7
      obtain ⟨e2, e4⟩ := exec_pure_ok k8
      subst f2 e4 e2
      exact effect_of [item] [] r1 p1 (by simp [pops, ht]) rfl
        (by simp [pushes, ht]) effect_none (Or.inl rfl) (Or.inl rfl)
    · obtain ⟨e2, e4⟩ := exec_pure_ok k4
      subst e4 e2
      exact effect_of [item] [] r1 p1 (by simp [pops, ht]) rfl
        (by simp [pushes, ht]) effect_none (Or.inl rfl) (Or.inl rfl)
  · -- ARRAY_ACCESS
    obtain ⟨u, s2, k1, k2⟩ := exec_bind_ok h
    obtain ⟨idx, name, rest, i, arr, q1, _, _, _, _, q2⟩ := handle_array_access_ok k1
    obtain ⟨e2, e3⟩ := exec_pure_ok k2
    subst e3 e2 q2
    exact effect_of [idx, .str name] [.int (arr.getD i.toNat 0)] rest q1 (by simp [pops, ht])
      rfl (by simp [pushes, ht]) (effect_int _) (Or.inl rfl) (Or.inl rfl)
  · -- ARRAY_ASSIGN
    cases h
  · -- INPUT
    obtain ⟨u, s2, k1, k2⟩ := exec_bind_ok h
    obtain ⟨e2, e3⟩ := exec_pure_ok k2
    subst e3 e2
    by_cases h1 : e.value = "IN"
    · obtain ⟨val, unread, name, rest, old, _, q1, q3, q4⟩ := handle_input_scalar_ok h1 k1
      subst q4
      refine effect_of [.str name] [] rest q1 (by simp [pops, ht, h1]) rfl
        (by simp [pushes, ht]) effect_none (Or.inr ⟨name, val, old, ?_, q3, rfl⟩)
        (Or.inl rfl)
      simp [AssignsVar, writesScalar, writeTarget, ht, h1, q1]
    by_cases h2 : e.value = "IN[]"
    · obtain ⟨val, unread, idx, name, rest, i, arr, _, q1, q3, q4, q5, q6, q7⟩ :=
        handle_input_indexed_ok h2 k1
      subst q7
      refine effect_of [idx, .str name] [] rest q1 (by simp [pops, ht, h1]) rfl
        (by simp [pushes, ht]) effect_none (Or.inl rfl)
        (Or.inr ⟨name, arr, i, val, ?_, q5, q6, q4, rfl⟩)
      simp [AssignsElem, writesElement, writeIndex, writeTarget, ht, h1, h2, q1, q3]
    · unfold handle_input at k1
      obtain ⟨val, s0, k0, k00⟩ := exec_bind_ok k1
      rw [if_neg h1, if_neg h2] at k00
      cases k00
  · -- OUTPUT
    obtain ⟨u, s2, k1, k2⟩ := exec_bind_ok h
    obtain ⟨e2, e3⟩ := exec_pure_ok k2
    subst e3 e2
    obtain ⟨item, rest, v, q1, _, q3⟩ := handle_output_ok k1
    subst q3
    exact effect_of [item] [] rest q1 (by simp [pops, ht]) rfl
      (by simp [pushes, ht]) effect_none (Or.inl rfl) (Or.inl rfl)
  · -- FUNC_SIN
    obtain ⟨item, rest, v, q1, _, q3⟩ := unary_ok h
    subst q3
    exact effect_of [item] [.int _] rest q1 (by simp [pops, ht]) rfl
      (by simp [pushes, ht]) (effect_int _) (Or.inl rfl) (Or.inl rfl)
  · -- FUNC_COS
    obtain ⟨item, rest, v, q1, _, q3⟩ := unary_ok h
    subst q3
    exact effect_of [item] [.int _] rest q1 (by simp [pops, ht]) rfl
      (by simp [pushes, ht]) (effect_int _) (Or.inl rfl) (Or.inl rfl)
  · -- FUNC_TG
    obtain ⟨item, rest, v, q1, _, q3⟩ := unary_ok h
    subst q3
    exact effect_of [item] [.int _] rest q1 (by simp [pops, ht]) rfl
      (by simp [pushes, ht]) (effect_int _) (Or.inl rfl) (Or.inl rfl)
  · -- FUNC_CTG
    obtain ⟨item, s2, k1, k2⟩ := exec_bind_ok h
    obtain ⟨r1, p1, p2⟩ := pop_operand_ok k1
    obtain ⟨v, s3, k3, k4⟩ := exec_bind_ok k2
    have e3 := get_int_ok k3
    subst e3 p2
    split_ifs at k4 with hz
    · cases k4
    · obtain ⟨u, s4, k5, k6⟩ := exec_bind_ok k4
      have e4 := push_operand_ok k5
      obtain ⟨e5, e6⟩ := exec_pure_ok k6
      subst e4 e6 e5
      exact effect_of [item] [.int _] r1 p1 (by simp [pops, ht]) rfl
        (by simp [pushes, ht]) (effect_int _) (Or.inl rfl) (Or.inl rfl)

/-! ## Zero initialisation -/

theorem initVariables_find {table : List (String × SymbolInfo)} {name : String}
    {info : SymbolInfo} (h : mapFind table name = some info)
    (hd : info.is_declared = true) (hc : info.s_class = SymbolClass.INT_VAR) :
    mapFind (initVariables table) name = some 0 := by
  induction table with
  | nil => cases h
  | cons d rest ih =>
    obtain ⟨k, i⟩ := d
    simp only [mapFind] at h
    simp only [initVariables]
    by_cases hk : name = k
    · rw [if_pos hk] at h
      cases h
      rw [if_pos ⟨hd, hc⟩, mapFind_mapSet, if_pos hk]
    · rw [if_neg hk] at h
      split_ifs
      · rw [mapFind_mapSet, if_neg hk]
        exact ih h
      · exact ih h

theorem initArrays_find {table : List (String × SymbolInfo)} {name : String}
    {info : SymbolInfo} (h : mapFind table name = some info)
    (hd : info.is_declared = true) (hc : info.s_class = SymbolClass.INT_ARRAY) :
    mapFind (initArrays table) name = some (List.replicate info.size.toNat 0) := by
  induction table with
  | nil => cases h
  | cons d rest ih =>
    obtain ⟨k, i⟩ := d
    simp only [mapFind] at h
    simp only [initArrays]
    by_cases hk : name = k
    · rw [if_pos hk] at h
      cases h
      rw [if_pos ⟨hd, hc⟩, mapFind_mapSet, if_pos hk]
    · rw [if_neg hk] at h
      split_ifs
      · rw [mapFind_mapSet, if_neg hk]
        exact ih h
      · exact ih h

theorem init_state {rpn : List RPNEntry} {table : List (String × SymbolInfo)}
    {input : List Int} {p : Program} {s : RPNInterpreter}
    (h : RPNInterpreter.init rpn table input = some (p, s)) :
    s = ⟨0, [], initVariables table, initArrays table, input, []⟩ := by
  unfold RPNInterpreter.init at h
  cases hb : buildLabelMap rpn 0 [] with
  | none => rw [hb] at h; cases h
  | some labels =>
    rw [hb] at h
    simp only [Option.some.injEq, Prod.mk.injEq] at h
    exact h.2.symm

/-- One iteration of the loop of `run` that does not end the run executes the entry at the
program counter, with the effect `Effect` describes. -/
theorem step_effect {fns : MathFns} {p : Program} {s s1 : RPNInterpreter}
    (h : step fns p s = .next s1) :
    ∃ e, p.m_rpn[s.m_pc]? = some e ∧ Effect e s s1 := by
  unfold step at h
  cases he : p.m_rpn[s.m_pc]? with
  | none => rw [he] at h; cases h
  | some entry =>
    rw [he] at h
    simp only at h
    cases hx : execEntry fns p entry s with
    | throw f s2 => rw [hx] at h; cases h
    | ok b s2 =>
      rw [hx] at h
      simp only [StepResult.next.injEq] at h
      refine ⟨entry, rfl, ?_⟩
      have hf := execEntry_effect hx
      subst h
      cases b
      · exact hf
      · exact hf

/-- An iteration that does not assign the variable `name` leaves its value as it was. -/
theorem step_frame_var {fns : MathFns} {p : Program} {s s1 : RPNInterpreter} {e : RPNEntry}
    {name : String} (h : step fns p s = .next s1) (he : p.m_rpn[s.m_pc]? = some e)
    (hw : ¬ AssignsVar e s name) :
    mapFind s1.m_variables name = mapFind s.m_variables name := by
  obtain ⟨e1, q1, _, q2, _⟩ := step_effect h
  rw [he] at q1
  cases q1
  rcases q2 with q | ⟨n, v, old, a1, _, a3⟩
  · rw [q]
  · rw [a3, mapFind_mapSet]
    have hne : ¬ name = n := by
      intro hn
      subst hn
      exact hw a1
    rw [if_neg hne]

/-- An iteration that does not assign the element `i` of the array `name` leaves the length
of the array and the value of that element as they were. -/
theorem step_frame_elem {fns : MathFns} {p : Program} {s s1 : RPNInterpreter} {e : RPNEntry}
    {name : String} {i : Int} {arr : List Int}
    (h : step fns p s = .next s1) (he : p.m_rpn[s.m_pc]? = some e) (hi : 0 ≤ i)
    (hw : ¬ AssignsElem e s name i) (ha : mapFind s.m_arrays name = some arr) :
    ∃ arr1, mapFind s1.m_arrays name = some arr1 ∧ arr1.length = arr.length ∧
      arr1.getD i.toNat 0 = arr.getD i.toNat 0 := by
  obtain ⟨e1, q1, _, _, q2⟩ := step_effect h
  rw [he] at q1
  cases q1
  rcases q2 with q | ⟨n, arr0, j, v, a1, a2, a3, a4, a5⟩
  · rw [q]
    exact ⟨arr, ha, rfl, rfl⟩
  · rw [a5, mapFind_mapSet]
    by_cases hn : name = n
    · subst hn
      rw [if_pos rfl]
      rw [ha] at a4
      cases a4
      refine ⟨_, rfl, List.length_set .., ?_⟩
      have hij : j.toNat ≠ i.toNat := by
        intro hj
        apply hw
        have : j = i := by omega
        rw [← this]
        exact a1
      simp only [List.getD_eq_getElem?_getD]
      rw [List.getElem?_set_ne hij]
    · rw [if_neg hn]
      exact ⟨arr, ha, rfl, rfl⟩

/-- A variable no iteration of a run has assigned has the value it had at the start. -/
theorem stateAfter_frame_var {fns : MathFns} {p : Program} {name : String} :
    ∀ (k : Nat) (s0 s : RPNInterpreter), stateAfter fns p k s0 = some s →
      (∀ j sj e, j < k → stateAfter fns p j s0 = some sj → p.m_rpn[sj.m_pc]? = some e →
        ¬ AssignsVar e sj name) →
      mapFind s.m_variables name = mapFind s0.m_variables name := by
  intro k
  induction k with
  | zero =>
    intro s0 s h _
    simp only [stateAfter, Option.some.injEq] at h
    rw [h]
  | succ k ih =>
    intro s0 s h hw
    simp only [stateAfter] at h
    cases hs : step fns p s0 with
    | halted => rw [hs] at h; cases h
    | failed e s1 => rw [hs] at h; cases h
    | next s1 =>
      rw [hs] at h
      simp only at h
      obtain ⟨e, q1, _⟩ := step_effect hs
      have h0 := step_frame_var hs q1 (hw 0 s0 e (by omega) rfl q1)
      rw [← h0]
      refine ih s1 s h (fun j sj e1 hj hsj hq => ?_)
      refine hw (j + 1) sj e1 (by omega) ?_ hq
      simp only [stateAfter, hs]
      exact hsj

/-- An element no iteration of a run has assigned has the value it had at the start, in an
array of the length it had at the start. -/
theorem stateAfter_frame_elem {fns : MathFns} {p : Program} {name : String} {i : Int}
    (hi : 0 ≤ i) :
    ∀ (k : Nat) (s0 s : RPNInterpreter) (arr : List Int), stateAfter fns p k s0 = some s →
      mapFind s0.m_arrays name = some arr →
      (∀ j sj e, j < k → stateAfter fns p j s0 = some sj → p.m_rpn[sj.m_pc]? = some e →
        ¬ AssignsElem e sj name i) →
      ∃ arr1, mapFind s.m_arrays name = some arr1 ∧ arr1.length = arr.length ∧
        arr1.getD i.toNat 0 = arr.getD i.toNat 0 := by
  intro k
  induction k with
  | zero =>
    intro s0 s arr h ha _
    simp only [stateAfter, Option.some.injEq] at h
    rw [← h]
    exact ⟨arr, ha, rfl, rfl⟩
  | succ k ih =>
    intro s0 s arr h ha hw
    simp only [stateAfter] at h
    cases hs : step fns p s0 with
    | halted => rw [hs] at h; cases h
    | failed e s1 => rw [hs] at h; cases h
    | next s1 =>
      rw [hs] at h
      simp only at h
      obtain ⟨e, q1, _⟩ := step_effect hs
      obtain ⟨arr1, b1, b2, b3⟩ := step_frame_elem hs q1 hi (hw 0 s0 e (by omega) rfl q1) ha
      obtain ⟨arr2, c1, c2, c3⟩ := ih s1 s arr1 h b1 (fun j sj e1 hj hsj hq => by
        refine hw (j + 1) sj e1 (by omega) ?_ hq
        simp only [stateAfter, hs]
        exact hsj)
      exact ⟨arr2, c1, by rw [c2, b2], by rw [c3, b3]⟩

theorem replicate_getD_zero (n i : Nat) : (List.replicate n (0 : Int)).getD i 0 = 0 := by
  simp only [List.getD_eq_getElem?_getD, List.getElem?_replicate]
  split_ifs <;> rfl

/-- C22 (zero initialisation).  The constructor gives every declared scalar of the symbol
table it is built from the value 0 and every declared array of size `n ≥ 0` a vector of
exactly `n` elements, all 0.  For an accepted program, in the state `s` reached after `k`
iterations of the loop of `run` : a scalar of the symbol table that none of these
iterations assigned (by `=`) or input (by `IN`) has the value 0, and `get_int` reads 0 for
its name; an array of the symbol table still has its declared size, and an element within
its bounds that none of these iterations assigned (by `[]=`) or input (by `IN[]`) is 0, so
that `handle_array_access` on that index and that array pushes 0. -/
theorem zero_initialisation (tokens : List Token) (g : RPNGenerator) (fns : MathFns)
    (input : List Int) (p : Program) (s0 s : RPNInterpreter) (k : Nat)
    (h : generate tokens = .ok g)
    (hi : RPNInterpreter.init g.m_rpn g.m_symbolTable input = some (p, s0))
    (hk : stateAfter fns p k s0 = some s) :
    (∀ (rpn : List RPNEntry) (table : List (String × SymbolInfo)) (cin : List Int)
        (q : Program) (t : RPNInterpreter),
      RPNInterpreter.init rpn table cin = some (q, t) →
      ∀ name info, mapFind table name = some info → info.is_declared = true →
        (info.s_class = SymbolClass.INT_VAR → mapFind t.m_variables name = some 0) ∧
        (info.s_class = SymbolClass.INT_ARRAY → 0 ≤ info.size →
          ∃ arr, mapFind t.m_arrays name = some arr ∧ (arr.length : Int) = info.size ∧
            ∀ x ∈ arr, x = 0)) ∧
    (∀ name info, (name, info) ∈ g.m_symbolTable →
      (info.s_class = SymbolClass.INT_VAR →
        mapFind s0.m_variables name = some 0 ∧
        ((∀ j sj e, j < k → stateAfter fns p j s0 = some sj → p.m_rpn[sj.m_pc]? = some e →
            ¬ AssignsVar e sj name) →
          mapFind s.m_variables name = some 0 ∧ get_int (.str name) s = .ok 0 s)) ∧
      (info.s_class = SymbolClass.INT_ARRAY →
        mapFind s0.m_arrays name = some (List.replicate info.size.toNat 0) ∧
        ((List.replicate info.size.toNat (0 : Int)).length : Int) = info.size ∧
        ∀ i, 0 ≤ i → i < info.size →
          (∀ j sj e, j < k → stateAfter fns p j s0 = some sj → p.m_rpn[sj.m_pc]? = some e →
            ¬ AssignsElem e sj name i) →
          (∃ arr, mapFind s.m_arrays name = some arr ∧ (arr.length : Int) = info.size ∧
            arr.getD i.toNat 0 = 0) ∧
          ∀ idx rest, s.m_operandStack = idx :: .str name :: rest →
            intValue s idx = some i →
            handle_array_access s = .ok () { s with m_operandStack := .int 0 :: rest })) := by
  refine ⟨?_, ?_⟩
  · intro rpn table cin q t ht name info hm hd
    have e0 := init_state ht
    subst e0
    refine ⟨fun hc => initVariables_find hm hd hc, fun hc hn => ?_⟩
    refine ⟨_, initArrays_find hm hd hc, ?_, ?_⟩
    · rw [List.length_replicate]
      omega
    · intro x hx
      exact List.eq_of_mem_replicate hx
  · obtain ⟨j1, p1, pn, p5, _⟩ := generate_shape h
    have e0 := init_state hi
    intro name info hmem
    have hm : mapFind g.m_symbolTable name = some info := mapFind_of_mem pn hmem
    have hv := p5 (name, info) hmem
    refine ⟨fun hc => ?_, fun hc => ?_⟩
    · have z0 : mapFind s0.m_variables name = some 0 := by
        rw [e0]
        exact initVariables_find hm hv.1 hc
      refine ⟨z0, fun hw => ?_⟩
      have z1 : mapFind s.m_variables name = some 0 := by
        rw [stateAfter_frame_var k s0 s hk hw]
        exact z0
      exact ⟨z1, get_int_eval (by simpa only [intValue] using z1)⟩
    · have z0 : mapFind s0.m_arrays name = some (List.replicate info.size.toNat 0) := by
        rw [e0]
        exact initArrays_find hm hv.1 hc
      have hsz := (hv.2 hc).1
      have hlen : ((List.replicate info.size.toNat (0 : Int)).length : Int) = info.size := by
        rw [List.length_replicate]
        simp only at hsz
        omega
      refine ⟨z0, hlen, fun i h0 h1 hw => ?_⟩
      obtain ⟨arr, a1, a2, a3⟩ := stateAfter_frame_elem h0 k s0 s _ hk z0 hw
      rw [replicate_getD_zero] at a3
      have hl : (arr.length : Int) = info.size := by rw [a2]; exact hlen
      refine ⟨⟨arr, a1, hl, a3⟩, fun idx rest hs hx => ?_⟩
      rw [handle_array_access_eval hs hx a1, if_neg (by omega), a3]

theorem sourceZeroArr_loaded :
    generate (tokensOf true sourceZeroArr) = .ok (generated (tokensOf true sourceZeroArr)) ∧
    RPNInterpreter.init (generated (tokensOf true sourceZeroArr)).m_rpn
        (generated (tokensOf true sourceZeroArr)).m_symbolTable [] =
      some (programZeroArr, ⟨0, [], [], [("a", [0, 0])], [], []⟩) ∧
    ("a", (⟨SymbolClass.INT_ARRAY, IMAS_TOK, 2, 1, true⟩ : SymbolInfo)) ∈
      (generated (tokensOf true sourceZeroArr)).m_symbolTable := by
  have h : (generate (tokensOf true sourceZeroArr)).toBool = true ∧
      (generated (tokensOf true sourceZeroArr)).m_rpn = programZeroArr.m_rpn ∧
      (generated (tokensOf true sourceZeroArr)).m_symbolTable =
        programZeroArr.m_symbolTable := by
    decide!
  refine ⟨generate_generated h.1, ?_, ?_⟩
  · rw [h.2.1, h.2.2]
    rfl
  · rw [h.2.2]
    exact List.mem_singleton.mpr rfl

/-- Witness of `zero_initialisation` : in `arr a[2]; begin a[0] = 5; output(a[1]); end` the
six iterations in front of the `ARRAY_ACCESS` entry assign `a[0]` and never `a[1]` ; the
entry is then executed on the index 1 and the name `a`, and pushes 0.  The program prints
0, and so does `int a; begin output(a); end`. -/
theorem zero_initialisation_witness :
    stateAfter noMath programZeroArr 6 ⟨0, [], [], [("a", [0, 0])], [], []⟩ =
      some ⟨6, [.int 1, .str "a"], [], [("a", [5, 0])], [], []⟩ ∧
    (∀ j sj e, j < 6 →
      stateAfter noMath programZeroArr j ⟨0, [], [], [("a", [0, 0])], [], []⟩ = some sj →
      programZeroArr.m_rpn[sj.m_pc]? = some e → ¬ AssignsElem e sj "a" 1) ∧
    AssignsElem ⟨OPERATION, "[]=", 1⟩ ⟨3, [.int 5, .int 0, .str "a"], [], [("a", [0, 0])], [], []⟩
      "a" 0 ∧
    handle_array_access ⟨6, [.int 1, .str "a"], [], [("a", [5, 0])], [], []⟩ =
      .ok () ⟨6, [.int 0], [], [("a", [5, 0])], [], []⟩ ∧
    main true noMath sourceZeroArr [] 9 = some ⟨.success, 0, [0], [], [], [("a", [5, 0])], []⟩ ∧
    main true noMath sourceZero [] 3 = some ⟨.success, 0, [0], [], [("a", 0)], [], []⟩ := by
  have hk : stateAfter noMath programZeroArr 6 ⟨0, [], [], [("a", [0, 0])], [], []⟩ =
      some ⟨6, [.int 1, .str "a"], [], [("a", [5, 0])], [], []⟩ := by decide!
  have hw : ∀ j sj e, j < 6 →
      stateAfter noMath programZeroArr j ⟨0, [], [], [("a", [0, 0])], [], []⟩ = some sj →
      programZeroArr.m_rpn[sj.m_pc]? = some e → ¬ AssignsElem e sj "a" 1 := by
    have hd : ∀ j < 6,
        ∀ sj ∈ stateAfter noMath programZeroArr j ⟨0, [], [], [("a", [0, 0])], [], []⟩,
        ∀ e ∈ programZeroArr.m_rpn[sj.m_pc]?, ¬ AssignsElem e sj "a" 1 := by decide!
    exact fun j sj e hj hsj hq => hd j hj sj hsj e hq
  refine ⟨hk, hw, by decide!, ?_, by decide!, by decide!⟩
  exact ((zero_initialisation (tokensOf true sourceZeroArr) _ noMath [] programZeroArr _ _ 6
    sourceZeroArr_loaded.1 sourceZeroArr_loaded.2.1 hk).2 "a" _
    sourceZeroArr_loaded.2.2).2 rfl |>.2.2 1 (by decide) (by decide) hw |>.2 (.int 1) [] rfl rfl

/-! ## Frame of the indexed assignment -/

/-- An iteration of the loop of `run` keeps the names and the lengths of the arrays. -/
theorem step_lengths {fns : MathFns} {p : Program} {s s1 : RPNInterpreter}
    (h : step fns p s = .next s1) (name : String) :
    (mapFind s1.m_arrays name).map List.length = (mapFind s.m_arrays name).map List.length := by
  obtain ⟨e, _, _, _, q2⟩ := step_effect h
  rcases q2 with q | ⟨n, arr0, j, v, _, _, _, a4, a5⟩
  · rw [q]
  · rw [a5, mapFind_mapSet]
    by_cases hn : name = n
    · subst hn
      rw [if_pos rfl, a4]
      simp only [Option.map_some', List.length_set]
    · rw [if_neg hn]

/-- The iterations of a run keep the names and the lengths of the arrays. -/
theorem stateAfter_lengths {fns : MathFns} {p : Program} (name : String) :
    ∀ (k : Nat) (s0 s : RPNInterpreter), stateAfter fns p k s0 = some s →
      (mapFind s.m_arrays name).map List.length =
        (mapFind s0.m_arrays name).map List.length := by
  intro k
  induction k with
  | zero =>
    intro s0 s h
    simp only [stateAfter, Option.some.injEq] at h
    rw [h]
  | succ k ih =>
    intro s0 s h
    simp only [stateAfter] at h
    cases hs : step fns p s0 with
    | halted => rw [hs] at h; cases h
    | failed e s1 => rw [hs] at h; cases h
    | next s1 =>
      rw [hs] at h
      simp only at h
      rw [ih s1 s h, step_lengths hs]

theorem stateAfter_succ {fns : MathFns} {p : Program} :
    ∀ (k : Nat) (s0 s s1 : RPNInterpreter), stateAfter fns p k s0 = some s →
      step fns p s = .next s1 → stateAfter fns p (k + 1) s0 = some s1 := by
  intro k
  induction k with
  | zero =>
    intro s0 s s1 h hs
    simp only [stateAfter, Option.some.injEq] at h
    subst h
    simp only [stateAfter, hs]
  | succ k ih =>
    intro s0 s s1 h hs
    simp only [stateAfter] at h
    cases hs0 : step fns p s0 with
    | halted => rw [hs0] at h; cases h
    | failed e s2 => rw [hs0] at h; cases h
    | next s2 =>
      rw [hs0] at h
      simp only at h
      have := ih s2 s s1 h hs
      rw [stateAfter, hs0]
      exact this

theorem initArrays_mem {table : List (String × SymbolInfo)} {name : String} {a : List Int}
    (h : mapFind (initArrays table) name = some a) :
    ∃ info, (name, info) ∈ table ∧ info.s_class = SymbolClass.INT_ARRAY := by
  induction table with
  | nil => cases h
  | cons d rest ih =>
    obtain ⟨k, i⟩ := d
    simp only [initArrays] at h
    split_ifs at h with hc
    · rw [mapFind_mapSet] at h
      by_cases hk : name = k
      · subst hk
        exact ⟨i, List.mem_cons_self _ _, hc.2⟩
      · rw [if_neg hk] at h
        obtain ⟨info, h1, h2⟩ := ih h
        exact ⟨info, List.mem_cons_of_mem _ h1, h2⟩
    · obtain ⟨info, h1, h2⟩ := ih h
      exact ⟨info, List.mem_cons_of_mem _ h1, h2⟩

/-- An iteration of the loop of `run` at an entry `[]=` that does not fail. -/
theorem step_indexed_ok {fns : MathFns} {p : Program} {s s1 : RPNInterpreter} {e : RPNEntry}
    (he : p.m_rpn[s.m_pc]? = some e) (ht : e.type = OPERATION) (hv : e.value = "[]=")
    (h : step fns p s = .next s1) :
    ∃ val idx name rest v i arr, s.m_operandStack = val :: idx :: .str name :: rest ∧
      intValue s val = some v ∧ intValue s idx = some i ∧
      mapFind s.m_arrays name = some arr ∧ 0 ≤ i ∧ i.toNat < arr.length ∧
      s1 = { s with m_pc := s.m_pc + 1, m_operandStack := rest,
                    m_arrays := mapSet s.m_arrays name (arr.set i.toNat v) } := by
  unfold step at h
  rw [he] at h
  simp only at h
  cases hx : execEntry fns p e s with
  | throw f s2 => rw [hx] at h; cases h
  | ok b s2 =>
    rw [hx] at h
    simp only [StepResult.next.injEq] at h
    unfold execEntry at hx
    rw [ht] at hx
    simp only at hx
    obtain ⟨u, s3, k1, k2⟩ := exec_bind_ok hx
    obtain ⟨e2, e3⟩ := exec_pure_ok k2
    subst e3 e2
    obtain ⟨val, idx, name, rest, v, i, arr, q1, q2, q3, q4, q5, q6, q7⟩ :=
      handle_operation_indexed_ok hv k1
    subst q7
    simp only [if_true] at h
    exact ⟨val, idx, name, rest, v, i, arr, q1, q2, q3, q4, q5, q6, h.symm⟩

/-- C38 (frame of the indexed assignment).  Let the run of an accepted program have reached
the state `s` after `k` iterations, and let the next iteration execute an entry `[]=`
without failing.  Then the operand stack held a value item, an index item and the name `x`
of an array, the index `i` within the bounds of `x` ; afterwards `x[i]` is the value, every
other element of `x` is as it was, every other array is as it was, the scalars, the input
and the output are as they were, the operand stack is the stack without its three top items,
and the program counter stands at the next entry.  In every state of the run the arrays are
the arrays the symbol table declares, each with as many elements as its declared size. -/
theorem indexed_assignment_frame (tokens : List Token) (g : RPNGenerator) (fns : MathFns)
    (input : List Int) (p : Program) (s0 s s1 : RPNInterpreter) (k : Nat) (e : RPNEntry)
    (h : generate tokens = .ok g)
    (hi : RPNInterpreter.init g.m_rpn g.m_symbolTable input = some (p, s0))
    (hk : stateAfter fns p k s0 = some s)
    (he : p.m_rpn[s.m_pc]? = some e) (ht : e.type = OPERATION) (hv : e.value = "[]=")
    (hs : step fns p s = .next s1) :
    (∃ val idx x rest v i arr, s.m_operandStack = val :: idx :: .str x :: rest ∧
      intValue s val = some v ∧ intValue s idx = some i ∧
      mapFind s.m_arrays x = some arr ∧ 0 ≤ i ∧ i.toNat < arr.length ∧
      (∃ arr1, mapFind s1.m_arrays x = some arr1 ∧ arr1.length = arr.length ∧
        arr1[i.toNat]? = some v ∧ ∀ j, j ≠ i.toNat → arr1[j]? = arr[j]?) ∧
      (∀ y, y ≠ x → mapFind s1.m_arrays y = mapFind s.m_arrays y) ∧
      s1.m_variables = s.m_variables ∧ s1.cin = s.cin ∧ s1.cout = s.cout ∧
      s1.m_operandStack = rest ∧ s1.m_operandStack = s.m_operandStack.drop 3 ∧
      s1.m_pc = s.m_pc + 1) ∧
    (∀ name info, (name, info) ∈ g.m_symbolTable →
      info.s_class = SymbolClass.INT_ARRAY →
      (∃ arr, mapFind s.m_arrays name = some arr ∧ (arr.length : Int) = info.size) ∧
      ∃ arr, mapFind s1.m_arrays name = some arr ∧ (arr.length : Int) = info.size) ∧
    (∀ name arr, mapFind s1.m_arrays name = some arr →
      ∃ info, (name, info) ∈ g.m_symbolTable ∧ info.s_class = SymbolClass.INT_ARRAY) := by
  obtain ⟨val, idx, x, rest, v, i, arr, q1, q2, q3, q4, q5, q6, q7⟩ :=
    step_indexed_ok he ht hv hs
  have hk1 : stateAfter fns p (k + 1) s0 = some s1 := stateAfter_succ k s0 s s1 hk hs
  obtain ⟨j1, p1, pn, p5, _⟩ := generate_shape h
  have e0 := init_state hi
  refine ⟨⟨val, idx, x, rest, v, i, arr, q1, q2, q3, q4, q5, q6, ?_, ?_, ?_, ?_, ?_, ?_, ?_, ?_⟩,
    ?_, ?_⟩
  · refine ⟨arr.set i.toNat v, ?_, List.length_set .., ?_, ?_⟩
    · rw [q7]
      simp only [mapFind_mapSet, if_true]
    · rw [List.getElem?_set_self q6]
    · intro j hj
      rw [List.getElem?_set_ne (Ne.symm hj)]
  · intro y hy
    rw [q7]
    simp only [mapFind_mapSet, if_neg hy]
  · rw [q7]
  · rw [q7]
  · rw [q7]
  · rw [q7]
  · rw [q7, q1]
    rfl
  · rw [q7]
  · intro name info hmem hc
    have hm : mapFind g.m_symbolTable name = some info := mapFind_of_mem pn hmem
    have hv := p5 (name, info) hmem
    have z0 : mapFind s0.m_arrays name = some (List.replicate info.size.toNat 0) := by
      rw [e0]
      exact initArrays_find hm hv.1 hc
    have hsz := (hv.2 hc).1
    have key : ∀ (t : RPNInterpreter) (n : Nat), stateAfter fns p n s0 = some t →
        ∃ arr, mapFind t.m_arrays name = some arr ∧ (arr.length : Int) = info.size := by
      intro t n hn
      have hl := stateAfter_lengths name n s0 t hn
      rw [z0] at hl
      cases hf : mapFind t.m_arrays name with
      | none => rw [hf] at hl; cases hl
      | some a =>
        rw [hf] at hl
        simp only [Option.map_some', Option.some.injEq, List.length_replicate] at hl
        refine ⟨a, rfl, ?_⟩
        simp only at hsz
        omega
    exact ⟨key s k hk, key s1 (k + 1) hk1⟩
  · intro name a ha
    have hl := stateAfter_lengths name (k + 1) s0 s1 hk1
    rw [ha, e0] at hl
    simp only [Option.map_some'] at hl
    cases hf : mapFind (initArrays g.m_symbolTable) name with
    | none => rw [hf] at hl; cases hl
    | some a0 => exact initArrays_mem hf

/-- Witness of `indexed_assignment_frame` : in `arr a[2]; begin a[0] = 5; output(a[1]); end`
the fourth iteration executes `[]=` on the stack `5, 0, a` ; afterwards `a` is `[5, 0]`, the
stack is empty, and `a` still has its two elements. -/
theorem indexed_assignment_frame_witness :
    stateAfter noMath programZeroArr 3 ⟨0, [], [], [("a", [0, 0])], [], []⟩ =
      some ⟨3, [.int 5, .int 0, .str "a"], [], [("a", [0, 0])], [], []⟩ ∧
    programZeroArr.m_rpn[3]? = some ⟨OPERATION, "[]=", 1⟩ ∧
    step noMath programZeroArr ⟨3, [.int 5, .int 0, .str "a"], [], [("a", [0, 0])], [], []⟩ =
      .next ⟨4, [], [], [("a", [5, 0])], [], []⟩ ∧
    ∀ name info, (name, info) ∈ (generated (tokensOf true sourceZeroArr)).m_symbolTable →
      info.s_class = SymbolClass.INT_ARRAY →
      (∃ arr, mapFind [("a", [(0 : Int), 0])] name = some arr ∧
        (arr.length : Int) = info.size) ∧
      ∃ arr, mapFind [("a", [(5 : Int), 0])] name = some arr ∧
        (arr.length : Int) = info.size :=
  have hk : stateAfter noMath programZeroArr 3 ⟨0, [], [], [("a", [0, 0])], [], []⟩ =
      some ⟨3, [.int 5, .int 0, .str "a"], [], [("a", [0, 0])], [], []⟩ := by decide!
  have hs : step noMath programZeroArr
      ⟨3, [.int 5, .int 0, .str "a"], [], [("a", [0, 0])], [], []⟩ =
      .next ⟨4, [], [], [("a", [5, 0])], [], []⟩ := by decide!
  ⟨hk, rfl, hs,
    (indexed_assignment_frame (tokensOf true sourceZeroArr) _ noMath [] programZeroArr _ _ _ 3
      ⟨OPERATION, "[]=", 1⟩ sourceZeroArr_loaded.1 sourceZeroArr_loaded.2.1 hk rfl rfl rfl
      hs).2.1⟩

/-! ## No accepted program holds an `else` -/

theorem notElse_code {tokens : List Token} {k : Nat} {t : Token} {c : TokenCode}
    (h : tokens[k]? = some t) (hc : t.code = c) (hd : c ≠ ELSE_TOK) : NotElse tokens k := by
  intro u hu
  rw [h] at hu
  cases hu
  rw [hc]
  exact hd

theorem notElse_or {tokens : List Token} {k : Nat} {t : Token} {c1 c2 : TokenCode}
    (h : tokens[k]? = some t) (hc : t.code = c1 ∨ t.code = c2)
    (hd1 : c1 ≠ ELSE_TOK) (hd2 : c2 ≠ ELSE_TOK) : NotElse tokens k := by
  rcases hc with hc | hc
  · exact notElse_code h hc hd1
  · exact notElse_code h hc hd2

theorem isTrig_notElse {c : TokenCode} (h : isTrig c = true) : c ≠ ELSE_TOK := by
  cases c <;> simp [isTrig] at h ⊢

theorem relOp_notElse {c : TokenCode} {op : String} (h : relOp c = some op) :
    c ≠ ELSE_TOK := by
  cases c <;> simp [relOp] at h ⊢

theorem DerivesE_notElse {tokens : List Token} {table : List (String × SymbolInfo)} {X : NT}
    {i j : Nat} {code : List RPNEntry} (h : DerivesE tokens table X i j code) :
    ∀ k, i ≤ k → k < j → NotElse tokens k := by
  induction h with
  | @G i j l c1 c2 d1 d2 ih1 ih2 =>
    intro k h1 h2
    rcases Nat.lt_or_ge k j with h | h
    · exact ih1 k h1 h
    · exact ih2 k h h2
  | U_nil _ _ => intro k h1 h2; omega
  | @U_op i j l t c1 c2 a1 a2 d1 d2 ih1 ih2 =>
    intro k h1 h2
    rcases Nat.eq_or_lt_of_le h1 with h | h
    · subst h; exact notElse_or a1 a2 (by decide) (by decide)
    rcases Nat.lt_or_ge k j with h3 | h3
    · exact ih1 k h h3
    · exact ih2 k h3 h2
  | @T i j l c1 c2 d1 d2 ih1 ih2 =>
    intro k h1 h2
    rcases Nat.lt_or_ge k j with h | h
    · exact ih1 k h1 h
    · exact ih2 k h h2
  | V_nil _ _ => intro k h1 h2; omega
  | @V_op i j l t c1 c2 a1 a2 d1 d2 ih1 ih2 =>
    intro k h1 h2
    rcases Nat.eq_or_lt_of_le h1 with h | h
    · subst h; exact notElse_or a1 a2 (by decide) (by decide)
    rcases Nat.lt_or_ge k j with h3 | h3
    · exact ih1 k h h3
    · exact ih2 k h3 h2
  | @F_paren i j t r c a1 a2 d a3 a4 ih =>
    intro k h1 h2
    rcases Nat.eq_or_lt_of_le h1 with h | h
    · subst h; exact notElse_code a1 a2 (by decide)
    rcases Nat.lt_or_ge k j with h3 | h3
    · exact ih k h h3
    · have : k = j := by omega
      subst this; exact notElse_code a3 a4 (by decide)
  | @F_trig i j t l r c a1 a2 a3 a4 d a5 a6 ih =>
    intro k h1 h2
    rcases Nat.eq_or_lt_of_le h1 with h | h
    · subst h; exact notElse_code a1 rfl (isTrig_notElse a2)
    rcases Nat.eq_or_lt_of_le (Nat.succ_le_of_lt h) with h3 | h3
    · have : k = i + 1 := by omega
      subst this; exact notElse_code a3 a4 (by decide)
    rcases Nat.lt_or_ge k j with h4 | h4
    · exact ih k (by omega) h4
    · have : k = j := by omega
      subst this; exact notElse_code a5 a6 (by decide)
  | @F_var i t t1 info a1 a2 a3 a4 a5 a6 =>
    intro k h1 h2
    have : k = i := by omega
    subst this
    exact notElse_code a1 a2 (by decide)
  | @F_index i j t b r info c a1 a2 a3 a4 a5 a6 d a7 a8 ih =>
    intro k h1 h2
    rcases Nat.eq_or_lt_of_le h1 with h | h
    · subst h; exact notElse_code a1 a2 (by decide)
    rcases Nat.eq_or_lt_of_le (Nat.succ_le_of_lt h) with h3 | h3
    · have : k = i + 1 := by omega
      subst this; exact notElse_code a4 a5 (by decide)
    rcases Nat.lt_or_ge k j with h4 | h4
    · exact ih k (by omega) h4
    · have : k = j := by omega
      subst this; exact notElse_code a7 a8 (by decide)
  | @F_num i t a1 a2 =>
    intro k h1 h2
    have : k = i := by omega
    subst this
    exact notElse_code a1 a2 (by decide)

theorem DerivesC_notElse {tokens : List Token} {table : List (String × SymbolInfo)}
    {i j : Nat} {code : List RPNEntry} (h : DerivesC tokens table i j code) :
    ∀ k, i ≤ k → k < j → NotElse tokens k := by
  cases h with
  | @C l _ t op c1 c2 d1 a1 a2 d2 =>
    intro k h1 h2
    rcases Nat.lt_or_ge k l with h | h
    · exact DerivesE_notElse d1 k h1 h
    rcases Nat.eq_or_lt_of_le h with h3 | h3
    · subst h3; exact notElse_code a1 rfl (relOp_notElse a2)
    · exact DerivesE_notElse d2 k (by omega) h2

theorem DerivesA_notElse {tokens : List Token} {table : List (String × SymbolInfo)}
    {i j n m : Nat} {code : List RPNEntry} (h : DerivesA tokens table i j n m code) :
    ∀ k, i ≤ k → k < j → NotElse tokens k := by
  induction h with
  | nil _ _ => intro k h1 h2; omega
  | @assign i j l n m t t1 e sc info c rest a1 a2 a3 a4 a5 a6 a7 a8 d a9 a10 dr ih =>
    intro k h1 h2
    have := DerivesE_le d
    by_cases e0 : k = i
    · subst e0
      exact notElse_code a1 a2 (by decide)
    by_cases e1 : k = i + 1
    · subst e1; exact notElse_code a7 a8 (by decide)
    by_cases e2 : k < j
    · exact DerivesE_notElse d k (by omega) e2
    by_cases e3 : k = j
    · subst e3; exact notElse_code a9 a10 (by decide)
    exact ih k (by omega) h2
  | @assignIndexed i j l o n m t b r e sc info c1 c2 rest a1 a2 a3 a4 a5 a6 d1 a7 a8 a9 a10
      d2 a11 a12 dr ih =>
    intro k h1 h2
    have := DerivesE_le d1
    have := DerivesE_le d2
    by_cases e0 : k = i
    · subst e0; exact notElse_code a1 a2 (by decide)
    by_cases e1 : k = i + 1
    · subst e1; exact notElse_code a4 a5 (by decide)
    by_cases e2 : k < j
    · exact DerivesE_notElse d1 k (by omega) e2
    by_cases e3 : k = j
    · subst e3; exact notElse_code a7 a8 (by decide)
    by_cases e4 : k = j + 1
    · subst e4; exact notElse_code a9 a10 (by decide)
    by_cases e5 : k < l
    · exact DerivesE_notElse d2 k (by omega) e5
    by_cases e6 : k = l
    · subst e6; exact notElse_code a11 a12 (by decide)
    exact ih k (by omega) h2
  | @ifThen i j l o n n1 m t lp rp bg en sc c body rest a1 a2 a3 a4 dC a5 a6 a7 a8 db a9 a10
      a11 a12 dr ih1 ih2 =>
    intro k h1 h2
    have := DerivesC_le dC
    have := DerivesA_le db
    by_cases e0 : k = i
    · subst e0; exact notElse_code a1 a2 (by decide)
    by_cases e1 : k = i + 1
    · subst e1; exact notElse_code a3 a4 (by decide)
    by_cases e2 : k < j
    · exact DerivesC_notElse dC k (by omega) e2
    by_cases e3 : k = j
    · subst e3; exact notElse_code a5 a6 (by decide)
    by_cases e4 : k = j + 1
    · subst e4; exact notElse_code a7 a8 (by decide)
    by_cases e5 : k < l
    · exact ih1 k (by omega) e5
    by_cases e6 : k = l
    · subst e6; exact notElse_code a9 a10 (by decide)
    by_cases e7 : k = l + 1
    · subst e7; exact notElse_code a11 a12 (by decide)
    exact ih2 k (by omega) h2
  | @«while» i j l o n n1 m t lp rp bg en sc c body rest a1 a2 a3 a4 dC a5 a6 a7 a8 db a9 a10
      a11 a12 dr ih1 ih2 =>
    intro k h1 h2
    have := DerivesC_le dC
    have := DerivesA_le db
    by_cases e0 : k = i
    · subst e0; exact notElse_code a1 a2 (by decide)
    by_cases e1 : k = i + 1
    · subst e1; exact notElse_code a3 a4 (by decide)
    by_cases e2 : k < j
    · exact DerivesC_notElse dC k (by omega) e2
    by_cases e3 : k = j
    · subst e3; exact notElse_code a5 a6 (by decide)
    by_cases e4 : k = j + 1
    · subst e4; exact notElse_code a7 a8 (by decide)
    by_cases e5 : k < l
    · exact ih1 k (by omega) e5
    by_cases e6 : k = l
    · subst e6; exact notElse_code a9 a10 (by decide)
    by_cases e7 : k = l + 1
    · subst e7; exact notElse_code a11 a12 (by decide)
    exact ih2 k (by omega) h2
  | @input i l n m t lp id t1 rp sc info rest a1 a2 a3 a4 a5 a6 a7 a8 a9 a10 a11 a12 a13 a14
      dr ih =>
    intro k h1 h2
    by_cases e0 : k = i
    · subst e0; exact notElse_code a1 a2 (by decide)
    by_cases e1 : k = i + 1
    · subst e1; exact notElse_code a3 a4 (by decide)
    by_cases e2 : k = i + 2
    · subst e2
      exact notElse_code a5 a6 (by decide)
    by_cases e3 : k = i + 3
    · subst e3; exact notElse_code a11 a12 (by decide)
    by_cases e4 : k = i + 4
    · subst e4; exact notElse_code a13 a14 (by decide)
    exact ih k (by omega) h2
  | @inputIndexed i j l n m t lp id b r rp sc info c rest a1 a2 a3 a4 a5 a6 a7 a8 a9 a10 d
      a11 a12 a13 a14 a15 a16 dr ih =>
    intro k h1 h2
    have := DerivesE_le d
    by_cases e0 : k = i
    · subst e0; exact notElse_code a1 a2 (by decide)
    by_cases e1 : k = i + 1
    · subst e1; exact notElse_code a3 a4 (by decide)
    by_cases e2 : k = i + 2
    · subst e2; exact notElse_code a5 a6 (by decide)
    by_cases e3 : k = i + 3
    · subst e3; exact notElse_code a8 a9 (by decide)
    by_cases e4 : k < j
    · exact DerivesE_notElse d k (by omega) e4
    by_cases e5 : k = j
    · subst e5; exact notElse_code a11 a12 (by decide)
    by_cases e6 : k = j + 1
    · subst e6; exact notElse_code a13 a14 (by decide)
    by_cases e7 : k = j + 2
    · subst e7; exact notElse_code a15 a16 (by decide)
    exact ih k (by omega) h2
  | @output i j l n m t lp rp sc c rest a1 a2 a3 a4 d a5 a6 a7 a8 dr ih =>
    intro k h1 h2
    have := DerivesE_le d
    by_cases e0 : k = i
    · subst e0; exact notElse_code a1 a2 (by decide)
    by_cases e1 : k = i + 1
    · subst e1; exact notElse_code a3 a4 (by decide)
    by_cases e2 : k < j
    · exact DerivesE_notElse d k (by omega) e2
    by_cases e3 : k = j
    · subst e3; exact notElse_code a5 a6 (by decide)
    by_cases e4 : k = j + 1
    · subst e4; exact notElse_code a7 a8 (by decide)
    exact ih k (by omega) h2
  | @trig i j l n m t lp rp sc c rest a1 a2 a3 a4 d a5 a6 a7 a8 dr ih =>
    intro k h1 h2
    have := DerivesE_le d
    by_cases e0 : k = i
    · subst e0; exact notElse_code a1 rfl (isTrig_notElse a2)
    by_cases e1 : k = i + 1
    · subst e1; exact notElse_code a3 a4 (by decide)
    by_cases e2 : k < j
    · exact DerivesE_notElse d k (by omega) e2
    by_cases e3 : k = j
    · subst e3; exact notElse_code a5 a6 (by decide)
    by_cases e4 : k = j + 1
    · subst e4; exact notElse_code a7 a8 (by decide)
    exact ih k (by omega) h2

theorem DerivesP_notElse {tokens : List Token} {i j n m : Nat}
    {table table1 : List (String × SymbolInfo)} {code : List RPNEntry}
    (h : DerivesP tokens i table j table1 n m code) :
    ∀ k, i ≤ k → k < j → NotElse tokens k := by
  induction h with
  | @empty i table n t a1 a2 a3 a4 => intro k h1 h2; omega
  | @block i j table n m bg en code a1 a2 d a3 a4 =>
    intro k h1 h2
    have := DerivesA_le d
    by_cases e0 : k = i
    · subst e0; exact notElse_code a1 a2 (by decide)
    by_cases e1 : k < j
    · exact DerivesA_notElse d k (by omega) e1
    have : k = j := by omega
    subst this
    exact notElse_code a3 a4 (by decide)
  | @int i j table table1 n m kw id sc code a1 a2 a3 a4 a5 a6 a7 d ih =>
    intro k h1 h2
    by_cases e0 : k = i
    · subst e0; exact notElse_code a1 a2 (by decide)
    by_cases e1 : k = i + 1
    · subst e1; exact notElse_code a3 a4 (by decide)
    by_cases e2 : k = i + 2
    · subst e2; exact notElse_code a6 a7 (by decide)
    exact ih k (by omega) h2
  | @arr i j table table1 n m kw id lb num rb sc size code a1 a2 a3 a4 a5 a6 a7 a8 a9 a10
      a11 a12 a13 a14 a15 d ih =>
    intro k h1 h2
    by_cases e0 : k = i
    · subst e0; exact notElse_code a1 a2 (by decide)
    by_cases e1 : k = i + 1
    · subst e1; exact notElse_code a3 a4 (by decide)
    by_cases e2 : k = i + 2
    · subst e2; exact notElse_code a5 a6 (by decide)
    by_cases e3 : k = i + 3
    · subst e3; exact notElse_code a7 a8 (by decide)
    by_cases e4 : k = i + 4
    · subst e4; exact notElse_code a11 a12 (by decide)
    by_cases e5 : k = i + 5
    · subst e5; exact notElse_code a14 a15 (by decide)
    exact ih k (by omega) h2

/-- When an `else` token stands in front of the first `EOF_TOK` of the token vector,
`generate` throws: every token a successful parse has read is one the grammar asks for, and
no production accepts `else` (in the `else` branch of `parse_A` the first `expect(END_TOK)`
consumes the `else` itself). -/
theorem generate_else (tokens : List Token) (k : Nat) (t : Token)
    (hk : tokens[k]? = some t) (hc : t.code = ELSE_TOK) (hb : beforeEOF tokens k) :
    ∃ e, generate tokens = .error e ∧ e ≠ .outOfFuel := by
  apply generate_fails
  intro g hg
  obtain ⟨_, d⟩ := generate_derives hg
  obtain ⟨u, hu, huc⟩ := generate_end hg
  have hlt : k < g.m_currentIndex := lt_of_beforeEOF hk hb hu huc
  exact DerivesP_notElse d k (Nat.zero_le _) hlt t hk hc


/-! ## The line of a syntax error -/

/-- C33, what the code does.  `expect` consumes the token before it compares its code, and
`throwError` reads the line of `m_tokens[m_currentIndex]` : when the token `t` is not the
expected one, the error carries the line of the token behind `t` (the line of `t` itself
only when `t` is the last token).  In `begin / output(1) ) / ; / end` (four lines) the
unexpected token is the second `)`, on line 2, and the error carries line 3, the line of
the `;` behind it.  An error thrown without consuming, as in `parse_F`, carries the line of
the unexpected token: in `begin / output( / ; / end` the `;` on line 3 is reported with
line 3. -/
theorem parse_error_line :
    (∀ (g : RPNGenerator) (t : Token) (code : TokenCode) (message : String),
      g.m_tokens[g.m_currentIndex]? = some t → t.code ≠ code → t.code ≠ EOF_TOK →
      expect g code message = .error (.syntaxError
        (match g.m_tokens[g.m_currentIndex + 1]? with
          | some next => next.line
          | none => t.line) message)) ∧
    (tokensOf true sourceSlip).map (fun t => (t.lexeme, t.line)) =
      [("begin", 1), ("output", 2), ("(", 2), ("1", 2), (")", 2), (")", 2), (";", 3),
       ("end", 4), ("EOF", 4)] ∧
    main true noMath sourceSlip [] 0 =
      some ⟨.generator (.syntaxError 3 "after 'cout' statement"), 1, [], [], [], [], []⟩ ∧
    main true noMath sourceFactor [] 0 =
      some ⟨.generator (.syntaxError 3
        "Invalid start of factor: expected '(', identifier, or number"), 1, [], [], [], [],
        []⟩ := by
  refine ⟨?_, by decide!, by decide!, by decide!⟩
  intro g t code message ht hc hne
  rw [expect_mismatch message ht hc hne]
  unfold errorLine
  simp only
  cases hn : g.m_tokens[g.m_currentIndex + 1]? with
  | some next => rfl
  | none =>
    simp only
    have hlt : g.m_currentIndex < g.m_tokens.length := by
      by_contra hc1
      rw [List.getElem?_eq_none (by omega)] at ht
      cases ht
    rw [if_pos ⟨by omega, by omega⟩]
    simp only [Nat.add_sub_cancel, ht]

/-! ## Where the lexer finds its tokens -/

theorem lineAt_succ {source : List Byte} {p : Nat} {b : Byte} (h : source[p]? = some b) :
    lineAt source (p + 1) = lineAt source p + (if b = newline then 1 else 0) := by
  unfold lineAt
  rw [List.take_succ, h]
  simp only [Option.toList_some, List.count_append, List.count_singleton, Nat.cast_add]
  split_ifs with h1 h2 h2
  · simp; omega
  · exact absurd (by simpa using h1) h2
  · exact absurd (by simpa using h2) h1
  · simp

theorem drop_cons_at {source : List Byte} {p : Nat} {b : Byte} {rest : List Byte}
    (h : source.drop p = b :: rest) :
    source[p]? = some b ∧ source.drop (p + 1) = rest ∧ p < source.length := by
  have hp : p < source.length := by
    by_contra hc
    rw [List.drop_eq_nil_of_le (by omega)] at h
    cases h
  rw [List.drop_eq_getElem_cons hp] at h
  injection h with h1 h2
  exact ⟨by rw [List.getElem?_eq_getElem hp, h1], h2, hp⟩

theorem int_to_char_val : ∀ b : Byte, int_to_char (b.val : Int) = b := by
  intro b
  unfold int_to_char
  apply Fin.ext
  have := b.isLt
  simp only [Fin.ofNat, Fin.val_mk]
  omega

theorem int_to_char_char_to_int (s : Bool) (b : Byte) : int_to_char (char_to_int s b) = b := by
  unfold char_to_int
  split_ifs
  · unfold int_to_char
    apply Fin.ext
    have := b.isLt
    simp only [Fin.ofNat, Fin.val_mk]
    omega
  · exact int_to_char_val b

theorem lexTable_actionOK : ∀ (st : Fin 3) (cat : Fin 20),
    actionOK (lexTable st.val cat.val) st.val cat.val = true := by
  decide

/-- What the category of a byte says of the byte. -/
theorem byteCat_facts : ∀ c : Byte,
    byteCat c ≤ 19 ∧
    (byteCat c = 0 ↔ isLetterByte c = true) ∧
    (byteCat c = 1 ↔ isDigitByte c = true) ∧
    (byteCat c = 16 ↔ c = newline) ∧
    ((byteCat c = 7 ∨ byteCat c = 16 ∨ byteCat c = 19) ↔ isSkipped c = true) ∧
    (byteCat c = 2 ↔ punctCode c = some PLUS_TOK) ∧
    (byteCat c = 3 ↔ punctCode c = some MINUS_TOK) ∧
    (byteCat c = 4 ↔ punctCode c = some EQ_TOK) ∧
    (byteCat c = 5 ↔ punctCode c = some STAR_TOK) ∧
    (byteCat c = 6 ↔ punctCode c = some SLASH_TOK) ∧
    (byteCat c = 8 ↔ punctCode c = some LPAREN_TOK) ∧
    (byteCat c = 9 ↔ punctCode c = some RPAREN_TOK) ∧
    (byteCat c = 10 ↔ punctCode c = some LBRACKET_TOK) ∧
    (byteCat c = 11 ↔ punctCode c = some RBRACKET_TOK) ∧
    (byteCat c = 12 ↔ punctCode c = some GT_TOK) ∧
    (byteCat c = 13 ↔ punctCode c = some LT_TOK) ∧
    (byteCat c = 14 ↔ punctCode c = some NOT_TOK) ∧
    (byteCat c = 15 ↔ punctCode c = some SEMICOLON_TOK) ∧
    (byteCat c = 17 ↔ punctCode c = some DOLLAR_TOK) ∧
    (byteCat c = 18 ↔ punctCode c = some EQ_COMPARE_TOK) := by
  decide!

/-- The category `getNextToken` computes from the value `get_char` gives for a byte. -/
theorem category_of_char (s : Bool) (b : Byte) :
    (if char_to_int s b < 0 ∨ char_to_int s b > 127 then CAT_OTHER
      else AsciiTable (char_to_int s b).toNat) = byteCat b ∧
    (if (b.val : Int) < 0 ∨ (b.val : Int) > 127 then CAT_OTHER
      else AsciiTable ((b.val : Int)).toNat) = byteCat b := by
  have := b.isLt
  unfold byteCat char_to_int
  constructor
  · by_cases h : b.val > 127
    · rw [if_pos h]
      cases s
      · simp only [Bool.false_and, Bool.false_eq_true, if_false]
        rw [if_pos (Or.inr (by omega))]
      · rw [if_pos (by simp; omega)]
    · rw [if_neg h]
      have h1 : ¬ ((s && decide (128 ≤ b.val)) = true) := by simp; intro _; omega
      rw [if_neg h1, if_neg (by omega)]
      simp
  · by_cases h : b.val > 127
    · rw [if_pos h, if_pos (Or.inr (by omega))]
    · rw [if_neg h, if_neg (by omega)]
      simp

theorem get_char_at {source : List Byte} {lx : Lexer} {p : Nat} (h : AtPos source lx p) :
    ((get_char lx).1 = EOF ∧ lx.char_buffer_valid = false ∧ p = source.length ∧
      (get_char lx).2 = lx) ∨
    ∃ c, ReadAt source p (get_char lx).2 c ∧
      (((get_char lx).1 = EOF ∧ 127 < c.val ∧ lx.char_buffer_valid = true) ∨
       ((get_char lx).1 ≠ EOF ∧ int_to_char (get_char lx).1 = c ∧
        (if (get_char lx).1 < 0 ∨ (get_char lx).1 > 127 then CAT_OTHER
          else AsciiTable (get_char lx).1.toNat) = byteCat c)) := by
  obtain ⟨h1, h2, h3⟩ := h
  unfold get_char
  by_cases hv : lx.char_buffer_valid = true
  · rw [if_pos hv]
    simp only [Lexer.remaining, hv, if_true, List.singleton_append] at h2
    obtain ⟨d1, d2, d3⟩ := drop_cons_at h2.symm
    refine Or.inr ⟨lx.char_buffer, ⟨d1, d3, rfl, d2.symm, h3⟩, ?_⟩
    simp only
    by_cases he : char_to_int lx.char_is_signed lx.char_buffer = EOF
    · refine Or.inl ⟨he, ?_, hv⟩
      have := lx.char_buffer.isLt
      unfold char_to_int EOF at he
      split_ifs at he with hc
      simp only [Bool.and_eq_true, decide_eq_true_eq] at hc
      omega
    · exact Or.inr ⟨he, int_to_char_char_to_int _ _, (category_of_char _ _).1⟩
  · simp only [Bool.not_eq_true] at hv
    rw [if_neg (by simp [hv])]
    simp only [Lexer.remaining, hv, Bool.false_eq_true, if_false, List.nil_append] at h2
    cases hs : lx.input_stream with
    | nil =>
      refine Or.inl ⟨rfl, hv, ?_, rfl⟩
      rw [hs] at h2
      have := List.drop_eq_nil_iff.mp h2.symm
      omega
    | cons b rest =>
      rw [hs] at h2
      obtain ⟨d1, d2, d3⟩ := drop_cons_at h2.symm
      refine Or.inr ⟨b, ⟨d1, d3, hv, d2.symm, h3⟩, Or.inr ⟨?_, int_to_char_val b,
        (category_of_char false b).2⟩⟩
      simp only [EOF]
      omega

theorem readAt_next {source : List Byte} {p : Nat} {lx1 : Lexer} {c : Byte}
    (h : ReadAt source p lx1 c) (hn : c ≠ newline) : AtPos source lx1 (p + 1) := by
  obtain ⟨h1, h2, h3, h4, h5⟩ := h
  refine ⟨by omega, ?_, ?_⟩
  · simp only [Lexer.remaining, h3, Bool.false_eq_true, if_false, List.nil_append, h4]
  · rw [lineAt_succ h1, if_neg hn, h5]
    omega

theorem readAt_newline {source : List Byte} {p : Nat} {lx1 : Lexer}
    (h : ReadAt source p lx1 newline) :
    AtPos source { lx1 with current_line := lx1.current_line + 1 } (p + 1) := by
  obtain ⟨h1, h2, h3, h4, h5⟩ := h
  refine ⟨by omega, ?_, ?_⟩
  · simp only [Lexer.remaining, h3, Bool.false_eq_true, if_false, List.nil_append, h4]
  · rw [lineAt_succ h1, if_pos rfl]
    simp only [h5]

theorem readAt_unget {source : List Byte} {p : Nat} {lx1 : Lexer} {c : Byte}
    (h : ReadAt source p lx1 c) : AtPos source (unget_char lx1 c) p := by
  obtain ⟨h1, h2, h3, h4, h5⟩ := h
  refine ⟨by omega, ?_, ?_⟩
  · simp only [Lexer.remaining, unget_char, if_true, List.singleton_append, h4]
    rw [List.drop_eq_getElem_cons h2]
    congr 1
    rw [List.getElem?_eq_getElem h2] at h1
    exact (Option.some.inj h1).symm
  · simp only [unget_char, h5]

theorem slice_succ {source : List Byte} {q e : Nat} {c : Byte} (h : q ≤ e)
    (hc : source[e]? = some c) : slice source q (e + 1) = slice source q e ++ [c] := by
  unfold slice
  have e1 : e + 1 - q = (e - q) + 1 := by omega
  rw [e1, List.take_succ, List.getElem?_drop]
  have e2 : q + (e - q) = e := by omega
  rw [e2, hc]
  rfl

theorem slice_self (source : List Byte) (q : Nat) : slice source q q = [] := by
  unfold slice
  simp

theorem slice_length {source : List Byte} {q e : Nat} (h : e ≤ source.length) :
    (slice source q e).length = e - q := by
  unfold slice
  rw [List.length_take, List.length_drop]
  omega

theorem LexemeAt_length {source : List Byte} {lexeme : String} {q e : Nat}
    (h : LexemeAt source lexeme q e) : lexeme.length = e - q := by
  obtain ⟨_, h2, h3⟩ := h
  have : lexeme.length = lexeme.toList.length := rfl
  rw [this, h3, List.length_map, slice_length h2]

theorem LexemeAt_push {source : List Byte} {lexeme : String} {q e : Nat} {c : Byte}
    (h : LexemeAt source lexeme q e) (hc : source[e]? = some c) (hl : e < source.length) :
    LexemeAt source (lexeme.push (byteChar c)) q (e + 1) := by
  obtain ⟨h1, h2, h3⟩ := h
  refine ⟨by omega, by omega, ?_⟩
  rw [slice_succ h1 hc, List.map_append]
  have : (lexeme.push (byteChar c)).toList = lexeme.toList ++ [byteChar c] := by
    simp [String.toList, String.push]
  rw [this, h3]
  rfl

theorem LexemeAt_start {source : List Byte} {p : Nat} {c : Byte}
    (hc : source[p]? = some c) (hl : p < source.length) :
    LexemeAt source ("".push (byteChar c)) p (p + 1) := by
  have h0 : LexemeAt source "" p p := ⟨Nat.le_refl _, by omega, by rw [slice_self]; rfl⟩
  exact LexemeAt_push h0 hc hl

theorem Skipped_succ {source : List Byte} {a p : Nat} {c : Byte}
    (h : Skipped source a p) (hc : source[p]? = some c) (hs : isSkipped c = true) :
    Skipped source a (p + 1) := by
  intro k d h1 h2 hk
  by_cases e : k = p
  · subst e
    rw [hc] at hk
    cases hk
    exact hs
  · exact h k d h1 (by omega) hk

theorem finalize_identifier_fields (lexeme : String) (line : Int) :
    (finalize_identifier lexeme line).lexeme = lexeme ∧
    (finalize_identifier lexeme line).line = line := by
  unfold finalize_identifier
  cases keywords lexeme <;> exact ⟨rfl, rfl⟩

theorem finalize_identifier_self (lexeme : String) (line : Int) :
    finalize_identifier lexeme line =
      finalize_identifier (finalize_identifier lexeme line).lexeme
        (finalize_identifier lexeme line).line := by
  rw [(finalize_identifier_fields lexeme line).1, (finalize_identifier_fields lexeme line).2]

theorem punctCode_ne_EOF {c : Byte} {code : TokenCode} (h : punctCode c = some code) :
    code ≠ EOF_TOK ∧ c ≠ newline ∧ isSkipped c = false := by
  have key : ∀ c : Byte, ∀ code, punctCode c = some code →
      code ≠ EOF_TOK ∧ c ≠ newline ∧ isSkipped c = false := by decide!
  exact key c code h

theorem letter_not_newline {c : Byte} (h : isIdByte c = true) :
    c ≠ newline ∧ isSkipped c = false := by
  have key : ∀ c : Byte, isIdByte c = true → c ≠ newline ∧ isSkipped c = false := by decide!
  exact key c h

theorem body_punct {source : List Byte} {start p : Nat} {lx : Lexer} {c : Byte}
    {code : TokenCode} (hr : ReadAt source p lx c) (hsp : start ≤ p)
    (hsk : Skipped source start p) (hp : punctCode c = some code) :
    CallResult source start ⟨code, string1 c, lx.current_line⟩ lx := by
  obtain ⟨n1, n2, n3⟩ := punctCode_ne_EOF hp
  refine Or.inr ⟨n1, p, p + 1, hsp, hsk, ?_, readAt_next hr n2⟩
  obtain ⟨h1, h2, h3, h4, h5⟩ := hr
  exact ⟨by omega, LexemeAt_start h1 h2, h5, by omega, Or.inl ⟨rfl, c, h1, hp⟩⟩

theorem body_skip {source : List Byte} {start p : Nat} {lx : Lexer} {c : Byte} (line : Int)
    (hr : ReadAt source p lx c) (hsp : start ≤ p) (hsk : Skipped source start p)
    (hc : isSkipped c = true) (hn : c ≠ newline) :
    ScanAt source start lx ⟨"", S_STATE, line⟩ (p + 1) :=
  ⟨readAt_next hr hn, by omega, Or.inl ⟨rfl, rfl, Skipped_succ hsk hr.1 hc⟩⟩

theorem body_newline {source : List Byte} {start p : Nat} {lx : Lexer} (line : Int)
    (hr : ReadAt source p lx newline) (hsp : start ≤ p) (hsk : Skipped source start p) :
    ScanAt source start { lx with current_line := lx.current_line + 1 }
      ⟨"", S_STATE, line⟩ (p + 1) :=
  ⟨readAt_newline hr, by omega, Or.inl ⟨rfl, rfl, Skipped_succ hsk hr.1 (by decide)⟩⟩

theorem body_start_id {source : List Byte} {start p : Nat} {lx : Lexer} {c : Byte}
    (hr : ReadAt source p lx c) (hsp : start ≤ p) (hsk : Skipped source start p)
    (hc : isLetterByte c = true) :
    ScanAt source start lx ⟨"".push (byteChar c), A_STATE, lx.current_line⟩ (p + 1) := by
  have hid : isIdByte c = true := by simp [isIdByte, hc]
  have hn := (letter_not_newline hid).1
  have hat := readAt_next hr hn
  obtain ⟨h1, h2, h3, h4, h5⟩ := hr
  refine ⟨hat, by omega, Or.inr ⟨Or.inl rfl, h3, p, hsp, by omega, hsk, LexemeAt_start h1 h2,
    h5, by omega, fun _ => ⟨⟨c, h1, hc⟩, ?_⟩, fun hB => by simp [A_STATE, B_STATE] at hB⟩⟩
  intro k d k1 k2 hk
  have : k = p := by omega
  subst this
  rw [h1] at hk
  cases hk
  exact hid

theorem body_start_num {source : List Byte} {start p : Nat} {lx : Lexer} {c : Byte}
    (hr : ReadAt source p lx c) (hsp : start ≤ p) (hsk : Skipped source start p)
    (hc : isDigitByte c = true) :
    ScanAt source start lx ⟨"".push (byteChar c), B_STATE, lx.current_line⟩ (p + 1) := by
  have hid : isIdByte c = true := by simp [isIdByte, hc]
  have hn := (letter_not_newline hid).1
  have hat := readAt_next hr hn
  obtain ⟨h1, h2, h3, h4, h5⟩ := hr
  refine ⟨hat, by omega, Or.inr ⟨Or.inr rfl, h3, p, hsp, by omega, hsk, LexemeAt_start h1 h2,
    h5, by omega, fun hA => by simp [A_STATE, B_STATE] at hA, fun _ => ?_⟩⟩
  intro k d k1 k2 hk
  have : k = p := by omega
  subst this
  rw [h1] at hk
  cases hk
  exact hc

theorem body_extend_id {source : List Byte} {start p q : Nat} {lx : Lexer} {c : Byte}
    {v : ScanVars} (hr : ReadAt source p lx c) (hv : v.currentState = A_STATE)
    (q1 : start ≤ q) (q2 : q < p) (q3 : Skipped source start q)
    (q4 : LexemeAt source v.current_lexeme q p) (q5 : v.token_start_line = lineAt source q)
    (q7 : IdRun source q p) (hc : isIdByte c = true) (hlen : v.current_lexeme.length < 1023) :
    ScanAt source start lx { v with current_lexeme := v.current_lexeme.push (byteChar c) }
      (p + 1) := by
  have hn := (letter_not_newline hc).1
  have hat := readAt_next hr hn
  have hl := LexemeAt_length q4
  obtain ⟨h1, h2, h3, h4, h5⟩ := hr
  refine ⟨hat, by omega, Or.inr ⟨Or.inl hv, h3, q, q1, by omega, q3, LexemeAt_push q4 h1 h2,
    q5, by omega, fun _ => ⟨q7.1, ?_⟩, fun hB => ?_⟩⟩
  · intro k d k1 k2 hk
    by_cases e : k = p
    · subst e
      rw [h1] at hk
      cases hk
      exact hc
    · exact q7.2 k d k1 (by omega) hk
  · simp only at hB
    rw [hv] at hB
    exact absurd hB (by decide)

theorem body_extend_num {source : List Byte} {start p q : Nat} {lx : Lexer} {c : Byte}
    {v : ScanVars} (hr : ReadAt source p lx c) (hv : v.currentState = B_STATE)
    (q1 : start ≤ q) (q2 : q < p) (q3 : Skipped source start q)
    (q4 : LexemeAt source v.current_lexeme q p) (q5 : v.token_start_line = lineAt source q)
    (q7 : DigitRun source q p) (hc : isDigitByte c = true)
    (hlen : v.current_lexeme.length < 1023) :
    ScanAt source start lx { v with current_lexeme := v.current_lexeme.push (byteChar c) }
      (p + 1) := by
  have hid : isIdByte c = true := by simp [isIdByte, hc]
  have hn := (letter_not_newline hid).1
  have hat := readAt_next hr hn
  have hl := LexemeAt_length q4
  obtain ⟨h1, h2, h3, h4, h5⟩ := hr
  refine ⟨hat, by omega, Or.inr ⟨Or.inr hv, h3, q, q1, by omega, q3, LexemeAt_push q4 h1 h2,
    q5, by omega, fun hA => ?_, fun _ => ?_⟩⟩
  · simp only at hA
    rw [hv] at hA
    exact absurd hA (by decide)
  · intro k d k1 k2 hk
    by_cases e : k = p
    · subst e
      rw [h1] at hk
      cases hk
      exact hc
    · exact q7 k d k1 (by omega) hk

theorem body_finish_id {source : List Byte} {start p q : Nat} {lx1 : Lexer}
    {lexeme : String} {line : Int} (hat : AtPos source lx1 p)
    (q1 : start ≤ q) (q2 : q < p) (q3 : Skipped source start q)
    (q4 : LexemeAt source lexeme q p) (q5 : line = lineAt source q) (q6 : p - q ≤ 1023)
    (q7 : IdRun source q p)
    (hend : p - q = 1023 ∨ ∀ d, source[p]? = some d → isIdByte d = false) :
    CallResult source start (finalize_identifier lexeme line) lx1 := by
  obtain ⟨f1, f2⟩ := finalize_identifier_fields lexeme line
  refine Or.inr ⟨?_, q, p, q1, q3, ⟨q2, ?_, ?_, q6, Or.inr (Or.inl ⟨finalize_identifier_self _ _,
    q7, hend⟩)⟩, hat⟩
  · exact finalize_identifier_code lexeme line
  · rw [f1]
    exact q4
  · rw [f2]
    exact q5

theorem body_finish_num {source : List Byte} {start p q : Nat} {lx1 : Lexer}
    {lexeme : String} {line : Int} (hat : AtPos source lx1 p)
    (q1 : start ≤ q) (q2 : q < p) (q3 : Skipped source start q)
    (q4 : LexemeAt source lexeme q p) (q5 : line = lineAt source q) (q6 : p - q ≤ 1023)
    (q7 : DigitRun source q p)
    (hend : p - q = 1023 ∨ ∀ d, source[p]? = some d → isDigitByte d = false) :
    CallResult source start (finalize_number lexeme line) lx1 :=
  Or.inr ⟨by simp [finalize_number], q, p, q1, q3,
    ⟨q2, q4, q5, q6, Or.inr (Or.inr ⟨rfl, q7, hend⟩)⟩, hat⟩

theorem lexeme_ne_empty {source : List Byte} {lexeme : String} {q p : Nat}
    (h : LexemeAt source lexeme q p) (hq : q < p) : lexeme ≠ "" := by
  intro he
  have := LexemeAt_length h
  rw [he] at this
  simp at this
  omega

theorem idByte_false {c : Byte} (h0 : ¬ byteCat c = 0) (h1 : ¬ byteCat c = 1) :
    isIdByte c = false := by
  obtain ⟨_, fL, fD, _⟩ := byteCat_facts c
  unfold isIdByte
  cases hl : isLetterByte c
  · cases hd : isDigitByte c
    · rfl
    · exact absurd (fD.mpr hd) h1
  · exact absurd (fL.mpr hl) h0

theorem digitByte_false {c : Byte} (h1 : ¬ byteCat c = 1) : isDigitByte c = false := by
  obtain ⟨_, _, fD, _⟩ := byteCat_facts c
  cases hd : isDigitByte c
  · rfl
  · exact absurd (fD.mpr hd) h1

/-- One iteration of the loop of `getNextToken` keeps the invariant `ScanAt`, or returns
what `CallResult` describes. -/
theorem getNextToken_body_lines {source : List Byte} {start p : Nat} {lx0 : Lexer}
    {v : ScanVars} (h : ScanAt source start lx0 v p) :
    BodyLines source start p (getNextToken_body lx0 v) := by
  obtain ⟨hat, hsp, hst⟩ := h
  have hg := get_char_at hat
  unfold getNextToken_body
  generalize get_char lx0 = r at hg
  obtain ⟨ch, lx⟩ := r
  simp only at hg ⊢
  rcases hg with ⟨he, hbv, hpl, hlx⟩ | ⟨c, hr, hcase⟩
  · -- the end of the stream
    subst hlx
    simp only [he, if_true]
    have hend : ∀ d, source[p]? = some d → isIdByte d = false ∧ isDigitByte d = false := by
      intro d hd
      rw [List.getElem?_eq_none (by omega)] at hd
      cases hd
    rcases hst with ⟨s1, s2, s3⟩ | ⟨sAB, sbv, q, q1, q2, q3, q4, q5, q6, q7, q8⟩
    · rw [if_neg (by simp [s2]), if_neg (by simp [s2])]
      exact Or.inl ⟨rfl, rfl, p, hsp, s3, Or.inl hpl, hat.2.2⟩
    · have hne := lexeme_ne_empty q4 q2
      rcases sAB with sA | sB
      · rw [if_pos ⟨hne, sA⟩]
        exact body_finish_id hat q1 q2 q3 q4 q5 q6 (q7 sA) (Or.inr fun d hd => (hend d hd).1)
      · rw [if_neg (by rw [sB]; simp [A_STATE, B_STATE]), if_pos ⟨hne, sB⟩]
        exact body_finish_num hat q1 q2 q3 q4 q5 q6 (q8 sB) (Or.inr fun d hd => (hend d hd).2)
  · rcases hcase with ⟨he, hc127, hv⟩ | ⟨hne, hcc, hcat⟩
    · -- a pushed back byte that reads as the end of the stream
      simp only [he, if_true]
      rcases hst with ⟨s1, s2, s3⟩ | ⟨sAB, sbv, _⟩
      · rw [if_neg (by simp [s2]), if_neg (by simp [s2])]
        exact Or.inl ⟨rfl, rfl, p, hsp, s3, Or.inr ⟨c, hr.1, hc127⟩, hr.2.2.2.2⟩
      · rw [sbv] at hv
        cases hv
    · simp only [hne, if_false]
      rw [hcat, hcc]
      obtain ⟨f0, fL, fD, fN, fSk, fp2, fp3, fp4, fp5, fp6, fp8, fp9, fp10, fp11, fp12, fp13,
        fp14, fp15, fp17, fp18⟩ := byteCat_facts c
      have hstate : v.currentState < 3 := by
        rcases hst with ⟨s1, _⟩ | ⟨s1 | s1, _⟩ <;> rw [s1] <;> decide
      have hS : v.currentState = 0 → v.current_lexeme = "" ∧ Skipped source start p := by
        intro hs
        rcases hst with ⟨_, s2, s3⟩ | ⟨s1 | s1, _⟩
        · exact ⟨s2, s3⟩
        · rw [s1] at hs; simp [A_STATE] at hs
        · rw [s1] at hs; simp [B_STATE] at hs
      have hAB : v.currentState ≠ 0 → ∃ q, start ≤ q ∧ q < p ∧ Skipped source start q ∧
          LexemeAt source v.current_lexeme q p ∧ v.token_start_line = lineAt source q ∧
          p - q ≤ 1023 ∧ (v.currentState = A_STATE → IdRun source q p) ∧
          (v.currentState = B_STATE → DigitRun source q p) ∧ v.current_lexeme ≠ "" := by
        intro hs
        rcases hst with ⟨s1, _⟩ | ⟨_, sbv, q, q1, q2, q3, q4, q5, q6, q7, q8⟩
        · exact absurd s1 hs
        · exact ⟨q, q1, q2, q3, q4, q5, q6, q7, q8, lexeme_ne_empty q4 q2⟩
      have hok := lexTable_actionOK ⟨v.currentState, hstate⟩ ⟨byteCat c, by omega⟩
      have hl := lexTable_listed hstate f0
      simp only at hok
      generalize lexTable v.currentState (byteCat c) = a at hok hl
      have hcap : LEXER_BUFFER_SIZE - 1 = 1023 := rfl
      split
      all_goals simp only [actionOK, Bool.and_eq_true, Bool.or_eq_true, decide_eq_true_eq,
        decide_not, Bool.not_eq_true', decide_eq_false_iff_not] at hok
      · -- 1
        obtain ⟨hs, hc⟩ := hok
        rw [(hS hs).1]
        exact body_start_id hr hsp (hS hs).2 (fL.mp hc)
      · -- 2
        obtain ⟨hs, hc⟩ := hok
        rw [(hS hs).1]
        exact body_start_num hr hsp (hS hs).2 (fD.mp hc)
      · exact body_punct hr hsp (hS hok.1).2 (fp2.mp hok.2)
      · exact body_punct hr hsp (hS hok.1).2 (fp3.mp hok.2)
      · exact body_punct hr hsp (hS hok.1).2 (fp4.mp hok.2)
      · exact body_punct hr hsp (hS hok.1).2 (fp5.mp hok.2)
      · exact body_punct hr hsp (hS hok.1).2 (fp6.mp hok.2)
      · -- 8
        exact body_skip _ hr hsp (hS hok.1).2 (fSk.mp (Or.inl hok.2))
          (fun hn => by have := fN.mpr hn; omega)
      · exact body_punct hr hsp (hS hok.1).2 (fp8.mp hok.2)
      · exact body_punct hr hsp (hS hok.1).2 (fp9.mp hok.2)
      · exact body_punct hr hsp (hS hok.1).2 (fp10.mp hok.2)
      · exact body_punct hr hsp (hS hok.1).2 (fp11.mp hok.2)
      · exact body_punct hr hsp (hS hok.1).2 (fp12.mp hok.2)
      · exact body_punct hr hsp (hS hok.1).2 (fp13.mp hok.2)
      · exact body_punct hr hsp (hS hok.1).2 (fp14.mp hok.2)
      · exact body_punct hr hsp (hS hok.1).2 (fp15.mp hok.2)
      · -- 18
        have hn := fN.mp hok.2
        subst hn
        exact body_newline _ hr hsp (hS hok.1).2
      · -- 19
        exact body_skip _ hr hsp (hS hok.1).2 (fSk.mp (Or.inr (Or.inr hok.2)))
          (fun hn => by have := fN.mpr hn; omega)
      · exact body_punct hr hsp (hS hok.1).2 (fp17.mp hok.2)
      · -- 21
        obtain ⟨hs, hc⟩ := hok
        obtain ⟨q, q1, q2, q3, q4, q5, q6, q7, q8, lne⟩ := hAB (by omega)
        have hid : isIdByte c = true := by
          unfold isIdByte
          rcases hc with hc | hc
          · rw [fL.mp hc]; rfl
          · rw [fD.mp hc]; simp
        have hlen := LexemeAt_length q4
        split_ifs with hlt
        · exact body_extend_id hr hs q1 q2 q3 q4 q5 (q7 hs) hid (by omega)
        · exact body_finish_id (readAt_unget hr) q1 q2 q3 q4 q5 q6 (q7 hs)
            (Or.inl (by omega))
      · -- 22
        obtain ⟨⟨⟨hs, c0⟩, c1⟩, c19⟩ := hok
        obtain ⟨q, q1, q2, q3, q4, q5, q6, q7, q8, lne⟩ := hAB (by omega)
        exact body_finish_id (readAt_unget hr) q1 q2 q3 q4 q5 q6 (q7 hs)
          (Or.inr fun d hd => by rw [hr.1] at hd; cases hd; exact idByte_false c0 c1)
      · -- 24
        rcases hok with ⟨hs, hc⟩ | ⟨hs, hc⟩
        · obtain ⟨q, q1, q2, q3, q4, q5, q6, q7, q8, lne⟩ := hAB (by omega)
          rw [if_pos ⟨lne, hs⟩]
          exact body_finish_id (readAt_unget hr) q1 q2 q3 q4 q5 q6 (q7 hs)
            (Or.inr fun d hd => by
              rw [hr.1] at hd; cases hd; exact idByte_false (by omega) (by omega))
        · obtain ⟨q, q1, q2, q3, q4, q5, q6, q7, q8, lne⟩ := hAB (by omega)
          rw [if_neg (by rw [hs]; simp [A_STATE]), if_pos ⟨lne, hs⟩]
          exact body_finish_num (readAt_unget hr) q1 q2 q3 q4 q5 q6 (q8 hs)
            (Or.inr fun d hd => by
              rw [hr.1] at hd; cases hd; exact digitByte_false (by omega))
      · -- 27
        obtain ⟨hs, hc⟩ := hok
        obtain ⟨q, q1, q2, q3, q4, q5, q6, q7, q8, lne⟩ := hAB (by omega)
        have hlen := LexemeAt_length q4
        split_ifs with hlt
        · exact body_extend_num hr hs q1 q2 q3 q4 q5 (q8 hs) (fD.mp hc) (by omega)
        · exact body_finish_num (readAt_unget hr) q1 q2 q3 q4 q5 q6 (q8 hs)
            (Or.inl (by omega))
      · -- 28
        obtain ⟨⟨⟨hs, c0⟩, c1⟩, c19⟩ := hok
        obtain ⟨q, q1, q2, q3, q4, q5, q6, q7, q8, lne⟩ := hAB (by omega)
        exact body_finish_num (readAt_unget hr) q1 q2 q3 q4 q5 q6 (q8 hs)
          (Or.inr fun d hd => by rw [hr.1] at hd; cases hd; exact digitByte_false c1)
      · exact body_punct hr hsp (hS hok.1).2 (fp18.mp hok.2)
      · -- no other action is in the table
        exfalso
        simp only [List.mem_cons, List.mem_singleton, List.not_mem_nil, or_false] at hl
        rcases hl with h | h | h | h | h | h | h | h | h | h | h | h | h | h | h | h | h | h |
          h | h | h | h | h | h | h <;> contradiction

theorem getNextToken_loop_lines {source : List Byte} {start : Nat} :
    ∀ (fuel : Nat) (lx : Lexer) (v : ScanVars) (p : Nat) (t : Token) (lx1 : Lexer),
      ScanAt source start lx v p → getNextToken_loop fuel lx v = some (t, lx1) →
      CallResult source start t lx1 := by
  intro fuel
  induction fuel with
  | zero => intro lx v p t lx1 _ h; simp [getNextToken_loop] at h
  | succ n ih =>
    intro lx v p t lx1 hinv h
    have hb := getNextToken_body_lines hinv
    unfold getNextToken_loop at h
    cases hr : getNextToken_body lx v with
    | ret t2 lx2 =>
      rw [hr] at h hb
      simp only [Option.some.injEq, Prod.mk.injEq] at h
      rw [← h.1, ← h.2]
      exact hb
    | again lx2 v2 =>
      rw [hr] at h hb
      exact ih lx2 v2 (p + 1) t lx1 hb h

/-- What a call of `getNextToken` returns when the lexer stands at offset `p`. -/
theorem getNextToken_lines {source : List Byte} {lx lx1 : Lexer} {p : Nat} {t : Token}
    (h : AtPos source lx p) (hg : getNextToken lx = some (t, lx1)) :
    CallResult source p t lx1 :=
  getNextToken_loop_lines _ _ _ p _ _
    ⟨h, Nat.le_refl _, Or.inl ⟨rfl, rfl, fun k c h1 h2 => by omega⟩⟩ hg

theorem init_AtPos (char_is_signed : Bool) (source : List Byte) :
    AtPos source (Lexer.init char_is_signed source) 0 :=
  ⟨Nat.zero_le _, by simp [Lexer.remaining, Lexer.init], by simp [Lexer.init, lineAt]⟩

theorem keywords_ne_NONE (s : String) : keywords s ≠ some NONE_TOK := by
  intro h
  have := mapFind_mem _ _ _ h
  simp [keywordTable] at this

theorem TokAt_code {source : List Byte} {t : Token} {q e : Nat} (h : TokAt source t q e) :
    t.code ≠ NONE_TOK ∧ t.code ≠ EOF_TOK ∧ t.code ≠ ERROR_TOK := by
  obtain ⟨_, _, _, _, hs | hs | hs⟩ := h
  · obtain ⟨_, c, _, hc⟩ := hs
    have key : ∀ c : Byte, ∀ code, punctCode c = some code →
        code ≠ NONE_TOK ∧ code ≠ EOF_TOK ∧ code ≠ ERROR_TOK := by decide!
    exact key c _ hc
  · rw [hs.1]
    refine ⟨?_, finalize_identifier_code _ _, finalize_identifier_ne_ERROR _ _⟩
    unfold finalize_identifier
    cases hk : keywords t.lexeme with
    | none => simp
    | some code =>
      simp only
      intro h2
      exact keywords_ne_NONE t.lexeme (by rw [hk, h2])
  · rw [hs.1]
    exact ⟨by decide, by decide, by decide⟩

/-- The tokens the repeated calls of `getNextToken` return in front of the sentinel lie in
the source text as `LexedFrom` describes. -/
theorem tokensBeforeEOF_lexed {source : List Byte} :
    ∀ (n : Nat) (lx : Lexer) (p : Nat) (ts : List Token) (lx1 : Lexer),
      AtPos source lx p → tokensBeforeEOF n lx = some (ts, lx1) →
      ∃ pe, LexedFrom source p ts pe ∧ EndAt source pe := by
  intro n
  induction n with
  | zero =>
    intro lx p ts lx1 hat h
    unfold tokensBeforeEOF at h
    cases hg : getNextToken lx with
    | none => rw [hg] at h; cases h
    | some r =>
      obtain ⟨t, lx2⟩ := r
      rw [hg] at h
      simp only at h
      rcases getNextToken_lines hat hg with ⟨c1, _, pe, c3, c4, c5, _⟩ | ⟨c1, _⟩
      · rw [if_pos c1] at h
        simp only [Option.some.injEq, Prod.mk.injEq] at h
        rw [← h.1]
        exact ⟨pe, ⟨c3, c4⟩, c5⟩
      · rw [if_neg c1] at h
        cases h
  | succ m ih =>
    intro lx p ts lx1 hat h
    unfold tokensBeforeEOF at h
    cases hg : getNextToken lx with
    | none => rw [hg] at h; cases h
    | some r =>
      obtain ⟨t, lx2⟩ := r
      rw [hg] at h
      simp only at h
      rcases getNextToken_lines hat hg with ⟨c1, _, pe, c3, c4, c5, _⟩ |
        ⟨c1, q, e, c2, c3, c4, c5⟩
      · rw [if_pos c1] at h
        simp only [Option.some.injEq, Prod.mk.injEq] at h
        rw [← h.1]
        exact ⟨pe, ⟨c3, c4⟩, c5⟩
      · rw [if_neg c1] at h
        cases hrec : tokensBeforeEOF m lx2 with
        | none => rw [hrec] at h; cases h
        | some r2 =>
          obtain ⟨ts2, lx3⟩ := r2
          rw [hrec] at h
          simp only [Option.some.injEq, Prod.mk.injEq] at h
          obtain ⟨pe, l1, l2⟩ := ih lx2 e ts2 lx3 c5 hrec
          rw [← h.1]
          exact ⟨pe, ⟨q, e, c2, c3, c4, l1⟩, l2⟩

/-- The token vector the loop of `main` builds is the tokens in front of the sentinel, which
lie in the source text as `LexedFrom` describes, and then the sentinel. -/
theorem tokenLoop_lexed {source : List Byte} :
    ∀ (fuel : Nat) (lx : Lexer) (acc ts : List Token) (p : Nat),
      AtPos source lx p → tokenLoop fuel lx acc = .tokens ts →
      ∃ rest pe, ts = acc ++ rest ++ [⟨EOF_TOK, "EOF", lineAt source pe⟩] ∧
        LexedFrom source p rest pe ∧ EndAt source pe := by
  intro fuel
  induction fuel with
  | zero => intro lx acc ts p _ h; simp [tokenLoop] at h
  | succ n ih =>
    intro lx acc ts p hat h
    unfold tokenLoop at h
    cases hg : getNextToken lx with
    | none => rw [hg] at h; cases h
    | some r =>
      obtain ⟨t, lx1⟩ := r
      rw [hg] at h
      simp only at h
      rcases getNextToken_lines hat hg with ⟨c1, c2, pe, c3, c4, c5, c6⟩ |
        ⟨c1, q, e, c2, c3, c4, c5⟩
      · have hn : t.code ≠ NONE_TOK := by rw [c1]; decide
        rw [if_pos hn] at h
        split_ifs at h with d1 d2 d3
        · exact absurd c1 d3
        · simp only [TokenLoopResult.tokens.injEq] at h
          refine ⟨[], pe, ?_, ⟨c3, c4⟩, c5⟩
          rw [← h, List.append_nil]
          congr 2
          obtain ⟨code, lexeme, line⟩ := t
          simp only at c1 c2 c6
          rw [c1, c2, c6]
      · obtain ⟨hn, _, _⟩ := TokAt_code c4
        rw [if_pos hn] at h
        split_ifs at h with d1 d2
        · obtain ⟨rest, pe, l1, l2, l3⟩ := ih lx1 (acc ++ [t]) ts e c5 h
          refine ⟨t :: rest, pe, ?_, ⟨q, e, c2, c3, c4, l2⟩, l3⟩
          rw [l1]
          simp

/-! ### What the text of the source says of its tokens -/

theorem byte_classes : ∀ c : Byte,
    (isLetterByte c = true → isDigitByte c = false) ∧
    ((punctCode c).isSome = true → isIdByte c = false) ∧
    (isIdByte c = true → isSkipped c = false ∧ isBlankByte c = false) ∧
    ((punctCode c).isSome = true → isSkipped c = false ∧ isBlankByte c = false) ∧
    (isRecognised c = true → c.val ≤ 127) ∧
    (isRecognised c = true → isSkipped c = true → isBlankByte c = true) := by
  decide!

theorem slice_one {source : List Byte} {q : Nat} {c : Byte} (h : source[q]? = some c) :
    slice source q (q + 1) = [c] := by
  rw [slice_succ (Nat.le_refl q) h, slice_self]
  rfl

theorem TokAt_first {source : List Byte} {t : Token} {q e : Nat} (h : TokAt source t q e) :
    ∃ c, source[q]? = some c ∧ isSkipped c = false := by
  obtain ⟨h1, h2, _, _, hs | hs | hs⟩ := h
  · obtain ⟨_, c, hc, hp⟩ := hs
    exact ⟨c, hc, (punctCode_ne_EOF hp).2.2⟩
  · obtain ⟨c, hc, hl⟩ := hs.2.1.1
    exact ⟨c, hc, (letter_not_newline (by simp [isIdByte, hl])).2⟩
  · have hq : q < source.length := by have := h2.2.1; omega
    have hc : source[q]? = some source[q] := List.getElem?_eq_getElem hq
    have hd := hs.2.1 q _ (Nat.le_refl _) h1 hc
    exact ⟨_, hc, (letter_not_newline (by simp [isIdByte, hd])).2⟩

theorem LexedFrom_first {source : List Byte} {p pe : Nat} {t : Token} {rest : List Token}
    {c : Byte} (h : LexedFrom source p (t :: rest) pe) (hc : source[p]? = some c)
    (hs : isSkipped c = false) : ∃ e, TokAt source t p e ∧ LexedFrom source e rest pe := by
  obtain ⟨q, e, h1, h2, h3, h4⟩ := h
  have hq : q = p := by
    by_contra hne
    have := h2 p c (Nat.le_refl _) (by omega) hc
    rw [hs] at this
    cases this
  subst hq
  exact ⟨e, h3, h4⟩

theorem LexedFrom_skip {source : List Byte} {p pe : Nat} {ts : List Token} {c : Byte}
    (h : LexedFrom source p ts pe) (he : EndAt source pe) (hc : source[p]? = some c)
    (hs : isSkipped c = true) (h7 : c.val ≤ 127) : LexedFrom source (p + 1) ts pe := by
  cases ts with
  | nil =>
    obtain ⟨h1, h2⟩ := h
    have hlt : p < pe := by
      by_contra hn
      have e0 : pe = p := by omega
      subst e0
      rcases he with he | ⟨d, hd, h127⟩
      · rw [List.getElem?_eq_none (by omega)] at hc
        cases hc
      · rw [hc] at hd
        cases hd
        omega
    exact ⟨by omega, fun k d k1 k2 hk => h2 k d (by omega) k2 hk⟩
  | cons t rest =>
    obtain ⟨q, e, h1, h2, h3, h4⟩ := h
    obtain ⟨d, hd, hsk⟩ := TokAt_first h3
    have hlt : p < q := by
      by_contra hn
      have e0 : q = p := by omega
      subst e0
      rw [hc] at hd
      cases hd
      rw [hs] at hsk
      cases hsk
    exact ⟨q, e, by omega, fun k d k1 k2 hk => h2 k d (by omega) k2 hk, h3, h4⟩

theorem LexedFrom_end {source : List Byte} {p pe : Nat} {ts : List Token}
    (h : LexedFrom source p ts pe) (hp : source.length ≤ p) : ts = [] := by
  cases ts with
  | nil => rfl
  | cons t rest =>
    obtain ⟨q, e, h1, _, h3, _⟩ := h
    have := h3.1
    have := h3.2.1.2.1
    omega

theorem lexeme_eq {lexeme : String} {cs : List Char} (h : lexeme.toList = cs) :
    lexeme = String.mk cs := by
  cases lexeme
  simp only [String.toList] at h
  rw [h]

/-- The token of a letter followed by letters and digits. -/
theorem TokAt_ident {source : List Byte} {t : Token} {q e n : Nat} {c : Byte}
    (h : TokAt source t q e) (hc : source[q]? = some c) (hl : isLetterByte c = true)
    (hrun : ∀ k d, q ≤ k → k < q + n → source[k]? = some d → isIdByte d = true)
    (hn : n ≤ 1023) (hlen : q + n ≤ source.length)
    (hend : n = 1023 ∨ ∀ d, source[q + n]? = some d → isIdByte d = false) :
    e = q + n ∧
    t = finalize_identifier (String.mk ((slice source q (q + n)).map byteChar))
      (lineAt source q) := by
  obtain ⟨h1, h2, h3, h4, hs⟩ := h
  obtain ⟨b1, b2, b3, b4, b5, b6⟩ := byte_classes c
  have hid : t = finalize_identifier t.lexeme t.line ∧ IdRun source q e ∧
      (e - q = 1023 ∨ ∀ c, source[e]? = some c → isIdByte c = false) := by
    rcases hs with ⟨_, d, hd, hp⟩ | hs | ⟨_, hrunD, _⟩
    · rw [hc] at hd
      cases hd
      have := b2 (by rw [hp]; rfl)
      simp [isIdByte, hl] at this
    · exact hs
    · have := hrunD q c (Nat.le_refl _) h1 hc
      rw [b1 hl] at this
      cases this
  obtain ⟨s1, s2, s3⟩ := hid
  have hle := h2.2.1
  have he : e = q + n := by
    rcases Nat.lt_trichotomy e (q + n) with hlt | heq | hgt
    · have hex : source[e]? = some source[e] := List.getElem?_eq_getElem (by omega)
      have := hrun e _ (by omega) hlt hex
      rcases s3 with s3 | s3
      · omega
      · rw [s3 _ hex] at this
        cases this
    · exact heq
    · have hex : source[q + n]? = some source[q + n] := List.getElem?_eq_getElem (by omega)
      have := s2.2 (q + n) _ (by omega) hgt hex
      rcases hend with hend | hend
      · omega
      · rw [hend _ hex] at this
        cases this
  subst he
  refine ⟨rfl, ?_⟩
  calc t = finalize_identifier t.lexeme t.line := s1
    _ = _ := by rw [lexeme_eq h2.2.2, h3]

/-- The token of a run of digits. -/
theorem TokAt_number {source : List Byte} {t : Token} {q e n : Nat} {c : Byte}
    (h : TokAt source t q e) (hc : source[q]? = some c) (hl : isDigitByte c = true)
    (hrun : ∀ k d, q ≤ k → k < q + n → source[k]? = some d → isDigitByte d = true)
    (hn : n ≤ 1023) (hlen : q + n ≤ source.length)
    (hend : n = 1023 ∨ ∀ d, source[q + n]? = some d → isDigitByte d = false) :
    e = q + n ∧
    t = ⟨NUM_TOK, String.mk ((slice source q (q + n)).map byteChar), lineAt source q⟩ := by
  obtain ⟨h1, h2, h3, h4, hs⟩ := h
  obtain ⟨b1, b2, b3, b4, b5, b6⟩ := byte_classes c
  have hid : t.code = NUM_TOK ∧ DigitRun source q e ∧
      (e - q = 1023 ∨ ∀ c, source[e]? = some c → isDigitByte c = false) := by
    rcases hs with ⟨_, d, hd, hp⟩ | ⟨_, ⟨⟨d, hd, hdl⟩, _⟩, _⟩ | hs
    · rw [hc] at hd
      cases hd
      have := b2 (by rw [hp]; rfl)
      simp [isIdByte, hl] at this
    · rw [hc] at hd
      cases hd
      rw [b1 hdl] at hl
      cases hl
    · exact hs
  obtain ⟨s1, s2, s3⟩ := hid
  have hle := h2.2.1
  have he : e = q + n := by
    rcases Nat.lt_trichotomy e (q + n) with hlt | heq | hgt
    · have hex : source[e]? = some source[e] := List.getElem?_eq_getElem (by omega)
      have := hrun e _ (by omega) hlt hex
      rcases s3 with s3 | s3
      · omega
      · rw [s3 _ hex] at this
        cases this
    · exact heq
    · have hex : source[q + n]? = some source[q + n] := List.getElem?_eq_getElem (by omega)
      have := s2 (q + n) _ (by omega) hgt hex
      rcases hend with hend | hend
      · omega
      · rw [hend _ hex] at this
        cases this
  subst he
  refine ⟨rfl, ?_⟩
  obtain ⟨code, lexeme, line⟩ := t
  simp only at s1 h2 h3
  rw [s1, lexeme_eq h2.2.2, h3]

/-- The token of a punctuation character. -/
theorem TokAt_punct {source : List Byte} {t : Token} {q e : Nat} {c : Byte} {code : TokenCode}
    (h : TokAt source t q e) (hc : source[q]? = some c) (hp : punctCode c = some code) :
    e = q + 1 ∧ t = ⟨code, string1 c, lineAt source q⟩ := by
  obtain ⟨h1, h2, h3, h4, hs⟩ := h
  obtain ⟨b1, b2, b3, b4, b5, b6⟩ := byte_classes c
  have hnid := b2 (by rw [hp]; rfl)
  rcases hs with ⟨he, d, hd, hpd⟩ | ⟨_, ⟨⟨d, hd, hdl⟩, _⟩, _⟩ | ⟨_, hrunD, _⟩
  · rw [hc] at hd
    cases hd
    rw [hp] at hpd
    subst he
    refine ⟨rfl, ?_⟩
    obtain ⟨code1, lexeme, line⟩ := t
    simp only [Option.some.injEq] at hpd h2 h3
    have hl := lexeme_eq h2.2.2
    rw [slice_one hc] at hl
    rw [hpd, hl, h3]
    rfl
  · rw [hc] at hd
    cases hd
    simp [isIdByte, hdl] at hnid
  · have := hrunD q c (Nat.le_refl _) h1 hc
    simp [isIdByte, this] at hnid

theorem slice_append {source : List Byte} {p q e : Nat} (h1 : p ≤ q) (h2 : q ≤ e) :
    slice source p e = slice source p q ++ slice source q e := by
  unfold slice
  have e1 : e - p = (q - p) + (e - q) := by omega
  have e2 : p + (q - p) = q := by omega
  rw [e1, List.take_add, List.drop_drop, e2]

theorem mem_slice {source : List Byte} {p e : Nat} {b : Byte} (h : b ∈ slice source p e) :
    ∃ k, p ≤ k ∧ k < e ∧ source[k]? = some b := by
  unfold slice at h
  obtain ⟨i, hi⟩ := List.mem_iff_getElem?.mp h
  rw [List.getElem?_take] at hi
  split_ifs at hi with hlt
  rw [List.getElem?_drop] at hi
  exact ⟨p + i, by omega, by omega, hi⟩

theorem slice_all (source : List Byte) : slice source 0 source.length = source := by
  unfold slice
  simp

theorem LexedFrom_le {source : List Byte} {pe : Nat} :
    ∀ (ts : List Token) (p : Nat), LexedFrom source p ts pe → p ≤ pe := by
  intro ts
  induction ts with
  | nil => intro p h; exact h.1
  | cons t rest ih =>
    intro p h
    obtain ⟨q, e, h1, _, h3, h4⟩ := h
    have := ih e h4
    have := h3.1
    omega

theorem LexedFrom_mem {source : List Byte} {pe : Nat} {t : Token} :
    ∀ (ts : List Token) (p : Nat), LexedFrom source p ts pe → t ∈ ts →
      ∃ q e, p ≤ q ∧ TokAt source t q e := by
  intro ts
  induction ts with
  | nil => intro p _ hm; cases hm
  | cons t1 rest ih =>
    intro p h hm
    obtain ⟨q, e, h1, _, h3, h4⟩ := h
    rcases List.mem_cons.mp hm with hm | hm
    · rw [hm]
      exact ⟨q, e, h1, h3⟩
    · obtain ⟨q1, e1, c1, c2⟩ := ih e h4 hm
      have := h3.1
      exact ⟨q1, e1, by omega, c2⟩

theorem LexedFrom_token {source : List Byte} {p pe : Nat} {ts : List Token} {c : Byte}
    (h : LexedFrom source p ts pe) (he : EndAt source pe) (hc : source[p]? = some c)
    (hs : isSkipped c = false) (h7 : c.val ≤ 127) :
    ∃ t rest e, ts = t :: rest ∧ TokAt source t p e ∧ LexedFrom source e rest pe := by
  cases ts with
  | nil =>
    obtain ⟨h1, h2⟩ := h
    exfalso
    by_cases hlt : p < pe
    · have := h2 p c (Nat.le_refl _) hlt hc
      rw [hs] at this
      cases this
    · have e0 : pe = p := by omega
      subst e0
      rcases he with he | ⟨d, hd, h127⟩
      · rw [List.getElem?_eq_none (by omega)] at hc
        cases hc
      · rw [hc] at hd
        cases hd
        omega
  | cons t rest =>
    obtain ⟨e, c1, c2⟩ := LexedFrom_first h hc hs
    exact ⟨t, rest, e, rfl, c1, c2⟩

theorem LexedFrom_last {source : List Byte} {pe : Nat}
    (h : LexedFrom source source.length [] pe) (he : EndAt source pe) : pe = source.length := by
  rcases he with he | ⟨d, hd, _⟩
  · exact he
  · have := h.1
    rw [List.getElem?_eq_none (by omega)] at hd
    cases hd

theorem TokAt_bytes {source : List Byte} {t : Token} {q e : Nat} (h : TokAt source t q e) :
    ∀ k c, q ≤ k → k < e → source[k]? = some c → isBlankByte c = false := by
  intro k c h1 h2 hc
  obtain ⟨b1, b2, b3, b4, b5, b6⟩ := byte_classes c
  obtain ⟨_, _, _, _, hs | hs | hs⟩ := h
  · obtain ⟨he, d, hd, hp⟩ := hs
    have : k = q := by omega
    subst this
    rw [hc] at hd
    cases hd
    exact (b4 (by rw [hp]; rfl)).2
  · exact (b3 (hs.2.1.2 k c h1 h2 hc)).2
  · exact (b3 (by simp [isIdByte, hs.2.1 k c h1 h2 hc])).2

theorem filter_none {l : List Byte} (h : ∀ b ∈ l, isBlankByte b = true) :
    l.filter (fun b => !isBlankByte b) = [] := by
  rw [List.filter_eq_nil_iff]
  intro b hb
  simp [h b hb]

theorem filter_all {l : List Byte} (h : ∀ b ∈ l, isBlankByte b = false) :
    l.filter (fun b => !isBlankByte b) = l := by
  rw [List.filter_eq_self]
  intro b hb
  simp [h b hb]

theorem Skipped_blank {source : List Byte} {p q : Nat}
    (hr : ∀ b ∈ source, isRecognised b = true) (h : Skipped source p q) :
    (slice source p q).filter (fun b => !isBlankByte b) = [] := by
  apply filter_none
  intro b hb
  obtain ⟨k, k1, k2, hk⟩ := mem_slice hb
  exact (byte_classes b).2.2.2.2.2 (hr b (List.mem_iff_getElem?.mpr ⟨k, hk⟩)) (h k b k1 k2 hk)

/-- On a source text of recognised characters the lexemes of the tokens, one after the
other, are the text without its spaces and newlines. -/
theorem LexedFrom_text {source : List Byte} {pe : Nat}
    (hr : ∀ b ∈ source, isRecognised b = true) :
    ∀ (ts : List Token) (p : Nat), LexedFrom source p ts pe →
      lexemesText ts = ((slice source p pe).filter (fun b => !isBlankByte b)).map byteChar := by
  intro ts
  induction ts with
  | nil =>
    intro p h
    rw [Skipped_blank hr h.2]
    rfl
  | cons t rest ih =>
    intro p h
    obtain ⟨q, e, h1, h2, h3, h4⟩ := h
    have hqe := h3.1
    have hle := LexedFrom_le rest e h4
    rw [slice_append (Nat.le_trans h1 (Nat.le_of_lt hqe)) hle, slice_append h1 (Nat.le_of_lt hqe),
      List.filter_append, List.filter_append, Skipped_blank hr h2, List.nil_append,
      List.map_append, ← ih e h4]
    have hf : (slice source q e).filter (fun b => !isBlankByte b) = slice source q e := by
      apply filter_all
      intro b hb
      obtain ⟨k, k1, k2, hk⟩ := mem_slice hb
      exact TokAt_bytes h3 k b k1 k2 hk
    rw [hf, ← h3.2.1.2.2]
    rfl

theorem byteChar_classes : ∀ b : Byte,
    (isLetterByte b = true → (byteChar b).isAlpha = true) ∧
    (isDigitByte b = true → (byteChar b).isDigit = true) ∧
    (isIdByte b = true → (byteChar b).isAlphanum = true) := by
  decide!

theorem punctCode_kind : ∀ c : Byte,
    punctCode c ≠ some ID_TOK ∧ punctCode c ≠ some NUM_TOK := by
  decide!

theorem keywords_ne_ID (s : String) : keywords s ≠ some ID_TOK := by
  intro h
  have := mapFind_mem _ _ _ h
  simp [keywordTable] at this

theorem keywords_ne_NUM (s : String) : keywords s ≠ some NUM_TOK := by
  intro h
  have := mapFind_mem _ _ _ h
  simp [keywordTable] at this

/-- A token of code `NUM_TOK` is the token of a run of digits. -/
theorem TokAt_NUM {source : List Byte} {t : Token} {q e : Nat} (h : TokAt source t q e)
    (hc : t.code = NUM_TOK) : DigitRun source q e := by
  obtain ⟨_, _, _, _, hs | hs | hs⟩ := h
  · obtain ⟨_, c, _, hp⟩ := hs
    rw [hc] at hp
    exact absurd hp (punctCode_kind c).2
  · exfalso
    have h1 := hs.1
    unfold finalize_identifier at h1
    cases hk : keywords t.lexeme with
    | none =>
      rw [hk] at h1
      rw [h1] at hc
      cases hc
    | some code =>
      rw [hk] at h1
      rw [h1] at hc
      simp only at hc
      exact keywords_ne_NUM t.lexeme (by rw [hk, hc])
  · exact hs.2.1

/-- A token of code `ID_TOK` is the token of a letter followed by letters and digits, and
its lexeme is no keyword. -/
theorem TokAt_ID {source : List Byte} {t : Token} {q e : Nat} (h : TokAt source t q e)
    (hc : t.code = ID_TOK) : IdRun source q e ∧ keywords t.lexeme = none := by
  obtain ⟨_, _, _, _, hs | hs | hs⟩ := h
  · obtain ⟨_, c, _, hp⟩ := hs
    rw [hc] at hp
    exact absurd hp (punctCode_kind c).1
  · refine ⟨hs.2.1, ?_⟩
    have h1 := hs.1
    unfold finalize_identifier at h1
    cases hk : keywords t.lexeme with
    | none => rfl
    | some code =>
      exfalso
      rw [hk] at h1
      rw [h1] at hc
      simp only at hc
      exact keywords_ne_ID t.lexeme (by rw [hk, hc])
  · rw [hs.1] at hc
    cases hc

theorem slice_cons {source : List Byte} {q e : Nat} {c : Byte} (h : q < e)
    (hc : source[q]? = some c) : slice source q e = c :: slice source (q + 1) e := by
  rw [slice_append (Nat.le_succ q) h, slice_one hc]
  rfl

theorem lexed_source (char_is_signed : Bool) (source : List Byte) :
    ∃ ts lx1 pe,
      tokensBeforeEOF source.length (Lexer.init char_is_signed source) = some (ts, lx1) ∧
      LexedFrom source 0 ts pe ∧ EndAt source pe := by
  have hp : (Lexer.init char_is_signed source).pending ≤ source.length := by
    simp [Lexer.init, Lexer.pending]
  obtain ⟨ts, lx1, _, _, f1, _⟩ :=
    tokensBeforeEOF_spec source.length (Lexer.init char_is_signed source) hp
  obtain ⟨pe, l1, l2⟩ :=
    tokensBeforeEOF_lexed source.length _ 0 ts lx1 (init_AtPos char_is_signed source) f1
  exact ⟨ts, lx1, pe, f1, l1, l2⟩

/-- C26 (token line).  For every input, the tokens `getNextToken` returns in front of the
sentinel lie in the source text one after the other (`LexedFrom`), and each of them has a
lexeme that is the text of the source from an offset `q` up to an offset `e`, with `q < e`,
and a line that is 1 plus the number of newline characters among the `q` bytes in front of
offset `q`.  The token vector `main` builds is such a list of tokens and then the sentinel.
In the text of five lines `sourceLines` the tokens are on the lines 1, 1, 1, 2, 4, 4, 4, 4
and 5. -/
theorem token_line (char_is_signed : Bool) (source : List Byte) :
    (∃ ts lx1 pe,
      tokensBeforeEOF source.length (Lexer.init char_is_signed source) = some (ts, lx1) ∧
      LexedFrom source 0 ts pe ∧
      ∀ t ∈ ts, ∃ q e, q < e ∧ e ≤ source.length ∧
        t.lexeme.toList = ((source.drop q).take (e - q)).map byteChar ∧
        t.line = 1 + (((source.take q).count newline : Nat) : Int)) ∧
    (∀ ts, tokenLoop (source.length + 1) (Lexer.init char_is_signed source) [] = .tokens ts →
      ∃ rest pe, ts = rest ++ [⟨EOF_TOK, "EOF", lineAt source pe⟩] ∧
        LexedFrom source 0 rest pe) ∧
    (tokensBeforeEOF sourceLines.length (Lexer.init char_is_signed sourceLines)).map Prod.fst =
      some [⟨INT_TOK, "int", 1⟩, ⟨ID_TOK, "a", 1⟩, ⟨SEMICOLON_TOK, ";", 1⟩,
        ⟨BEG_TOK, "begin", 2⟩, ⟨ID_TOK, "a", 4⟩, ⟨EQ_TOK, "=", 4⟩, ⟨NUM_TOK, "12", 4⟩,
        ⟨SEMICOLON_TOK, ";", 4⟩, ⟨END_TOK, "end", 5⟩] := by
  refine ⟨?_, ?_, ?_⟩
  · obtain ⟨ts, lx1, pe, f1, l1, _⟩ := lexed_source char_is_signed source
    refine ⟨ts, lx1, pe, f1, l1, ?_⟩
    intro t ht
    obtain ⟨q, e, _, c1, c2, c3, _⟩ := LexedFrom_mem ts 0 l1 ht
    exact ⟨q, e, c1, c2.2.1, c2.2.2, c3⟩
  · intro ts h
    obtain ⟨rest, pe, e1, l1, _⟩ :=
      tokenLoop_lexed _ _ [] ts 0 (init_AtPos char_is_signed source) h
    exact ⟨rest, pe, by rw [e1]; rfl, l1⟩
  · cases char_is_signed <;> decide!

theorem keywords_short {s : String} {code : TokenCode} (h : keywords s = some code) :
    s.length ≤ 6 := by
  have key : ∀ p ∈ keywordTable, p.1.length ≤ 6 := by decide
  exact key (s, code) (mapFind_mem _ _ _ h)

/-- The call of `getNextToken` at the start of a token. -/
theorem getNextToken_at {source : List Byte} {lx : Lexer} {q : Nat} {c : Byte}
    (hat : AtPos source lx q) (hc : source[q]? = some c) (hs : isSkipped c = false)
    (h7 : c.val ≤ 127) :
    ∃ t lx1 e, getNextToken lx = some (t, lx1) ∧ TokAt source t q e ∧ AtPos source lx1 e := by
  obtain ⟨t, lx1, hg, _, _⟩ := getNextToken_total lx
  refine ⟨t, lx1, ?_⟩
  rcases getNextToken_lines hat hg with ⟨_, _, pe, c3, c4, c5, _⟩ | ⟨_, q1, e, c2, c3, c4, c5⟩
  · exfalso
    by_cases hlt : q < pe
    · have := c4 q c (Nat.le_refl _) hlt hc
      rw [hs] at this
      cases this
    · have e0 : pe = q := by omega
      subst e0
      rcases c5 with he | ⟨d, hd, h127⟩
      · rw [List.getElem?_eq_none (by omega)] at hc
        cases hc
      · rw [hc] at hd
        cases hd
        omega
  · have e0 : q1 = q := by
      by_contra hne
      have := c3 q c (Nat.le_refl _) (by omega) hc
      rw [hs] at this
      cases this
    subst e0
    exact ⟨e, hg, c4, c5⟩

theorem idByte_ascii : ∀ c : Byte, isIdByte c = true →
    c.val ≤ 127 ∧ isSkipped c = false ∧ c ≠ newline ∧ c ≠ space := by
  decide!

/-- C31 (lexeme cap).  For every input, every token `getNextToken` returns in front of the
sentinel has a lexeme of at most 1023 characters.  When the lexer stands at offset `q` of the
source, in front of a letter that starts a run of `n` letters and digits with `n` above 1023,
the call of `getNextToken` returns the keyword or identifier token whose lexeme is the
first 1023 characters of the run, and leaves the lexer at offset `q + 1023` : what it has
still to read starts with the 1024th character of the run.  The same holds of a run of more
than 1023 digits and the number token.  On a source text of `n` letters `a`, with `n` above
1023, the first token is the identifier of 1023 letters `a` and the other `n - 1023` letters
are still to be read. -/
theorem lexeme_cap (char_is_signed : Bool) (source : List Byte) :
    (∃ ts lx1,
      tokensBeforeEOF source.length (Lexer.init char_is_signed source) = some (ts, lx1) ∧
      ∀ t ∈ ts, t.lexeme.length ≤ 1023) ∧
    (∀ (lx : Lexer) (q n : Nat) (c : Byte), AtPos source lx q → 1023 < n →
      source[q]? = some c → isLetterByte c = true →
      (∀ k, q ≤ k → k < q + n → ∃ d, source[k]? = some d ∧ isIdByte d = true) →
      ∃ lx1, getNextToken lx =
          some (finalize_identifier (String.mk ((slice source q (q + 1023)).map byteChar))
            (lineAt source q), lx1) ∧
        AtPos source lx1 (q + 1023)) ∧
    (∀ (lx : Lexer) (q n : Nat), AtPos source lx q → 1023 < n →
      (∀ k, q ≤ k → k < q + n → ∃ d, source[k]? = some d ∧ isDigitByte d = true) →
      ∃ lx1, getNextToken lx =
          some (⟨NUM_TOK, String.mk ((slice source q (q + 1023)).map byteChar),
            lineAt source q⟩, lx1) ∧
        AtPos source lx1 (q + 1023)) ∧
    (∀ n, 1023 < n →
      ∃ lx1, getNextToken (Lexer.init char_is_signed (List.replicate n 97)) =
          some (⟨ID_TOK, String.mk (List.replicate 1023 (Char.ofNat 97)), 1⟩, lx1) ∧
        lx1.remaining = List.replicate (n - 1023) 97) := by
  have hid : ∀ (src : List Byte) (lx : Lexer) (q n : Nat) (c : Byte), AtPos src lx q →
      1023 < n → src[q]? = some c → isLetterByte c = true →
      (∀ k, q ≤ k → k < q + n → ∃ d, src[k]? = some d ∧ isIdByte d = true) →
      ∃ lx1, getNextToken lx =
          some (finalize_identifier (String.mk ((slice src q (q + 1023)).map byteChar))
            (lineAt src q), lx1) ∧
        AtPos src lx1 (q + 1023) := by
    intro src lx q n c hat hn hc hl hrun
    have hidc : isIdByte c = true := by simp [isIdByte, hl]
    obtain ⟨a1, a2, _, _⟩ := idByte_ascii c hidc
    obtain ⟨t, lx1, e, hg, ht, hat1⟩ := getNextToken_at hat hc a2 a1
    have hlen : q + 1023 ≤ src.length := by
      obtain ⟨d, hd, _⟩ := hrun (q + 1023) (by omega) (by omega)
      by_contra hlt
      rw [List.getElem?_eq_none (by omega)] at hd
      cases hd
    obtain ⟨e1, e2⟩ := TokAt_ident ht hc hl
      (fun k d k1 k2 hk => by
        obtain ⟨d1, hd1, hd2⟩ := hrun k k1 (by omega)
        rw [hk] at hd1
        cases hd1
        exact hd2)
      (Nat.le_refl 1023) hlen (Or.inl rfl)
    rw [e1] at hat1
    rw [e2] at hg
    exact ⟨lx1, hg, hat1⟩
  refine ⟨?_, hid source, ?_, ?_⟩
  · obtain ⟨ts, lx1, pe, f1, l1, _⟩ := lexed_source char_is_signed source
    refine ⟨ts, lx1, f1, ?_⟩
    intro t ht
    obtain ⟨q, e, _, _, c2, _, c4, _⟩ := LexedFrom_mem ts 0 l1 ht
    rw [LexemeAt_length c2]
    exact c4
  · intro lx q n hat hn hrun
    obtain ⟨c, hc, hl⟩ := hrun q (Nat.le_refl _) (by omega)
    have hidc : isIdByte c = true := by simp [isIdByte, hl]
    obtain ⟨a1, a2, _, _⟩ := idByte_ascii c hidc
    obtain ⟨t, lx1, e, hg, ht, hat1⟩ := getNextToken_at hat hc a2 a1
    have hlen : q + 1023 ≤ source.length := by
      obtain ⟨d, hd, _⟩ := hrun (q + 1023) (by omega) (by omega)
      by_contra hlt
      rw [List.getElem?_eq_none (by omega)] at hd
      cases hd
    obtain ⟨e1, e2⟩ := TokAt_number ht hc hl
      (fun k d k1 k2 hk => by
        obtain ⟨d1, hd1, hd2⟩ := hrun k k1 (by omega)
        rw [hk] at hd1
        cases hd1
        exact hd2)
      (Nat.le_refl 1023) hlen (Or.inl rfl)
    rw [e1] at hat1
    rw [e2] at hg
    exact ⟨lx1, hg, hat1⟩
  · intro n hn
    have hget : ∀ k, k < n → (List.replicate n (97 : Byte))[k]? = some 97 := by
      intro k hk
      rw [List.getElem?_replicate, if_pos hk]
    obtain ⟨lx1, hg, hat1⟩ := hid (List.replicate n 97) (Lexer.init char_is_signed _) 0 n 97
      (init_AtPos char_is_signed _) hn (hget 0 (by omega)) (by decide)
      (fun k _ k2 => ⟨97, hget k (by omega), by decide⟩)
    refine ⟨lx1, ?_, ?_⟩
    · rw [hg]
      have hs : slice (List.replicate n (97 : Byte)) 0 (0 + 1023) = List.replicate 1023 97 := by
        unfold slice
        simp only [List.drop_zero, Nat.zero_add, Nat.sub_zero, List.take_replicate]
        congr 1
        omega
      have hl : lineAt (List.replicate n (97 : Byte)) 0 = 1 := by simp [lineAt]
      rw [hs, hl, List.map_replicate]
      have hb : byteChar 97 = Char.ofNat 97 := rfl
      rw [hb]
      unfold finalize_identifier
      cases hk : keywords (String.mk (List.replicate 1023 (Char.ofNat 97))) with
      | none => rfl
      | some code =>
        have h6 := keywords_short hk
        have hl : (String.mk (List.replicate 1023 (Char.ofNat 97))).length = 1023 :=
          List.length_replicate _ _
        rw [hl] at h6
        omega
    · rw [hat1.2.1, List.drop_replicate]

/-- C37 (lexeme concatenation).  For every input made of recognised characters only
(letters, digits, spaces, newlines and the fifteen punctuation characters), the lexemes of
the tokens `getNextToken` returns in front of the sentinel, written one after the other, are
the input without its spaces and newlines; the lexeme of every token of code `NUM_TOK` is a
string of digits that is not empty; the lexeme of every token of code `ID_TOK` is a letter
followed by letters and digits and is no keyword. -/
theorem lexeme_concatenation (char_is_signed : Bool) (source : List Byte)
    (hr : ∀ b ∈ source, isRecognised b = true) :
    ∃ ts lx1,
      tokensBeforeEOF source.length (Lexer.init char_is_signed source) = some (ts, lx1) ∧
      lexemesText ts = (source.filter (fun b => !isBlankByte b)).map byteChar ∧
      (∀ t ∈ ts, t.code = NUM_TOK →
        t.lexeme.toList ≠ [] ∧ ∀ x ∈ t.lexeme.toList, x.isDigit = true) ∧
      (∀ t ∈ ts, t.code = ID_TOK →
        ∃ x xs, t.lexeme.toList = x :: xs ∧ x.isAlpha = true ∧
          (∀ y ∈ xs, y.isAlphanum = true) ∧ keywords t.lexeme = none) := by
  obtain ⟨ts, lx1, pe, f1, l1, l2⟩ := lexed_source char_is_signed source
  refine ⟨ts, lx1, f1, ?_, ?_, ?_⟩
  · have hpe : pe = source.length := by
      rcases l2 with he | ⟨d, hd, h127⟩
      · exact he
      · have := (byte_classes d).2.2.2.2.1 (hr d (List.mem_iff_getElem?.mpr ⟨pe, hd⟩))
        omega
    rw [LexedFrom_text hr ts 0 l1, hpe, slice_all]
  · intro t ht hc
    obtain ⟨q, e, _, hta⟩ := LexedFrom_mem ts 0 l1 ht
    have hrun := TokAt_NUM hta hc
    obtain ⟨h1, h2, _⟩ := hta
    constructor
    · intro h0
      have hl := LexemeAt_length h2
      have : t.lexeme.length = t.lexeme.toList.length := rfl
      rw [this, h0] at hl
      simp only [List.length_nil] at hl
      omega
    · intro x hx
      rw [h2.2.2] at hx
      obtain ⟨b, hb, rfl⟩ := List.mem_map.mp hx
      obtain ⟨k, k1, k2, hk⟩ := mem_slice hb
      exact (byteChar_classes b).2.1 (hrun k b k1 k2 hk)
  · intro t ht hc
    obtain ⟨q, e, _, hta⟩ := LexedFrom_mem ts 0 l1 ht
    obtain ⟨⟨⟨c, hcq, hl⟩, hrun⟩, hk⟩ := TokAt_ID hta hc
    obtain ⟨h1, h2, _⟩ := hta
    refine ⟨byteChar c, (slice source (q + 1) e).map byteChar, ?_,
      (byteChar_classes c).1 hl, ?_, hk⟩
    · rw [h2.2.2, slice_cons h1 hcq]
      rfl
    · intro y hy
      obtain ⟨b, hb, rfl⟩ := List.mem_map.mp hy
      obtain ⟨k, k1, k2, hk⟩ := mem_slice hb
      exact (byteChar_classes b).2.2 (hrun k b (by omega) k2 hk)

theorem lexeme_concatenation_witness :
    (∀ b ∈ sourceWords, isRecognised b = true) ∧
    ∃ ts lx1,
      tokensBeforeEOF sourceWords.length (Lexer.init false sourceWords) = some (ts, lx1) ∧
      lexemesText ts = (sourceWords.filter (fun b => !isBlankByte b)).map byteChar ∧
      (∀ t ∈ ts, t.code = NUM_TOK →
        t.lexeme.toList ≠ [] ∧ ∀ x ∈ t.lexeme.toList, x.isDigit = true) ∧
      (∀ t ∈ ts, t.code = ID_TOK →
        ∃ x xs, t.lexeme.toList = x :: xs ∧ x.isAlpha = true ∧
          (∀ y ∈ xs, y.isAlphanum = true) ∧ keywords t.lexeme = none) :=
  ⟨by decide!, lexeme_concatenation false sourceWords (by decide!)⟩

theorem drop_mem {source l tail : List Byte} {p k : Nat} {b : Byte}
    (h : source.drop p = l ++ tail) (h1 : p ≤ k) (h2 : k < p + l.length)
    (hb : source[k]? = some b) : b ∈ l := by
  have e0 : p + (k - p) = k := by omega
  have h3 : (source.drop p)[k - p]? = some b := by rw [List.getElem?_drop, e0, hb]
  rw [h, List.getElem?_append_left (by omega)] at h3
  exact List.mem_iff_getElem?.mpr ⟨_, h3⟩

theorem slice_of_drop {source l tail : List Byte} {p : Nat} (h : source.drop p = l ++ tail) :
    slice source p (p + l.length) = l := by
  unfold slice
  rw [h, Nat.add_sub_cancel_left, List.take_left]

theorem lineAt_one {source : List Byte} (h : ∀ b ∈ source, b ≠ newline) (q : Nat) :
    lineAt source q = 1 := by
  unfold lineAt
  have : (source.take q).count newline = 0 := by
    rw [List.count_eq_zero]
    intro hm
    exact h _ (List.mem_of_mem_take hm) rfl
  rw [this]
  rfl

/-- The tokens of a run of digits, then spaces, then a letter followed by letters and
digits. -/
theorem tokens_number_word (char_is_signed : Bool) (d gap w1 : List Byte) (c : Byte)
    (hd : ∀ b ∈ d, isDigitByte b = true) (hd0 : d ≠ []) (hd1 : d.length ≤ 1023)
    (hgap : gap = [] ∨ gap = [space])
    (hc : isLetterByte c = true) (hw : ∀ b ∈ w1, isIdByte b = true)
    (hwl : (c :: w1).length ≤ 1023) :
    tokenLoop ((d ++ (gap ++ c :: w1)).length + 1)
        (Lexer.init char_is_signed (d ++ (gap ++ c :: w1))) [] =
      .tokens [⟨NUM_TOK, String.mk (d.map byteChar), 1⟩,
        finalize_identifier (String.mk ((c :: w1).map byteChar)) 1, ⟨EOF_TOK, "EOF", 1⟩] := by
  generalize hsrc : d ++ (gap ++ c :: w1) = source
  have hgl : gap.length ≤ 1 := by
    rcases hgap with h | h <;> (rw [h]; simp)
  have hlen : source.length = d.length + (gap.length + (w1.length + 1)) := by
    rw [← hsrc]
    simp
  simp only [List.length_cons] at hwl
  have hidc : isIdByte c = true := by simp [isIdByte, hc]
  have hnl : ∀ b ∈ source, b ≠ newline := by
    intro b hb
    rw [← hsrc] at hb
    simp only [List.mem_append, List.mem_cons] at hb
    rcases hb with hb | hb | hb | hb
    · exact (idByte_ascii b (by simp [isIdByte, hd b hb])).2.2.1
    · rcases hgap with h | h
      · rw [h] at hb
        cases hb
      · rw [h] at hb
        simp only [List.mem_singleton] at hb
        rw [hb]
        decide
    · rw [hb]
      exact (idByte_ascii c hidc).2.2.1
    · exact (idByte_ascii b (hw b hb)).2.2.1
  have hd0drop : source.drop 0 = d ++ (gap ++ c :: w1) := by rw [List.drop_zero, hsrc]
  have hd1drop : source.drop d.length = gap ++ c :: w1 := by rw [← hsrc, List.drop_left]
  have hd2drop : source.drop (d.length + gap.length) = (c :: w1) ++ [] := by
    rw [← List.drop_drop, hd1drop, List.drop_left, List.append_nil]
  obtain ⟨ts, hts⟩ := tokenLoop_tokens char_is_signed source (by omega)
  rw [hts]
  obtain ⟨rest, pe, e1, l1, l2⟩ :=
    tokenLoop_lexed _ _ [] ts 0 (init_AtPos char_is_signed source) hts
  -- the number
  obtain ⟨d0, d1, hdd⟩ : ∃ d0 d1, d = d0 :: d1 := by
    cases d with
    | nil => exact absurd rfl hd0
    | cons d0 d1 => exact ⟨d0, d1, rfl⟩
  have hd0m : isDigitByte d0 = true := hd d0 (by rw [hdd]; exact List.mem_cons_self _ _)
  have h0 : source[0]? = some d0 := by
    rw [← hsrc, hdd]
    simp
  obtain ⟨a1, a2, _, _⟩ := idByte_ascii d0 (by simp [isIdByte, hd0m])
  obtain ⟨t1, rest1, p1, r1, ta1, lf1⟩ := LexedFrom_token l1 l2 h0 a2 a1
  have hnext : ∀ b, source[0 + d.length]? = some b → isDigitByte b = false := by
    intro b hb
    rw [Nat.zero_add] at hb
    have hb2 : (source.drop d.length)[0]? = some b := by
      rw [List.getElem?_drop, Nat.add_zero, hb]
    rw [hd1drop] at hb2
    rcases hgap with h | h
    · rw [h] at hb2
      simp only [List.nil_append, List.getElem?_cons_zero, Option.some.injEq] at hb2
      rw [← hb2]
      exact (byte_classes c).1 hc
    · rw [h] at hb2
      simp only [List.singleton_append, List.getElem?_cons_zero, Option.some.injEq] at hb2
      rw [← hb2]
      decide
  obtain ⟨q1, q2⟩ := TokAt_number ta1 h0 hd0m
    (fun k b k1 k2 hk => hd b (drop_mem hd0drop k1 k2 hk))
    hd1 (by omega) (Or.inr hnext)
  rw [slice_of_drop hd0drop, lineAt_one hnl] at q2
  rw [q1, Nat.zero_add] at lf1
  -- the space
  have lf2 : LexedFrom source (d.length + gap.length) rest1 pe := by
    rcases hgap with h | h
    · rw [h]
      exact lf1
    · rw [h]
      have hsp : source[d.length]? = some space := by
        have : (source.drop d.length)[0]? = some space := by rw [hd1drop, h]; simp
        rw [List.getElem?_drop, Nat.add_zero] at this
        exact this
      exact LexedFrom_skip lf1 l2 hsp (by decide) (by decide)
  -- the word
  have hcat : source[d.length + gap.length]? = some c := by
    have : (source.drop (d.length + gap.length))[0]? = some c := by rw [hd2drop]; simp
    rw [List.getElem?_drop, Nat.add_zero] at this
    exact this
  obtain ⟨b1, b2, _, _⟩ := idByte_ascii c hidc
  obtain ⟨t2, rest2, p2, r2, ta2, lf3⟩ := LexedFrom_token lf2 l2 hcat b2 b1
  obtain ⟨q3, q4⟩ := TokAt_ident ta2 hcat hc
    (fun k b k1 k2 hk => by
      have hm := drop_mem hd2drop k1 k2 hk
      rcases List.mem_cons.mp hm with hm | hm
      · rw [hm]
        exact hidc
      · exact hw b hm)
    (by simpa using hwl) (by simp only [List.length_cons]; omega)
    (Or.inr (fun b hb => by
      rw [List.getElem?_eq_none (by simp only [List.length_cons]; omega)] at hb
      cases hb))
  rw [slice_of_drop hd2drop, lineAt_one hnl] at q4
  have hp2 : p2 = source.length := by
    rw [q3]
    simp only [List.length_cons]
    omega
  rw [hp2] at lf3
  have r3 := LexedFrom_end lf3 (Nat.le_refl _)
  rw [r3] at lf3
  have hpe := LexedFrom_last lf3 l2
  rw [e1, r1, r2, r3, q2, q4, hpe, lineAt_one hnl]
  rfl

/-- C39 (digits followed by a letter; the statement that holds).  For every string `d` of
digits that is not empty and has at most 1023 digits, and every string `w` of at most 1023
characters that is a letter followed by letters and digits, the token vector of the input
`dw` and the token vector of the input `d w`, with a space in between, are the same three
tokens: the number token of lexeme `d`, the keyword or identifier token of `w`, and the
sentinel, all on line 1. -/
theorem digits_then_letter (char_is_signed : Bool) (d w1 : List Byte) (c : Byte)
    (hd : ∀ b ∈ d, isDigitByte b = true) (hd0 : d ≠ []) (hd1 : d.length ≤ 1023)
    (hc : isLetterByte c = true) (hw : ∀ b ∈ w1, isIdByte b = true)
    (hwl : (c :: w1).length ≤ 1023) :
    tokenLoop ((d ++ c :: w1).length + 1) (Lexer.init char_is_signed (d ++ c :: w1)) [] =
      .tokens [⟨NUM_TOK, String.mk (d.map byteChar), 1⟩,
        finalize_identifier (String.mk ((c :: w1).map byteChar)) 1, ⟨EOF_TOK, "EOF", 1⟩] ∧
    tokenLoop ((d ++ space :: c :: w1).length + 1)
        (Lexer.init char_is_signed (d ++ space :: c :: w1)) [] =
      .tokens [⟨NUM_TOK, String.mk (d.map byteChar), 1⟩,
        finalize_identifier (String.mk ((c :: w1).map byteChar)) 1, ⟨EOF_TOK, "EOF", 1⟩] :=
  ⟨tokens_number_word char_is_signed d [] w1 c hd hd0 hd1 (Or.inl rfl) hc hw hwl,
    tokens_number_word char_is_signed d [space] w1 c hd hd0 hd1 (Or.inr rfl) hc hw hwl⟩

theorem digits_then_letter_witness :
    tokenLoop (([49, 50] ++ (97 : Byte) :: [98, 49]).length + 1)
        (Lexer.init false ([49, 50] ++ (97 : Byte) :: [98, 49])) [] =
      .tokens [⟨NUM_TOK, String.mk (([49, 50] : List Byte).map byteChar), 1⟩,
        finalize_identifier (String.mk (((97 : Byte) :: [98, 49]).map byteChar)) 1,
        ⟨EOF_TOK, "EOF", 1⟩] ∧
    tokenLoop (([49, 50] ++ space :: (97 : Byte) :: [98, 49]).length + 1)
        (Lexer.init false ([49, 50] ++ space :: (97 : Byte) :: [98, 49])) [] =
      .tokens [⟨NUM_TOK, String.mk (([49, 50] : List Byte).map byteChar), 1⟩,
        finalize_identifier (String.mk (((97 : Byte) :: [98, 49]).map byteChar)) 1,
        ⟨EOF_TOK, "EOF", 1⟩] :=
  digits_then_letter false [49, 50] [98, 49] 97 (by decide!) (by decide) (by simp)
    (by decide!) (by decide!) (by simp)

/-- The input `sourceLong`, the digit `1` followed by 1024 letters `a` : the token vector is
not the number token, the token of the 1024 letters and the sentinel, since no lexeme has
more than 1023 characters. -/
theorem digits_then_letter_counterexample :
    tokenLoop (sourceLong.length + 1) (Lexer.init false sourceLong) [] ≠
      .tokens [⟨NUM_TOK, "1", 1⟩, finalize_identifier (String.mk (wordLong.map byteChar)) 1,
        ⟨EOF_TOK, "EOF", 1⟩] := by
  intro h
  obtain ⟨rest, pe, e1, l1, _⟩ := tokenLoop_lexed _ _ [] _ 0 (init_AtPos false _) h
  rw [List.nil_append] at e1
  have e2 : [(⟨NUM_TOK, "1", 1⟩ : Token),
      finalize_identifier (String.mk (wordLong.map byteChar)) 1] ++ [⟨EOF_TOK, "EOF", 1⟩] =
      rest ++ [⟨EOF_TOK, "EOF", lineAt sourceLong pe⟩] := e1
  have e3 := (List.append_inj' e2 rfl).1
  obtain ⟨q, e, _, hta⟩ := LexedFrom_mem rest 0 l1
    (t := finalize_identifier (String.mk (wordLong.map byteChar)) 1)
    (by rw [← e3]; simp)
  have hl := LexemeAt_length hta.2.1
  have h4 := hta.2.2.2.1
  rw [(finalize_identifier_fields _ _).1] at hl
  have h5 : (String.mk (wordLong.map byteChar)).length = 1024 := by
    show (wordLong.map byteChar).length = 1024
    rw [List.length_map]
    exact List.length_replicate _ _
  omega

/-! ## Keywords and identifiers -/

/-- The tokens of a text that is a letter followed by letters and digits. -/
theorem tokens_word (char_is_signed : Bool) (c : Byte) (w1 source : List Byte)
    (hsrc : source = c :: w1) (hc : isLetterByte c = true)
    (hw : ∀ b ∈ w1, isIdByte b = true) (hwl : (c :: w1).length ≤ 1023) :
    tokenLoop (source.length + 1) (Lexer.init char_is_signed source) [] =
      .tokens [finalize_identifier (String.mk ((c :: w1).map byteChar)) 1,
        ⟨EOF_TOK, "EOF", 1⟩] := by
  have hidc : isIdByte c = true := by simp [isIdByte, hc]
  have hlen : source.length = w1.length + 1 := by
    rw [hsrc]
    simp
  simp only [List.length_cons] at hwl
  have hnl : ∀ b ∈ source, b ≠ newline := by
    intro b hb
    rw [hsrc] at hb
    rcases List.mem_cons.mp hb with hb | hb
    · rw [hb]
      exact (idByte_ascii c hidc).2.2.1
    · exact (idByte_ascii b (hw b hb)).2.2.1
  have hdrop : source.drop 0 = (c :: w1) ++ [] := by
    rw [List.drop_zero, hsrc, List.append_nil]
  obtain ⟨ts, hts⟩ := tokenLoop_tokens char_is_signed source (by omega)
  rw [hts]
  obtain ⟨rest, pe, e1, l1, l2⟩ :=
    tokenLoop_lexed _ _ [] ts 0 (init_AtPos char_is_signed source) hts
  have hcat : source[0]? = some c := by
    rw [hsrc]
    simp
  obtain ⟨b1, b2, _, _⟩ := idByte_ascii c hidc
  obtain ⟨t2, rest2, p2, r2, ta2, lf3⟩ := LexedFrom_token l1 l2 hcat b2 b1
  obtain ⟨q3, q4⟩ := TokAt_ident ta2 hcat hc
    (fun k b k1 k2 hk => by
      have hm := drop_mem hdrop k1 k2 hk
      rcases List.mem_cons.mp hm with hm | hm
      · rw [hm]
        exact hidc
      · exact hw b hm)
    (by simpa using hwl) (by simp only [List.length_cons]; omega)
    (Or.inr (fun b hb => by
      rw [List.getElem?_eq_none (by simp only [List.length_cons]; omega)] at hb
      cases hb))
  rw [slice_of_drop hdrop, lineAt_one hnl] at q4
  have hp2 : p2 = source.length := by
    rw [q3]
    simp only [List.length_cons]
    omega
  rw [hp2] at lf3
  have r3 := LexedFrom_end lf3 (Nat.le_refl _)
  rw [r3] at lf3
  have hpe := LexedFrom_last lf3 l2
  rw [e1, r2, r3, q4, hpe, lineAt_one hnl]
  rfl

theorem idByte_of_range : ∀ b : Byte,
    ((97 ≤ b.val ∧ b.val ≤ 122) ∨ (65 ≤ b.val ∧ b.val ≤ 90) ∨ (48 ≤ b.val ∧ b.val ≤ 57)) →
    isIdByte b = true := by
  decide!

/-- The text of every keyword is a letter followed by letters. -/
theorem keywordTable_bytes : ∀ p ∈ keywordTable,
    (bytesOf p.1).head?.map isLetterByte = some true ∧
    (∀ x ∈ bytesOf p.1, isIdByte x = true) ∧ (bytesOf p.1).length ≤ 6 ∧
    (bytesOf p.1).map byteChar = p.1.toList := by
  decide!

/-- No keyword is another keyword with one more character. -/
theorem keyword_dropLast : ∀ p ∈ keywordTable, ∀ q ∈ keywordTable,
    q.1.toList.dropLast ≠ p.1.toList := by
  decide!

/-- A keyword followed by one more character is no keyword. -/
theorem keyword_push (p : String × TokenCode) (hp : p ∈ keywordTable) (ch : Char) :
    keywords (p.1.push ch) = none := by
  unfold keywords
  cases h : mapFind keywordTable (p.1.push ch) with
  | none => rfl
  | some code =>
    exfalso
    have hm := mapFind_mem _ _ _ h
    apply keyword_dropLast p hp _ hm
    show (p.1.push ch).toList.dropLast = p.1.toList
    obtain ⟨s, c⟩ := p
    cases s
    simp [String.push, String.toList]

theorem mk_toList_push (s : String) (ch : Char) : String.mk (s.toList ++ [ch]) = s.push ch := by
  cases s
  rfl

/-- C12 (keyword priority).  The keywords are `if`, `else`, `while`, `input`, `output`,
`int`, `arr`, `begin`, `end`, `sin`, `cos`, `tg`, `ctg`.  For each keyword `k`, the token
loop of `main` run on the text `k` collects the keyword token of `k` and then the sentinel
`EOF_TOK`; and for every letter or digit `c` (a byte in `a..z`, `A..Z` or `0..9`), run on
the text `k` followed by `c` it collects one `ID_TOK` whose lexeme is `kc`, and then the
sentinel. -/
theorem keyword_priority (char_is_signed : Bool) :
    keywordTable =
      [("if", IF_TOK), ("else", ELSE_TOK), ("while", WHILE_TOK), ("input", INPUT_TOK),
       ("output", OUTPUT_TOK), ("int", INT_TOK), ("arr", IMAS_TOK), ("begin", BEG_TOK),
       ("end", END_TOK), ("sin", SIN_TOK), ("cos", COS_TOK), ("tg", TG_TOK),
       ("ctg", CTG_TOK)] ∧
    (∀ p ∈ keywordTable,
      tokenLoop ((bytesOf p.1).length + 1) (Lexer.init char_is_signed (bytesOf p.1)) [] =
        .tokens [⟨p.2, p.1, 1⟩, ⟨EOF_TOK, "EOF", 1⟩]) ∧
    (∀ p ∈ keywordTable, ∀ b : Byte,
      ((97 ≤ b.val ∧ b.val ≤ 122) ∨ (65 ≤ b.val ∧ b.val ≤ 90) ∨ (48 ≤ b.val ∧ b.val ≤ 57)) →
      tokenLoop ((bytesOf p.1 ++ [b]).length + 1)
          (Lexer.init char_is_signed (bytesOf p.1 ++ [b])) [] =
        .tokens [⟨ID_TOK, p.1.push (byteChar b), 1⟩, ⟨EOF_TOK, "EOF", 1⟩]) := by
  refine ⟨rfl, ?_, ?_⟩
  · cases char_is_signed <;> decide!
  · intro p hp b hb
    have hid := idByte_of_range b hb
    obtain ⟨k1, k2, k3, k4⟩ := keywordTable_bytes p hp
    cases hl : bytesOf p.1 with
    | nil =>
      rw [hl] at k1
      cases k1
    | cons c w =>
      rw [hl] at k1 k2 k3 k4
      have hc : isLetterByte c = true := by simpa using k1
      have hw : ∀ x ∈ w ++ [b], isIdByte x = true := by
        intro x hx
        rcases List.mem_append.mp hx with hx | hx
        · exact k2 x (List.mem_cons_of_mem _ hx)
        · rw [List.mem_singleton.mp hx]
          exact hid
      have hwl : (c :: (w ++ [b])).length ≤ 1023 := by
        simp only [List.length_cons, List.length_append, List.length_nil] at k3 ⊢
        omega
      rw [tokens_word char_is_signed c (w ++ [b]) (c :: w ++ [b]) rfl hc hw hwl]
      have hs : String.mk ((c :: (w ++ [b])).map byteChar) = p.1.push (byteChar b) := by
        have h1 : (c :: (w ++ [b])).map byteChar = (c :: w).map byteChar ++ [byteChar b] := by
          simp
        rw [h1, k4]
        exact mk_toList_push _ _
      rw [hs]
      unfold finalize_identifier
      rw [keyword_push p hp (byteChar b)]

/-! ## Invalid characters and spaces -/

/-- What the loop of `getNextToken` makes of a character of `isOtherByte`, read from the
stream or from the pushback buffer: it is not `EOF`, its category is `CAT_OTHER`, and the
character stored for it is the byte itself. -/
theorem isOtherByte_spec {s : Bool} {b : Byte} (h : isOtherByte s b = true) {ch : Int}
    (hch : ch = (b.val : Int) ∨ ch = char_to_int s b) :
    ch ≠ EOF ∧
    (if ch < 0 ∨ ch > 127 then CAT_OTHER else AsciiTable ch.toNat) = 19 ∧
    int_to_char ch = b := by
  simp only [isOtherByte, Bool.and_eq_true, decide_eq_true_eq, Bool.not_eq_true',
    Bool.and_eq_false_imp] at h
  obtain ⟨h1, h2⟩ := h
  have hcat : byteCat b = 19 := h1
  rcases hch with e | e
  · rw [e]
    refine ⟨?_, ?_, int_to_char_val b⟩
    · unfold EOF
      omega
    · rw [(category_of_char s b).2, hcat]
  · rw [e]
    refine ⟨?_, ?_, int_to_char_char_to_int s b⟩
    · unfold char_to_int EOF
      have := b.isLt
      split_ifs with c
      · simp only [Bool.and_eq_true, decide_eq_true_eq] at c
        have := h2 c.1
        simp only [decide_eq_false_iff_not] at this
        omega
      · omega
    · rw [(category_of_char s b).1, hcat]

theorem isOtherByte_ascii (s : Bool) {c : Byte} (h7 : c.val ≤ 127)
    (ho : AsciiTable c.val = CAT_OTHER) : isOtherByte s c = true := by
  have h1 : byteCat c = CAT_OTHER := by
    unfold byteCat
    rw [if_neg (by omega), ho]
  have h2 : ¬ (c.val = 255) := by omega
  simp [isOtherByte, h1, h2]

theorem char_to_int_ascii (s : Bool) {b : Byte} (h : b.val ≤ 127) :
    char_to_int s b = (b.val : Int) := by
  unfold char_to_int
  rw [if_neg]
  simp only [Bool.and_eq_true, decide_eq_true_eq, not_and]
  intro _
  omega

theorem simLexer_unget {lx lx1 : Lexer} {c c1 : Byte} (h : simLexer lx lx1)
    (hc : simByte lx.char_is_signed c c1) : simLexer (unget_char lx c) (unget_char lx1 c1) :=
  ⟨h.1, h.2.1, rfl, fun _ => hc, h.2.2.2.2⟩

theorem simLexer_line {lx lx1 : Lexer} (h : simLexer lx lx1) (line : Int) :
    simLexer { lx with current_line := line } { lx1 with current_line := line } :=
  ⟨rfl, h.2.1, h.2.2.1, h.2.2.2.1, h.2.2.2.2⟩

theorem simLexer_pending {lx lx1 : Lexer} (h : simLexer lx lx1) : lx1.pending = lx.pending := by
  unfold Lexer.pending
  rw [h.2.2.1, h.2.2.2.2.length_eq]

/-- What `get_char` reads from two lexers of which one has spaces in the place of invalid
characters: the same value, or an invalid character and a space. -/
theorem get_char_sim {lx lx1 : Lexer} (h : simLexer lx lx1) :
    simLexer (get_char lx).2 (get_char lx1).2 ∧
    (get_char lx).2.char_is_signed = lx.char_is_signed ∧
    ((get_char lx1).1 = (get_char lx).1 ∨
      ∃ b : Byte, isOtherByte lx.char_is_signed b = true ∧
        ((get_char lx).1 = (b.val : Int) ∨
          (get_char lx).1 = char_to_int lx.char_is_signed b) ∧
        (get_char lx1).1 = ((space : Byte).val : Int)) := by
  obtain ⟨s, line, buf, valid, sign⟩ := lx
  obtain ⟨s1, line1, buf1, valid1, sign1⟩ := lx1
  obtain ⟨h1, h2, h3, h4, h5⟩ := h
  simp only at h1 h2 h3 h4 h5
  subst h1 h2 h3
  unfold get_char
  cases valid1 with
  | true =>
    simp only [if_true]
    refine ⟨⟨rfl, rfl, rfl, ?_, h5⟩, trivial, ?_⟩
    · intro hf
      cases hf
    · rcases h4 rfl with e | ⟨ho, e⟩
      · left
        rw [e]
      · right
        refine ⟨buf, ho, Or.inr rfl, ?_⟩
        rw [e]
        exact char_to_int_ascii _ (by decide)
  | false =>
    simp only [Bool.false_eq_true, if_false]
    cases h5 with
    | nil =>
      refine ⟨⟨rfl, rfl, rfl, ?_, List.Forall₂.nil⟩, rfl, Or.inl rfl⟩
      intro hf
      cases hf
    | cons hb hrest =>
      refine ⟨⟨rfl, rfl, rfl, ?_, hrest⟩, rfl, ?_⟩
      · intro hf
        cases hf
      · rcases hb with e | ⟨ho, e⟩
        · left
          rw [e]
        · right
          exact ⟨_, ho, Or.inl rfl, by rw [e]⟩

theorem lexTable_other : lexTable S_STATE 19 = 19 ∧ lexTable S_STATE 7 = 8 ∧
    lexTable A_STATE 19 = 24 ∧ lexTable A_STATE 7 = 22 ∧
    lexTable B_STATE 19 = 24 ∧ lexTable B_STATE 7 = 28 := by
  decide

/-- One iteration of the loop of `getNextToken` does the same on an invalid character and
on a space in its place. -/
theorem getNextToken_body_sim {lx lx1 : Lexer} {v : ScanVars} (h : simLexer lx lx1)
    (hinv : ScanInv v) : simStep (getNextToken_body lx v) (getNextToken_body lx1 v) := by
  obtain ⟨hs, hsg, hch⟩ := get_char_sim h
  unfold getNextToken_body
  generalize get_char lx = r at hs hsg hch
  generalize get_char lx1 = r1 at hs hch
  obtain ⟨ch, l⟩ := r
  obtain ⟨ch1, l1⟩ := r1
  simp only at hs hsg hch ⊢
  have hline := hs.1
  rw [hline]
  rcases hch with e | ⟨b, ho, e, e1⟩
  · subst e
    by_cases he : ch1 = EOF
    · simp only [he, if_true]
      split_ifs <;> exact ⟨hs, rfl⟩
    · simp only [he, if_false]
      have hl := lexTable_listed (ScanInv_state hinv) (category_le ch1)
      generalize lexTable v.currentState
        (if ch1 < 0 ∨ ch1 > 127 then CAT_OTHER else AsciiTable ch1.toNat) = a at hl
      simp only [List.mem_cons, List.mem_singleton, List.not_mem_nil, or_false] at hl
      rcases hl with rfl | rfl | rfl | rfl | rfl | rfl | rfl | rfl | rfl | rfl | rfl | rfl | rfl |
        rfl | rfl | rfl | rfl | rfl | rfl | rfl | rfl | rfl | rfl | rfl | rfl
      all_goals first
        | exact ⟨hs, rfl⟩
        | exact ⟨simLexer_unget hs (Or.inl rfl), rfl⟩
        | exact ⟨simLexer_line hs _, rfl⟩
        | (dsimp only
           split_ifs <;> first
            | exact ⟨hs, rfl⟩
            | exact ⟨simLexer_unget hs (Or.inl rfl), rfl⟩)
  · subst e1
    obtain ⟨o3, o2, o1⟩ := isOtherByte_spec ho e
    rw [← hsg] at ho
    have hsp : ¬ (((space : Byte).val : Int) = EOF) := by decide
    simp only [o3, hsp, if_false]
    rw [o2, (category_of_char false space).2, o1, int_to_char_val]
    have hc7 : byteCat space = 7 := by decide
    rw [hc7]
    obtain ⟨t1, t2, t3, t4, t5, t6⟩ := lexTable_other
    obtain ⟨lexeme, st, tsl⟩ := v
    rcases hinv with hst | ⟨hne, hst | hst⟩
    · simp only at hst
      subst hst
      rw [t1, t2]
      exact ⟨hs, rfl⟩
    · simp only at hst hne
      subst hst
      rw [t3, t4]
      dsimp only
      rw [if_pos ⟨hne, rfl⟩]
      exact ⟨simLexer_unget hs (Or.inr ⟨ho, rfl⟩), rfl⟩
    · simp only at hst hne
      subst hst
      rw [t5, t6]
      dsimp only
      rw [if_neg (by simp [A_STATE, B_STATE]), if_pos ⟨hne, rfl⟩]
      exact ⟨simLexer_unget hs (Or.inr ⟨ho, rfl⟩), rfl⟩

theorem getNextToken_loop_sim : ∀ (fuel : Nat) (lx lx1 : Lexer) (v : ScanVars),
    simLexer lx lx1 → ScanInv v →
    simResult (getNextToken_loop fuel lx v) (getNextToken_loop fuel lx1 v) := by
  intro fuel
  induction fuel with
  | zero => intro lx lx1 v _ _; exact True.intro
  | succ n ih =>
    intro lx lx1 v h hinv
    have hb := getNextToken_body_sim h hinv
    have hsound := getNextToken_body_sound lx v hinv
    unfold getNextToken_loop
    cases hr : getNextToken_body lx v with
    | ret t l =>
      cases hr1 : getNextToken_body lx1 v with
      | ret t1 l1 =>
        rw [hr, hr1] at hb
        exact hb
      | again l1 v1 =>
        rw [hr, hr1] at hb
        exact hb.elim
    | again l v1 =>
      cases hr1 : getNextToken_body lx1 v with
      | ret t1 l1 =>
        rw [hr, hr1] at hb
        exact hb.elim
      | again l1 v2 =>
        rw [hr, hr1] at hb
        rw [hr] at hsound
        obtain ⟨hb1, hb2⟩ := hb
        rw [hb2]
        exact ih l l1 v1 hb1 hsound

theorem getNextToken_sim {lx lx1 : Lexer} (h : simLexer lx lx1) :
    simResult (getNextToken lx) (getNextToken lx1) := by
  unfold getNextToken
  rw [simLexer_pending h, h.1]
  exact getNextToken_loop_sim _ lx lx1 _ h (Or.inl rfl)

theorem tokenLoop_sim : ∀ (fuel : Nat) (lx lx1 : Lexer) (acc : List Token),
    simLexer lx lx1 → tokenLoop fuel lx1 acc = tokenLoop fuel lx acc := by
  intro fuel
  induction fuel with
  | zero => intro lx lx1 acc _; rfl
  | succ n ih =>
    intro lx lx1 acc h
    have hg := getNextToken_sim h
    unfold tokenLoop
    cases hr : getNextToken lx with
    | none =>
      cases hr1 : getNextToken lx1 with
      | none => rfl
      | some r1 =>
        rw [hr, hr1] at hg
        exact hg.elim
    | some r =>
      cases hr1 : getNextToken lx1 with
      | none =>
        rw [hr, hr1] at hg
        exact hg.elim
      | some r1 =>
        obtain ⟨t, l⟩ := r
        obtain ⟨t1, l1⟩ := r1
        rw [hr, hr1] at hg
        obtain ⟨g1, g2⟩ := hg
        subst g2
        simp only
        rw [ih l l1 _ g1]

theorem tokensBeforeEOF_sim : ∀ (n : Nat) (lx lx1 : Lexer), simLexer lx lx1 →
    (tokensBeforeEOF n lx1).map Prod.fst = (tokensBeforeEOF n lx).map Prod.fst := by
  intro n
  induction n with
  | zero =>
    intro lx lx1 h
    have hg := getNextToken_sim h
    unfold tokensBeforeEOF
    cases hr : getNextToken lx with
    | none =>
      cases hr1 : getNextToken lx1 with
      | none => rfl
      | some r1 =>
        rw [hr, hr1] at hg
        exact hg.elim
    | some r =>
      cases hr1 : getNextToken lx1 with
      | none =>
        rw [hr, hr1] at hg
        exact hg.elim
      | some r1 =>
        obtain ⟨t, l⟩ := r
        obtain ⟨t1, l1⟩ := r1
        rw [hr, hr1] at hg
        obtain ⟨g1, g2⟩ := hg
        subst g2
        simp only
        split_ifs <;> rfl
  | succ m ih =>
    intro lx lx1 h
    have hg := getNextToken_sim h
    unfold tokensBeforeEOF
    cases hr : getNextToken lx with
    | none =>
      cases hr1 : getNextToken lx1 with
      | none => rfl
      | some r1 =>
        rw [hr, hr1] at hg
        exact hg.elim
    | some r =>
      cases hr1 : getNextToken lx1 with
      | none =>
        rw [hr, hr1] at hg
        exact hg.elim
      | some r1 =>
        obtain ⟨t, l⟩ := r
        obtain ⟨t1, l1⟩ := r1
        rw [hr, hr1] at hg
        obtain ⟨g1, g2⟩ := hg
        subst g2
        simp only
        split_ifs
        · rfl
        · have := ih l l1 g1
          cases h2 : tokensBeforeEOF m l with
          | none =>
            rw [h2] at this
            cases h3 : tokensBeforeEOF m l1 with
            | none => rfl
            | some r3 => rw [h3] at this; cases this
          | some r2 =>
            rw [h2] at this
            cases h3 : tokensBeforeEOF m l1 with
            | none => rw [h3] at this; cases this
            | some r3 =>
              rw [h3] at this
              simp only [Option.map_some', Option.some.injEq] at this ⊢
              rw [this]

theorem forall2_set_space {s : Bool} {c : Byte} (ho : isOtherByte s c = true) :
    ∀ (source : List Byte) (k : Nat), source[k]? = some c →
      List.Forall₂ (simByte s) source (source.set k space) := by
  have hrefl : ∀ l : List Byte, List.Forall₂ (simByte s) l l := by
    intro l
    induction l with
    | nil => exact List.Forall₂.nil
    | cons a l ih => exact List.Forall₂.cons (Or.inl rfl) ih
  intro source
  induction source with
  | nil => intro k hk; cases hk
  | cons a l ih =>
    intro k hk
    cases k with
    | zero =>
      simp only [List.getElem?_cons_zero, Option.some.injEq] at hk
      subst hk
      exact List.Forall₂.cons (Or.inr ⟨ho, rfl⟩) (hrefl l)
    | succ j =>
      simp only [List.getElem?_cons_succ] at hk
      exact List.Forall₂.cons (Or.inl rfl) (ih j hk)

/-- C36 (invalid characters behave like spaces).  For every input and every position `k`
that holds an ASCII character of the category `CAT_OTHER`, the input with a space at
position `k` gives the same result of the token loop of `main` (the same token vector
ending in the sentinel, when the loop ends with one) and the same tokens returned by
`getNextToken` in front of the sentinel; the token loop does not run out of the iterations
it is allowed, and for an input of fewer than 10000 bytes it ends with a token vector. -/
theorem invalid_like_space (char_is_signed : Bool) (source : List Byte) (k : Nat) (c : Byte)
    (hk : source[k]? = some c) (h7 : c.val ≤ 127) (ho : AsciiTable c.val = CAT_OTHER) :
    tokenLoop ((source.set k space).length + 1)
        (Lexer.init char_is_signed (source.set k space)) [] =
      tokenLoop (source.length + 1) (Lexer.init char_is_signed source) [] ∧
    (tokensBeforeEOF (source.set k space).length
        (Lexer.init char_is_signed (source.set k space))).map Prod.fst =
      (tokensBeforeEOF source.length (Lexer.init char_is_signed source)).map Prod.fst ∧
    (∃ ts lx1, tokensBeforeEOF source.length (Lexer.init char_is_signed source) =
      some (ts, lx1)) ∧
    tokenLoop (source.length + 1) (Lexer.init char_is_signed source) [] ≠ .outOfFuel ∧
    (source.length < 10000 →
      ∃ ts, tokenLoop (source.length + 1) (Lexer.init char_is_signed source) [] =
        .tokens ts) := by
  have hoc : isOtherByte char_is_signed c = true := isOtherByte_ascii char_is_signed h7 ho
  have hsim : simLexer (Lexer.init char_is_signed source)
      (Lexer.init char_is_signed (source.set k space)) := by
    refine ⟨rfl, rfl, rfl, ?_, forall2_set_space hoc source k hk⟩
    intro hf
    cases hf
  refine ⟨?_, ?_, ?_, ?_, tokenLoop_tokens char_is_signed source⟩
  · rw [List.length_set]
    exact tokenLoop_sim _ _ _ [] hsim
  · rw [List.length_set]
    exact tokensBeforeEOF_sim _ _ _ hsim
  · obtain ⟨ts, lx1, _, _, f1, _⟩ :=
      tokensBeforeEOF_spec source.length (Lexer.init char_is_signed source)
        (by simp [Lexer.init, Lexer.pending])
    exact ⟨ts, lx1, f1⟩
  · exact tokenLoop_ends (source.length + 1) (Lexer.init char_is_signed source) []
      (by simp [Lexer.init, Lexer.pending])

/-- Witness of `invalid_like_space` : in `ab@c 1#2` the character `@` at position 2 is an
ASCII character of the category `CAT_OTHER`, and with a space in its place the token loop
gives the same result. -/
theorem invalid_like_space_witness :
    sourceOther[2]? = some 64 ∧ AsciiTable 64 = CAT_OTHER ∧
    tokenLoop ((sourceOther.set 2 space).length + 1)
        (Lexer.init false (sourceOther.set 2 space)) [] =
      tokenLoop (sourceOther.length + 1) (Lexer.init false sourceOther) [] ∧
    (tokensBeforeEOF (sourceOther.set 2 space).length
        (Lexer.init false (sourceOther.set 2 space))).map Prod.fst =
      (tokensBeforeEOF sourceOther.length (Lexer.init false sourceOther)).map Prod.fst :=
  have h := invalid_like_space false sourceOther 2 64 (by decide!) (by decide!) (by decide)
  ⟨by decide!, by decide, h.1, h.2.1⟩

/-! ## Characters outside the recognised categories -/

theorem main_of_tokenLoop {char_is_signed : Bool} {fns : MathFns} {s1 s2 : List Byte}
    {input : List Int} {fuel : Nat}
    (h : tokenLoop (s1.length + 1) (Lexer.init char_is_signed s1) [] =
      tokenLoop (s2.length + 1) (Lexer.init char_is_signed s2) []) :
    main char_is_signed fns s1 input fuel = main char_is_signed fns s2 input fuel := by
  unfold main
  rw [h]

theorem isOtherByte_unrecognised {s : Bool} {c : Byte} (hc : unrecognised c)
    (h255 : ¬ (s = true ∧ c.val = 255)) : isOtherByte s c = true := by
  have h1 : byteCat c = CAT_OTHER := by
    unfold byteCat
    rcases hc with h | h
    · rw [if_pos h]
    · split_ifs
      · rfl
      · exact h
  simp only [isOtherByte, h1, decide_True, Bool.true_and, Bool.not_eq_true', Bool.and_eq_false_imp,
    decide_eq_false_iff_not]
  intro hs hv
  exact h255 ⟨hs, hv⟩

/-- C19 (amended).  A character outside the recognised categories is not fatal.  No call of
`getNextToken` returns `ERROR_TOK`.  For every source and every position `k` that holds such
a character (an ASCII character of the category `CAT_OTHER` or a byte above 127; the byte
255 apart when plain `char` is signed), wherever it stands, the token loop of `main` gives
the same result as for the source with a space at position `k`, and so does `main` : the
same stage, exit code and output for every input.  For a source shorter than 10000 bytes the
token loop ends with a token vector and `main` does not stop in the lexical stage. -/
theorem lexical_errors_skipped (char_is_signed : Bool) (source : List Byte) (k : Nat)
    (c : Byte) (hk : source[k]? = some c) (hc : unrecognised c)
    (h255 : ¬ (char_is_signed = true ∧ c.val = 255)) :
    (∀ lx t lx1, getNextToken lx = some (t, lx1) → t.code ≠ ERROR_TOK) ∧
    tokenLoop ((source.set k space).length + 1)
        (Lexer.init char_is_signed (source.set k space)) [] =
      tokenLoop (source.length + 1) (Lexer.init char_is_signed source) [] ∧
    (∀ fns input fuel, main char_is_signed fns (source.set k space) input fuel =
      main char_is_signed fns source input fuel) ∧
    (source.length < 10000 →
      (∃ tokens, tokenLoop (source.length + 1) (Lexer.init char_is_signed source) [] =
        .tokens tokens) ∧
      ∀ fns input fuel r, main char_is_signed fns source input fuel = some r →
        r.stage ≠ .lexical) := by
  have hoc : isOtherByte char_is_signed c = true := isOtherByte_unrecognised hc h255
  have hsim : simLexer (Lexer.init char_is_signed source)
      (Lexer.init char_is_signed (source.set k space)) := by
    refine ⟨rfl, rfl, rfl, ?_, forall2_set_space hoc source k hk⟩
    intro hf
    cases hf
  have hloop : tokenLoop ((source.set k space).length + 1)
      (Lexer.init char_is_signed (source.set k space)) [] =
      tokenLoop (source.length + 1) (Lexer.init char_is_signed source) [] := by
    rw [List.length_set]
    exact tokenLoop_sim _ _ _ [] hsim
  refine ⟨fun lx t lx1 h => getNextToken_ne_ERROR h, hloop,
    fun fns input fuel => main_of_tokenLoop hloop, ?_⟩
  intro hlen
  exact ⟨tokenLoop_tokens char_is_signed source hlen,
    fun fns input fuel r h => main_not_lexical char_is_signed fns source input fuel r hlen h⟩

/-- Witness of `lexical_errors_skipped` : in `begin output(1` + byte 200 + `); end` the byte
200 at position 14 stands directly behind the number; it is pushed back, read again and
skipped, and the program writes 1 and ends with exit code 0, as with a space in its place. -/
theorem lexical_errors_skipped_witness :
    sourceByte200[14]? = some 200 ∧ unrecognised 200 ∧
    main true noMath sourceByte200 [] 3 = some ⟨.success, 0, [1], [], [], [], []⟩ ∧
    main true noMath (sourceByte200.set 14 space) [] 3 =
      main true noMath sourceByte200 [] 3 :=
  have h1 : sourceByte200[14]? = some 200 := by decide!
  have h2 : unrecognised 200 := Or.inl (by decide)
  have h3 : main true noMath sourceByte200 [] 3 = some ⟨.success, 0, [1], [], [], [], []⟩ := by
    decide!
  ⟨h1, h2, h3,
    (lexical_errors_skipped true sourceByte200 14 200 h1 h2 (by decide)).2.2.1 noMath [] 3⟩

/-- The byte 255 behind a number, where plain `char` is signed: pushed back, it reads as
`EOF`, the token loop ends there and the parser misses the `)`; where plain `char` is
unsigned it is skipped and the program runs to its end. -/
theorem byte255_pushed_back :
    tokenLoop (sourceByte255.length + 1) (Lexer.init true sourceByte255) [] =
      .tokens [⟨BEG_TOK, "begin", 1⟩, ⟨OUTPUT_TOK, "output", 1⟩, ⟨LPAREN_TOK, "(", 1⟩,
        ⟨NUM_TOK, "1", 1⟩, ⟨EOF_TOK, "EOF", 1⟩] ∧
    (main true noMath sourceByte255 [] 3).map (fun r => r.exit_code) = some 1 ∧
    main false noMath sourceByte255 [] 3 = some ⟨.success, 0, [1], [], [], [], []⟩ := by
  decide!

/-- C19 as stated fails: the source `begin output(1); @ end` contains the character `@`,
which is in no recognised category, and the source made of `begin output(1); `, the byte
200 and ` end` contains a byte that is not ASCII; both are lexed, parsed and run to the
end, write `1` and end with exit code 0, whether `char` is signed or not. -/
theorem lexical_errors_skipped_counterexample :
    unrecognised 64 ∧ bytesOf "@" = [64] ∧ unrecognised 200 ∧
    main true noMath (bytesOf "begin output(1); @ end") [] 3 =
      some ⟨.success, 0, [1], [], [], [], []⟩ ∧
    main false noMath (bytesOf "begin output(1); @ end") [] 3 =
      some ⟨.success, 0, [1], [], [], [], []⟩ ∧
    main true noMath (bytesOf "begin output(1); " ++ [200] ++ bytesOf " end") [] 3 =
      some ⟨.success, 0, [1], [], [], [], []⟩ ∧
    main false noMath (bytesOf "begin output(1); " ++ [200] ++ bytesOf " end") [] 3 =
      some ⟨.success, 0, [1], [], [], [], []⟩ :=
  ⟨Or.inr (by decide), by decide, Or.inl (by decide), by decide!, by decide!, by decide!,
    by decide!⟩

/-- In a token vector of the lexer the sentinel `EOF_TOK` is the last token and no token in
front of it has that code. -/
theorem tokenLoop_sentinel {char_is_signed : Bool} {source : List Byte} {tokens : List Token}
    (h : tokenLoop (source.length + 1) (Lexer.init char_is_signed source) [] =
      .tokens tokens) :
    ∃ rest e, tokens = rest ++ [e] ∧ e.code = EOF_TOK ∧ ∀ t ∈ rest, t.code ≠ EOF_TOK := by
  obtain ⟨rest, pe, e1, l1, _⟩ :=
    tokenLoop_lexed _ _ [] tokens 0 (init_AtPos char_is_signed source) h
  rw [List.nil_append] at e1
  refine ⟨rest, _, e1, rfl, ?_⟩
  intro t ht
  obtain ⟨q, e, _, hta⟩ := LexedFrom_mem rest 0 l1 ht
  exact (TokAt_code hta).2.1

/-- C34 (no program with `else` is accepted).  For every program text of which the lexer
builds the token vector, when the vector holds an `ELSE_TOK` token, `generate` throws an
error (of the parser, not the end of the fuel of the model): every token a successful parse
has read is one the grammar asks for, no production accepts `else` (in the `else` branch of
`parse_A` the first `expect(END_TOK)` consumes the `else` itself), and every token of the
lexer but the last stands in front of the only `EOF_TOK`, where the parse has to read it. -/
theorem else_rejected (char_is_signed : Bool) (source : List Byte) (tokens : List Token)
    (hlex : tokenLoop (source.length + 1) (Lexer.init char_is_signed source) [] =
      .tokens tokens)
    (helse : ∃ t ∈ tokens, t.code = ELSE_TOK) :
    ∃ e, generate tokens = .error e ∧ e ≠ .outOfFuel := by
  obtain ⟨rest, eof, e1, e2, e3⟩ := tokenLoop_sentinel hlex
  obtain ⟨t, ht, hc⟩ := helse
  have hmem : t ∈ rest := by
    rw [e1] at ht
    rcases List.mem_append.mp ht with hm | hm
    · exact hm
    · rw [List.mem_singleton] at hm
      rw [hm, e2] at hc
      cases hc
  obtain ⟨k, hk, hget⟩ := List.getElem_of_mem hmem
  have hk1 : tokens[k]? = some t := by
    rw [e1, List.getElem?_append_left hk, List.getElem?_eq_getElem hk, hget]
  refine generate_else tokens k t hk1 hc ?_
  intro i u hi hu
  have hi1 : i < rest.length := by omega
  rw [e1, List.getElem?_append_left hi1, List.getElem?_eq_getElem hi1] at hu
  have : u ∈ rest := by
    rw [← Option.some.inj hu]
    exact List.getElem_mem _
  exact e3 u this

theorem sourceElse_tokens :
    tokenLoop (sourceElse.length + 1) (Lexer.init true sourceElse) [] =
      .tokens (tokensOf true sourceElse) ∧
    (tokensOf true sourceElse)[16]? = some ⟨ELSE_TOK, "else", 1⟩ ∧
    ∀ i < 17, ∀ u ∈ (tokensOf true sourceElse)[i]?, u.code ≠ EOF_TOK := by
  decide!

/-- Witness of `else_rejected` : the lexer builds the token vector of
`int a; begin if (a < 1) begin a = 1; end else begin a = 2; end ; output(a); end`, which
holds an `else` at index 16, and `generate` throws. -/
theorem else_rejected_witness :
    tokenLoop (sourceElse.length + 1) (Lexer.init true sourceElse) [] =
      .tokens (tokensOf true sourceElse) ∧
    (∃ t ∈ tokensOf true sourceElse, t.code = ELSE_TOK) ∧
    ∃ e, generate (tokensOf true sourceElse) = .error e ∧ e ≠ .outOfFuel :=
  have he : ∃ t ∈ tokensOf true sourceElse, t.code = ELSE_TOK :=
    ⟨⟨ELSE_TOK, "else", 1⟩, List.getElem?_mem sourceElse_tokens.2.1, rfl⟩
  ⟨sourceElse_tokens.1, he,
    else_rejected true sourceElse (tokensOf true sourceElse) sourceElse_tokens.1 he⟩

/-! ## The kinds of the operands of generated code -/

theorem kindsRun_append (c1 c2 : List RPNEntry) :
    ∀ ks, kindsRun ks (c1 ++ c2) = (kindsRun ks c1).bind (fun k => kindsRun k c2) := by
  induction c1 with
  | nil => intro ks; rfl
  | cons e rest ih =>
    intro ks
    simp only [List.cons_append, kindsRun]
    cases kindStep e ks with
    | none => rfl
    | some k => exact ih k

theorem kindsRun_cons (e : RPNEntry) (rest : List RPNEntry) (ks : List Kind) :
    kindsRun ks (e :: rest) = (kindStep e ks).bind (fun k => kindsRun k rest) := by
  simp only [kindsRun]
  cases kindStep e ks <;> rfl

theorem kindsRun_nil (ks : List Kind) : kindsRun ks [] = some ks := rfl

theorem kind_binary {op : String} (l : Int) (h1 : op ≠ "=") (h2 : op ≠ "[]=")
    {a b : Kind} (ks : List Kind) (ha : a.isValue = true)
    (hb : b.isValue = true) : kindStep ⟨OPERATION, op, l⟩ (b :: a :: ks) = some (.int :: ks) := by
  simp only [kindStep, if_neg h1, if_neg h2, if_true, ha, hb, Bool.and_self]

theorem kind_func (code : TokenCode) (v : String) (l : Int) {a : Kind} (ks : List Kind)
    (ha : a.isValue = true) : kindStep ⟨funcType code, v, l⟩ (a :: ks) = some (.int :: ks) := by
  unfold funcType
  split_ifs <;> simp only [kindStep, ha, if_true]

theorem relOp_binary {code : TokenCode} {op : String} (h : relOp code = some op) :
    op ≠ "=" ∧ op ≠ "[]=" ∧ isBinaryOp op = true := by
  unfold relOp at h
  have : op = "~" ∨ op = ">" ∨ op = "<" ∨ op = "!" := by
    split_ifs at h <;> simp only [Option.some.injEq] at h <;> simp [← h]
  rcases this with h | h | h | h <;> rw [h] <;> decide

/-- The code of an expression finds all its operands and leaves the kind of a value. -/
theorem DerivesE_kinds {tokens : List Token} {table : List (String × SymbolInfo)}
    (hc : CanonicalOps tokens)
    {X : NT} {i j : Nat} {code : List RPNEntry} (h : DerivesE tokens table X i j code) :
    exprKinds X code := by
  induction h with
  | G _ _ ih1 ih2 =>
    simp only [exprKinds] at ih1 ih2 ⊢
    intro ks
    obtain ⟨v, hv, e1⟩ := ih1 ks
    obtain ⟨v1, hv1, e2⟩ := ih2 ks v hv
    exact ⟨v1, hv1, by rw [kindsRun_append, e1]; exact e2⟩
  | U_nil _ _ =>
    simp only [exprKinds]
    intro ks v hv
    exact ⟨v, hv, rfl⟩
  | @U_op i j k t c1 c2 ht ho _ _ ih1 ih2 =>
    simp only [exprKinds] at ih1 ih2 ⊢
    intro ks v hv
    obtain ⟨l1, l2⟩ := arith_lexeme hc ht (by tauto)
    obtain ⟨v1, hv1, e1⟩ := ih1 (v :: ks)
    obtain ⟨v2, hv2, e2⟩ := ih2 ks .int rfl
    refine ⟨v2, hv2, ?_⟩
    rw [kindsRun_append, kindsRun_append, e1]
    simp only [Option.some_bind, kindsRun_cons, kindsRun_nil, kind_binary t.line l1 l2 ks hv hv1]
    exact e2
  | T _ _ ih1 ih2 =>
    simp only [exprKinds] at ih1 ih2 ⊢
    intro ks
    obtain ⟨v, hv, e1⟩ := ih1 ks
    obtain ⟨v1, hv1, e2⟩ := ih2 ks v hv
    exact ⟨v1, hv1, by rw [kindsRun_append, e1]; exact e2⟩
  | V_nil _ _ =>
    simp only [exprKinds]
    intro ks v hv
    exact ⟨v, hv, rfl⟩
  | @V_op i j k t c1 c2 ht ho _ _ ih1 ih2 =>
    simp only [exprKinds] at ih1 ih2 ⊢
    intro ks v hv
    obtain ⟨l1, l2⟩ := arith_lexeme hc ht (by tauto)
    obtain ⟨v1, hv1, e1⟩ := ih1 (v :: ks)
    obtain ⟨v2, hv2, e2⟩ := ih2 ks .int rfl
    refine ⟨v2, hv2, ?_⟩
    rw [kindsRun_append, kindsRun_append, e1]
    simp only [Option.some_bind, kindsRun_cons, kindsRun_nil, kind_binary t.line l1 l2 ks hv hv1]
    exact e2
  | F_paren _ _ _ _ _ ih =>
    simp only [exprKinds] at ih ⊢
    exact ih
  | @F_trig i j t l r c _ _ _ _ _ _ _ ih =>
    simp only [exprKinds] at ih ⊢
    intro ks
    obtain ⟨v, hv, e1⟩ := ih ks
    refine ⟨.int, rfl, ?_⟩
    rw [kindsRun_append, e1]
    simp only [Option.some_bind, kindsRun_cons, kindsRun_nil, kind_func t.code t.lexeme t.line ks hv]
  | F_var _ _ _ _ _ _ =>
    simp only [exprKinds]
    intro ks
    exact ⟨.scalar, rfl, rfl⟩
  | @F_index i j t b r info c _ _ _ _ _ _ _ _ _ ih =>
    simp only [exprKinds] at ih ⊢
    intro ks
    obtain ⟨v, hv, e1⟩ := ih (.array :: ks)
    refine ⟨.int, rfl, ?_⟩
    rw [kindsRun_append, List.singleton_append, kindsRun_cons]
    have h0 : kindStep ⟨ARRAY_BASE, t.lexeme, t.line⟩ ks = some (.array :: ks) := rfl
    rw [h0]
    simp only [Option.some_bind, kindsRun_append, e1, kindsRun_cons, kindsRun_nil, kindStep, hv,
      if_true]
  | F_num _ _ =>
    simp only [exprKinds]
    intro ks
    exact ⟨.int, rfl, rfl⟩

/-- The code of a condition finds all its operands and leaves an integer. -/
theorem DerivesC_kinds {tokens : List Token} {table : List (String × SymbolInfo)}
    (hc : CanonicalOps tokens)
    {i j : Nat} {code : List RPNEntry} (h : DerivesC tokens table i j code) :
    ∀ ks, kindsRun ks code = some (.int :: ks) := by
  cases h with
  | @C _ _ t op c1 c2 d1 ht hop d2 =>
    intro ks
    have h1 := DerivesE_kinds hc d1
    have h2 := DerivesE_kinds hc d2
    simp only [exprKinds] at h1 h2
    obtain ⟨a, ha, e1⟩ := h1 ks
    obtain ⟨b, hb, e2⟩ := h2 (a :: ks)
    obtain ⟨l1, l2, l3⟩ := relOp_binary hop
    rw [kindsRun_append, kindsRun_append, e1]
    simp only [Option.some_bind, e2, kindsRun_cons, kindsRun_nil, kind_binary t.line l1 l2 ks ha hb]

/-- The code of a sequence of statements finds all its operands. -/
theorem DerivesA_kinds {tokens : List Token} {table : List (String × SymbolInfo)}
    (hc : CanonicalOps tokens)
    {i j n m : Nat} {code : List RPNEntry} (h : DerivesA tokens table i j n m code) :
    ∀ ks, ∃ ks1, kindsRun ks code = some ks1 := by
  induction h with
  | nil _ _ => intro ks; exact ⟨ks, rfl⟩
  | @assign i j k n m t t1 e sc info c rest _ _ _ _ _ _ _ _ d _ _ _ ih =>
    intro ks
    have h1 := DerivesE_kinds hc d
    simp only [exprKinds] at h1
    obtain ⟨v, hv, e1⟩ := h1 (.scalar :: ks)
    obtain ⟨k2, e2⟩ := ih ks
    refine ⟨k2, ?_⟩
    have h0 : kindStep ⟨VAR, t.lexeme, t.line⟩ ks = some (.scalar :: ks) := rfl
    simp only [List.singleton_append, List.cons_append, List.append_assoc, kindsRun_cons, h0,
      Option.some_bind, kindsRun_append, e1, kindStep, hv, if_true, List.nil_append, e2]
  | @assignIndexed i j k l n m t b r e sc info c1 c2 rest _ _ _ _ _ _ d1 _ _ _ _ d2 _ _
      _ ih =>
    intro ks
    have h1 := DerivesE_kinds hc d1
    have h2 := DerivesE_kinds hc d2
    simp only [exprKinds] at h1 h2
    obtain ⟨v1, hv1, e1⟩ := h1 (.array :: ks)
    obtain ⟨v2, hv2, e2⟩ := h2 (v1 :: .array :: ks)
    obtain ⟨k2, e3⟩ := ih ks
    refine ⟨k2, ?_⟩
    have h0 : kindStep ⟨ARRAY_BASE, t.lexeme, t.line⟩ ks = some (.array :: ks) := rfl
    have h3 : kindStep ⟨OPERATION, "[]=", t.line⟩ (v2 :: v1 :: .array :: ks) = some ks := by
      simp [kindStep, hv1, hv2]
    simp only [List.singleton_append, List.cons_append, List.append_assoc, kindsRun_cons, h0,
      Option.some_bind, kindsRun_append, e1, e2, h3, List.nil_append, e3]
  | @ifThen i j k l n n1 m t lp rp bg en sc c body rest _ _ _ _ d _ _ _ _ _ _ _ _ _
      _ ihb ihr =>
    intro ks
    have e1 := DerivesC_kinds hc d ks
    obtain ⟨k2, e2⟩ := ihb []
    obtain ⟨k3, e3⟩ := ihr []
    refine ⟨k3, ?_⟩
    have h0 : kindStep ⟨JUMP_FALSE, labelName n, t.line⟩ (.int :: ks) = some [] := rfl
    have h1 : kindStep ⟨LABEL_DEF, labelName n, t.line⟩ k2 = some [] := rfl
    simp only [List.singleton_append, List.cons_append, List.append_assoc, kindsRun_cons, h0, h1,
      Option.some_bind, kindsRun_append, e1, e2, List.nil_append, e3]
  | @«while» i j k l n n1 m t lp rp bg en sc c body rest _ _ _ _ d _ _ _ _ _ _ _ _ _
      _ ihb ihr =>
    intro ks
    have e1 := DerivesC_kinds hc d []
    obtain ⟨k2, e2⟩ := ihb []
    obtain ⟨k3, e3⟩ := ihr []
    refine ⟨k3, ?_⟩
    have h0 : kindStep ⟨LABEL_DEF, labelName n, t.line⟩ ks = some [] := rfl
    have h1 : kindStep ⟨JUMP_FALSE, labelName (n + 1), t.line⟩ [.int] = some [] := rfl
    have h2 : kindStep ⟨JUMP, labelName n, t.line⟩ k2 = some [] := rfl
    have h3 : kindStep ⟨LABEL_DEF, labelName (n + 1), t.line⟩ [] = some [] := rfl
    simp only [List.singleton_append, List.cons_append, List.append_assoc, kindsRun_cons, h0, h1,
      h2, h3, Option.some_bind, kindsRun_append, e1, e2, List.nil_append, e3]
  | @input i k n m t lp id t1 rp sc info rest _ _ _ _ _ _ _ _ _ _ _ _ _ _ _ ih =>
    intro ks
    obtain ⟨k2, e2⟩ := ih ks
    refine ⟨k2, ?_⟩
    have h0 : kindStep ⟨VAR, id.lexeme, id.line⟩ ks = some (.scalar :: ks) := rfl
    have h1 : kindStep ⟨INPUT, "IN", t.line⟩ (.scalar :: ks) = some ks := rfl
    simp only [List.cons_append, List.nil_append, kindsRun_cons, h0, h1, Option.some_bind, e2]
  | @inputIndexed i j k n m t lp id b r rp sc info c rest _ _ _ _ _ _ _ _ _ _ d _ _ _ _
      _ _ _ ih =>
    intro ks
    have h1 := DerivesE_kinds hc d
    simp only [exprKinds] at h1
    obtain ⟨v, hv, e1⟩ := h1 (.array :: ks)
    obtain ⟨k2, e2⟩ := ih ks
    refine ⟨k2, ?_⟩
    have h0 : kindStep ⟨ARRAY_BASE, id.lexeme, id.line⟩ ks = some (.array :: ks) := rfl
    have h3 : kindStep ⟨INPUT, "IN[]", t.line⟩ (v :: .array :: ks) = some ks := by
      simp [kindStep, hv]
    simp only [List.singleton_append, List.cons_append, List.append_assoc, kindsRun_cons, h0,
      Option.some_bind, kindsRun_append, e1, h3, List.nil_append, e2]
  | @output i j k n m t lp rp sc c rest _ _ _ _ d _ _ _ _ _ ih =>
    intro ks
    have h1 := DerivesE_kinds hc d
    simp only [exprKinds] at h1
    obtain ⟨v, hv, e1⟩ := h1 ks
    obtain ⟨k2, e2⟩ := ih ks
    refine ⟨k2, ?_⟩
    have h3 : kindStep ⟨OUTPUT, "OUT", t.line⟩ (v :: ks) = some ks := by
      simp [kindStep, hv]
    simp only [List.singleton_append, List.cons_append, List.append_assoc, kindsRun_cons,
      Option.some_bind, kindsRun_append, e1, h3, List.nil_append, e2]
  | @trig i j k n m t lp rp sc c rest _ _ _ _ d _ _ _ _ _ ih =>
    intro ks
    have h1 := DerivesE_kinds hc d
    simp only [exprKinds] at h1
    obtain ⟨v, hv, e1⟩ := h1 ks
    obtain ⟨k2, e2⟩ := ih (.int :: ks)
    refine ⟨k2, ?_⟩
    simp only [List.singleton_append, List.cons_append, List.append_assoc, kindsRun_cons,
      Option.some_bind, kindsRun_append, e1, kind_func t.code t.lexeme t.line ks hv,
      List.nil_append, e2]

/-- The code of a program finds all its operands. -/
theorem DerivesP_kinds {tokens : List Token} (hc : CanonicalOps tokens) {i j n m : Nat}
    {table table1 : List (String × SymbolInfo)} {code : List RPNEntry}
    (h : DerivesP tokens i table j table1 n m code) :
    ∃ ks1, kindsRun [] code = some ks1 := by
  induction h with
  | empty _ _ _ _ => exact ⟨[], rfl⟩
  | block _ _ d _ _ => exact DerivesA_kinds hc d []
  | int _ _ _ _ _ _ _ _ ih => exact ih
  | arr _ _ _ _ _ _ _ _ _ _ _ _ _ _ _ _ ih => exact ih

/-! ## What the entries do on operands of the kinds they need -/

theorem itemOK_keeps {s s1 : RPNInterpreter} (hm : KeepsNames s s1) {k : Kind} {x : StackItem}
    (h : itemOK s k x) : itemOK s1 k x := by
  cases k <;> cases x <;> simp only [itemOK] at h ⊢
  · exact hm.1 _ h
  · exact hm.2 _ h

theorem forall2_keeps {s s1 : RPNInterpreter} (hm : KeepsNames s s1) {ks : List Kind}
    {top : List StackItem} (h : List.Forall₂ (itemOK s) ks top) :
    List.Forall₂ (itemOK s1) ks top :=
  h.imp (fun _ _ hx => itemOK_keeps hm hx)

theorem keepsNames_refl (s : RPNInterpreter) : KeepsNames s s := ⟨fun _ h => h, fun _ h => h⟩

theorem keepsNames_trans {s s1 s2 : RPNInterpreter} (h1 : KeepsNames s s1)
    (h2 : KeepsNames s1 s2) : KeepsNames s s2 :=
  ⟨fun n h => h2.1 n (h1.1 n h), fun n h => h2.2 n (h1.2 n h)⟩

theorem keepsNames_of {s s1 : RPNInterpreter}
    (hv : s1.m_variables = s.m_variables ∨
      ∃ name v, s1.m_variables = mapSet s.m_variables name v)
    (ha : s1.m_arrays = s.m_arrays ∨ ∃ name arr, s1.m_arrays = mapSet s.m_arrays name arr) :
    KeepsNames s s1 := by
  constructor
  · intro n h
    rcases hv with hv | ⟨name, v, hv⟩
    · rw [hv]
      exact h
    · rw [hv, mapFind_mapSet]
      split_ifs
      · rfl
      · exact h
  · intro n h
    rcases ha with ha | ⟨name, v, ha⟩
    · rw [ha]
      exact h
    · rw [ha, mapFind_mapSet]
      split_ifs
      · rfl
      · exact h

theorem isSome_mapSet {α : Type} (m : List (String × α)) (key name : String) (v : α)
    (h : (mapFind m name).isSome = true) : (mapFind (mapSet m key v) name).isSome = true := by
  rw [mapFind_mapSet]
  split_ifs
  · rfl
  · exact h

/-- An item of the kind of a value resolves to an integer. -/
theorem itemOK_value {s : RPNInterpreter} {k : Kind} {x : StackItem} (hk : k.isValue = true)
    (h : itemOK s k x) : ∃ v, intValue s x = some v := by
  cases k <;> cases x <;> simp only [itemOK] at h
  · exact ⟨_, rfl⟩
  · exact Option.isSome_iff_exists.mp h
  · cases hk

theorem itemOK_scalar {s : RPNInterpreter} {x : StackItem} (h : itemOK s .scalar x) :
    ∃ name old, x = .str name ∧ mapFind s.m_variables name = some old := by
  cases x <;> simp only [itemOK] at h
  obtain ⟨old, ho⟩ := Option.isSome_iff_exists.mp h
  exact ⟨_, old, rfl, ho⟩

theorem itemOK_array {s : RPNInterpreter} {x : StackItem} (h : itemOK s .array x) :
    ∃ name arr, x = .str name ∧ mapFind s.m_arrays name = some arr := by
  cases x <;> simp only [itemOK] at h
  obtain ⟨arr, ha⟩ := Option.isSome_iff_exists.mp h
  exact ⟨_, arr, rfl, ha⟩

/-- The operation `=` on a value and the name of a scalar. -/
theorem handle_operation_assign_eval {e : RPNEntry} {s : RPNInterpreter} {val : StackItem}
    {name : String} {rest : List StackItem} {v old : Int} (he : e.value = "=")
    (hs : s.m_operandStack = val :: .str name :: rest) (hv : intValue s val = some v)
    (hn : mapFind s.m_variables name = some old) :
    handle_operation e s =
      .ok () { s with m_operandStack := rest,
                      m_variables := mapSet s.m_variables name v } := by
  unfold handle_operation
  rw [if_pos he]
  rw [exec_bind_eq, pop_operand_eval hs]
  simp only
  rw [exec_bind_eq, pop_operand_eval (rfl : ({ s with m_operandStack := .str name :: rest } :
    RPNInterpreter).m_operandStack = _)]
  simp only
  rw [exec_bind_eq, get_int_eval (s := { s with m_operandStack := rest })
    (by rw [intValue_stack]; exact hv)]
  simp only
  rw [exec_bind_eq]
  simp only [get_string, exec_bind_eq, exec_pure_eq, getState, hn]
  rfl

/-- The method `handle_output` on a value. -/
theorem handle_output_eval {s : RPNInterpreter} {val : StackItem} {rest : List StackItem}
    {v : Int} (hs : s.m_operandStack = val :: rest) (hv : intValue s val = some v) :
    handle_output s = .ok () { s with m_operandStack := rest, cout := s.cout ++ [v] } := by
  unfold handle_output
  rw [exec_bind_eq, pop_operand_eval hs]
  simp only
  rw [exec_bind_eq, get_int_eval (s := { s with m_operandStack := rest })
    (by rw [intValue_stack]; exact hv)]
  rfl

/-- The input `IN` on the name of a scalar. -/
theorem handle_input_scalar_eval {e : RPNEntry} {s : RPNInterpreter} {name : String}
    {rest : List StackItem} {val old : Int} {unread : List Int}
    (he : e.value = "IN") (hc : s.cin = val :: unread)
    (hr : ¬ (val < INT_MIN ∨ val > INT_MAX))
    (hs : s.m_operandStack = .str name :: rest)
    (hn : mapFind s.m_variables name = some old) :
    handle_input e s =
      .ok () { s with cin := unread, m_operandStack := rest,
                      m_variables := mapSet s.m_variables name val } := by
  unfold handle_input
  have hread : readInt s = .ok val { s with cin := unread } := by
    unfold readInt
    rw [hc]
    simp only [if_neg hr]
  rw [exec_bind_eq, hread]
  simp only
  rw [if_pos he]
  rw [exec_bind_eq, pop_operand_eval (s := { s with cin := unread }) hs]
  simp only
  rw [exec_bind_eq]
  simp only [get_string, exec_bind_eq, exec_pure_eq, getState, hn]
  rfl

/-- An input the console does not hold, or holds out of the range of `int`. -/
theorem handle_input_invalid {e : RPNEntry} {s : RPNInterpreter}
    (h : s.cin = [] ∨ ∃ v r, s.cin = v :: r ∧ (v < INT_MIN ∨ v > INT_MAX)) :
    ∃ s1, handle_input e s = .throw .invalidInput s1 := by
  unfold handle_input
  rw [exec_bind_eq]
  rcases h with h | ⟨v, r, h, hr⟩
  · refine ⟨s, ?_⟩
    unfold readInt
    rw [h]
  · refine ⟨{ s with cin := r }, ?_⟩
    unfold readInt
    rw [h]
    simp only [if_pos hr]

theorem cin_cases (s : RPNInterpreter) :
    (s.cin = [] ∨ ∃ v r, s.cin = v :: r ∧ (v < INT_MIN ∨ v > INT_MAX)) ∨
    ∃ v r, s.cin = v :: r ∧ ¬ (v < INT_MIN ∨ v > INT_MAX) := by
  cases h : s.cin with
  | nil => exact Or.inl (Or.inl rfl)
  | cons v r =>
    by_cases hr : v < INT_MIN ∨ v > INT_MAX
    · exact Or.inl (Or.inr ⟨v, r, rfl, hr⟩)
    · exact Or.inr ⟨v, r, rfl, hr⟩

/-- A function of `<cmath>` on a value. -/
theorem unary_eval (f : Int → Int) {s : RPNInterpreter} {val : StackItem}
    {rest : List StackItem} {v : Int} (hs : s.m_operandStack = val :: rest)
    (hv : intValue s val = some v) :
    (do
      let arg ← pop_operand
      let val ← get_int arg
      push_operand (.int (f val))
      pure true : Exec Bool) s = .ok true { s with m_operandStack := .int (f v) :: rest } := by
  rw [exec_bind_eq, pop_operand_eval hs]
  simp only
  rw [exec_bind_eq, get_int_eval (s := { s with m_operandStack := rest })
    (by rw [intValue_stack]; exact hv)]
  rfl

/-- The chain of `binaryResult` gives a value, divides by zero, divides `INT_MIN` by -1, or
does not know the operator. -/
theorem binaryResult_binary (op : String) (a b : Int) (s : RPNInterpreter) :
    (∃ r, binaryResult op a b s = .ok r s) ∨
    (∃ f, binaryResult op a b s = .throw f s ∧ runFault f = true) ∨
    (binaryResult op a b s = .throw .unknownOperator s ∧ isBinaryOp op = false) := by
  unfold binaryResult
  by_cases c1 : op = "+"
  · rw [if_pos c1]
    exact Or.inl ⟨_, rfl⟩
  rw [if_neg c1]
  by_cases c2 : op = "-"
  · rw [if_pos c2]
    exact Or.inl ⟨_, rfl⟩
  rw [if_neg c2]
  by_cases c3 : op = "*"
  · rw [if_pos c3]
    exact Or.inl ⟨_, rfl⟩
  rw [if_neg c3]
  by_cases c4 : op = "/"
  · rw [if_pos c4]
    by_cases c0 : b = 0
    · rw [if_pos c0]
      exact Or.inr (Or.inl ⟨_, rfl, rfl⟩)
    · rw [if_neg c0]
      by_cases c9 : a = INT_MIN ∧ b = -1
      · rw [if_pos c9]
        exact Or.inr (Or.inl ⟨_, rfl, rfl⟩)
      · rw [if_neg c9]
        exact Or.inl ⟨_, rfl⟩
  rw [if_neg c4]
  by_cases c5 : op = "~"
  · rw [if_pos c5]
    exact Or.inl ⟨_, rfl⟩
  rw [if_neg c5]
  by_cases c6 : op = ">"
  · rw [if_pos c6]
    exact Or.inl ⟨_, rfl⟩
  rw [if_neg c6]
  by_cases c7 : op = "<"
  · rw [if_pos c7]
    exact Or.inl ⟨_, rfl⟩
  rw [if_neg c7]
  by_cases c8 : op = "!"
  · rw [if_pos c8]
    exact Or.inl ⟨_, rfl⟩
  rw [if_neg c8]
  refine Or.inr (Or.inr ⟨rfl, ?_⟩)
  simp [isBinaryOp, c1, c2, c3, c4, c5, c6, c7, c8]

/-! ## The run of generated code -/

theorem kindStep_assign {l : Int} {ks ks1 : List Kind}
    (h : kindStep ⟨OPERATION, "=", l⟩ ks = some ks1) :
    ∃ v, v.isValue = true ∧ ks = v :: .scalar :: ks1 := by
  simp only [kindStep, if_true] at h
  split at h
  · split_ifs at h with hv
    simp only [Option.some.injEq] at h
    subst h
    exact ⟨_, hv, rfl⟩
  · cases h

theorem kindStep_indexed {l : Int} {ks ks1 : List Kind}
    (h : kindStep ⟨OPERATION, "[]=", l⟩ ks = some ks1) :
    ∃ v i, v.isValue = true ∧ i.isValue = true ∧ ks = v :: i :: .array :: ks1 := by
  have h0 : ¬ ("[]=" = "=") := by decide
  simp only [kindStep, if_neg h0, if_true] at h
  split at h
  · split_ifs at h with hv
    simp only [Option.some.injEq] at h
    subst h
    simp only [Bool.and_eq_true] at hv
    exact ⟨_, _, hv.1, hv.2, rfl⟩
  · cases h

theorem kindStep_binary {op : String} {l : Int} {ks ks1 : List Kind} (h1 : op ≠ "=")
    (h2 : op ≠ "[]=") (h : kindStep ⟨OPERATION, op, l⟩ ks = some ks1) :
    ∃ b a rest, b.isValue = true ∧ a.isValue = true ∧ ks = b :: a :: rest ∧
      ks1 = .int :: rest := by
  simp only [kindStep, if_neg h1, if_neg h2] at h
  split at h
  · split_ifs at h with hv
    simp only [Option.some.injEq] at h
    simp only [Bool.and_eq_true] at hv
    exact ⟨_, _, _, hv.1, hv.2, rfl, h.symm⟩
  · cases h

theorem kindStep_access {v : String} {l : Int} {ks ks1 : List Kind}
    (h : kindStep ⟨ARRAY_ACCESS, v, l⟩ ks = some ks1) :
    ∃ i rest, i.isValue = true ∧ ks = i :: .array :: rest ∧ ks1 = .int :: rest := by
  simp only [kindStep] at h
  split at h
  · split_ifs at h with hv
    simp only [Option.some.injEq] at h
    exact ⟨_, _, hv, rfl, h.symm⟩
  · cases h

theorem kindStep_input {l : Int} {ks ks1 : List Kind}
    (h : kindStep ⟨INPUT, "IN", l⟩ ks = some ks1) : ks = .scalar :: ks1 := by
  simp only [kindStep, if_true] at h
  split at h
  · simp only [Option.some.injEq] at h
    rw [h]
  · cases h

theorem kindStep_inputIndexed {l : Int} {ks ks1 : List Kind}
    (h : kindStep ⟨INPUT, "IN[]", l⟩ ks = some ks1) :
    ∃ i, i.isValue = true ∧ ks = i :: .array :: ks1 := by
  have h0 : ¬ ("IN[]" = "IN") := by decide
  simp only [kindStep, if_neg h0, if_true] at h
  split at h
  · split_ifs at h with hv
    simp only [Option.some.injEq] at h
    subst h
    exact ⟨_, hv, rfl⟩
  · cases h

theorem kindStep_inputOther {v : String} {l : Int} {ks ks1 : List Kind}
    (h : kindStep ⟨INPUT, v, l⟩ ks = some ks1) : v = "IN" ∨ v = "IN[]" := by
  by_cases h1 : v = "IN"
  · exact Or.inl h1
  · by_cases h2 : v = "IN[]"
    · exact Or.inr h2
    · simp only [kindStep, if_neg h1, if_neg h2] at h
      cases h

theorem kindStep_output {v : String} {l : Int} {ks ks1 : List Kind}
    (h : kindStep ⟨OUTPUT, v, l⟩ ks = some ks1) :
    ∃ a, a.isValue = true ∧ ks = a :: ks1 := by
  simp only [kindStep] at h
  split at h
  · split_ifs at h with hv
    simp only [Option.some.injEq] at h
    subst h
    exact ⟨_, hv, rfl⟩
  · cases h

theorem kindStep_jumpFalse {v : String} {l : Int} {ks ks1 : List Kind}
    (h : kindStep ⟨JUMP_FALSE, v, l⟩ ks = some ks1) :
    ∃ a rest, a.isValue = true ∧ ks = a :: rest ∧ ks1 = [] := by
  simp only [kindStep] at h
  split at h
  · split_ifs at h with hv
    simp only [Option.some.injEq] at h
    exact ⟨_, _, hv, rfl, h.symm⟩
  · cases h

theorem kindStep_func {ty : RPNItemType} {v : String} {l : Int} {ks ks1 : List Kind}
    (ht : ty = FUNC_SIN ∨ ty = FUNC_COS ∨ ty = FUNC_TG ∨ ty = FUNC_CTG)
    (h : kindStep ⟨ty, v, l⟩ ks = some ks1) :
    ∃ a rest, a.isValue = true ∧ ks = a :: rest ∧ ks1 = .int :: rest := by
  rcases ht with rfl | rfl | rfl | rfl
  all_goals
    simp only [kindStep] at h
    split at h
    · split_ifs at h with hv
      simp only [Option.some.injEq] at h
      exact ⟨_, _, hv, rfl, h.symm⟩
    · cases h

theorem forall2_cons {s : RPNInterpreter} {k : Kind} {ks : List Kind} {top : List StackItem}
    (h : List.Forall₂ (itemOK s) (k :: ks) top) :
    ∃ x rest, top = x :: rest ∧ itemOK s k x ∧ List.Forall₂ (itemOK s) ks rest := by
  obtain ⟨x, rest, h1, h2, h3⟩ := List.forall₂_cons_left_iff.mp h
  exact ⟨x, rest, h3, h1, h2⟩

/-- An entry that finds operands of the kinds it needs throws no fault but one the values
decide or one of `entryFault`, and leaves operands of the kinds `kindStep` says. -/
theorem execEntry_typed (fns : MathFns) {p : Program} {e : RPNEntry} {s : RPNInterpreter}
    {ks ks1 : List Kind} {top below : List StackItem}
    (hp : ProgramOK p) (hmem : e ∈ p.m_rpn) (hn : NamesOK p s)
    (hs : s.m_operandStack = top ++ below) (hf : List.Forall₂ (itemOK s) ks top)
    (hk : kindStep e ks = some ks1) :
    (∃ f s1, execEntry fns p e s = .throw f s1 ∧ (runFault f = true ∨ entryFault e f)) ∨
    (∃ s1 top1 below1, execEntry fns p e s = .ok true s1 ∧ s1.m_pc = s.m_pc ∧
        s1.m_operandStack = top1 ++ below1 ∧ List.Forall₂ (itemOK s1) ks1 top1 ∧
        KeepsNames s s1) ∨
    (∃ s1 t, execEntry fns p e s = .ok false s1 ∧ ks1 = [] ∧
        mapFind p.m_labelMap e.value = some t ∧ s1.m_pc = t ∧ KeepsNames s s1) := by
  obtain ⟨ty, value, line⟩ := e
  have hN := hn _ hmem
  cases ty with
  | VAR =>
    simp only [kindStep, Option.some.injEq] at hk
    subst hk
    refine Or.inr (Or.inl ⟨{ s with m_operandStack := .str value :: s.m_operandStack },
      .str value :: top, below, rfl, rfl, ?_, ?_, keepsNames_refl s⟩)
    · show StackItem.str value :: s.m_operandStack = _
      rw [hs]
      rfl
    · exact List.Forall₂.cons (hN.1 rfl) hf
  | ARRAY_BASE =>
    simp only [kindStep, Option.some.injEq] at hk
    subst hk
    refine Or.inr (Or.inl ⟨{ s with m_operandStack := .str value :: s.m_operandStack },
      .str value :: top, below, rfl, rfl, ?_, ?_, keepsNames_refl s⟩)
    · show StackItem.str value :: s.m_operandStack = _
      rw [hs]
      rfl
    · exact List.Forall₂.cons (hN.2 rfl) hf
  | CONST =>
    simp only [kindStep, Option.some.injEq] at hk
    subst hk
    cases hst : stoi value with
    | error err =>
      cases err with
      | invalid_argument =>
        refine Or.inl ⟨.constantInvalid, s, ?_, Or.inr (Or.inl ⟨rfl, rfl, hst⟩)⟩
        unfold execEntry
        simp only [hst]
        rfl
      | out_of_range =>
        refine Or.inl ⟨.constantOutOfRange, s, ?_, Or.inl rfl⟩
        unfold execEntry
        simp only [hst]
        rfl
    | ok v =>
      refine Or.inr (Or.inl ⟨{ s with m_operandStack := .int v :: s.m_operandStack },
        .int v :: top, below, ?_, rfl, ?_, ?_, keepsNames_refl s⟩)
      · unfold execEntry
        simp only [hst]
        rfl
      · show StackItem.int v :: s.m_operandStack = _
        rw [hs]
        rfl
      · exact List.Forall₂.cons trivial hf
  | OPERATION =>
    have hx := (execEntry_indexed fns p ⟨OPERATION, value, line⟩ s).2.1 rfl
    by_cases h1 : value = "="
    · subst h1
      obtain ⟨v, hv, rfl⟩ := kindStep_assign hk
      obtain ⟨x1, r1, rfl, i1, f1⟩ := forall2_cons hf
      obtain ⟨x2, r2, rfl, i2, f2⟩ := forall2_cons f1
      obtain ⟨a, ha⟩ := itemOK_value hv i1
      obtain ⟨name, old, rfl, ho⟩ := itemOK_scalar i2
      simp only [List.cons_append] at hs
      have hev := handle_operation_assign_eval (e := ⟨OPERATION, "=", line⟩) rfl hs ha ho
      refine Or.inr (Or.inl ⟨{ s with
          m_operandStack := r2 ++ below
          m_variables := mapSet s.m_variables name a }, r2, below, ?_, rfl, rfl, ?_, ?_⟩)
      · rw [hx, exec_bind_eq, hev]
        rfl
      · refine forall2_keeps ?_ f2
        exact keepsNames_of (Or.inr ⟨_, _, rfl⟩) (Or.inl rfl)
      · exact keepsNames_of (Or.inr ⟨_, _, rfl⟩) (Or.inl rfl)
    · by_cases h2 : value = "[]="
      · subst h2
        obtain ⟨v, i, hv, hi, rfl⟩ := kindStep_indexed hk
        obtain ⟨x1, r1, rfl, i1, f1⟩ := forall2_cons hf
        obtain ⟨x2, r2, rfl, i2, f2⟩ := forall2_cons f1
        obtain ⟨x3, r3, rfl, i3, f3⟩ := forall2_cons f2
        obtain ⟨a, ha⟩ := itemOK_value hv i1
        obtain ⟨b, hb⟩ := itemOK_value hi i2
        obtain ⟨name, arr, rfl, ho⟩ := itemOK_array i3
        simp only [List.cons_append] at hs
        have hev := handle_operation_indexed_eval (e := ⟨OPERATION, "[]=", line⟩) rfl hs ha hb ho
        by_cases hbound : b < 0 ∨ b.toNat ≥ arr.length
        · rw [if_pos hbound] at hev
          refine Or.inl ⟨.indexOutOfBounds, { s with m_operandStack := r3 ++ below }, ?_, Or.inl rfl⟩
          rw [hx, exec_bind_eq, hev]
        · rw [if_neg hbound] at hev
          refine Or.inr (Or.inl ⟨{ s with
              m_operandStack := r3 ++ below
              m_arrays := mapSet s.m_arrays name (arr.set b.toNat a) }, r3, below, ?_, rfl, rfl,
            ?_, ?_⟩)
          · rw [hx, exec_bind_eq, hev]
            rfl
          · refine forall2_keeps ?_ f3
            exact keepsNames_of (Or.inl rfl) (Or.inr ⟨_, _, rfl⟩)
          · exact keepsNames_of (Or.inl rfl) (Or.inr ⟨_, _, rfl⟩)
      · obtain ⟨kb, ka, rest, hb, ha, rfl, rfl⟩ := kindStep_binary h1 h2 hk
        obtain ⟨x1, r1, rfl, i1, f1⟩ := forall2_cons hf
        obtain ⟨x2, r2, rfl, i2, f2⟩ := forall2_cons f1
        obtain ⟨b, hbv⟩ := itemOK_value hb i1
        obtain ⟨a, hav⟩ := itemOK_value ha i2
        simp only [List.cons_append] at hs
        have hev := handle_operation_binary_eval (e := ⟨OPERATION, value, line⟩) h1 h2 hs hbv hav
        rcases binaryResult_binary value a b { s with m_operandStack := r2 ++ below } with
          ⟨r, hr⟩ | ⟨f, hr, hrf⟩ | ⟨hr, hun⟩
        · simp only at hev
          rw [hr] at hev
          refine Or.inr (Or.inl ⟨{ s with m_operandStack := .int r :: (r2 ++ below) },
            .int r :: r2, below, ?_, rfl, rfl, ?_, keepsNames_refl s⟩)
          · rw [hx, exec_bind_eq, hev]
            rfl
          · exact List.Forall₂.cons trivial f2
        · simp only at hev
          rw [hr] at hev
          refine Or.inl ⟨f, { s with m_operandStack := r2 ++ below }, ?_, Or.inl hrf⟩
          rw [hx, exec_bind_eq, hev]
        · simp only at hev
          rw [hr] at hev
          refine Or.inl ⟨.unknownOperator, { s with m_operandStack := r2 ++ below }, ?_,
            Or.inr (Or.inr ⟨rfl, rfl, h1, h2, hun⟩)⟩
          rw [hx, exec_bind_eq, hev]
  | LABEL_DEF =>
    simp only [kindStep, Option.some.injEq] at hk
    subst hk
    exact Or.inr (Or.inl ⟨s, [], s.m_operandStack, rfl, rfl, rfl, List.Forall₂.nil,
      keepsNames_refl s⟩)
  | JUMP =>
    simp only [kindStep, Option.some.injEq] at hk
    subst hk
    obtain ⟨t, ht⟩ := Option.isSome_iff_exists.mp (hp.2.1 _ hmem (Or.inl rfl))
    simp only at ht
    refine Or.inr (Or.inr ⟨{ s with m_pc := t }, t, ?_, rfl, ht, rfl, keepsNames_refl s⟩)
    have hfl : find_label p value s = .ok t s := by
      unfold find_label
      rw [ht]
      rfl
    unfold execEntry
    simp only
    rw [exec_bind_eq, hfl]
    rfl
  | JUMP_FALSE =>
    obtain ⟨ka, rest, ha, rfl, rfl⟩ := kindStep_jumpFalse hk
    obtain ⟨x1, r1, rfl, i1, f1⟩ := forall2_cons hf
    obtain ⟨c, hc⟩ := itemOK_value ha i1
    simp only [List.cons_append] at hs
    obtain ⟨t, ht⟩ := Option.isSome_iff_exists.mp (hp.2.1 _ hmem (Or.inr rfl))
    simp only at ht
    have hfl : ∀ s0 : RPNInterpreter, find_label p value s0 = .ok t s0 := by
      intro s0
      unfold find_label
      rw [ht]
      rfl
    have hpop : execEntry fns p ⟨JUMP_FALSE, value, line⟩ s =
        (if c = 0 then
          (do
            let target ← find_label p value
            setPc target
            pure false : Exec Bool)
        else pure true) { s with m_operandStack := r1 ++ below } := by
      unfold execEntry
      simp only
      rw [exec_bind_eq, pop_operand_eval hs]
      simp only
      rw [exec_bind_eq, get_int_eval (s := { s with m_operandStack := r1 ++ below })
        (by rw [intValue_stack]; exact hc)]
    by_cases hz : c = 0
    · rw [if_pos hz, exec_bind_eq, hfl] at hpop
      exact Or.inr (Or.inr ⟨{ s with m_operandStack := r1 ++ below, m_pc := t }, t, hpop, rfl,
        ht, rfl, keepsNames_refl s⟩)
    · rw [if_neg hz] at hpop
      exact Or.inr (Or.inl ⟨{ s with m_operandStack := r1 ++ below }, [], r1 ++ below, hpop,
        rfl, rfl, List.Forall₂.nil, keepsNames_refl s⟩)
  | ARRAY_ACCESS =>
    have hx := (execEntry_indexed fns p ⟨ARRAY_ACCESS, value, line⟩ s).1 rfl
    obtain ⟨ki, rest, hi, rfl, rfl⟩ := kindStep_access hk
    obtain ⟨x1, r1, rfl, i1, f1⟩ := forall2_cons hf
    obtain ⟨x2, r2, rfl, i2, f2⟩ := forall2_cons f1
    obtain ⟨b, hb⟩ := itemOK_value hi i1
    obtain ⟨name, arr, rfl, ho⟩ := itemOK_array i2
    simp only [List.cons_append] at hs
    have hev := handle_array_access_eval hs hb ho
    by_cases hbound : b < 0 ∨ b.toNat ≥ arr.length
    · rw [if_pos hbound] at hev
      refine Or.inl ⟨.indexOutOfBounds, { s with m_operandStack := r2 ++ below }, ?_, Or.inl rfl⟩
      rw [hx, exec_bind_eq, hev]
    · rw [if_neg hbound] at hev
      refine Or.inr (Or.inl ⟨{ s with
          m_operandStack := .int (arr.getD b.toNat 0) :: (r2 ++ below) },
        .int (arr.getD b.toNat 0) :: r2, below, ?_, rfl, rfl, ?_,
        keepsNames_refl s⟩)
      · rw [hx, exec_bind_eq, hev]
        rfl
      · exact List.Forall₂.cons trivial f2
  | ARRAY_ASSIGN =>
    simp only [kindStep] at hk
    cases hk
  | INPUT =>
    have hx := (execEntry_indexed fns p ⟨INPUT, value, line⟩ s).2.2 rfl
    rcases cin_cases s with hbad | ⟨val, unread, hc, hr⟩
    · obtain ⟨s1, h1⟩ := handle_input_invalid (e := ⟨INPUT, value, line⟩) hbad
      refine Or.inl ⟨.invalidInput, s1, ?_, Or.inl rfl⟩
      rw [hx, exec_bind_eq, h1]
    · rcases kindStep_inputOther hk with h1 | h1
      · subst h1
        have hks := kindStep_input hk
        subst hks
        obtain ⟨x1, r1, rfl, i1, f1⟩ := forall2_cons hf
        obtain ⟨name, old, rfl, ho⟩ := itemOK_scalar i1
        simp only [List.cons_append] at hs
        have hev := handle_input_scalar_eval (e := ⟨INPUT, "IN", line⟩) rfl hc hr hs ho
        refine Or.inr (Or.inl ⟨{ s with
            cin := unread, m_operandStack := r1 ++ below
            m_variables := mapSet s.m_variables name val }, r1, below, ?_, rfl, rfl, ?_, ?_⟩)
        · rw [hx, exec_bind_eq, hev]
          rfl
        · refine forall2_keeps ?_ f1
          exact keepsNames_of (Or.inr ⟨_, _, rfl⟩) (Or.inl rfl)
        · exact keepsNames_of (Or.inr ⟨_, _, rfl⟩) (Or.inl rfl)
      · subst h1
        obtain ⟨ki, hi, rfl⟩ := kindStep_inputIndexed hk
        obtain ⟨x1, r1, rfl, i1, f1⟩ := forall2_cons hf
        obtain ⟨x2, r2, rfl, i2, f2⟩ := forall2_cons f1
        obtain ⟨b, hb⟩ := itemOK_value hi i1
        obtain ⟨name, arr, rfl, ho⟩ := itemOK_array i2
        simp only [List.cons_append] at hs
        have hev := handle_input_indexed_eval (e := ⟨INPUT, "IN[]", line⟩) rfl hc hr hs hb ho
        by_cases hbound : b < 0 ∨ b.toNat ≥ arr.length
        · rw [if_pos hbound] at hev
          refine Or.inl ⟨.indexOutOfBounds, { s with
              cin := unread
              m_operandStack := r2 ++ below }, ?_, Or.inl rfl⟩
          rw [hx, exec_bind_eq, hev]
        · rw [if_neg hbound] at hev
          refine Or.inr (Or.inl ⟨{ s with
              cin := unread, m_operandStack := r2 ++ below
              m_arrays := mapSet s.m_arrays name (arr.set b.toNat val) }, r2, below, ?_, rfl, rfl,
            ?_, ?_⟩)
          · rw [hx, exec_bind_eq, hev]
            rfl
          · refine forall2_keeps ?_ f2
            exact keepsNames_of (Or.inl rfl) (Or.inr ⟨_, _, rfl⟩)
          · exact keepsNames_of (Or.inl rfl) (Or.inr ⟨_, _, rfl⟩)
  | OUTPUT =>
    obtain ⟨ka, ha, rfl⟩ := kindStep_output hk
    obtain ⟨x1, r1, rfl, i1, f1⟩ := forall2_cons hf
    obtain ⟨a, hav⟩ := itemOK_value ha i1
    simp only [List.cons_append] at hs
    have hev := handle_output_eval hs hav
    refine Or.inr (Or.inl ⟨{ s with m_operandStack := r1 ++ below, cout := s.cout ++ [a] },
      r1, below, ?_, rfl, rfl, ?_, keepsNames_refl s⟩)
    · unfold execEntry
      simp only
      rw [exec_bind_eq, hev]
      rfl
    · exact f1
  | FUNC_SIN =>
    obtain ⟨ka, rest, ha, rfl, rfl⟩ := kindStep_func (Or.inl rfl) hk
    obtain ⟨x1, r1, rfl, i1, f1⟩ := forall2_cons hf
    obtain ⟨a, hav⟩ := itemOK_value ha i1
    simp only [List.cons_append] at hs
    exact Or.inr (Or.inl ⟨{ s with m_operandStack := .int (fns.sin_int a) :: (r1 ++ below) },
      .int (fns.sin_int a) :: r1, below,
      unary_eval fns.sin_int hs hav, rfl, rfl, List.Forall₂.cons trivial f1, keepsNames_refl s⟩)
  | FUNC_COS =>
    obtain ⟨ka, rest, ha, rfl, rfl⟩ := kindStep_func (Or.inr (Or.inl rfl)) hk
    obtain ⟨x1, r1, rfl, i1, f1⟩ := forall2_cons hf
    obtain ⟨a, hav⟩ := itemOK_value ha i1
    simp only [List.cons_append] at hs
    exact Or.inr (Or.inl ⟨{ s with m_operandStack := .int (fns.cos_int a) :: (r1 ++ below) },
      .int (fns.cos_int a) :: r1, below,
      unary_eval fns.cos_int hs hav, rfl, rfl, List.Forall₂.cons trivial f1, keepsNames_refl s⟩)
  | FUNC_TG =>
    obtain ⟨ka, rest, ha, rfl, rfl⟩ := kindStep_func (Or.inr (Or.inr (Or.inl rfl))) hk
    obtain ⟨x1, r1, rfl, i1, f1⟩ := forall2_cons hf
    obtain ⟨a, hav⟩ := itemOK_value ha i1
    simp only [List.cons_append] at hs
    exact Or.inr (Or.inl ⟨{ s with m_operandStack := .int (fns.tan_int a) :: (r1 ++ below) },
      .int (fns.tan_int a) :: r1, below,
      unary_eval fns.tan_int hs hav, rfl, rfl, List.Forall₂.cons trivial f1, keepsNames_refl s⟩)
  | FUNC_CTG =>
    obtain ⟨ka, rest, ha, rfl, rfl⟩ := kindStep_func (Or.inr (Or.inr (Or.inr rfl))) hk
    obtain ⟨x1, r1, rfl, i1, f1⟩ := forall2_cons hf
    obtain ⟨a, hav⟩ := itemOK_value ha i1
    simp only [List.cons_append] at hs
    have hpop : execEntry fns p ⟨FUNC_CTG, value, line⟩ s =
        (if fns.tan_is_zero a then raise .ctgUndefined
        else
          (do
            push_operand (.int (fns.ctg_int a))
            pure true : Exec Bool)) { s with m_operandStack := r1 ++ below } := by
      unfold execEntry
      simp only
      rw [exec_bind_eq, pop_operand_eval hs]
      simp only
      rw [exec_bind_eq, get_int_eval (s := { s with m_operandStack := r1 ++ below })
        (by rw [intValue_stack]; exact hav)]
    by_cases hz : fns.tan_is_zero a = true
    · rw [if_pos hz] at hpop
      exact Or.inl ⟨.ctgUndefined, { s with m_operandStack := r1 ++ below }, hpop, Or.inl rfl⟩
    · rw [if_neg hz] at hpop
      exact Or.inr (Or.inl ⟨{ s with m_operandStack := .int (fns.ctg_int a) :: (r1 ++ below) },
        .int (fns.ctg_int a) :: r1, below, hpop, rfl, rfl, List.Forall₂.cons trivial f1,
        keepsNames_refl s⟩)

/-! ## The literals of generated code -/

theorem literals_append {tokens : List Token} {a b : List RPNEntry}
    (ha : ∀ e ∈ a, LiteralOf tokens e) (hb : ∀ e ∈ b, LiteralOf tokens e) :
    ∀ e ∈ a ++ b, LiteralOf tokens e := by
  intro e he
  rcases List.mem_append.mp he with h | h
  · exact ha e h
  · exact hb e h

theorem literals_single {tokens : List Token} {x : RPNEntry}
    (h : LiteralOf tokens x) : ∀ e ∈ [x], LiteralOf tokens e := by
  intro e he
  rw [List.mem_singleton.mp he]
  exact h

theorem literals_nil {tokens : List Token} :
    ∀ e ∈ ([] : List RPNEntry), LiteralOf tokens e := by
  intro e he
  cases he

theorem literal_other {tokens : List Token} {x : RPNEntry} (h1 : x.type ≠ CONST) :
    LiteralOf tokens x := fun h => absurd h h1

theorem literal_func {tokens : List Token} (c : TokenCode) (v : String) (l : Int) :
    LiteralOf tokens ⟨funcType c, v, l⟩ := by
  have := funcType_isFunc c
  apply literal_other
  intro h
  simp only at h
  rw [h] at this
  cases this

theorem literal_num {tokens : List Token} {i : Nat} {t : Token} (h : tokens[i]? = some t)
    (hc : t.code = NUM_TOK) : LiteralOf tokens ⟨CONST, t.lexeme, t.line⟩ :=
  fun _ => ⟨t, List.getElem?_mem h, hc, rfl⟩

/-- The `CONST` entries of the code of an expression hold lexemes of `NUM_TOK` tokens. -/
theorem DerivesE_literals {tokens : List Token} {table : List (String × SymbolInfo)}
    {X : NT} {i j : Nat} {code : List RPNEntry} (h : DerivesE tokens table X i j code) :
    ∀ e ∈ code, LiteralOf tokens e := by
  induction h with
  | G _ _ ih1 ih2 => exact literals_append ih1 ih2
  | U_nil _ _ => exact literals_nil
  | U_op _ _ _ _ ih1 ih2 =>
    exact literals_append (literals_append ih1
      (literals_single (literal_other (by simp)))) ih2
  | T _ _ ih1 ih2 => exact literals_append ih1 ih2
  | V_nil _ _ => exact literals_nil
  | V_op _ _ _ _ ih1 ih2 =>
    exact literals_append (literals_append ih1
      (literals_single (literal_other (by simp)))) ih2
  | F_paren _ _ _ _ _ ih => exact ih
  | F_trig _ _ _ _ _ _ _ ih =>
    exact literals_append ih (literals_single (literal_func _ _ _))
  | F_var _ _ a3 _ _ a6 => exact literals_single (literal_other (by simp))
  | F_index _ _ a3 _ _ a6 _ _ _ ih =>
    exact literals_append (literals_append (literals_single (literal_other (by simp))) ih)
      (literals_single (literal_other (by simp)))
  | F_num a1 a2 => exact literals_single (literal_num a1 a2)

theorem DerivesC_literals {tokens : List Token} {table : List (String × SymbolInfo)}
    {i j : Nat} {code : List RPNEntry} (h : DerivesC tokens table i j code) :
    ∀ e ∈ code, LiteralOf tokens e := by
  cases h with
  | C d1 _ _ d2 =>
    exact literals_append (literals_append (DerivesE_literals d1) (DerivesE_literals d2))
      (literals_single (literal_other (by simp)))

/-- The `CONST` entries of the code of a statement list hold lexemes of `NUM_TOK` tokens. -/
theorem DerivesA_literals {tokens : List Token} {table : List (String × SymbolInfo)}
    {i j n m : Nat} {code : List RPNEntry} (h : DerivesA tokens table i j n m code) :
    ∀ e ∈ code, LiteralOf tokens e := by
  induction h with
  | nil _ _ => exact literals_nil
  | assign _ _ a3 _ _ a6 _ _ d _ _ _ ih =>
    exact literals_append (literals_append (literals_append
      (literals_single (literal_other (by simp))) (DerivesE_literals d))
      (literals_single (literal_other (by simp)))) ih
  | assignIndexed _ _ a3 _ _ a6 d1 _ _ _ _ d2 _ _ _ ih =>
    exact literals_append (literals_append (literals_append (literals_append
      (literals_single (literal_other (by simp))) (DerivesE_literals d1))
      (DerivesE_literals d2)) (literals_single (literal_other (by simp)))) ih
  | ifThen _ _ _ _ dC _ _ _ _ _ _ _ _ _ _ ih1 ih2 =>
    exact literals_append (literals_append (literals_append (literals_append
      (DerivesC_literals dC) (literals_single (literal_other (by simp)))) ih1)
      (literals_single (literal_other (by simp)))) ih2
  | «while» _ _ _ _ dC _ _ _ _ _ _ _ _ _ _ ih1 ih2 =>
    refine literals_append (literals_append (literals_append (literals_append
      (literals_append (literals_single (literal_other (by simp)))
      (DerivesC_literals dC)) (literals_single (literal_other (by simp)))) ih1)
      ?_) ih2
    intro e he
    simp only [List.mem_cons, List.mem_singleton, List.not_mem_nil, or_false] at he
    rcases he with h | h <;> rw [h] <;> exact literal_other (by simp)
  | input _ _ _ _ _ _ a7 _ _ a10 _ _ _ _ _ ih =>
    refine literals_append ?_ ih
    intro e he
    simp only [List.mem_cons, List.mem_singleton, List.not_mem_nil, or_false] at he
    rcases he with h | h <;> rw [h]
    · exact literal_other (by simp)
    · exact literal_other (by simp)
  | inputIndexed _ _ _ _ _ _ a7 _ _ a10 d _ _ _ _ _ _ _ ih =>
    exact literals_append (literals_append (literals_append
      (literals_single (literal_other (by simp))) (DerivesE_literals d))
      (literals_single (literal_other (by simp)))) ih
  | output _ _ _ _ d _ _ _ _ _ ih =>
    exact literals_append (literals_append (DerivesE_literals d)
      (literals_single (literal_other (by simp)))) ih
  | trig _ _ _ _ d _ _ _ _ _ ih =>
    exact literals_append (literals_append (DerivesE_literals d)
      (literals_single (literal_func _ _ _))) ih

theorem DerivesP_literals {tokens : List Token} {i j n m : Nat}
    {table table1 : List (String × SymbolInfo)} {code : List RPNEntry}
    (h : DerivesP tokens i table j table1 n m code) :
    ∀ e ∈ code, LiteralOf tokens e := by
  induction h with
  | empty _ _ _ _ => exact literals_nil
  | block _ _ d _ _ => exact DerivesA_literals d
  | int _ _ _ _ _ _ _ _ ih => exact ih
  | arr _ _ _ _ _ _ _ _ _ _ _ _ _ _ _ _ ih => exact ih

/-! ## The operators of generated code -/

theorem operators_append {tokens : List Token} {a b : List RPNEntry}
    (ha : ∀ e ∈ a, OperatorOf tokens e) (hb : ∀ e ∈ b, OperatorOf tokens e) :
    ∀ e ∈ a ++ b, OperatorOf tokens e := by
  intro e he
  rcases List.mem_append.mp he with h | h
  · exact ha e h
  · exact hb e h

theorem operators_single {tokens : List Token} {x : RPNEntry}
    (h : OperatorOf tokens x) : ∀ e ∈ [x], OperatorOf tokens e := by
  intro e he
  rw [List.mem_singleton.mp he]
  exact h

theorem operators_nil {tokens : List Token} :
    ∀ e ∈ ([] : List RPNEntry), OperatorOf tokens e := by
  intro e he
  cases he

theorem operator_other {tokens : List Token} {x : RPNEntry} (h1 : x.type ≠ OPERATION) :
    OperatorOf tokens x := fun h => absurd h h1

theorem operator_func {tokens : List Token} (c : TokenCode) (v : String) (l : Int) :
    OperatorOf tokens ⟨funcType c, v, l⟩ := by
  have := funcType_isFunc c
  apply operator_other
  intro h
  simp only at h
  rw [h] at this
  cases this

theorem operator_arith {tokens : List Token} {i : Nat} {t : Token} (h : tokens[i]? = some t)
    (hc : t.code = PLUS_TOK ∨ t.code = MINUS_TOK ∨ t.code = STAR_TOK ∨ t.code = SLASH_TOK) :
    OperatorOf tokens ⟨OPERATION, t.lexeme, t.line⟩ :=
  fun _ => Or.inr (Or.inr (Or.inr ⟨t, List.getElem?_mem h, hc, rfl⟩))

/-- The `OPERATION` entries of the code of an expression hold lexemes of tokens with the
code of an arithmetic operator. -/
theorem DerivesE_operators {tokens : List Token} {table : List (String × SymbolInfo)}
    {X : NT} {i j : Nat} {code : List RPNEntry} (h : DerivesE tokens table X i j code) :
    ∀ e ∈ code, OperatorOf tokens e := by
  induction h with
  | G _ _ ih1 ih2 => exact operators_append ih1 ih2
  | U_nil _ _ => exact operators_nil
  | U_op a1 a2 _ _ ih1 ih2 =>
    exact operators_append (operators_append ih1
      (operators_single (operator_arith a1 (by tauto)))) ih2
  | T _ _ ih1 ih2 => exact operators_append ih1 ih2
  | V_nil _ _ => exact operators_nil
  | V_op a1 a2 _ _ ih1 ih2 =>
    exact operators_append (operators_append ih1
      (operators_single (operator_arith a1 (by tauto)))) ih2
  | F_paren _ _ _ _ _ ih => exact ih
  | F_trig _ _ _ _ _ _ _ ih =>
    exact operators_append ih (operators_single (operator_func _ _ _))
  | F_var _ _ a3 _ _ a6 => exact operators_single (operator_other (by simp))
  | F_index _ _ a3 _ _ a6 _ _ _ ih =>
    exact operators_append (operators_append (operators_single (operator_other (by simp))) ih)
      (operators_single (operator_other (by simp)))
  | F_num a1 a2 => exact operators_single (operator_other (by simp))

theorem DerivesC_operators {tokens : List Token} {table : List (String × SymbolInfo)}
    {i j : Nat} {code : List RPNEntry} (h : DerivesC tokens table i j code) :
    ∀ e ∈ code, OperatorOf tokens e := by
  cases h with
  | C d1 _ hop d2 =>
    exact operators_append (operators_append (DerivesE_operators d1) (DerivesE_operators d2))
      (operators_single (fun _ => Or.inr (Or.inr (Or.inl (relOp_binary hop).2.2))))

/-- The `OPERATION` entries of the code of a statement list are `=`, `[]=`, relational
operators, or hold lexemes of tokens with the code of an arithmetic operator. -/
theorem DerivesA_operators {tokens : List Token} {table : List (String × SymbolInfo)}
    {i j n m : Nat} {code : List RPNEntry} (h : DerivesA tokens table i j n m code) :
    ∀ e ∈ code, OperatorOf tokens e := by
  induction h with
  | nil _ _ => exact operators_nil
  | assign _ _ a3 _ _ a6 _ _ d _ _ _ ih =>
    exact operators_append (operators_append (operators_append
      (operators_single (operator_other (by simp))) (DerivesE_operators d))
      (operators_single (fun _ => Or.inl rfl))) ih
  | assignIndexed _ _ a3 _ _ a6 d1 _ _ _ _ d2 _ _ _ ih =>
    exact operators_append (operators_append (operators_append (operators_append
      (operators_single (operator_other (by simp))) (DerivesE_operators d1))
      (DerivesE_operators d2)) (operators_single (fun _ => Or.inr (Or.inl rfl)))) ih
  | ifThen _ _ _ _ dC _ _ _ _ _ _ _ _ _ _ ih1 ih2 =>
    exact operators_append (operators_append (operators_append (operators_append
      (DerivesC_operators dC) (operators_single (operator_other (by simp)))) ih1)
      (operators_single (operator_other (by simp)))) ih2
  | «while» _ _ _ _ dC _ _ _ _ _ _ _ _ _ _ ih1 ih2 =>
    refine operators_append (operators_append (operators_append (operators_append
      (operators_append (operators_single (operator_other (by simp)))
      (DerivesC_operators dC)) (operators_single (operator_other (by simp)))) ih1)
      ?_) ih2
    intro e he
    simp only [List.mem_cons, List.mem_singleton, List.not_mem_nil, or_false] at he
    rcases he with h | h <;> rw [h] <;> exact operator_other (by simp)
  | input _ _ _ _ _ _ a7 _ _ a10 _ _ _ _ _ ih =>
    refine operators_append ?_ ih
    intro e he
    simp only [List.mem_cons, List.mem_singleton, List.not_mem_nil, or_false] at he
    rcases he with h | h <;> rw [h]
    · exact operator_other (by simp)
    · exact operator_other (by simp)
  | inputIndexed _ _ _ _ _ _ a7 _ _ a10 d _ _ _ _ _ _ _ ih =>
    exact operators_append (operators_append (operators_append
      (operators_single (operator_other (by simp))) (DerivesE_operators d))
      (operators_single (operator_other (by simp)))) ih
  | output _ _ _ _ d _ _ _ _ _ ih =>
    exact operators_append (operators_append (DerivesE_operators d)
      (operators_single (operator_other (by simp)))) ih
  | trig _ _ _ _ d _ _ _ _ _ ih =>
    exact operators_append (operators_append (DerivesE_operators d)
      (operators_single (operator_func _ _ _))) ih

theorem DerivesP_operators {tokens : List Token} {i j n m : Nat}
    {table table1 : List (String × SymbolInfo)} {code : List RPNEntry}
    (h : DerivesP tokens i table j table1 n m code) :
    ∀ e ∈ code, OperatorOf tokens e := by
  induction h with
  | empty _ _ _ _ => exact operators_nil
  | block _ _ d _ _ => exact DerivesA_operators d
  | int _ _ _ _ _ _ _ _ ih => exact ih
  | arr _ _ _ _ _ _ _ _ _ _ _ _ _ _ _ _ ih => exact ih

/-! ## The invariant of a run -/

theorem kindsRun_label : ∀ (rpn : List RPNEntry) (ks : List Kind) (t : Nat) (e : RPNEntry),
    (kindsRun ks rpn).isSome = true → rpn[t]? = some e → e.type = LABEL_DEF →
    (kindsRun [] (rpn.drop t)).isSome = true := by
  intro rpn
  induction rpn with
  | nil =>
    intro ks t e _ h
    simp at h
  | cons a rest ih =>
    intro ks t e hk he ht
    rw [kindsRun_cons] at hk
    cases t with
    | zero =>
      simp only [List.getElem?_cons_zero, Option.some.injEq] at he
      subst he
      have h0 : ∀ k, kindStep a k = some [] := by
        intro k
        obtain ⟨ty, v, l⟩ := a
        simp only at ht
        subst ht
        rfl
      rw [h0 ks] at hk
      rw [List.drop_zero, kindsRun_cons, h0 []]
      exact hk
    | succ j =>
      simp only [List.getElem?_cons_succ] at he
      cases hs : kindStep a ks with
      | none =>
        rw [hs] at hk
        simp at hk
      | some k1 =>
        rw [hs] at hk
        simp only [Option.some_bind] at hk
        rw [List.drop_succ_cons]
        exact ih k1 j e hk he ht

theorem namesOK_keeps {p : Program} {s s1 : RPNInterpreter} (hn : NamesOK p s)
    (hm : KeepsNames s s1) : NamesOK p s1 :=
  fun x hx => ⟨fun h => hm.1 _ ((hn x hx).1 h), fun h => hm.2 _ ((hn x hx).2 h)⟩

/-- One iteration of the loop of `run` on a state that has the invariant: the run is over,
or the iteration leaves a state that has the invariant, or it throws a fault the data
decide, or a fault of `entryFault` (the text of the entry is not what the interpreter
knows). -/
theorem step_typed (fns : MathFns) {p : Program} {s : RPNInterpreter} (hp : ProgramOK p)
    (ht : Typed p s) (hn : NamesOK p s) :
    step fns p s = .halted ∨
    (∃ s1, step fns p s = .next s1 ∧ Typed p s1 ∧ NamesOK p s1) ∨
    (∃ e err s1, p.m_rpn[s.m_pc]? = some e ∧ step fns p s = .failed err s1 ∧
      (runFault err.fault = true ∨ entryFault e err.fault)) := by
  obtain ⟨ks, top, below, hs, hf, hk⟩ := ht
  cases he : p.m_rpn[s.m_pc]? with
  | none =>
    left
    unfold step
    rw [he]
  | some e =>
    right
    have hlt : s.m_pc < p.m_rpn.length := by
      by_contra hc
      rw [List.getElem?_eq_none (by omega)] at he
      cases he
    have hget : p.m_rpn[s.m_pc] = e := by
      rw [List.getElem?_eq_getElem hlt] at he
      exact Option.some.inj he
    rw [List.drop_eq_getElem_cons hlt, hget, kindsRun_cons] at hk
    cases hk1 : kindStep e ks with
    | none =>
      rw [hk1] at hk
      simp at hk
    | some ks1 =>
      rw [hk1] at hk
      simp only [Option.some_bind] at hk
      rcases execEntry_typed fns hp (List.getElem?_mem he) hn hs hf hk1 with
        ⟨f, s1, hx, hd⟩ | ⟨s1, top1, below1, hx, hpc, hs1, hf1, hm⟩ |
        ⟨s1, t, hx, hks, hmap, hpc, hm⟩
      · right
        refine ⟨e, ⟨e.line_num, s1.m_pc, f⟩, s1, rfl, ?_, hd⟩
        unfold step
        rw [he]
        simp only
        rw [hx]
      · left
        have hpcK : KeepsNames s1 { s1 with m_pc := s1.m_pc + 1 } :=
          ⟨fun _ h => h, fun _ h => h⟩
        refine ⟨{ s1 with m_pc := s1.m_pc + 1 }, ?_,
          ⟨ks1, top1, below1, hs1, forall2_keeps hpcK hf1, ?_⟩,
          namesOK_keeps hn (keepsNames_trans hm hpcK)⟩
        · unfold step
          rw [he]
          simp only
          rw [hx]
          simp only [if_true]
        · show (kindsRun ks1 (p.m_rpn.drop (s1.m_pc + 1))).isSome = true
          rw [hpc]
          exact hk
      · left
        obtain ⟨e1, hg, hty⟩ := hp.2.2 _ _ hmap
        refine ⟨s1, ?_, ⟨[], [], s1.m_operandStack, rfl, List.Forall₂.nil, ?_⟩,
          namesOK_keeps hn hm⟩
        · unfold step
          rw [he]
          simp only
          rw [hx]
          simp only [Bool.false_eq_true, if_false]
        · rw [hpc]
          exact kindsRun_label _ _ _ _ hp.1 hg hty

/-- The iterations of a run keep the invariant. -/
theorem stateAfter_typed (fns : MathFns) {p : Program} (hp : ProgramOK p) :
    ∀ (k : Nat) (s s1 : RPNInterpreter), stateAfter fns p k s = some s1 →
      Typed p s → NamesOK p s → Typed p s1 ∧ NamesOK p s1 := by
  intro k
  induction k with
  | zero =>
    intro s s1 h ht hn
    simp only [stateAfter, Option.some.injEq] at h
    rw [← h]
    exact ⟨ht, hn⟩
  | succ n ih =>
    intro s s1 h ht hn
    unfold stateAfter at h
    rcases step_typed fns hp ht hn with h1 | ⟨s2, h1, t2, n2⟩ | ⟨e, err, s2, _, h1, _⟩
    · rw [h1] at h
      cases h
    · rw [h1] at h
      exact ih s2 s1 h t2 n2
    · rw [h1] at h
      cases h

/-- A run of a program from a state that has the invariant throws no fault but one the data
decide, or a fault of `entryFault` (the text of the entry is not what the interpreter
knows). -/
theorem run_loop_typed (fns : MathFns) {p : Program} (hp : ProgramOK p) :
    ∀ (fuel : Nat) (s : RPNInterpreter) (err : RunError) (s1 : RPNInterpreter),
      run_loop fns p fuel s = .failed err s1 → Typed p s → NamesOK p s →
      runFault err.fault = true ∨ ∃ e ∈ p.m_rpn, entryFault e err.fault := by
  intro fuel
  induction fuel with
  | zero =>
    intro s err s1 h _ _
    simp [run_loop] at h
  | succ n ih =>
    intro s err s1 h ht hn
    unfold run_loop at h
    rcases step_typed fns hp ht hn with h1 | ⟨s2, h1, t2, n2⟩ | ⟨e, err2, s2, he, h1, hd⟩
    · rw [h1] at h
      cases h
    · rw [h1] at h
      exact ih s2 err s1 h t2 n2
    · rw [h1] at h
      simp only [RunResult.failed.injEq] at h
      rw [← h.1]
      rcases hd with hd | hd
      · exact Or.inl hd
      · exact Or.inr ⟨e, List.getElem?_mem he, hd⟩

theorem labelsOf_cons (e : RPNEntry) (rest : List RPNEntry) :
    labelsOf (e :: rest) =
      if e.type = LABEL_DEF then e.value :: labelsOf rest else labelsOf rest := by
  unfold labelsOf
  by_cases h : e.type = LABEL_DEF
  · simp [h]
  · simp [h]

/-- The second loop of the constructor enters every label of a stream whose labels are
pairwise different. -/
theorem buildLabelMap_complete : ∀ (rest : List RPNEntry) (i : Nat) (m : List (String × Nat)),
    (labelsOf rest).Nodup → (∀ v ∈ labelsOf rest, mapFind m v = none) →
    ∃ m1, buildLabelMap rest i m = some m1 ∧
      (∀ v, (mapFind m v).isSome = true → (mapFind m1 v).isSome = true) ∧
      ∀ v ∈ labelsOf rest, (mapFind m1 v).isSome = true := by
  intro rest
  induction rest with
  | nil =>
    intro i m _ _
    exact ⟨m, rfl, fun _ h => h, fun v hv => by cases hv⟩
  | cons e rest ih =>
    intro i m hnd hfresh
    rw [labelsOf_cons] at hnd hfresh ⊢
    by_cases hl : e.type = LABEL_DEF
    · rw [if_pos hl] at hnd hfresh ⊢
      obtain ⟨hnotin, hnd1⟩ := List.nodup_cons.mp hnd
      have h0 := hfresh e.value (List.mem_cons_self _ _)
      obtain ⟨m1, e1, e2, e3⟩ := ih (i + 1) (mapSet m e.value i) hnd1 (by
        intro v hv
        have hne : v ≠ e.value := fun hc => hnotin (hc ▸ hv)
        rw [mapFind_mapSet, if_neg hne]
        exact hfresh v (List.mem_cons_of_mem _ hv))
      refine ⟨m1, ?_, ?_, ?_⟩
      · unfold buildLabelMap
        rw [if_pos hl, h0]
        exact e1
      · intro v hv
        exact e2 v (isSome_mapSet _ _ _ _ hv)
      · intro v hv
        rcases List.mem_cons.mp hv with h | h
        · rw [h]
          exact e2 _ (by rw [mapFind_mapSet, if_pos rfl]; rfl)
        · exact e3 v h
    · rw [if_neg hl] at hnd hfresh ⊢
      obtain ⟨m1, e1, e2, e3⟩ := ih (i + 1) m hnd hfresh
      refine ⟨m1, ?_, e2, e3⟩
      unfold buildLabelMap
      rw [if_neg hl]
      exact e1

theorem mem_jumpsOf {code : List RPNEntry} {e : RPNEntry} (he : e ∈ code)
    (ht : e.type = JUMP ∨ e.type = JUMP_FALSE) : e.value ∈ jumpsOf code := by
  unfold jumpsOf
  refine List.mem_map.mpr ⟨e, List.mem_filter.mpr ⟨he, ?_⟩, rfl⟩
  rcases ht with h | h <;> simp [h]

/-- The constructor of the interpreter accepts generated code, and the program and the state
it builds have the invariant of a run. -/
theorem generate_typed {tokens : List Token} {g : RPNGenerator} (input : List Int)
    (hc : CanonicalOps tokens) (h : generate tokens = .ok g) :
    ∃ p s0, RPNInterpreter.init g.m_rpn g.m_symbolTable input = some (p, s0) ∧
      p.m_rpn = g.m_rpn ∧ s0.m_pc = 0 ∧ s0.m_operandStack = [] ∧
      ProgramOK p ∧ Typed p s0 ∧ NamesOK p s0 := by
  obtain ⟨_, d⟩ := generate_derives h
  obtain ⟨j1, p1, _, p5, _⟩ := generate_shape h
  obtain ⟨_, ks, hl, hnd, _, hj⟩ := DerivesP_labels d
  have hnodup : (labelsOf g.m_rpn).Nodup := by
    rw [hl]
    exact hnd.map (fun a b hab => labelName_injective hab)
  obtain ⟨m1, e1, _, e3⟩ := buildLabelMap_complete g.m_rpn 0 [] hnodup (fun _ _ => rfl)
  have hinit : RPNInterpreter.init g.m_rpn g.m_symbolTable input =
      some (⟨g.m_rpn, g.m_symbolTable, m1⟩,
        ⟨0, [], initVariables g.m_symbolTable, initArrays g.m_symbolTable, input, []⟩) := by
    unfold RPNInterpreter.init
    rw [e1]
  obtain ⟨kk, hkinds⟩ := DerivesP_kinds hc d
  have hkind : (kindsRun [] g.m_rpn).isSome = true := by
    rw [hkinds]
    rfl
  refine ⟨_, _, hinit, rfl, rfl, rfl, ⟨hkind, ?_, (init_sound hinit).2⟩,
    ⟨[], [], [], rfl, List.Forall₂.nil, hkind⟩, ?_⟩
  · intro e he ht
    exact e3 _ (hj _ (mem_jumpsOf he ht))
  · intro e he
    obtain ⟨c1, c2⟩ := DerivesP_operands d e he
    have key : ∀ info, declaredSymbol g.m_symbolTable e.value = some info →
        mapFind g.m_symbolTable e.value = some info ∧ info.is_declared = true ∧
        (info.s_class = SymbolClass.INT_VAR ∨ info.s_class = SymbolClass.INT_ARRAY) := by
      intro info hs
      have hm := declaredSymbol_mapFind hs
      have hmem := mapFind_mem _ _ _ hm
      refine ⟨hm, (p5 _ hmem).1, ?_⟩
      rcases Prelude_entries p1 _ hmem with ⟨k, kw, id, _, _, _, _, a5⟩ |
        ⟨num, k, kw, id, _, _, _, _, _, _, a7⟩
      · simp only [Prod.mk.injEq] at a5
        exact Or.inl (by rw [a5.2]; rfl)
      · simp only [Prod.mk.injEq] at a7
        exact Or.inr (by rw [a7.2]; rfl)
    constructor
    · intro ht
      obtain ⟨info, hs, hcl⟩ := c1 ht
      obtain ⟨k1, k2, k3⟩ := key info hs
      show (mapFind (initVariables g.m_symbolTable) e.value).isSome = true
      rw [initVariables_find k1 k2 (k3.resolve_right hcl)]
      rfl
    · intro ht
      obtain ⟨info, hs, hcl⟩ := c2 ht
      obtain ⟨k1, k2, _⟩ := key info hs
      show (mapFind (initArrays g.m_symbolTable) e.value).isSome = true
      rw [initArrays_find k1 k2 hcl]
      rfl

/-! ## Generated code on the machine -/

theorem byteChar_isdigit : ∀ b : Byte, isDigitByte b = true → isdigit (byteChar b) = true := by
  decide!

/-- The lexeme of every `NUM_TOK` token of the lexer is a text of digits, not empty. -/
theorem tokenLoop_DigitLiterals {char_is_signed : Bool} {source : List Byte} {ts : List Token}
    (h : tokenLoop (source.length + 1) (Lexer.init char_is_signed source) [] = .tokens ts) :
    DigitLiterals ts := by
  obtain ⟨rest, pe, e1, l1, _⟩ :=
    tokenLoop_lexed _ _ [] ts 0 (init_AtPos char_is_signed source) h
  intro t ht hc
  rw [e1, List.nil_append] at ht
  rcases List.mem_append.mp ht with hm | hm
  · obtain ⟨q, e, _, hta⟩ := LexedFrom_mem rest 0 l1 hm
    have hrun := TokAt_NUM hta hc
    obtain ⟨h1, h2, _⟩ := hta
    constructor
    · intro h0
      have hl := LexemeAt_length h2
      have : t.lexeme.length = t.lexeme.toList.length := rfl
      rw [this, h0] at hl
      simp only [List.length_nil] at hl
      omega
    · intro x hx
      rw [h2.2.2] at hx
      obtain ⟨b, hb, rfl⟩ := List.mem_map.mp hx
      obtain ⟨k, k1, k2, hk⟩ := mem_slice hb
      exact byteChar_isdigit b (hrun k b k1 k2 hk)
  · simp only [List.mem_singleton] at hm
    rw [hm] at hc
    cases hc

theorem stoi_literal {s : String} (hne : s.toList ≠ [])
    (hd : ∀ c ∈ s.toList, isdigit c = true) : stoi s ≠ .error .invalid_argument := by
  have h := stoi_digits s.toList hne hd
  have hs : String.mk s.toList = s := rfl
  rw [hs] at h
  rw [h]
  split_ifs
  · intro hc
    cases hc
  · intro hc
    cases hc

theorem run_of_init {fns : MathFns} {p : Program} {s0 : RPNInterpreter} (fuel : Nat)
    (h1 : s0.m_pc = 0) (h2 : s0.m_operandStack = []) :
    run fns p fuel s0 = run_loop fns p fuel s0 := by
  obtain ⟨pc, st, vs, as, ci, co⟩ := s0
  simp only at h1 h2
  subst h1 h2
  rfl

/-- What the invariant says at an entry: the kinds known on top of the stack are kinds the
entry finds its operands in. -/
theorem typed_entry {p : Program} {s : RPNInterpreter} {e : RPNEntry} (ht : Typed p s)
    (he : p.m_rpn[s.m_pc]? = some e) :
    ∃ ks ks1 top below, s.m_operandStack = top ++ below ∧ List.Forall₂ (itemOK s) ks top ∧
      kindStep e ks = some ks1 := by
  obtain ⟨ks, top, below, hs, hf, hk⟩ := ht
  have hlt : s.m_pc < p.m_rpn.length := by
    by_contra hc
    rw [List.getElem?_eq_none (by omega)] at he
    cases he
  have hget : p.m_rpn[s.m_pc] = e := by
    rw [List.getElem?_eq_getElem hlt] at he
    exact Option.some.inj he
  rw [List.drop_eq_getElem_cons hlt, hget, kindsRun_cons] at hk
  cases hk1 : kindStep e ks with
  | none =>
    rw [hk1] at hk
    simp at hk
  | some ks1 => exact ⟨ks, ks1, top, below, hs, hf, hk1⟩

/-- An `OPERATION` entry of generated code that is none of `=`, `[]=` and the eight
operators of `binaryResult` carries the name of a function: the lexeme of a token with the
code of an arithmetic operator that is not spelled as the operator. -/
theorem operator_name {tokens : List Token} (hc : CanonicalOps tokens) {e : RPNEntry}
    (ho : OperatorOf tokens e) (h1 : e.type = OPERATION) (h2 : e.value ≠ "=")
    (h3 : e.value ≠ "[]=") (h4 : isBinaryOp e.value = false) : e.value ∈ functionNames := by
  rcases ho h1 with h | h | h | ⟨t, ht, hcode, hv⟩
  · exact absurd h h2
  · exact absurd h h3
  · rw [h] at h4
    cases h4
  · obtain ⟨c1, c2, c3, c4⟩ := hc t ht
    rw [hv] at h4 ⊢
    rcases hcode with h | h | h | h
    · rcases c1 h with e | e
      · rw [e] at h4
        exact absurd h4 (by decide)
      · rw [e]
        decide
    · rcases c2 h with e | e
      · rw [e] at h4
        exact absurd h4 (by decide)
      · rw [e]
        decide
    · rcases c3 h with e | e
      · rw [e] at h4
        exact absurd h4 (by decide)
      · rw [e]
        decide
    · rcases c4 h with e | e
      · rw [e] at h4
        exact absurd h4 (by decide)
      · rw [e]
        decide

/-- The faults of a run of the code generated from a token vector of the lexer: the
constructor of the interpreter accepts the code, and an iteration of the loop of `run` that
throws, throws a fault the values decide, or `Unknown operator` at an `OPERATION` entry
that carries the name of a function. -/
theorem generated_faults {char_is_signed : Bool} {source : List Byte} {tokens : List Token}
    {g : RPNGenerator} (fns : MathFns) (input : List Int)
    (hlex : tokenLoop (source.length + 1) (Lexer.init char_is_signed source) [] =
      .tokens tokens)
    (h : generate tokens = .ok g) :
    ∃ p s0, RPNInterpreter.init g.m_rpn g.m_symbolTable input = some (p, s0) ∧
      p.m_rpn = g.m_rpn ∧
      (∀ k s err s1, stateAfter fns p k s0 = some s → step fns p s = .failed err s1 →
        runFault err.fault = true ∨
        (err.fault = .unknownOperator ∧
          ∃ e, p.m_rpn[s.m_pc]? = some e ∧ e.type = OPERATION ∧ e.value ∈ functionNames)) ∧
      ∀ fuel err s1, run fns p fuel s0 = .failed err s1 →
        runFault err.fault = true ∨
        (err.fault = .unknownOperator ∧
          ∃ e ∈ p.m_rpn, e.type = OPERATION ∧ e.value ∈ functionNames) := by
  have hc := tokenLoop_CanonicalOps hlex
  have hd := tokenLoop_DigitLiterals hlex
  obtain ⟨p, s0, hinit, hrpn, hpc, hst, hp, ht, hn⟩ := generate_typed input hc h
  obtain ⟨_, d⟩ := generate_derives h
  have hent : ∀ e ∈ p.m_rpn, ∀ f, entryFault e f →
      f = .unknownOperator ∧ e.type = OPERATION ∧ e.value ∈ functionNames := by
    intro e he f hf
    rw [hrpn] at he
    rcases hf with ⟨_, h1, h2⟩ | ⟨h0, h1, h2, h3, h4⟩
    · exfalso
      obtain ⟨t, htm, htc, hv⟩ := DerivesP_literals d e he h1
      obtain ⟨d1, d2⟩ := hd t htm htc
      rw [hv] at h2
      exact stoi_literal d1 d2 h2
    · exact ⟨h0, h1, operator_name hc (DerivesP_operators d e he) h1 h2 h3 h4⟩
  refine ⟨p, s0, hinit, hrpn, ?_, ?_⟩
  · intro k s err s1 hk hs
    obtain ⟨t1, n1⟩ := stateAfter_typed fns hp k s0 s hk ht hn
    rcases step_typed fns hp t1 n1 with h1 | ⟨s2, h1, _⟩ | ⟨e, err2, s2, he, h1, hf⟩
    · rw [h1] at hs
      cases hs
    · rw [h1] at hs
      cases hs
    · rw [h1] at hs
      simp only [StepResult.failed.injEq] at hs
      rw [← hs.1]
      rcases hf with hf | hf
      · exact Or.inl hf
      · obtain ⟨a1, a2, a3⟩ := hent e (List.getElem?_mem he) _ hf
        exact Or.inr ⟨a1, e, he, a2, a3⟩
  · intro fuel err s1 hr
    rw [run_of_init fuel hpc hst] at hr
    rcases run_loop_typed fns hp fuel s0 err s1 hr ht hn with hf | ⟨e, he, hf⟩
    · exact Or.inl hf
    · obtain ⟨a1, a2, a3⟩ := hent e he _ hf
      exact Or.inr ⟨a1, e, he, a2, a3⟩

/-- C35 (generated code is well formed for the machine; the statement that holds).  For
every program text of which the lexer builds the token vector and the parser accepts it,
with no `OPERATION` entry spelled `sin`, `cos`, `tg` or `ctg` in the postfix stream (no name
of a function read where an operator may stand), and for every input: the constructor of
the interpreter accepts the generated code (no duplicate label), and whenever an iteration
of the loop of `run` fails, at any point of the run, the fault is a division by zero, the
division of `INT_MIN` by -1, an index out of bounds, a literal out of the range of `int`, a
malformed input or the cotangent where the tangent is zero; so `run` ends with no other
fault. -/
theorem wellformed_output (char_is_signed : Bool) (source : List Byte) (tokens : List Token)
    (g : RPNGenerator) (fns : MathFns) (input : List Int)
    (hlex : tokenLoop (source.length + 1) (Lexer.init char_is_signed source) [] =
      .tokens tokens)
    (hgen : generate tokens = .ok g)
    (hno : ∀ e ∈ g.m_rpn, e.type = OPERATION → e.value ∉ functionNames) :
    ∃ p s0, RPNInterpreter.init g.m_rpn g.m_symbolTable input = some (p, s0) ∧
      (∀ k s err s1, stateAfter fns p k s0 = some s → step fns p s = .failed err s1 →
        runFault err.fault = true) ∧
      ∀ fuel err s1, run fns p fuel s0 = .failed err s1 → runFault err.fault = true := by
  obtain ⟨p, s0, hinit, hrpn, h1, h2⟩ := generated_faults fns input hlex hgen
  rw [← hrpn] at hno
  refine ⟨p, s0, hinit, ?_, ?_⟩
  · intro k s err s1 hk hs
    rcases h1 k s err s1 hk hs with hf | ⟨_, e, he, a2, a3⟩
    · exact hf
    · exact absurd a3 (hno e (List.getElem?_mem he) a2)
  · intro fuel err s1 hr
    rcases h2 fuel err s1 hr with hf | ⟨_, e, he, a2, a3⟩
    · exact hf
    · exact absurd a3 (hno e he a2)

/-- C30 (the operands of the indexed operations; the statement that holds).  In a run of
the code generated from a program text of which the lexer builds the token vector and the
parser accepts it: whenever the entry in front of the program counter is the operation
`[]=`, the item on top of the operand stack is the value to assign, the item beneath it is
the index and the item beneath the index is the name of an array of the interpreter;
whenever that entry is an `ARRAY_ACCESS`, the item on top is the index and the item beneath
it is the name of an array of the interpreter.  The value and the index are integers or
names of scalar variables, which `get_int` resolves to integers. -/
theorem indexed_stack_shape (char_is_signed : Bool) (source : List Byte)
    (tokens : List Token) (g : RPNGenerator) (fns : MathFns) (input : List Int)
    (hlex : tokenLoop (source.length + 1) (Lexer.init char_is_signed source) [] =
      .tokens tokens)
    (h : generate tokens = .ok g) :
    ∃ p s0, RPNInterpreter.init g.m_rpn g.m_symbolTable input = some (p, s0) ∧
      ∀ k s e, stateAfter fns p k s0 = some s → p.m_rpn[s.m_pc]? = some e →
        (e.type = OPERATION → e.value = "[]=" →
          ∃ val idx name rest v i arr,
            s.m_operandStack = val :: idx :: .str name :: rest ∧
            intValue s val = some v ∧ intValue s idx = some i ∧
            mapFind s.m_arrays name = some arr) ∧
        (e.type = ARRAY_ACCESS →
          ∃ idx name rest i arr, s.m_operandStack = idx :: .str name :: rest ∧
            intValue s idx = some i ∧ mapFind s.m_arrays name = some arr) := by
  obtain ⟨p, s0, hinit, hrpn, hpc, hst, hp, ht, hn⟩ :=
    generate_typed input (tokenLoop_CanonicalOps hlex) h
  refine ⟨p, s0, hinit, ?_⟩
  intro k s e hk he
  obtain ⟨t1, _⟩ := stateAfter_typed fns hp k s0 s hk ht hn
  obtain ⟨ks, ks1, top, below, hs, hf, hstep⟩ := typed_entry t1 he
  obtain ⟨ty, value, line⟩ := e
  constructor
  · intro hty hval
    simp only at hty hval
    subst hty hval
    obtain ⟨kv, ki, hv, hi, rfl⟩ := kindStep_indexed hstep
    obtain ⟨x1, r1, rfl, i1, f1⟩ := forall2_cons hf
    obtain ⟨x2, r2, rfl, i2, f2⟩ := forall2_cons f1
    obtain ⟨x3, r3, rfl, i3, f3⟩ := forall2_cons f2
    obtain ⟨a, ha⟩ := itemOK_value hv i1
    obtain ⟨b, hb⟩ := itemOK_value hi i2
    obtain ⟨name, arr, rfl, ho⟩ := itemOK_array i3
    exact ⟨x1, x2, name, r3 ++ below, a, b, arr, hs, ha, hb, ho⟩
  · intro hty
    simp only at hty
    subst hty
    obtain ⟨ki, rest, hi, rfl, rfl⟩ := kindStep_access hstep
    obtain ⟨x1, r1, rfl, i1, f1⟩ := forall2_cons hf
    obtain ⟨x2, r2, rfl, i2, f2⟩ := forall2_cons f1
    obtain ⟨b, hb⟩ := itemOK_value hi i1
    obtain ⟨name, arr, rfl, ho⟩ := itemOK_array i2
    exact ⟨x1, name, r2 ++ below, b, arr, hs, hb, ho⟩

/-- Witness of `wellformed_output` : the lexer builds the token vector of
`begin output(7 / 0); end` and the parser accepts it, with the one `OPERATION` entry `/` ;
its run ends with a division by zero at the third entry. -/
theorem wellformed_output_witness :
    tokenLoop (sourceDivZero.length + 1) (Lexer.init true sourceDivZero) [] =
      .tokens (tokensOf true sourceDivZero) ∧
    generate (tokensOf true sourceDivZero) = .ok (generated (tokensOf true sourceDivZero)) ∧
    (∀ e ∈ (generated (tokensOf true sourceDivZero)).m_rpn,
      e.type = OPERATION → e.value ∉ functionNames) ∧
    run noMath (loaded (tokensOf true sourceDivZero) []).1 5
        (loaded (tokensOf true sourceDivZero) []).2 =
      .failed ⟨1, 2, .divisionByZero⟩ ⟨2, [], [], [], [], []⟩ ∧
    ∃ p s0, RPNInterpreter.init (generated (tokensOf true sourceDivZero)).m_rpn
        (generated (tokensOf true sourceDivZero)).m_symbolTable [] = some (p, s0) ∧
      (∀ k s err s1, stateAfter noMath p k s0 = some s → step noMath p s = .failed err s1 →
        runFault err.fault = true) ∧
      ∀ fuel err s1, run noMath p fuel s0 = .failed err s1 → runFault err.fault = true :=
  have hl : tokenLoop (sourceDivZero.length + 1) (Lexer.init true sourceDivZero) [] =
      .tokens (tokensOf true sourceDivZero) := by decide!
  have hg : (generate (tokensOf true sourceDivZero)).toBool = true := by decide!
  have hno : ∀ e ∈ (generated (tokensOf true sourceDivZero)).m_rpn,
      e.type = OPERATION → e.value ∉ functionNames := by decide!
  have hr : run noMath (loaded (tokensOf true sourceDivZero) []).1 5
      (loaded (tokensOf true sourceDivZero) []).2 =
      .failed ⟨1, 2, .divisionByZero⟩ ⟨2, [], [], [], [], []⟩ := by decide!
  ⟨hl, generate_generated hg, hno, hr,
    wellformed_output true sourceDivZero (tokensOf true sourceDivZero)
      (generated (tokensOf true sourceDivZero)) noMath [] hl (generate_generated hg) hno⟩

/-- C35 as stated fails.  The lexer builds the token vector of
`begin output((0 - 2147483647 - 1) / (0 - 1)); end` and the parser accepts it; the run
divides `INT_MIN` by -1 at the ninth entry, which is none of the five faults (the division
of the machine traps, and the process is killed).  The lexer builds the token vector of
`begin output(1 sin 2); end`, whose `sin` token has the code of `+`, and the parser accepts
it, taking the token for an operator and copying its lexeme into the `OPERATION` entry; the
run fails at that entry with the fault `Unknown operator`, which is none of the five. -/
theorem wellformed_output_counterexample :
    (tokenLoop (sourceOverflow.length + 1) (Lexer.init true sourceOverflow) [] =
      .tokens (tokensOf true sourceOverflow) ∧
    generate (tokensOf true sourceOverflow) = .ok (generated (tokensOf true sourceOverflow)) ∧
    RPNInterpreter.init (generated (tokensOf true sourceOverflow)).m_rpn
        (generated (tokensOf true sourceOverflow)).m_symbolTable [] =
      some ((loaded (tokensOf true sourceOverflow) []).1,
        (loaded (tokensOf true sourceOverflow) []).2) ∧
    (loaded (tokensOf true sourceOverflow) []).1.m_rpn[8]? = some ⟨OPERATION, "/", 1⟩ ∧
    stateAfter noMath (loaded (tokensOf true sourceOverflow) []).1 8
        (loaded (tokensOf true sourceOverflow) []).2 =
      some ⟨8, [.int (-1), .int (-2147483648)], [], [], [], []⟩ ∧
    run noMath (loaded (tokensOf true sourceOverflow) []).1 20
        (loaded (tokensOf true sourceOverflow) []).2 =
      .failed ⟨1, 8, .divisionOverflow⟩ ⟨8, [], [], [], [], []⟩ ∧
    dataFault .divisionOverflow = false) ∧
    (tokenLoop (sourceOperatorName.length + 1) (Lexer.init true sourceOperatorName) [] =
      .tokens (tokensOf true sourceOperatorName) ∧
    generate (tokensOf true sourceOperatorName) =
      .ok (generated (tokensOf true sourceOperatorName)) ∧
    (generated (tokensOf true sourceOperatorName)).m_rpn =
      [⟨CONST, "1", 1⟩, ⟨CONST, "2", 1⟩, ⟨OPERATION, "sin", 1⟩, ⟨OUTPUT, "OUT", 1⟩] ∧
    RPNInterpreter.init (generated (tokensOf true sourceOperatorName)).m_rpn
        (generated (tokensOf true sourceOperatorName)).m_symbolTable [] =
      some ((loaded (tokensOf true sourceOperatorName) []).1,
        (loaded (tokensOf true sourceOperatorName) []).2) ∧
    stateAfter noMath (loaded (tokensOf true sourceOperatorName) []).1 2
        (loaded (tokensOf true sourceOperatorName) []).2 =
      some ⟨2, [.int 2, .int 1], [], [], [], []⟩ ∧
    run noMath (loaded (tokensOf true sourceOperatorName) []).1 5
        (loaded (tokensOf true sourceOperatorName) []).2 =
      .failed ⟨1, 2, .unknownOperator⟩ ⟨2, [], [], [], [], []⟩ ∧
    dataFault .unknownOperator = false) :=
  have a1 : tokenLoop (sourceOverflow.length + 1) (Lexer.init true sourceOverflow) [] =
      .tokens (tokensOf true sourceOverflow) := by decide!
  have a2 : (generate (tokensOf true sourceOverflow)).toBool = true := by decide!
  have a3 : (RPNInterpreter.init (generated (tokensOf true sourceOverflow)).m_rpn
      (generated (tokensOf true sourceOverflow)).m_symbolTable []).isSome = true := by decide!
  have a4 : (loaded (tokensOf true sourceOverflow) []).1.m_rpn[8]? =
      some ⟨OPERATION, "/", 1⟩ := by decide!
  have a5 : stateAfter noMath (loaded (tokensOf true sourceOverflow) []).1 8
      (loaded (tokensOf true sourceOverflow) []).2 =
      some ⟨8, [.int (-1), .int (-2147483648)], [], [], [], []⟩ := by decide!
  have a6 : run noMath (loaded (tokensOf true sourceOverflow) []).1 20
      (loaded (tokensOf true sourceOverflow) []).2 =
      .failed ⟨1, 8, .divisionOverflow⟩ ⟨8, [], [], [], [], []⟩ := by decide!
  have a7 : dataFault .divisionOverflow = false := by decide
  have b1 : tokenLoop (sourceOperatorName.length + 1) (Lexer.init true sourceOperatorName)
      [] = .tokens (tokensOf true sourceOperatorName) := by decide!
  have b2 : (generate (tokensOf true sourceOperatorName)).toBool = true := by decide!
  have b3 : (generated (tokensOf true sourceOperatorName)).m_rpn =
      [⟨CONST, "1", 1⟩, ⟨CONST, "2", 1⟩, ⟨OPERATION, "sin", 1⟩, ⟨OUTPUT, "OUT", 1⟩] := by
    decide!
  have b4 : (RPNInterpreter.init (generated (tokensOf true sourceOperatorName)).m_rpn
      (generated (tokensOf true sourceOperatorName)).m_symbolTable []).isSome = true := by
    decide!
  have b5 : stateAfter noMath (loaded (tokensOf true sourceOperatorName) []).1 2
      (loaded (tokensOf true sourceOperatorName) []).2 =
      some ⟨2, [.int 2, .int 1], [], [], [], []⟩ := by decide!
  have b6 : run noMath (loaded (tokensOf true sourceOperatorName) []).1 5
      (loaded (tokensOf true sourceOperatorName) []).2 =
      .failed ⟨1, 2, .unknownOperator⟩ ⟨2, [], [], [], [], []⟩ := by decide!
  have b7 : dataFault .unknownOperator = false := by decide
  ⟨⟨a1, generate_generated a2, init_loaded a3, a4, a5, a6, a7⟩,
    ⟨b1, generate_generated b2, b3, init_loaded b4, b5, b6, b7⟩⟩

/-- Witness of `indexed_stack_shape` : the lexer builds the token vector of
`int i; arr a[2]; begin a[i] = i + 7; output(a[i]); end` and the parser accepts it; its sixth iteration executes `[]=`
on the stack `7, i, a` and its ninth `ARRAY_ACCESS` on the stack `i, a` (top first). -/
theorem indexed_stack_shape_witness :
    tokenLoop (sourceIndexed.length + 1) (Lexer.init true sourceIndexed) [] =
      .tokens (tokensOf true sourceIndexed) ∧
    generate (tokensOf true sourceIndexed) = .ok (generated (tokensOf true sourceIndexed)) ∧
    ∃ p s0, RPNInterpreter.init (generated (tokensOf true sourceIndexed)).m_rpn
        (generated (tokensOf true sourceIndexed)).m_symbolTable [] = some (p, s0) ∧
      ∀ k s e, stateAfter noMath p k s0 = some s → p.m_rpn[s.m_pc]? = some e →
        (e.type = OPERATION → e.value = "[]=" →
          ∃ val idx name rest v i arr,
            s.m_operandStack = val :: idx :: .str name :: rest ∧
            intValue s val = some v ∧ intValue s idx = some i ∧
            mapFind s.m_arrays name = some arr) ∧
        (e.type = ARRAY_ACCESS →
          ∃ idx name rest i arr, s.m_operandStack = idx :: .str name :: rest ∧
            intValue s idx = some i ∧ mapFind s.m_arrays name = some arr) :=
  have hl : tokenLoop (sourceIndexed.length + 1) (Lexer.init true sourceIndexed) [] =
      .tokens (tokensOf true sourceIndexed) := by decide!
  have hg : (generate (tokensOf true sourceIndexed)).toBool = true := by decide!
  ⟨hl, generate_generated hg,
    indexed_stack_shape true sourceIndexed (tokensOf true sourceIndexed)
      (generated (tokensOf true sourceIndexed)) noMath [] hl (generate_generated hg)⟩

/-- C30 as stated fails.  In `arr a[2]; begin a[0] = 5; output(a[1]); end` the fourth
iteration executes `[]=` on the stack `5, 0, a` (top first): the item on top is the value to
assign, the item beneath it is the index 0 and not the name of the array, which is third; the
step stores 5 at index 0.  In `int i; arr a[2]; begin a[i] = i + 7; output(a[i]); end` the
ninth iteration executes `ARRAY_ACCESS` on the stack `i, a` : the item on top is the name of
the scalar `i`, which `get_int` resolves, and not an integer. -/
theorem indexed_stack_shape_counterexample :
    generate (tokensOf true sourceZeroArr) = .ok (generated (tokensOf true sourceZeroArr)) ∧
    RPNInterpreter.init (generated (tokensOf true sourceZeroArr)).m_rpn
        (generated (tokensOf true sourceZeroArr)).m_symbolTable [] =
      some (programZeroArr, ⟨0, [], [], [("a", [0, 0])], [], []⟩) ∧
    stateAfter noMath programZeroArr 3 ⟨0, [], [], [("a", [0, 0])], [], []⟩ =
      some ⟨3, [.int 5, .int 0, .str "a"], [], [("a", [0, 0])], [], []⟩ ∧
    programZeroArr.m_rpn[3]? = some ⟨OPERATION, "[]=", 1⟩ ∧
    step noMath programZeroArr ⟨3, [.int 5, .int 0, .str "a"], [], [("a", [0, 0])], [], []⟩ =
      .next ⟨4, [], [], [("a", [5, 0])], [], []⟩ ∧
    (¬ ∃ i name rhs rest,
      ([.int 5, .int 0, .str "a"] : List StackItem) = .int i :: .str name :: rhs :: rest) ∧
    generate (tokensOf true sourceIndexed) = .ok (generated (tokensOf true sourceIndexed)) ∧
    RPNInterpreter.init (generated (tokensOf true sourceIndexed)).m_rpn
        (generated (tokensOf true sourceIndexed)).m_symbolTable [] =
      some ((loaded (tokensOf true sourceIndexed) []).1,
        (loaded (tokensOf true sourceIndexed) []).2) ∧
    stateAfter noMath (loaded (tokensOf true sourceIndexed) []).1 8
        (loaded (tokensOf true sourceIndexed) []).2 =
      some ⟨8, [.str "i", .str "a"], [("i", 0)], [("a", [7, 0])], [], []⟩ ∧
    (loaded (tokensOf true sourceIndexed) []).1.m_rpn[8]? = some ⟨ARRAY_ACCESS, "[]", 1⟩ ∧
    ¬ ∃ i name rest, ([.str "i", .str "a"] : List StackItem) = .int i :: .str name :: rest :=
  have h1 : stateAfter noMath programZeroArr 3 ⟨0, [], [], [("a", [0, 0])], [], []⟩ =
      some ⟨3, [.int 5, .int 0, .str "a"], [], [("a", [0, 0])], [], []⟩ := by decide!
  have h2 : step noMath programZeroArr
      ⟨3, [.int 5, .int 0, .str "a"], [], [("a", [0, 0])], [], []⟩ =
      .next ⟨4, [], [], [("a", [5, 0])], [], []⟩ := by decide!
  have h3 : ¬ ∃ i name rhs rest,
      ([.int 5, .int 0, .str "a"] : List StackItem) = .int i :: .str name :: rhs :: rest := by
    rintro ⟨_, _, _, _, h⟩
    simp at h
  have h4 : (generate (tokensOf true sourceIndexed)).toBool = true := by decide!
  have h5 : (RPNInterpreter.init (generated (tokensOf true sourceIndexed)).m_rpn
      (generated (tokensOf true sourceIndexed)).m_symbolTable []).isSome = true := by decide!
  have h6 : stateAfter noMath (loaded (tokensOf true sourceIndexed) []).1 8
      (loaded (tokensOf true sourceIndexed) []).2 =
      some ⟨8, [.str "i", .str "a"], [("i", 0)], [("a", [7, 0])], [], []⟩ := by decide!
  have h7 : (loaded (tokensOf true sourceIndexed) []).1.m_rpn[8]? =
      some ⟨ARRAY_ACCESS, "[]", 1⟩ := by decide!
  have h8 : ¬ ∃ i name rest,
      ([.str "i", .str "a"] : List StackItem) = .int i :: .str name :: rest := by
    rintro ⟨_, _, _, h⟩
    simp at h
  ⟨sourceZeroArr_loaded.1, sourceZeroArr_loaded.2.1, h1, rfl, h2, h3,
    generate_generated h4, init_loaded h5, h6, h7, h8⟩

/-! ## Expression compilation: the parser on the tokens of an expression -/

/-- The four operator enumerators have the values of the four function enumerators, and the
parser reads the tokens accordingly: in `begin output(-(0)); end` the `-` in front of `(` is
taken for the name of a function (`parse_F` emits `FUNC_COS` with the lexeme `-`), and the
program runs to its end; in `begin output(1 sin 2); end` the `sin` behind the number is taken
for an operator (`parse_U_prime` emits `OPERATION` with the lexeme `sin`). -/
theorem shared_token_codes :
    TokenCode.value PLUS_TOK = TokenCode.value SIN_TOK ∧
    TokenCode.value MINUS_TOK = TokenCode.value COS_TOK ∧
    TokenCode.value STAR_TOK = TokenCode.value TG_TOK ∧
    TokenCode.value SLASH_TOK = TokenCode.value CTG_TOK ∧
    (∀ a b : TokenCode, TokenCode.value a = TokenCode.value b → a = b) ∧
    (generated (tokensOf true sourceOperatorFactor)).m_rpn =
      [⟨CONST, "0", 1⟩, ⟨FUNC_COS, "-", 1⟩, ⟨OUTPUT, "OUT", 1⟩] ∧
    main true noMath sourceOperatorFactor [] 4 = some ⟨.success, 0, [0], [], [], [], []⟩ ∧
    (generated (tokensOf true sourceOperatorName)).m_rpn =
      [⟨CONST, "1", 1⟩, ⟨CONST, "2", 1⟩, ⟨OPERATION, "sin", 1⟩, ⟨OUTPUT, "OUT", 1⟩] := by
  have h5 : ∀ a b : TokenCode, TokenCode.value a = TokenCode.value b → a = b := by
    intro a b
    cases a <;> cases b <;> simp [TokenCode.value]
  have h6 : (generated (tokensOf true sourceOperatorFactor)).m_rpn =
      [⟨CONST, "0", 1⟩, ⟨FUNC_COS, "-", 1⟩, ⟨OUTPUT, "OUT", 1⟩] := by decide!
  have h7 : main true noMath sourceOperatorFactor [] 4 =
      some ⟨.success, 0, [0], [], [], [], []⟩ := by decide!
  have h8 : (generated (tokensOf true sourceOperatorName)).m_rpn =
      [⟨CONST, "1", 1⟩, ⟨CONST, "2", 1⟩, ⟨OPERATION, "sin", 1⟩, ⟨OUTPUT, "OUT", 1⟩] := by
    decide!
  exact ⟨rfl, rfl, rfl, rfl, h5, h6, h7, h8⟩

end Compil
